import Mathlib

/-!
# socow_vector: a small-object, copy-on-write vector

A shallow embedding of `src/socow-vector.h` (`template <typename T, size_t SMALL_SIZE>
struct socow_vector`) and proofs about it.

Modelling conventions.

* Memory cells of type `T` are `Option T`: `some x` is a live object of value `x`, `none` is a
  cell without a live object (never constructed, destroyed, or overlaid by other bytes). A copy
  `new(dest + i) T(src[i])` from a cell without a live object leaves the destination without one:
  the copy holds no element there.
* The heap is a list of blocks; the address of a block is its index. `allocate` always yields a
  fresh address (the length of the list), `operator delete` leaves `none` at the address.
  `operator new` itself is taken to succeed.
* The anonymous union `{ T static_storage_[SMALL_SIZE]; dynamic_buf* dynamic_storage_; }` is the
  sum type `Storage`: it holds what was written last. Reading `static_storage_` from a union that
  holds a handle yields `SMALL_SIZE` cells without live objects; reading `dynamic_storage_` from
  a union that holds cells yields no valid pointer.
* The copy constructor of `T` may throw. The memory carries a schedule `faults : List Bool`, one
  entry per call of the copy constructor (`true`: this call throws); an exhausted schedule never
  throws. Destructors and `std::swap` on elements do not throw.
* A run ends in `Res.ok` (normal return), `Res.threw` (an exception leaves the function, with the
  state it leaves behind) or `Res.ub` (undefined behaviour: access outside a block, use of an
  invalid pointer, `--size_` on an empty container).
* `size_t` is `Nat`: sizes, capacities and owner counts are far below `2^64` for any block that
  can exist, so `2 * capacity + 1`, `size_++` and `ref_count++` do not wrap; `ref_count--` is only
  reached with `ref_count >= 1` in a well-formed state.
* Containers are values; an operation takes the memory and the container (`St`) and returns
  both. Two containers are the same object only where the source compares addresses
  (`operator=`), which is modelled for distinct objects.
-/

namespace Socow

/-- Outcome of a run: normal return, exception, or undefined behaviour. -/
inductive Res (ε α : Type) where
  | ok (a : α)
  | threw (e : ε)
  | ub
deriving DecidableEq

/-- Sequencing: an exception or undefined behaviour of the first part ends the run. -/
def Res.bind {ε α β : Type} (r : Res ε α) (f : α → Res ε β) : Res ε β :=
  match r with
  | .ok a => f a
  | .threw e => .threw e
  | .ub => .ub

/-- A missing value is undefined behaviour. -/
def Res.ofOption {ε α : Type} (o : Option α) : Res ε α :=
  match o with
  | some a => .ok a
  | none => .ub

/-- An array of cells of type `T`. -/
abbrev Cells (T : Type) := List (Option T)

/-- The heap block `struct dynamic_buf { size_t capacity; size_t ref_count; T data[0]; }`. -/
structure dynamic_buf (T : Type) where
  capacity : Nat
  ref_count : Nat
  data : Cells T
deriving DecidableEq

/-- The anonymous union of `socow_vector`: inline cells or a handle to a heap block. -/
inductive Storage (T : Type) where
  | cells (cs : Cells T)
  | handle (p : Nat)
deriving DecidableEq

/-- The object `socow_vector<T, SMALL_SIZE>`: `size_`, `is_small_` and the union. -/
structure socow_vector (T : Type) where
  size_ : Nat
  is_small_ : Bool
  store : Storage T
deriving DecidableEq

/-- The memory outside the container objects: heap blocks and the schedule of `T(const T&)`. -/
structure Mem (T : Type) where
  heap : List (Option (dynamic_buf T))
  faults : List Bool
deriving DecidableEq

/-- A value of type `T*` into a container: which array it points into ... -/
inductive Region where
  | inline
  | block (p : Nat)
deriving DecidableEq

/-- The type `iterator = T*` (and `const_iterator`): an array and an offset into it. -/
structure iterator where
  region : Region
  off : Nat
deriving DecidableEq

/-- State of a member function: the memory and `*this`. -/
abbrev St (T : Type) := Mem T × socow_vector T

/-- State of a member function with a second container `other`. -/
abbrev St2 (T : Type) := Mem T × socow_vector T × socow_vector T

section Memory

variable {T : Type}

/-- Dereference of a `dynamic_buf*`. -/
def Mem.buf (m : Mem T) (p : Nat) : Option (dynamic_buf T) :=
  match m.heap[p]? with
  | some (some b) => some b
  | _ => none

/-- Overwrite the block at address `p`. -/
def Mem.put (m : Mem T) (p : Nat) (b : dynamic_buf T) : Mem T :=
  { m with heap := m.heap.set p (some b) }

/-- The call `operator delete(p)`. -/
def Mem.free (m : Mem T) (p : Nat) : Mem T :=
  { m with heap := m.heap.set p none }

/-- Replace the schedule of the copy constructor. -/
def Mem.setFaults (m : Mem T) (f : List Bool) : Mem T :=
  { m with faults := f }

/-- The function `allocate(cap)`: a fresh block `dynamic_buf{cap, 1}` with `cap` raw cells, for
a `cap` whose size `sizeof(dynamic_buf) + sizeof(T) * cap` does not wrap in `size_t`.
`allocate_sized` computes the size as the source does and is this function when the size does
not wrap; `reserve_sized` and `World.run_sized` use it for `reserve(n)`, the one call whose
`cap` the caller chooses. -/
def allocate (m : Mem T) (cap : Nat) : Mem T × Nat :=
  ({ m with heap := m.heap ++ [some ⟨cap, 1, List.replicate cap none⟩] }, m.heap.length)

/-- One call of `T(const T&)`: whether it throws, and the rest of the schedule. -/
def copy_T (faults : List Bool) : Bool × List Bool :=
  match faults with
  | [] => (false, [])
  | b :: fs => (b, fs)

/-- The member `static_storage_` of the union, as an array of `N` cells. -/
def socow_vector.static_storage_ (N : Nat) (v : socow_vector T) : Cells T :=
  match v.store with
  | .cells cs => cs
  | .handle _ => List.replicate N none

/-- The member `dynamic_storage_` of the union. -/
def socow_vector.dynamic_storage_ (v : socow_vector T) : Option Nat :=
  match v.store with
  | .handle p => some p
  | .cells _ => none

/-- Write to the cells of `static_storage_`. -/
def socow_vector.set_static (v : socow_vector T) (cs : Cells T) : socow_vector T :=
  { v with store := .cells cs }

/-- The assignment `dynamic_storage_ = p`. -/
def socow_vector.set_dynamic (v : socow_vector T) (p : Nat) : socow_vector T :=
  { v with store := .handle p }

/-- The cells a `T*` points into. -/
def load (N : Nat) (m : Mem T) (v : socow_vector T) (r : Region) : Option (Cells T) :=
  match r with
  | .inline => some (v.static_storage_ N)
  | .block p => (m.buf p).map (fun b => b.data)

/-- Write back the cells a `T*` points into. -/
def store_cells (m : Mem T) (v : socow_vector T) (r : Region) (cs : Cells T) : Option (St T) :=
  match r with
  | .inline => some (m, v.set_static cs)
  | .block p =>
    match m.buf p with
    | some b => some (m.put p { b with data := cs }, v)
    | none => none

/-- The loop of `safe_clear(src + off, amount)`: destroys cells `amount - 1`, ..., `0`. -/
def safe_clear (src : Cells T) (off : Nat) : Nat → Option (Cells T)
  | 0 => some src
  | i + 1 => if off + i < src.length then safe_clear (src.set (off + i) none) off i else none

/-- The `for` loop of `safe_copy`, from index `i`, with `k` iterations left. On a throw it
reports the cells, the rest of the schedule and `copied`. -/
def safe_copy_loop (src : Cells T) (soff doff : Nat) :
    Nat → Nat → Cells T → List Bool → Res (Cells T × List Bool × Nat) (Cells T × List Bool)
  | 0, _, dest, f => .ok (dest, f)
  | k + 1, i, dest, f =>
    match src[soff + i]? with
    | none => .ub
    | some c =>
      if doff + i < dest.length then
        match copy_T f with
        | (true, fs) => .threw (dest, fs, i)
        | (false, fs) => safe_copy_loop src soff doff k (i + 1) (dest.set (doff + i) c) fs
      else .ub

/-- The function `safe_copy(dest + doff, src + soff, amount)`: on a throw the cells copied so far
are destroyed and the exception is passed on. -/
def safe_copy (dest : Cells T) (doff : Nat) (src : Cells T) (soff : Nat) (amount : Nat)
    (f : List Bool) : Res (Cells T × List Bool) (Cells T × List Bool) :=
  match safe_copy_loop src soff doff amount 0 dest f with
  | .ok r => .ok r
  | .threw (d, fs, copied) =>
    match safe_clear d doff copied with
    | some d1 => .threw (d1, fs)
    | none => .ub
  | .ub => .ub

/-- The call `std::swap(a[i], a[j])` on two cells of one array. -/
def swap_at (cs : Cells T) (i j : Nat) : Option (Cells T) :=
  match cs[i]?, cs[j]? with
  | some a, some b => some ((cs.set i b).set j a)
  | _, _ => none

end Memory

section Members

variable {T : Type}

/-- The default constructor `socow_vector() : size_(0), is_small_(true) {}`; the union is raw. -/
def socow_vector.mk0 (N : Nat) : socow_vector T :=
  ⟨0, true, .cells (List.replicate N none)⟩

/-- The member `const_data_()`: `is_small_ ? static_storage_ : dynamic_storage_->data`. -/
def const_data_ (v : socow_vector T) : Option Region :=
  if v.is_small_ then some .inline
  else
    match v.dynamic_storage_ with
    | some p => some (.block p)
    | none => none

/-- The member `size()`. -/
def size (v : socow_vector T) : Nat := v.size_

/-- The member `empty()`. -/
def empty (v : socow_vector T) : Bool := v.size_ == 0

/-- The member `capacity()`: `is_small_ ? SMALL_SIZE : dynamic_storage_->capacity`. -/
def capacity (N : Nat) (m : Mem T) (v : socow_vector T) : Option Nat :=
  if v.is_small_ then some N
  else
    match v.dynamic_storage_ with
    | some p =>
      match m.buf p with
      | some b => some b.capacity
      | none => none
    | none => none

/-- The member `copy_on_write_()`. -/
def copy_on_write_ (N : Nat) (m : Mem T) (v : socow_vector T) : Res (St T) (St T) :=
  match capacity N m v with
  | none => .ub
  | some cap =>
    let a := allocate m cap
    match v.dynamic_storage_ with
    | none => .ub
    | some p =>
      match a.1.buf p, a.1.buf a.2 with
      | some old, some nb =>
        match safe_copy nb.data 0 old.data 0 v.size_ a.1.faults with
        | .ok (d, f) =>
          let m2 := (a.1.put a.2 { nb with data := d }).setFaults f
          match m2.buf p with
          | some b => .ok (m2.put p { b with ref_count := b.ref_count - 1 }, v.set_dynamic a.2)
          | none => .ub
        | .threw (_, f) => .threw ((a.1.free a.2).setFaults f, v)
        | .ub => .ub
      | _, _ => .ub

/-- The static member `dyn_buf_delete(buf, size)`. -/
def dyn_buf_delete (m : Mem T) (buf : Nat) (size : Nat) : Option (Mem T) :=
  match m.buf buf with
  | none => none
  | some b =>
    if b.ref_count > 1 then some (m.put buf { b with ref_count := b.ref_count - 1 })
    else
      match safe_clear b.data 0 size with
      | some _ => some (m.free buf)
      | none => none

/-- The member `buf_delete_()`. -/
def buf_delete_ (N : Nat) (m : Mem T) (v : socow_vector T) : Option (St T) :=
  if v.is_small_ then
    match safe_clear (v.static_storage_ N) 0 v.size_ with
    | some cs => some (m, v.set_static cs)
    | none => none
  else
    match v.dynamic_storage_ with
    | some p =>
      match dyn_buf_delete m p v.size_ with
      | some m1 => some (m1, v)
      | none => none
    | none => none

/-- The destructor `~socow_vector()`: the object is gone afterwards. -/
def destroy (N : Nat) (m : Mem T) (v : socow_vector T) : Option (Mem T) :=
  (buf_delete_ N m v).map (fun s => s.1)

/-- The member `check_cow_()`. -/
def check_cow_ (N : Nat) (m : Mem T) (v : socow_vector T) : Res (St T) (St T) :=
  if v.is_small_ then .ok (m, v)
  else
    match v.dynamic_storage_ with
    | none => .ub
    | some p =>
      match m.buf p with
      | none => .ub
      | some b => if b.ref_count > 1 then copy_on_write_ N m v else .ok (m, v)

/-- The non-const member `data()`: `check_cow_()`, then the pointer to the current storage. -/
def data (N : Nat) (m : Mem T) (v : socow_vector T) : Res (St T) (St T × Region) :=
  (check_cow_ N m v).bind (fun s =>
    match const_data_ s.2 with
    | some r => .ok (s, r)
    | none => .ub)

/-- The member `extend_push_back_(el, new_capacity)`. -/
def extend_push_back_ (N : Nat) (m : Mem T) (v : socow_vector T) (el : T) (new_capacity : Nat) :
    Res (St T) (St T) :=
  let a := allocate m new_capacity
  match const_data_ v with
  | none => .ub
  | some r =>
    match load N a.1 v r, a.1.buf a.2 with
    | some src, some nb =>
      match safe_copy nb.data 0 src 0 v.size_ a.1.faults with
      | .ub => .ub
      | .threw (_, f) => .threw ((a.1.free a.2).setFaults f, v)
      | .ok (d, f) =>
        if v.size_ < d.length then
          match copy_T f with
          | (true, fs) =>
            match safe_clear d 0 v.size_ with
            | some _ => .threw ((a.1.free a.2).setFaults fs, v)
            | none => .ub
          | (false, fs) =>
            let m2 := (a.1.put a.2 { nb with data := d.set v.size_ (some el) }).setFaults fs
            match buf_delete_ N m2 v with
            | some s => .ok (s.1, s.2.set_dynamic a.2)
            | none => .ub
        else .ub
    | _, _ => .ub

/-- The member `transform_push_back_(el)`. -/
def transform_push_back_ (N : Nat) (m : Mem T) (v : socow_vector T) (el : T) : Res (St T) (St T) :=
  (extend_push_back_ N m v el (2 * v.size_ + 1)).bind (fun s =>
    .ok (s.1, { s.2 with is_small_ := false }))

/-- The member `push_back_dynamic_(el)`. -/
def push_back_dynamic_ (N : Nat) (m : Mem T) (v : socow_vector T) (el : T) : Res (St T) (St T) :=
  match v.dynamic_storage_ with
  | none => .ub
  | some p =>
    match m.buf p with
    | none => .ub
    | some b =>
      if v.size_ = b.capacity then extend_push_back_ N m v el (2 * b.capacity + 1)
      else if v.size_ < b.data.length then
        match copy_T m.faults with
        | (true, fs) => .threw (m.setFaults fs, v)
        | (false, fs) => .ok ((m.setFaults fs).put p { b with data := b.data.set v.size_ (some el) }, v)
      else .ub

/-- The member `push_back(el)`, up to the final `size_++`. -/
def push_back_body (N : Nat) (m : Mem T) (v : socow_vector T) (el : T) : Res (St T) (St T) :=
  if v.is_small_ then
    if v.size_ = N then transform_push_back_ N m v el
    else if v.size_ < (v.static_storage_ N).length then
      match copy_T m.faults with
      | (true, fs) => .threw (m.setFaults fs, v)
      | (false, fs) => .ok (m.setFaults fs, v.set_static ((v.static_storage_ N).set v.size_ (some el)))
    else .ub
  else
    match v.dynamic_storage_ with
    | none => .ub
    | some p =>
      match m.buf p with
      | none => .ub
      | some b =>
        if b.ref_count = 1 then push_back_dynamic_ N m v el
        else
          (if v.size_ ≠ b.capacity then copy_on_write_ N m v else .ok (m, v)).bind (fun s =>
            push_back_dynamic_ N s.1 s.2 el)

/-- The member `push_back(el)`. -/
def push_back (N : Nat) (m : Mem T) (v : socow_vector T) (el : T) : Res (St T) (St T) :=
  (push_back_body N m v el).bind (fun s => .ok (s.1, { s.2 with size_ := s.2.size_ + 1 }))

/-- The member `pop_back()`: `data()[--size_].~T()`, with `data()` evaluated first; on an empty
container `--size_` wraps around and the cell lies outside every array. -/
def pop_back (N : Nat) (m : Mem T) (v : socow_vector T) : Res (St T) (St T) :=
  (data N m v).bind (fun sr =>
    if sr.1.2.size_ = 0 then .ub
    else
      let v1 := { sr.1.2 with size_ := sr.1.2.size_ - 1 }
      match load N sr.1.1 v1 sr.2 with
      | none => .ub
      | some cs =>
        if v1.size_ < cs.length then Res.ofOption (store_cells sr.1.1 v1 sr.2 (cs.set v1.size_ none))
        else .ub)

/-- The member `reserve(new_capacity)`. -/
def reserve (N : Nat) (m : Mem T) (v : socow_vector T) (new_capacity : Nat) : Res (St T) (St T) :=
  match capacity N m v with
  | none => .ub
  | some cap =>
    if new_capacity ≤ cap then check_cow_ N m v
    else
      let a := allocate m new_capacity
      match data N a.1 v with
      | .ub => .ub
      | .threw s => .threw s
      | .ok sr =>
        match load N sr.1.1 sr.1.2 sr.2, sr.1.1.buf a.2 with
        | some src, some nb =>
          match safe_copy nb.data 0 src 0 sr.1.2.size_ sr.1.1.faults with
          | .ub => .ub
          | .threw (d, f) => .threw ((sr.1.1.put a.2 { nb with data := d }).setFaults f, sr.1.2)
          | .ok (d, f) =>
            match buf_delete_ N ((sr.1.1.put a.2 { nb with data := d }).setFaults f) sr.1.2 with
            | some s => .ok (s.1, { s.2.set_dynamic a.2 with is_small_ := false })
            | none => .ub
        | _, _ => .ub

/-- The member `shrink_to_fit()`. -/
def shrink_to_fit (N : Nat) (m : Mem T) (v : socow_vector T) : Res (St T) (St T) :=
  match capacity N m v with
  | none => .ub
  | some cap =>
    if v.size_ = cap || v.is_small_ then .ok (m, v)
    else if v.size_ ≤ N then
      match v.dynamic_storage_ with
      | none => .ub
      | some p =>
        match m.buf p with
        | none => .ub
        | some b =>
          match safe_copy (v.static_storage_ N) 0 b.data 0 v.size_ m.faults with
          | .ub => .ub
          | .threw (_, f) => .threw (m.setFaults f, v.set_dynamic p)
          | .ok (cs, f) =>
            match dyn_buf_delete (m.setFaults f) p v.size_ with
            | some m1 => .ok (m1, { v.set_static cs with is_small_ := true })
            | none => .ub
    else
      let a := allocate m v.size_
      match v.dynamic_storage_ with
      | none => .ub
      | some p =>
        match a.1.buf p, a.1.buf a.2 with
        | some old, some nb =>
          match safe_copy nb.data 0 old.data 0 v.size_ a.1.faults with
          | .ub => .ub
          | .threw (d, f) => .threw ((a.1.put a.2 { nb with data := d }).setFaults f, v)
          | .ok (d, f) =>
            match buf_delete_ N ((a.1.put a.2 { nb with data := d }).setFaults f) v with
            | some s => .ok (s.1, s.2.set_dynamic a.2)
            | none => .ub
        | _, _ => .ub

/-- The member `clear()`. -/
def clear (N : Nat) (m : Mem T) (v : socow_vector T) : Res (St T) (St T) :=
  (check_cow_ N m v).bind (fun s0 =>
    (data N s0.1 s0.2).bind (fun sr =>
      match load N sr.1.1 sr.1.2 sr.2 with
      | none => .ub
      | some cs =>
        match safe_clear cs 0 sr.1.2.size_ with
        | none => .ub
        | some cs1 =>
          (Res.ofOption (store_cells sr.1.1 sr.1.2 sr.2 cs1)).bind (fun s =>
            .ok (s.1, { s.2 with size_ := 0 }))))

/-- The loop `for (i = 0; i < min(size_, other.size_); i++) std::swap(a[i], b[i])` of
`swap_small_`, from index `i`, with `k` iterations left. -/
def swap_cells_loop : Nat → Nat → Cells T → Cells T → Option (Cells T × Cells T)
  | 0, _, a, b => some (a, b)
  | k + 1, i, a, b =>
    match a[i]?, b[i]? with
    | some x, some y => swap_cells_loop k (i + 1) (a.set i y) (b.set i x)
    | _, _ => none

/-- The member `swap_small_(other)`. -/
def swap_small_ (N : Nat) (m : Mem T) (v other : socow_vector T) : Res (St2 T) (St2 T) :=
  match swap_cells_loop (min v.size_ other.size_) 0 (v.static_storage_ N)
      (other.static_storage_ N) with
  | none => .ub
  | some ab =>
    if other.size_ > v.size_ then
      match safe_copy ab.1 v.size_ ab.2 v.size_ (other.size_ - v.size_) m.faults with
      | .ub => .ub
      | .threw (a1, f) => .threw (m.setFaults f, v.set_static a1, other.set_static ab.2)
      | .ok (a1, f) =>
        match safe_clear ab.2 v.size_ (other.size_ - v.size_) with
        | some b1 => .ok (m.setFaults f, v.set_static a1, other.set_static b1)
        | none => .ub
    else
      match safe_copy ab.2 other.size_ ab.1 other.size_ (v.size_ - other.size_) m.faults with
      | .ub => .ub
      | .threw (b1, f) => .threw (m.setFaults f, v.set_static ab.1, other.set_static b1)
      | .ok (b1, f) =>
        match safe_clear ab.1 other.size_ (v.size_ - other.size_) with
        | some a1 => .ok (m.setFaults f, v.set_static a1, other.set_static b1)
        | none => .ub

/-- The member `swap_different_(other)`: `*this` is small, `other` is not. -/
def swap_different_ (N : Nat) (m : Mem T) (v other : socow_vector T) : Res (St2 T) (St2 T) :=
  match other.dynamic_storage_ with
  | none => .ub
  | some init_dyn_buf =>
    match safe_copy (other.static_storage_ N) 0 (v.static_storage_ N) 0 v.size_ m.faults with
    | .ub => .ub
    | .threw (_, f) => .threw (m.setFaults f, v, other.set_dynamic init_dyn_buf)
    | .ok (cs, f) =>
      match buf_delete_ N (m.setFaults f) v with
      | some s => .ok (s.1, s.2.set_dynamic init_dyn_buf, other.set_static cs)
      | none => .ub

/-- Exchange the roles of `*this` and `other` in a result. -/
def flip2 (r : Res (St2 T) (St2 T)) : Res (St2 T) (St2 T) :=
  match r with
  | .ok s => .ok (s.1, s.2.2, s.2.1)
  | .threw s => .threw (s.1, s.2.2, s.2.1)
  | .ub => .ub

/-- The member `swap(other)`, for two distinct objects. -/
def swap (N : Nat) (m : Mem T) (v other : socow_vector T) : Res (St2 T) (St2 T) :=
  (if v.is_small_ then
      if other.is_small_ then swap_small_ N m v other else swap_different_ N m v other
    else
      if other.is_small_ then flip2 (swap_different_ N m other v)
      else
        match v.dynamic_storage_, other.dynamic_storage_ with
        | some p, some q => .ok (m, v.set_dynamic q, other.set_dynamic p)
        | _, _ => .ub).bind (fun s =>
    .ok (s.1, { s.2.1 with size_ := s.2.2.size_, is_small_ := s.2.2.is_small_ },
      { s.2.2 with size_ := s.2.1.size_, is_small_ := s.2.1.is_small_ }))

/-- The copy constructor `socow_vector(socow_vector const& other)`. On a throw no object exists. -/
def copy_ctor (N : Nat) (m : Mem T) (other : socow_vector T) : Res (Mem T) (St T) :=
  if other.size_ ≤ N then
    match safe_copy (List.replicate N none) 0 (other.static_storage_ N) 0 other.size_ m.faults with
    | .ub => .ub
    | .threw (_, f) => .threw (m.setFaults f)
    | .ok (cs, f) => .ok (m.setFaults f, ⟨other.size_, true, .cells cs⟩)
  else
    match other.dynamic_storage_ with
    | none => .ub
    | some p =>
      match m.buf p with
      | none => .ub
      | some b => .ok (m.put p { b with ref_count := b.ref_count + 1 }, ⟨other.size_, other.is_small_, .handle p⟩)

/-- The copy assignment `*this = other` for `this != &other`: `socow_vector(other).swap(*this)`,
then the temporary is destroyed. (For `this == &other` the operator returns at once.) -/
def assign (N : Nat) (m : Mem T) (v other : socow_vector T) : Res (St T) (St T) :=
  match copy_ctor N m other with
  | .ub => .ub
  | .threw m1 => .threw (m1, v)
  | .ok s =>
    match swap N s.1 s.2 v with
    | .ub => .ub
    | .threw s2 =>
      match destroy N s2.1 s2.2.1 with
      | some m3 => .threw (m3, s2.2.2)
      | none => .ub
    | .ok s2 =>
      match destroy N s2.1 s2.2.1 with
      | some m3 => .ok (m3, s2.2.2)
      | none => .ub

/-- The call `std::swap(p1[i], p2[j])` through two pointers obtained from `data()`. -/
def swap_elems (N : Nat) (s : St T) (r1 : Region) (i : Nat) (r2 : Region) (j : Nat) :
    Option (St T) :=
  match load N s.1 s.2 r1, load N s.1 s.2 r2 with
  | some c1, some c2 =>
    match c1[i]?, c2[j]? with
    | some x, some y =>
      match store_cells s.1 s.2 r1 (c1.set i y) with
      | none => none
      | some s1 =>
        match load N s1.1 s1.2 r2 with
        | none => none
        | some c3 => store_cells s1.1 s1.2 r2 (c3.set j x)
    | _, _ => none
  | _, _ => none

/-- One round `std::swap(data()[i], data()[j])`. -/
def swap_data (N : Nat) (s : St T) (i j : Nat) : Res (St T) (St T) :=
  (data N s.1 s.2).bind (fun sa =>
    (data N sa.1.1 sa.1.2).bind (fun sb =>
      Res.ofOption (swap_elems N sb.1 sa.2 i sb.2 j)))

/-- The loop `for (i = size_ - 1; i > it_shift; i--) std::swap(data()[i], data()[i - 1])` of
`insert`, with `k = i - it_shift` iterations left. -/
def insert_loop (N : Nat) (it_shift : Nat) : Nat → St T → Res (St T) (St T)
  | 0, s => .ok s
  | k + 1, s => (swap_data N s (it_shift + k + 1) (it_shift + k)).bind (insert_loop N it_shift k)

/-- The member `insert(pos, el)`. The difference `pos - const_data_()` is defined only for a
pointer into the current storage. -/
def insert (N : Nat) (m : Mem T) (v : socow_vector T) (pos : iterator) (el : T) :
    Res (St T) (St T × iterator) :=
  match const_data_ v with
  | none => .ub
  | some r =>
    if pos.region = r then
      (push_back N m v el).bind (fun s =>
        (insert_loop N pos.off (s.2.size_ - 1 - pos.off) s).bind (fun s1 =>
          (data N s1.1 s1.2).bind (fun sr => .ok (sr.1, ⟨sr.2, pos.off⟩))))
    else .ub

/-- The loop `for (i = it_shift_right; i < size_; i++) std::swap(data()[i - diff], data()[i])` of
`erase`, from index `i`, with `k` iterations left. -/
def erase_loop (N : Nat) (diff : Nat) : Nat → Nat → St T → Res (St T) (St T)
  | 0, _, s => .ok s
  | k + 1, i, s => (swap_data N s (i - diff) i).bind (erase_loop N diff k (i + 1))

/-- The loop `for (i = 0; i < diff; i++) pop_back()` of `erase`. -/
def pop_loop (N : Nat) : Nat → St T → Res (St T) (St T)
  | 0, s => .ok s
  | k + 1, s => (pop_back N s.1 s.2).bind (pop_loop N k)

/-- The member `erase(first, last)`. The pointer differences are defined only for pointers into
the current storage with `first <= last`. -/
def erase (N : Nat) (m : Mem T) (v : socow_vector T) (first last : iterator) :
    Res (St T) (St T × iterator) :=
  match const_data_ v with
  | none => .ub
  | some r =>
    if first.region = r ∧ last.region = r ∧ first.off ≤ last.off then
      (check_cow_ N m v).bind (fun s =>
        (erase_loop N (last.off - first.off) (s.2.size_ - last.off) last.off s).bind (fun s1 =>
          (pop_loop N (last.off - first.off) s1).bind (fun s2 =>
            (data N s2.1 s2.2).bind (fun sr => .ok (sr.1, ⟨sr.2, first.off⟩)))))
    else .ub

/-- The member `erase(pos)`: `erase(pos, pos + 1)`. -/
def erase1 (N : Nat) (m : Mem T) (v : socow_vector T) (pos : iterator) :
    Res (St T) (St T × iterator) :=
  erase N m v pos ⟨pos.region, pos.off + 1⟩

/-- The const member `begin()`, moved forward by `i`: `begin() + i`. -/
def cbegin_plus (v : socow_vector T) (i : Nat) : Option iterator :=
  (const_data_ v).map (fun r => ⟨r, i⟩)

/-- The non-const member `begin()`. -/
def begin_ (N : Nat) (m : Mem T) (v : socow_vector T) : Res (St T) (St T × iterator) :=
  (data N m v).bind (fun sr => .ok (sr.1, ⟨sr.2, 0⟩))

/-- The non-const member `end()`. -/
def end_ (N : Nat) (m : Mem T) (v : socow_vector T) : Res (St T) (St T × iterator) :=
  (data N m v).bind (fun sr => .ok (sr.1, ⟨sr.2, sr.1.2.size_⟩))

/-- The const member `operator[](i)`: the live object in cell `i` of the current storage. -/
def get (N : Nat) (m : Mem T) (v : socow_vector T) (i : Nat) : Option T :=
  match const_data_ v with
  | none => none
  | some r =>
    match load N m v r with
    | none => none
    | some cs =>
      match cs[i]? with
      | some (some x) => some x
      | _ => none

/-- A write `data()[i] = x` through the pointer of the non-const `data()` (also the non-const
`operator[]`). -/
def write (N : Nat) (m : Mem T) (v : socow_vector T) (i : Nat) (x : T) : Res (St T) (St T) :=
  (data N m v).bind (fun sr =>
    match load N sr.1.1 sr.1.2 sr.2 with
    | none => .ub
    | some cs =>
      if i < cs.length then Res.ofOption (store_cells sr.1.1 sr.1.2 sr.2 (cs.set i (some x)))
      else .ub)

/-- A write through the non-const `front()`. -/
def write_front (N : Nat) (m : Mem T) (v : socow_vector T) (x : T) : Res (St T) (St T) :=
  write N m v 0 x

/-- A write through the non-const `back()`: `data()[size_ - 1]`; on an empty container the index
wraps around. -/
def write_back (N : Nat) (m : Mem T) (v : socow_vector T) (x : T) : Res (St T) (St T) :=
  if v.size_ = 0 then (data N m v).bind (fun _ => .ub) else write N m v (v.size_ - 1) x

end Members

section Observation

variable {T : Type}

/-- The values of a run of cells, when every cell holds a live object. -/
def lives : Cells T → Option (List T)
  | [] => some []
  | none :: _ => none
  | some x :: cs =>
    match lives cs with
    | some xs => some (x :: xs)
    | none => none

/-- The first `size()` cells from `const_data_()`, live or not, when they all exist. -/
def contents (N : Nat) (m : Mem T) (v : socow_vector T) : Option (Cells T) :=
  match const_data_ v with
  | none => none
  | some r =>
    match load N m v r with
    | none => none
    | some cs => if v.size_ ≤ cs.length then some (cs.take v.size_) else none

/-- The element sequence a container holds: the values of its `size()` cells, when every one
holds a live object. -/
def elems (N : Nat) (m : Mem T) (v : socow_vector T) : Option (List T) :=
  match contents N m v with
  | none => none
  | some cs => lives cs

/-- No call of the copy constructor of `T` throws. -/
def no_faults (m : Mem T) : Prop := ∀ b ∈ m.faults, b = false

/-- The block a container holds, if it is in shared mode. -/
def own (v : socow_vector T) : Option Nat :=
  if v.is_small_ then none else v.dynamic_storage_

/-- Structural well-formedness. Inline: at most `N` elements in `N` inline cells. Shared: the
union holds a handle to an allocated block with `capacity` cells, at least one owner and
`size() <= capacity`. -/
def swf (N : Nat) (m : Mem T) (v : socow_vector T) : Bool :=
  if v.is_small_ then decide (v.size_ ≤ N) && decide ((v.static_storage_ N).length = N)
  else
    match v.dynamic_storage_ with
    | none => false
    | some p =>
      match m.buf p with
      | none => false
      | some b =>
        decide (b.data.length = b.capacity) && decide (1 ≤ b.ref_count) &&
          decide (v.size_ ≤ b.capacity)

/-- A well-formed container: structurally well-formed, and its `size()` cells hold live objects. -/
def wf (N : Nat) (m : Mem T) (v : socow_vector T) : Bool :=
  swf N m v && (elems N m v).isSome

/-- What the release of one reference leaves at the address of block `b`: the block with one
owner less, or nothing when the last owner lets go. -/
def release (b : dynamic_buf T) : Option (dynamic_buf T) :=
  if 1 < b.ref_count then some { b with ref_count := b.ref_count - 1 } else none

/-- The ownership discipline of one operation of a container, from `(m, v)` to `(m1, v1)`:
blocks of other owners are untouched; the container keeps its block (same count of owners and
capacity, and same cells if there are other owners) or releases it; every block allocated on the
way is the new block of the container, with one owner, or has been deleted. -/
structure Step (m : Mem T) (v : socow_vector T) (m1 : Mem T) (v1 : socow_vector T) : Prop where
  grow : m.heap.length ≤ m1.heap.length
  sched : ∃ k, m1.faults = m.faults.drop k
  others : ∀ a, a < m.heap.length → own v ≠ some a → m1.heap[a]? = m.heap[a]?
  mine : ∀ p b, own v = some p → m.buf p = some b →
    (own v1 = some p ∧ ∃ b1, m1.buf p = some b1 ∧ b1.ref_count = b.ref_count ∧
        b1.capacity = b.capacity ∧ (1 < b.ref_count → b1 = b)) ∨
      (own v1 ≠ some p ∧ m1.heap[p]? = some (release b))
  fresh : ∀ a, m.heap.length ≤ a → a < m1.heap.length →
    (own v1 = some a ∧ ∃ b1, m1.buf a = some b1 ∧ b1.ref_count = 1) ∨
      (own v1 ≠ some a ∧ m1.heap[a]? = some none)
  stay : ∀ a, own v1 = some a → a < m.heap.length → own v = some a

end Observation

end Socow

namespace Socow

section Auxiliary

/-- The first `k` calls of the copy constructor do not throw. -/
def quiet (k : Nat) (f : List Bool) : Prop := ∀ b ∈ f.take k, b = false

/-- The result of `copy_on_write_()` on a container that shares block `p`. -/
def cow_mem {T : Type} (m : Mem T) (p : Nat) (b : dynamic_buf T) (n : Nat) : Mem T :=
  ((((allocate m b.capacity).1.put m.heap.length
    ⟨b.capacity, 1, b.data.take n ++ (List.replicate b.capacity none).drop n⟩).setFaults
      (m.faults.drop n)).put p { b with ref_count := b.ref_count - 1 })

/-- Exclusive ownership: inline storage, or the only owner of the block. -/
def excl {T : Type} (m : Mem T) (v : socow_vector T) : Prop :=
  v.is_small_ = true ∨ ∃ p b, v.store = .handle p ∧ m.buf p = some b ∧ b.ref_count = 1

/-- The heap after a container let go of its storage: the block it held is released. -/
def released {T : Type} (m : Mem T) (v : socow_vector T) : List (Option (dynamic_buf T)) :=
  match own v with
  | none => m.heap
  | some p =>
    match m.buf p with
    | some b => m.heap.set p (release b)
    | none => m.heap

/-- What a successful `push_back(el)` establishes, from `(m, v)` with cells `cs` and capacity `c`
to `(m1, v1)`. -/
def push_post {T : Type} (N : Nat) (m : Mem T) (v : socow_vector T) (el : T) (cs : Cells T)
    (c : Nat) (m1 : Mem T) (v1 : socow_vector T) : Prop :=
  Step m v m1 v1 ∧ swf N m1 v1 = true ∧ contents N m1 v1 = some (cs ++ [some el]) ∧
    v1.size_ = v.size_ + 1 ∧ excl m1 v1 ∧
    capacity N m1 v1 = some (if v.size_ < c then c else 2 * c + 1) ∧
    (v1.is_small_ = true ↔ v.is_small_ = true ∧ v.size_ < N) ∧
    (excl m v ∧ v.size_ < c → m1.heap.length = m.heap.length ∧ own v1 = own v) ∧
    (¬ (excl m v ∧ v.size_ < c) →
      m1.heap.length = m.heap.length + 1 ∧ own v1 = some m.heap.length)

/-- The container `v` is structurally well-formed, owns its storage alone, and the array
`const_data_()` points into, `r`, holds the cells `cs`. -/
def held {T : Type} (N : Nat) (m : Mem T) (v : socow_vector T) (r : Region) (cs : Cells T) :
    Prop :=
  swf N m v = true ∧ excl m v ∧ const_data_ v = some r ∧ load N m v r = some cs

/-- An operation kept the size, the mode, the capacity, the schedule, the number of blocks and
the block of the container. -/
def kept {T : Type} (N : Nat) (m : Mem T) (v : socow_vector T) (m1 : Mem T)
    (v1 : socow_vector T) : Prop :=
  v1.size_ = v.size_ ∧ v1.is_small_ = v.is_small_ ∧ capacity N m1 v1 = capacity N m v ∧
    m1.faults = m.faults ∧ m1.heap.length = m.heap.length ∧ own v1 = own v

/-- The cells after the loop of `insert` with `k` rounds left: rounds `std::swap(a[p + k],
a[p + k - 1])`, ..., `std::swap(a[p + 1], a[p])`. -/
def ins_cells {T : Type} (p : Nat) : Nat → Cells T → Option (Cells T)
  | 0, cs => some cs
  | k + 1, cs =>
    match swap_at cs (p + k + 1) (p + k) with
    | some cs1 => ins_cells p k cs1
    | none => none

/-- The cells after the first loop of `erase` from index `i` with `k` rounds left: rounds
`std::swap(a[i - diff], a[i])`, `std::swap(a[i + 1 - diff], a[i + 1])`, ... -/
def era_cells {T : Type} (diff : Nat) : Nat → Nat → Cells T → Option (Cells T)
  | 0, _, cs => some cs
  | k + 1, i, cs =>
    match swap_at cs (i - diff) i with
    | some cs1 => era_cells diff k (i + 1) cs1
    | none => none

/-- The calls `push_back(x)` for the values `x` of a list, in order. -/
def push_all {T : Type} (N : Nat) : List T → St T → Res (St T) (St T)
  | [], s => .ok s
  | x :: xs, s => (push_back N s.1 s.2 x).bind (push_all N xs)

/-- A mutating operation of the public interface, with its arguments. -/
inductive Mutation (T : Type) where
  | push_back (x : T)
  | pop_back
  | clear
  | insert (pos : iterator) (x : T)
  | erase (first last : iterator)
  | erase1 (pos : iterator)
  | reserve (n : Nat)
  | shrink_to_fit
  | write (i : Nat) (x : T)
  | write_front (x : T)
  | write_back (x : T)

/-- The effect of a mutating operation on the memory and the container it is applied to. -/
def Mutation.run {T : Type} (N : Nat) (μ : Mutation T) (m : Mem T) (v : socow_vector T) :
    Res (St T) (St T) :=
  match μ with
  | .push_back x => Socow.push_back N m v x
  | .pop_back => Socow.pop_back N m v
  | .clear => Socow.clear N m v
  | .insert pos x => (Socow.insert N m v pos x).bind (fun s => .ok s.1)
  | .erase first last => (Socow.erase N m v first last).bind (fun s => .ok s.1)
  | .erase1 pos => (Socow.erase1 N m v pos).bind (fun s => .ok s.1)
  | .reserve n => Socow.reserve N m v n
  | .shrink_to_fit => Socow.shrink_to_fit N m v
  | .write i x => Socow.write N m v i x
  | .write_front x => Socow.write_front N m v x
  | .write_back x => Socow.write_back N m v x

end Auxiliary

end Socow

namespace Socow

section Sized

variable {T : Type}

/-- The argument of `operator new` in `allocate(cap)`:
`sizeof(dynamic_buf) + sizeof(T) * cap`, computed in `size_t` (64 bits, wrapping). `sz` is
`sizeof(T)`; `sizeof(dynamic_buf)` is 16 (two `size_t` and the empty array `T data[0]`, for an
element type aligned to at most 8 bytes). -/
def alloc_bytes (sz cap : Nat) : Nat := (16 + sz * cap) % 2 ^ 64

/-- The function `allocate(cap)` with the size computed as the source computes it. The header
`dynamic_buf{cap, 1}` records `cap`, but the block holds only the cells that fit in the bytes
obtained; when these are fewer than the 16 bytes of the header, the construction of the header
writes outside the block (no result). When the size does not wrap this is `allocate`. -/
def allocate_sized (sz : Nat) (m : Mem T) (cap : Nat) : Option (Mem T × Nat) :=
  if alloc_bytes sz cap < 16 then none
  else
    some ({ m with heap := m.heap ++
      [some ⟨cap, 1, List.replicate ((alloc_bytes sz cap - 16) / sz) none⟩] }, m.heap.length)

/-- The member `reserve(new_capacity)` with the size of the allocation computed as the source
computes it (`allocate_sized`); every other step is that of `reserve`. -/
def reserve_sized (sz N : Nat) (m : Mem T) (v : socow_vector T) (new_capacity : Nat) :
    Res (St T) (St T) :=
  match capacity N m v with
  | none => .ub
  | some cap =>
    if new_capacity ≤ cap then check_cow_ N m v
    else
      match allocate_sized sz m new_capacity with
      | none => .ub
      | some a =>
        match data N a.1 v with
        | .ub => .ub
        | .threw s => .threw s
        | .ok sr =>
          match load N sr.1.1 sr.1.2 sr.2, sr.1.1.buf a.2 with
          | some src, some nb =>
            match safe_copy nb.data 0 src 0 sr.1.2.size_ sr.1.1.faults with
            | .ub => .ub
            | .threw (d, f) => .threw ((sr.1.1.put a.2 { nb with data := d }).setFaults f, sr.1.2)
            | .ok (d, f) =>
              match buf_delete_ N ((sr.1.1.put a.2 { nb with data := d }).setFaults f) sr.1.2 with
              | some s => .ok (s.1, { s.2.set_dynamic a.2 with is_small_ := false })
              | none => .ub
          | _, _ => .ub

end Sized

end Socow

namespace Socow

section Worlds

/-- A program state: the memory and the container objects that exist, in the order of their
construction. An object is named by its position in the list. -/
structure World (T : Type) where
  mem : Mem T
  objs : List (socow_vector T)
deriving DecidableEq

/-- A call of the public interface on the objects of a program state: the default constructor,
the copy constructor from object `j`, the copy assignment `objs[i] = objs[j]`, the destructor of
object `i`, a mutating operation on object `i`, a mutable access to object `i` (the non-const
`data()`, `operator[]`, `front()`, `back()`, `begin()`, `end()`, which return a `T&` or `T*`),
`objs[i].swap(objs[j])`, and a store `*p = x` through a pointer or reference `p` that a mutable
access to object `i` returned earlier. -/
inductive Op (T : Type) where
  | create
  | copy (j : Nat)
  | assign (i j : Nat)
  | destroy (i : Nat)
  | mutate (i : Nat) (μ : Mutation T)
  | access (i : Nat)
  | swap (i j : Nat)
  | store (i : Nat) (p : iterator) (x : T)

/-- The effect of a call on a program state. A new object is appended, a destroyed object is
removed from the list. `objs[i] = objs[i]` returns at once (`this == &other`). In
`objs[i].swap(objs[i])` every exchange is of a cell, a pointer, `size_` or `is_small_` with
itself, and `safe_copy` and `safe_clear` are called with amount `size_ - size_`: the state is
unchanged. A call on an object that does not exist is undefined. A store `*p = x` calls no
member function, so no `check_cow_()` runs: it writes the cell `p` points to. The pointer is
usable while it points to an element of the current storage of the object it was obtained from
(no operation on that object has invalidated it); a store through any other pointer is
undefined. A call that ends by an exception leaves the state `Res.threw` carries. The
`reserve(n)` of this function allocates with `allocate`; `World.run_sized` is the step with the
size of that allocation computed as in the source. -/
def World.run {T : Type} (N : Nat) (w : World T) (op : Op T) : Res (World T) (World T) :=
  match op with
  | .create => .ok ⟨w.mem, w.objs ++ [socow_vector.mk0 N]⟩
  | .copy j =>
    match w.objs[j]? with
    | none => .ub
    | some o =>
      match Socow.copy_ctor N w.mem o with
      | .ub => .ub
      | .threw m => .threw ⟨m, w.objs⟩
      | .ok s => .ok ⟨s.1, w.objs ++ [s.2]⟩
  | .assign i j =>
    match w.objs[i]?, w.objs[j]? with
    | some v, some o =>
      if i = j then .ok w
      else
        match Socow.assign N w.mem v o with
        | .ub => .ub
        | .threw s => .threw ⟨s.1, w.objs.set i s.2⟩
        | .ok s => .ok ⟨s.1, w.objs.set i s.2⟩
    | _, _ => .ub
  | .destroy i =>
    match w.objs[i]? with
    | none => .ub
    | some v =>
      match Socow.destroy N w.mem v with
      | none => .ub
      | some m => .ok ⟨m, w.objs.eraseIdx i⟩
  | .mutate i μ =>
    match w.objs[i]? with
    | none => .ub
    | some v =>
      match μ.run N w.mem v with
      | .ub => .ub
      | .threw s => .threw ⟨s.1, w.objs.set i s.2⟩
      | .ok s => .ok ⟨s.1, w.objs.set i s.2⟩
  | .access i =>
    match w.objs[i]? with
    | none => .ub
    | some v =>
      match Socow.data N w.mem v with
      | .ub => .ub
      | .threw s => .threw ⟨s.1, w.objs.set i s.2⟩
      | .ok sr => .ok ⟨sr.1.1, w.objs.set i sr.1.2⟩
  | .swap i j =>
    match w.objs[i]?, w.objs[j]? with
    | some a, some b =>
      if i = j then .ok w
      else
        match Socow.swap N w.mem a b with
        | .ub => .ub
        | .threw s => .threw ⟨s.1, (w.objs.set i s.2.1).set j s.2.2⟩
        | .ok s => .ok ⟨s.1, (w.objs.set i s.2.1).set j s.2.2⟩
    | _, _ => .ub
  | .store i p x =>
    match w.objs[i]? with
    | none => .ub
    | some v =>
      if Socow.const_data_ v = some p.region ∧ p.off < v.size_ then
        match load N w.mem v p.region with
        | none => .ub
        | some cs =>
          if p.off < cs.length then
            match store_cells w.mem v p.region (cs.set p.off (some x)) with
            | some s => .ok ⟨s.1, w.objs.set i s.2⟩
            | none => .ub
          else .ub
      else .ub

/-- The effect of a call on a program state with the size of the allocation in `reserve`
computed as the source computes it: `reserve(n)` on object `i` is `reserve_sized`, with
`sizeof(T) = sz`; every other call is as in `World.run`. -/
def World.run_sized {T : Type} (sz N : Nat) (w : World T) (op : Op T) :
    Res (World T) (World T) :=
  match op with
  | .mutate i (.reserve n) =>
    match w.objs[i]? with
    | none => .ub
    | some v =>
      match reserve_sized sz N w.mem v n with
      | .ub => .ub
      | .threw s => .threw ⟨s.1, w.objs.set i s.2⟩
      | .ok s => .ok ⟨s.1, w.objs.set i s.2⟩
  | op => w.run N op

/-- The precondition on the argument of `reserve(n)`: the size
`sizeof(dynamic_buf) + sizeof(T) * n` of the allocation does not wrap in `size_t` (`sz` is
`sizeof(T)`). The source does not check it. Every other call has no such precondition. -/
def Op.fits {T : Type} (sz : Nat) : Op T → Prop
  | .mutate _ (.reserve n) => 16 + sz * n < 2 ^ 64
  | _ => True

/-- The program states reachable from the start of a program (no object, no heap block, any
schedule of the copy constructor) by calls of the public interface and stores through
pointers, each within its precondition: a call that returns leads to the state it returns, a
call that ends by an exception leads to the state the exception leaves behind. A call with
undefined behaviour (`pop_back` on an empty container, a position outside the container, an
object that does not exist, an invalidated pointer) has no successor state. -/
inductive Reach {T : Type} (sz N : Nat) : World T → Prop where
  | start (f : List Bool) : Reach sz N ⟨⟨[], f⟩, []⟩
  | ret {w w1 : World T} (op : Op T) :
    Reach sz N w → op.fits sz → w.run_sized sz N op = .ok w1 → Reach sz N w1
  | exc {w w1 : World T} (op : Op T) :
    Reach sz N w → op.fits sz → w.run_sized sz N op = .threw w1 → Reach sz N w1

/-- The number of containers that hold the block at address `p`. -/
def holders {T : Type} (w : World T) (p : Nat) : Nat :=
  w.objs.countP (fun v => decide (own v = some p))

/-- The invariant of the reachable program states: every container is structurally well-formed;
the count of owners of every allocated block is the number of containers that hold it, unless
no container holds the block (a block that a call left behind when it ended by an exception);
two containers that hold the same block have the same size. -/
def Inv {T : Type} (N : Nat) (w : World T) : Prop :=
  (∀ (i : Nat) v, w.objs[i]? = some v → swf N w.mem v = true) ∧
    (∀ p b, w.mem.buf p = some b → holders w p = 0 ∨ b.ref_count = holders w p) ∧
    ∀ (i j : Nat) v u p, w.objs[i]? = some v → w.objs[j]? = some u → own v = some p →
      own u = some p → v.size_ = u.size_

/-- The ownership discipline of one call on a container, from `(m, v)` to `(m1, v1)`, whether
the call returns or ends by an exception: as `Step`, except that a block allocated on the way
may be left allocated without being the block of the container. -/
structure Frame {T : Type} (m : Mem T) (v : socow_vector T) (m1 : Mem T)
    (v1 : socow_vector T) : Prop where
  others : ∀ a, a < m.heap.length → own v ≠ some a → m1.heap[a]? = m.heap[a]?
  mine : ∀ p b, own v = some p → m.buf p = some b →
    (own v1 = some p ∧ ∃ b1, m1.buf p = some b1 ∧ b1.ref_count = b.ref_count ∧
        b1.capacity = b.capacity ∧ (1 < b.ref_count → b1 = b)) ∨
      (own v1 ≠ some p ∧ m1.heap[p]? = some (release b))
  fresh : ∀ a b1, m.heap.length ≤ a → m1.buf a = some b1 → own v1 = some a →
    b1.ref_count = 1
  stay : ∀ a, own v1 = some a → a < m.heap.length → own v = some a

end Worlds

end Socow

namespace Socow

section BaseLemmas

variable {T : Type}

@[simp] theorem bind_ok {ε α β : Type} (a : α) (f : α → Res ε β) : (Res.ok a).bind f = f a := rfl

@[simp] theorem bind_threw {ε α β : Type} (e : ε) (f : α → Res ε β) :
    (Res.threw e : Res ε α).bind f = .threw e := rfl

@[simp] theorem bind_ub {ε α β : Type} (f : α → Res ε β) : (Res.ub : Res ε α).bind f = .ub := rfl

theorem bind_eq_ok {ε α β : Type} {r : Res ε α} {f : α → Res ε β} {b : β}
    (h : r.bind f = .ok b) : ∃ a, r = .ok a ∧ f a = .ok b := by
  cases r with
  | ok a => exact ⟨a, rfl, h⟩
  | threw e => simp at h
  | ub => simp at h

@[simp] theorem ofOption_some {ε α : Type} (a : α) : (Res.ofOption (some a) : Res ε α) = .ok a := rfl

@[simp] theorem ofOption_none {ε α : Type} : (Res.ofOption (none : Option α) : Res ε α) = .ub := rfl

theorem buf_eq_some {m : Mem T} {p : Nat} {b : dynamic_buf T} :
    m.buf p = some b ↔ m.heap[p]? = some (some b) := by
  unfold Mem.buf
  split
  · next b1 h => simp [h]
  · next h =>
    constructor
    · intro h1; cases h1
    · intro h1; exact absurd h1 (h b)

theorem buf_lt {m : Mem T} {p : Nat} {b : dynamic_buf T} (h : m.buf p = some b) :
    p < m.heap.length := by
  rw [buf_eq_some] at h
  exact (List.getElem?_eq_some.1 h).1

theorem buf_congr {m m1 : Mem T} {p : Nat} (h : m1.heap[p]? = m.heap[p]?) :
    m1.buf p = m.buf p := by
  unfold Mem.buf; rw [h]

@[simp] theorem buf_setFaults (m : Mem T) (f : List Bool) (p : Nat) :
    (m.setFaults f).buf p = m.buf p := rfl

@[simp] theorem heap_setFaults (m : Mem T) (f : List Bool) : (m.setFaults f).heap = m.heap := rfl

@[simp] theorem faults_setFaults (m : Mem T) (f : List Bool) : (m.setFaults f).faults = f := rfl

@[simp] theorem faults_put (m : Mem T) (p : Nat) (b : dynamic_buf T) :
    (m.put p b).faults = m.faults := rfl

@[simp] theorem faults_free (m : Mem T) (p : Nat) : (m.free p).faults = m.faults := rfl

@[simp] theorem heap_put (m : Mem T) (p : Nat) (b : dynamic_buf T) :
    (m.put p b).heap = m.heap.set p (some b) := rfl

@[simp] theorem heap_free (m : Mem T) (p : Nat) : (m.free p).heap = m.heap.set p none := rfl

@[simp] theorem heap_allocate (m : Mem T) (cap : Nat) :
    (allocate m cap).1.heap = m.heap ++ [some ⟨cap, 1, List.replicate cap none⟩] := rfl

@[simp] theorem faults_allocate (m : Mem T) (cap : Nat) : (allocate m cap).1.faults = m.faults := rfl

@[simp] theorem addr_allocate (m : Mem T) (cap : Nat) : (allocate m cap).2 = m.heap.length := rfl

theorem buf_put_self {m : Mem T} {p : Nat} (b : dynamic_buf T) (h : p < m.heap.length) :
    (m.put p b).buf p = some b := by
  rw [buf_eq_some]; simp [h]

theorem buf_put_ne {m : Mem T} {p q : Nat} (b : dynamic_buf T) (h : p ≠ q) :
    (m.put p b).buf q = m.buf q := by
  apply buf_congr; simp [List.getElem?_set, h]

theorem buf_free_ne {m : Mem T} {p q : Nat} (h : p ≠ q) : (m.free p).buf q = m.buf q := by
  apply buf_congr; simp [List.getElem?_set, h]

theorem buf_allocate_old {m : Mem T} {p : Nat} (cap : Nat) (h : p < m.heap.length) :
    (allocate m cap).1.buf p = m.buf p := by
  apply buf_congr; simp [List.getElem?_append, h]

theorem buf_allocate_new (m : Mem T) (cap : Nat) :
    (allocate m cap).1.buf m.heap.length = some ⟨cap, 1, List.replicate cap none⟩ := by
  rw [buf_eq_some]; simp

theorem quiet_of_all {f : List Bool} (h : ∀ b ∈ f, b = false) (k : Nat) : quiet k f :=
  fun b hb => h b (List.mem_of_mem_take hb)

theorem all_drop {f : List Bool} (h : ∀ b ∈ f, b = false) (k : Nat) : ∀ b ∈ f.drop k, b = false :=
  fun b hb => h b (List.mem_of_mem_drop hb)

theorem copy_T_all {f : List Bool} (h : ∀ b ∈ f, b = false) :
    copy_T f = (false, f.drop 1) := by
  cases f with
  | nil => rfl
  | cons b fs =>
    have : b = false := h b (by simp)
    subst this; rfl

theorem copy_T_cases (f : List Bool) :
    copy_T f = (false, f.drop 1) ∨ (copy_T f = (true, f.drop 1) ∧ ¬ ∀ b ∈ f, b = false) := by
  cases f with
  | nil => left; rfl
  | cons b fs =>
    cases b
    · left; rfl
    · right; exact ⟨rfl, fun h => by simpa using h true (by simp)⟩

theorem safe_clear_spec : ∀ (n : Nat) (cs : Cells T) (off : Nat), off + n ≤ cs.length →
    ∃ d, safe_clear cs off n = some d ∧ d.length = cs.length ∧
      ∀ j, d[j]? = if off ≤ j ∧ j < off + n then some none else cs[j]? := by
  intro n
  induction n with
  | zero =>
    intro cs off _
    refine ⟨cs, rfl, rfl, fun j => ?_⟩
    have : ¬ (off ≤ j ∧ j < off + 0) := by omega
    rw [if_neg this]
  | succ n ih =>
    intro cs off h
    have h1 : off + n < cs.length := by omega
    obtain ⟨d, hd, hl, hj⟩ := ih (cs.set (off + n) none) off (by simp; omega)
    refine ⟨d, ?_, by simpa using hl, fun j => ?_⟩
    · simp [safe_clear, h1, hd]
    · rw [hj j, List.getElem?_set]
      by_cases c1 : off ≤ j ∧ j < off + n
      · have : off ≤ j ∧ j < off + (n + 1) := by omega
        simp [c1, this]
      · by_cases c2 : off + n = j
        · subst c2
          simp [h1]
        · have : ¬ (off ≤ j ∧ j < off + (n + 1)) := by omega
          simp [c1, c2, this]

theorem safe_clear_isSome (n : Nat) (cs : Cells T) (off : Nat) (h : off + n ≤ cs.length) :
    ∃ d, safe_clear cs off n = some d := by
  obtain ⟨d, hd, _⟩ := safe_clear_spec n cs off h
  exact ⟨d, hd⟩

theorem safe_clear_zero {n : Nat} {cs : Cells T} (h : n ≤ cs.length) :
    safe_clear cs 0 n = some (List.replicate n none ++ cs.drop n) := by
  obtain ⟨d, hd, hl, hj⟩ := safe_clear_spec n cs 0 (by omega)
  rw [hd]; congr 1
  apply List.ext_getElem?
  intro j
  rw [hj j, List.getElem?_append, List.getElem?_replicate, List.getElem?_drop]
  by_cases c : j < n
  · simp [c]
  · have e : n + (j - n) = j := by omega
    simp [c, e]

end BaseLemmas

end Socow

namespace Socow

section CopyLemmas

variable {T : Type}

theorem quiet_succ {k : Nat} {b : Bool} {fs : List Bool} :
    quiet (k + 1) (b :: fs) ↔ b = false ∧ quiet k fs := by
  simp [quiet]

theorem quiet_succ_nil {k : Nat} : quiet k ([] : List Bool) := by
  simp [quiet]

theorem safe_copy_loop_cases (src : Cells T) (soff doff : Nat) :
    ∀ (k i : Nat) (dest : Cells T) (f : List Bool),
      soff + i + k ≤ src.length → doff + i + k ≤ dest.length →
      (quiet k f ∧ ∃ d, safe_copy_loop src soff doff k i dest f = .ok (d, f.drop k) ∧
          d.length = dest.length ∧
          ∀ j, d[j]? = if doff + i ≤ j ∧ j < doff + i + k then src[soff + (j - doff)]?
            else dest[j]?) ∨
        (¬ quiet k f ∧ ∃ c d fs, safe_copy_loop src soff doff k i dest f = .threw (d, fs, c) ∧
          i ≤ c ∧ c < i + k ∧ d.length = dest.length ∧ (∃ n, fs = f.drop n) ∧
          ∀ j, ¬ (doff + i ≤ j ∧ j < doff + c) → d[j]? = dest[j]?) := by
  intro k
  induction k with
  | zero =>
    intro i dest f _ _
    left
    refine ⟨by simp [quiet], dest, by simp [safe_copy_loop], rfl, fun j => ?_⟩
    have : ¬ (doff + i ≤ j ∧ j < doff + i + 0) := by omega
    rw [if_neg this]
  | succ k ih =>
    intro i dest f hs hd
    have h1 : soff + i < src.length := by omega
    have h2 : doff + i < dest.length := by omega
    have e1 : src[soff + i]? = some src[soff + i] := List.getElem?_eq_getElem h1
    cases f with
    | nil =>
      have hl : (dest.set (doff + i) src[soff + i]).length = dest.length := by simp
      rcases ih (i + 1) (dest.set (doff + i) src[soff + i]) [] (by omega) (by rw [hl]; omega) with
        ⟨_, d, hd1, hd2, hd3⟩ | ⟨hq, _⟩
      · left
        refine ⟨quiet_succ_nil, d, ?_, by rw [hd2, hl], fun j => ?_⟩
        · simp only [safe_copy_loop, e1, h2, copy_T, if_true]
          simpa using hd1
        · rw [hd3 j, List.getElem?_set]
          by_cases c1 : doff + (i + 1) ≤ j ∧ j < doff + (i + 1) + k
          · have : doff + i ≤ j ∧ j < doff + i + (k + 1) := by omega
            rw [if_pos c1, if_pos this]
          · rw [if_neg c1]
            by_cases c2 : doff + i = j
            · subst c2
              have : doff + i ≤ doff + i ∧ doff + i < doff + i + (k + 1) := by omega
              rw [if_pos rfl, if_pos h2, if_pos this]
              have : soff + (doff + i - doff) = soff + i := by omega
              rw [this, e1]
            · have : ¬ (doff + i ≤ j ∧ j < doff + i + (k + 1)) := by omega
              rw [if_neg c2, if_neg this]
      · exact absurd quiet_succ_nil hq
    | cons b fs =>
      cases b with
      | true =>
        right
        refine ⟨by simp [quiet_succ], i, dest, fs, ?_, le_refl _, by omega, rfl, ⟨1, rfl⟩,
          fun j _ => rfl⟩
        simp only [safe_copy_loop, e1, h2, copy_T, if_true]
      | false =>
        have hl : (dest.set (doff + i) src[soff + i]).length = dest.length := by simp
        have hstep : safe_copy_loop src soff doff (k + 1) i dest (false :: fs) =
            safe_copy_loop src soff doff k (i + 1) (dest.set (doff + i) src[soff + i]) fs := by
          simp only [safe_copy_loop, e1, h2, copy_T, if_true]
        rcases ih (i + 1) (dest.set (doff + i) src[soff + i]) fs (by omega) (by rw [hl]; omega) with
          ⟨hq, d, hd1, hd2, hd3⟩ | ⟨hq, c, d, fs1, hd1, hc1, hc2, hd2, ⟨n, hn⟩, hd3⟩
        · left
          refine ⟨by simp [quiet_succ, hq], d, ?_, by rw [hd2, hl], fun j => ?_⟩
          · rw [hstep]; simpa using hd1
          · rw [hd3 j, List.getElem?_set]
            by_cases c1 : doff + (i + 1) ≤ j ∧ j < doff + (i + 1) + k
            · have : doff + i ≤ j ∧ j < doff + i + (k + 1) := by omega
              rw [if_pos c1, if_pos this]
            · rw [if_neg c1]
              by_cases c2 : doff + i = j
              · subst c2
                have : doff + i ≤ doff + i ∧ doff + i < doff + i + (k + 1) := by omega
                rw [if_pos rfl, if_pos h2, if_pos this]
                have : soff + (doff + i - doff) = soff + i := by omega
                rw [this, e1]
              · have : ¬ (doff + i ≤ j ∧ j < doff + i + (k + 1)) := by omega
                rw [if_neg c2, if_neg this]
        · right
          refine ⟨by simp [quiet_succ, hq], c, d, fs1, by rw [hstep]; exact hd1, by omega,
            by omega, by rw [hd2, hl], ⟨n + 1, by simpa using hn⟩, fun j hj => ?_⟩
          rw [hd3 j (by omega), List.getElem?_set]
          have : doff + i ≠ j := by omega
          rw [if_neg this]

theorem safe_copy_cases (dest : Cells T) (doff : Nat) (src : Cells T) (soff n : Nat)
    (f : List Bool) (hs : soff + n ≤ src.length) (hd : doff + n ≤ dest.length) :
    (quiet n f ∧ ∃ d, safe_copy dest doff src soff n f = .ok (d, f.drop n) ∧
        d.length = dest.length ∧
        ∀ j, d[j]? = if doff ≤ j ∧ j < doff + n then src[soff + (j - doff)]? else dest[j]?) ∨
      (¬ quiet n f ∧ ∃ c d fs, safe_copy dest doff src soff n f = .threw (d, fs) ∧ c < n ∧
        d.length = dest.length ∧ (∃ k, fs = f.drop k) ∧
        ∀ j, d[j]? = if doff ≤ j ∧ j < doff + c then some none else dest[j]?) := by
  rcases safe_copy_loop_cases src soff doff n 0 dest f (by omega) (by omega) with
    ⟨hq, d, h1, h2, h3⟩ | ⟨hq, c, d, fs, h1, _, h2, h3, h4, h5⟩
  · left
    refine ⟨hq, d, by simp [safe_copy, h1], h2, fun j => by simpa using h3 j⟩
  · right
    obtain ⟨d1, e1, e2, e3⟩ := safe_clear_spec c d doff (by omega)
    refine ⟨hq, c, d1, fs, by simp [safe_copy, h1, e1], by omega, by rw [e2, h3], h4,
      fun j => ?_⟩
    rw [e3 j]
    by_cases c1 : doff ≤ j ∧ j < doff + c
    · rw [if_pos c1, if_pos c1]
    · rw [if_neg c1, if_neg c1]
      exact h5 j (by omega)

/-- Copy of `n` cells to the front of `dest` from the front of `src`. -/
theorem safe_copy_front (dest src : Cells T) (n : Nat) (f : List Bool)
    (hs : n ≤ src.length) (hd : n ≤ dest.length) :
    (quiet n f ∧ safe_copy dest 0 src 0 n f = .ok (src.take n ++ dest.drop n, f.drop n)) ∨
      (¬ quiet n f ∧ ∃ c fs, safe_copy dest 0 src 0 n f =
        .threw (List.replicate c none ++ dest.drop c, fs) ∧ c < n ∧ ∃ k, fs = f.drop k) := by
  rcases safe_copy_cases dest 0 src 0 n f (by omega) (by omega) with
    ⟨hq, d, h1, h2, h3⟩ | ⟨hq, c, d, fs, h1, h2, h3, h4, h5⟩
  · left
    refine ⟨hq, ?_⟩
    rw [h1]
    have : d = src.take n ++ dest.drop n := by
      apply List.ext_getElem?
      intro j
      rw [h3 j, List.getElem?_append, List.getElem?_take, List.getElem?_drop]
      by_cases c : j < n
      · simp [c, hs]
      · have e : n + (j - (min n src.length)) = j := by omega
        simp [c, e]
    rw [this]
  · right
    refine ⟨hq, c, fs, ?_, h2, h4⟩
    rw [h1]
    have : d = List.replicate c none ++ dest.drop c := by
      apply List.ext_getElem?
      intro j
      rw [h5 j, List.getElem?_append, List.getElem?_replicate, List.getElem?_drop]
      by_cases c1 : j < c
      · simp [c1]
      · have e : c + (j - c) = j := by omega
        simp [c1, e]
    rw [this]

end CopyLemmas

end Socow

namespace Socow

section Structure

variable {T : Type}

@[simp] theorem size_set_dynamic (v : socow_vector T) (q : Nat) :
    (v.set_dynamic q).size_ = v.size_ := rfl

@[simp] theorem size_set_static (v : socow_vector T) (cs : Cells T) :
    (v.set_static cs).size_ = v.size_ := rfl

@[simp] theorem small_set_dynamic (v : socow_vector T) (q : Nat) :
    (v.set_dynamic q).is_small_ = v.is_small_ := rfl

@[simp] theorem small_set_static (v : socow_vector T) (cs : Cells T) :
    (v.set_static cs).is_small_ = v.is_small_ := rfl

@[simp] theorem store_set_dynamic (v : socow_vector T) (q : Nat) :
    (v.set_dynamic q).store = .handle q := rfl

@[simp] theorem store_set_static (v : socow_vector T) (cs : Cells T) :
    (v.set_static cs).store = .cells cs := rfl

@[simp] theorem static_set_static (N : Nat) (v : socow_vector T) (cs : Cells T) :
    (v.set_static cs).static_storage_ N = cs := rfl

theorem swf_small {N : Nat} {m : Mem T} {v : socow_vector T} (hs : v.is_small_ = true) :
    swf N m v = true ↔ v.size_ ≤ N ∧ (v.static_storage_ N).length = N := by
  simp [swf, hs]

theorem swf_big {N : Nat} {m : Mem T} {v : socow_vector T} (hs : v.is_small_ = false) :
    swf N m v = true ↔ ∃ p b, v.store = .handle p ∧ m.buf p = some b ∧
      b.data.length = b.capacity ∧ 1 ≤ b.ref_count ∧ v.size_ ≤ b.capacity := by
  unfold swf socow_vector.dynamic_storage_
  rw [hs]
  cases hst : v.store with
  | cells cs => simp
  | handle p =>
    cases hb : m.buf p with
    | none => simp [hb]
    | some b => simp [hb, and_assoc]

theorem swf_cases {N : Nat} {m : Mem T} {v : socow_vector T} (h : swf N m v = true) :
    (v.is_small_ = true ∧ v.size_ ≤ N ∧ (v.static_storage_ N).length = N) ∨
      (v.is_small_ = false ∧ ∃ p b, v.store = .handle p ∧ m.buf p = some b ∧
        b.data.length = b.capacity ∧ 1 ≤ b.ref_count ∧ v.size_ ≤ b.capacity) := by
  cases hs : v.is_small_ with
  | true => left; exact ⟨rfl, (swf_small hs).1 h⟩
  | false => right; exact ⟨rfl, (swf_big hs).1 h⟩

theorem own_small {v : socow_vector T} (hs : v.is_small_ = true) : own v = none := by
  simp [own, hs]

theorem own_big {v : socow_vector T} {p : Nat} (hs : v.is_small_ = false)
    (hp : v.store = .handle p) : own v = some p := by
  simp [own, hs, socow_vector.dynamic_storage_, hp]

theorem Step.refl (m : Mem T) (v : socow_vector T) : Step m v m v where
  grow := le_refl _
  sched := ⟨0, rfl⟩
  others := fun _ _ _ => rfl
  mine := fun p b h1 h2 => Or.inl ⟨h1, b, h2, rfl, rfl, fun _ => rfl⟩
  fresh := fun a h1 h2 => absurd h2 (by omega)
  stay := fun _ h _ => h

theorem Step.setFaults_drop (m : Mem T) (v : socow_vector T) (k : Nat) :
    Step m v (m.setFaults (m.faults.drop k)) v where
  grow := le_refl _
  sched := ⟨k, rfl⟩
  others := fun _ _ _ => rfl
  mine := fun p b h1 h2 => Or.inl ⟨h1, b, h2, rfl, rfl, fun _ => rfl⟩
  fresh := fun a h1 h2 => absurd h2 (by simp; omega)
  stay := fun _ h _ => h

theorem copy_on_write_cases {N : Nat} {m : Mem T} {v : socow_vector T} {p : Nat}
    {b : dynamic_buf T} (hs : v.is_small_ = false) (hp : v.store = .handle p)
    (hb : m.buf p = some b) (hl : b.data.length = b.capacity) (hn : v.size_ ≤ b.capacity) :
    (quiet v.size_ m.faults ∧
        copy_on_write_ N m v = .ok (cow_mem m p b v.size_, v.set_dynamic m.heap.length)) ∨
      (¬ quiet v.size_ m.faults ∧ ∃ fs, copy_on_write_ N m v =
        .threw (((allocate m b.capacity).1.free m.heap.length).setFaults fs, v) ∧
        ∃ k, fs = m.faults.drop k) := by
  have hplt := buf_lt hb
  have e1 : capacity N m v = some b.capacity := by
    simp [capacity, hs, socow_vector.dynamic_storage_, hp, hb]
  have e2 : (allocate m b.capacity).1.buf p = some b := by
    rw [buf_allocate_old _ hplt, hb]
  have e3 := buf_allocate_new m b.capacity
  unfold copy_on_write_
  simp only [e1, socow_vector.dynamic_storage_, hp, addr_allocate, e2, e3, faults_allocate]
  rcases safe_copy_front (List.replicate b.capacity none) b.data v.size_ m.faults
      (by omega) (by simp; omega) with ⟨hq, h1⟩ | ⟨hq, c, fs, h1, _, hk⟩
  · left
    refine ⟨hq, ?_⟩
    rw [h1]
    have hne : m.heap.length ≠ p := by omega
    simp only [buf_put_ne _ hne, buf_setFaults, e2]
    rfl
  · right
    refine ⟨hq, fs, ?_, hk⟩
    rw [h1]

end Structure

end Socow

namespace Socow

section Cow

variable {T : Type}

theorem heap_get_eq_buf {m : Mem T} {p : Nat} {b : dynamic_buf T} (h : m.buf p = some b) :
    m.heap[p]? = some (some b) := buf_eq_some.1 h

theorem cow_mem_len (m : Mem T) (p : Nat) (b : dynamic_buf T) (n : Nat) :
    (cow_mem m p b n).heap.length = m.heap.length + 1 := by
  simp [cow_mem]

theorem cow_mem_other (m : Mem T) (p : Nat) (b : dynamic_buf T) (n : Nat) {a : Nat}
    (h1 : a < m.heap.length) (h2 : a ≠ p) : (cow_mem m p b n).heap[a]? = m.heap[a]? := by
  have : m.heap.length ≠ a := by omega
  simp [cow_mem, List.getElem?_set, List.getElem?_append, h1, Ne.symm h2, this]

theorem cow_mem_old (m : Mem T) {p : Nat} (b : dynamic_buf T) (n : Nat)
    (h1 : p < m.heap.length) :
    (cow_mem m p b n).heap[p]? = some (some { b with ref_count := b.ref_count - 1 }) := by
  simp [cow_mem, List.getElem?_set, List.getElem?_append, h1]

theorem cow_mem_new (m : Mem T) {p : Nat} (b : dynamic_buf T) (n : Nat)
    (h1 : p < m.heap.length) :
    (cow_mem m p b n).buf m.heap.length =
      some ⟨b.capacity, 1, b.data.take n ++ (List.replicate b.capacity none).drop n⟩ := by
  rw [buf_eq_some]
  have : p ≠ m.heap.length := by omega
  simp [cow_mem, List.getElem?_set, List.getElem?_append, this]

theorem cow_mem_faults (m : Mem T) (p : Nat) (b : dynamic_buf T) (n : Nat) :
    (cow_mem m p b n).faults = m.faults.drop n := by
  simp [cow_mem]

theorem own_set_dynamic {v : socow_vector T} (hs : v.is_small_ = false) (q : Nat) :
    own (v.set_dynamic q) = some q := by
  simp [own, socow_vector.set_dynamic, hs, socow_vector.dynamic_storage_]

theorem step_cow {m : Mem T} {v : socow_vector T} {p : Nat} {b : dynamic_buf T}
    (hs : v.is_small_ = false) (hp : v.store = .handle p) (hb : m.buf p = some b)
    (hr : 1 < b.ref_count) :
    Step m v (cow_mem m p b v.size_) (v.set_dynamic m.heap.length) where
  grow := by rw [cow_mem_len]; omega
  sched := ⟨v.size_, cow_mem_faults _ _ _ _⟩
  others := fun a h1 h2 => by
    rw [own_big hs hp] at h2
    exact cow_mem_other m p b _ h1 (fun h => h2 (by rw [h]))
  mine := fun p1 b1 h1 h2 => by
    rw [own_big hs hp] at h1
    cases h1
    rw [hb] at h2
    cases h2
    right
    have hplt := buf_lt hb
    refine ⟨?_, ?_⟩
    · rw [own_set_dynamic hs]
      intro h
      cases h
      omega
    · rw [cow_mem_old m b _ hplt]
      simp [release, hr]
  fresh := fun a h1 h2 => by
    rw [cow_mem_len] at h2
    have : a = m.heap.length := by omega
    subst this
    left
    exact ⟨own_set_dynamic hs _, _, cow_mem_new m b _ (buf_lt hb), rfl⟩
  stay := fun a h1 h2 => by
    rw [own_set_dynamic hs] at h1
    cases h1
    omega

end Cow

end Socow

namespace Socow

section StepLemmas

variable {T : Type}

theorem release_eq_of {b b1 : dynamic_buf T} (h1 : b1.ref_count = b.ref_count)
    (h2 : 1 < b.ref_count → b1 = b) : release b1 = release b := by
  by_cases h : 1 < b.ref_count
  · rw [h2 h]
  · unfold release
    rw [h1]
    simp [h]

theorem release_one {b : dynamic_buf T} (h : b.ref_count = 1) : release b = none := by
  simp [release, h]

theorem Step.trans {m m1 m2 : Mem T} {v v1 v2 : socow_vector T} (s1 : Step m v m1 v1)
    (s2 : Step m1 v1 m2 v2) : Step m v m2 v2 where
  grow := le_trans s1.grow s2.grow
  sched := by
    obtain ⟨k1, h1⟩ := s1.sched
    obtain ⟨k2, h2⟩ := s2.sched
    exact ⟨k1 + k2, by rw [h2, h1, List.drop_drop]⟩
  others := fun a h1 h2 => by
    have h3 : own v1 ≠ some a := fun h => h2 (s1.stay a h h1)
    rw [s2.others a (lt_of_lt_of_le h1 s1.grow) h3, s1.others a h1 h2]
  mine := fun p b h1 h2 => by
    have hp := buf_lt h2
    rcases s1.mine p b h1 h2 with ⟨o1, b1, e1, e2, e3, e4⟩ | ⟨o1, e1⟩
    · rcases s2.mine p b1 o1 e1 with ⟨o2, b2, f1, f2, f3, f4⟩ | ⟨o2, f1⟩
      · left
        refine ⟨o2, b2, f1, by rw [f2, e2], by rw [f3, e3], fun h => ?_⟩
        rw [f4 (by rw [e2]; exact h), e4 h]
      · right
        exact ⟨o2, by rw [f1, release_eq_of e2 e4]⟩
    · right
      have hp1 : p < m1.heap.length := lt_of_lt_of_le hp s1.grow
      refine ⟨fun h => o1 (s2.stay p h hp1), ?_⟩
      rw [s2.others p hp1 o1, e1]
  fresh := fun a h1 h2 => by
    by_cases h3 : a < m1.heap.length
    · rcases s1.fresh a h1 h3 with ⟨o1, b1, e1, e2⟩ | ⟨o1, e1⟩
      · rcases s2.mine a b1 o1 e1 with ⟨o2, b2, f1, f2, _, _⟩ | ⟨o2, f1⟩
        · left
          exact ⟨o2, b2, f1, by rw [f2, e2]⟩
        · right
          exact ⟨o2, by rw [f1, release_one e2]⟩
      · right
        refine ⟨fun h => o1 (s2.stay a h h3), ?_⟩
        rw [s2.others a h3 o1, e1]
    · exact s2.fresh a (by omega) h2
  stay := fun a h1 h2 =>
    s1.stay a (s2.stay a h1 (lt_of_lt_of_le h2 s1.grow)) h2

theorem contents_small {N : Nat} {m : Mem T} {v : socow_vector T} (hs : v.is_small_ = true)
    (hn : v.size_ ≤ (v.static_storage_ N).length) :
    contents N m v = some ((v.static_storage_ N).take v.size_) := by
  simp [contents, const_data_, hs, load, hn]

theorem contents_big {N : Nat} {m : Mem T} {v : socow_vector T} {p : Nat} {b : dynamic_buf T}
    (hs : v.is_small_ = false) (hp : v.store = .handle p) (hb : m.buf p = some b)
    (hn : v.size_ ≤ b.data.length) : contents N m v = some (b.data.take v.size_) := by
  simp [contents, const_data_, hs, socow_vector.dynamic_storage_, hp, load, hb, hn]

theorem contents_of_swf {N : Nat} {m : Mem T} {v : socow_vector T} (h : swf N m v = true) :
    ∃ cs, contents N m v = some cs ∧ cs.length = v.size_ := by
  rcases swf_cases h with ⟨hs, h1, h2⟩ | ⟨hs, p, b, hp, hb, h1, _, h2⟩
  · exact ⟨_, contents_small hs (by omega), by simp; omega⟩
  · exact ⟨_, contents_big hs hp hb (by omega), by simp; omega⟩

theorem swf_mk_big {N : Nat} {m : Mem T} {v : socow_vector T} {p : Nat} {b : dynamic_buf T}
    (hs : v.is_small_ = false) (hp : v.store = .handle p) (hb : m.buf p = some b)
    (h1 : b.data.length = b.capacity) (h2 : 1 ≤ b.ref_count) (h3 : v.size_ ≤ b.capacity) :
    swf N m v = true :=
  (swf_big hs).2 ⟨p, b, hp, hb, h1, h2, h3⟩

end StepLemmas

end Socow

namespace Socow

section CheckCow

variable {T : Type}

theorem not_no_faults_of_not_quiet {m : Mem T} {k : Nat} (h : ¬ quiet k m.faults) :
    ¬ no_faults m := fun h1 => h (quiet_of_all h1 k)

theorem no_faults_of_step {m m1 : Mem T} {v v1 : socow_vector T} (s : Step m v m1 v1)
    (h : no_faults m) : no_faults m1 := by
  obtain ⟨k, hk⟩ := s.sched
  unfold no_faults
  rw [hk]
  exact all_drop h k

theorem capacity_big {N : Nat} {m : Mem T} {v : socow_vector T} {p : Nat} {b : dynamic_buf T}
    (hs : v.is_small_ = false) (hp : v.store = .handle p) (hb : m.buf p = some b) :
    capacity N m v = some b.capacity := by
  simp [capacity, hs, socow_vector.dynamic_storage_, hp, hb]

theorem capacity_small {N : Nat} {m : Mem T} {v : socow_vector T} (hs : v.is_small_ = true) :
    capacity N m v = some N := by
  simp [capacity, hs]

theorem check_cow_small {N : Nat} {m : Mem T} {v : socow_vector T} (hs : v.is_small_ = true) :
    check_cow_ N m v = .ok (m, v) := by
  simp [check_cow_, hs]

theorem check_cow_big {N : Nat} {m : Mem T} {v : socow_vector T} {p : Nat} {b : dynamic_buf T}
    (hs : v.is_small_ = false) (hp : v.store = .handle p) (hb : m.buf p = some b) :
    check_cow_ N m v = if b.ref_count > 1 then copy_on_write_ N m v else .ok (m, v) := by
  simp [check_cow_, hs, socow_vector.dynamic_storage_, hp, hb]

theorem check_cow_excl {N : Nat} {m : Mem T} {v : socow_vector T} (h : excl m v) :
    check_cow_ N m v = .ok (m, v) := by
  cases hs : v.is_small_ with
  | true => exact check_cow_small hs
  | false =>
    rcases h with h | ⟨p, b, hp, hb, hr⟩
    · rw [hs] at h; cases h
    · rw [check_cow_big hs hp hb, if_neg (by omega)]

theorem check_cow_cases {N : Nat} {m : Mem T} {v : socow_vector T} (h : swf N m v = true) :
    (∃ m1 v1, check_cow_ N m v = .ok (m1, v1) ∧ Step m v m1 v1 ∧ swf N m1 v1 = true ∧
        contents N m1 v1 = contents N m v ∧ excl m1 v1 ∧ v1.size_ = v.size_ ∧
        v1.is_small_ = v.is_small_ ∧ capacity N m1 v1 = capacity N m v) ∨
      (∃ e, check_cow_ N m v = .threw e ∧ ¬ no_faults m) := by
  rcases swf_cases h with ⟨hs, _, _⟩ | ⟨hs, p, b, hp, hb, h1, h2, h3⟩
  · left
    exact ⟨m, v, check_cow_small hs, Step.refl m v, h, rfl, Or.inl hs, rfl, rfl, rfl⟩
  · rw [check_cow_big hs hp hb]
    by_cases hr : b.ref_count > 1
    · rw [if_pos hr]
      rcases copy_on_write_cases hs hp hb h1 h3 with ⟨_, e⟩ | ⟨hq, fs, e, _⟩
      · left
        have hplt := buf_lt hb
        have hnew := cow_mem_new m b v.size_ hplt
        have hs1 : (v.set_dynamic m.heap.length).is_small_ = false := hs
        have hp1 : (v.set_dynamic m.heap.length).store = .handle m.heap.length := rfl
        refine ⟨_, _, e, step_cow hs hp hb hr, ?_, ?_, ?_, rfl, rfl, ?_⟩
        · exact swf_mk_big hs1 hp1 hnew (by simp; omega) (le_refl _) h3
        · rw [contents_big hs1 hp1 hnew (by simp; omega),
            contents_big hs hp hb (by omega)]
          exact congrArg some (List.take_left' (by simp; omega))
        · exact Or.inr ⟨_, _, hp1, hnew, rfl⟩
        · rw [capacity_big hs1 hp1 hnew, capacity_big hs hp hb]
      · right
        exact ⟨_, e, not_no_faults_of_not_quiet hq⟩
    · rw [if_neg hr]
      left
      exact ⟨m, v, rfl, Step.refl m v, h, rfl, Or.inr ⟨p, b, hp, hb, by omega⟩, rfl, rfl, rfl⟩

theorem const_data_small {v : socow_vector T} (hs : v.is_small_ = true) :
    const_data_ v = some .inline := by
  simp [const_data_, hs]

theorem const_data_big {v : socow_vector T} {p : Nat} (hs : v.is_small_ = false)
    (hp : v.store = .handle p) : const_data_ v = some (.block p) := by
  simp [const_data_, hs, socow_vector.dynamic_storage_, hp]

theorem const_data_of_swf {N : Nat} {m : Mem T} {v : socow_vector T} (h : swf N m v = true) :
    ∃ r, const_data_ v = some r := by
  rcases swf_cases h with ⟨hs, _, _⟩ | ⟨hs, p, b, hp, _⟩
  · exact ⟨_, const_data_small hs⟩
  · exact ⟨_, const_data_big hs hp⟩

theorem data_excl {N : Nat} {m : Mem T} {v : socow_vector T} {r : Region} (h : excl m v)
    (hr : const_data_ v = some r) : data N m v = .ok ((m, v), r) := by
  simp [data, check_cow_excl h, hr]

theorem data_cases {N : Nat} {m : Mem T} {v : socow_vector T} (h : swf N m v = true) :
    (∃ m1 v1 r, data N m v = .ok ((m1, v1), r) ∧ const_data_ v1 = some r ∧ Step m v m1 v1 ∧
        swf N m1 v1 = true ∧ contents N m1 v1 = contents N m v ∧ excl m1 v1 ∧
        v1.size_ = v.size_ ∧ v1.is_small_ = v.is_small_ ∧
        capacity N m1 v1 = capacity N m v) ∨
      (∃ e, data N m v = .threw e ∧ ¬ no_faults m) := by
  rcases check_cow_cases h with ⟨m1, v1, e, h1, h2, h3, h4, h5, h6, h7⟩ | ⟨e, h1, h2⟩
  · left
    obtain ⟨r, hr⟩ := const_data_of_swf h2
    exact ⟨m1, v1, r, by simp [data, e, hr], hr, h1, h2, h3, h4, h5, h6, h7⟩
  · right
    exact ⟨e, by simp [data, h1], h2⟩

end CheckCow

end Socow

namespace Socow

section Release

variable {T : Type}

theorem released_small {m : Mem T} {v : socow_vector T} (hs : v.is_small_ = true) :
    released m v = m.heap := by
  simp [released, own_small hs]

theorem released_big {m : Mem T} {v : socow_vector T} {p : Nat} {b : dynamic_buf T}
    (hs : v.is_small_ = false) (hp : v.store = .handle p) (hb : m.buf p = some b) :
    released m v = m.heap.set p (release b) := by
  simp [released, own_big hs hp, hb]

@[simp] theorem released_length (m : Mem T) (v : socow_vector T) :
    (released m v).length = m.heap.length := by
  unfold released
  split
  · rfl
  · split <;> simp

theorem released_other {m : Mem T} {v : socow_vector T} {a : Nat} (h : own v ≠ some a) :
    (released m v)[a]? = m.heap[a]? := by
  unfold released
  split
  · rfl
  · next p hp =>
    split
    · have : p ≠ a := fun e => h (by rw [hp, e])
      simp [List.getElem?_set, this]
    · rfl

theorem released_mine {m : Mem T} {v : socow_vector T} {p : Nat} {b : dynamic_buf T}
    (ho : own v = some p) (hb : m.buf p = some b) :
    (released m v)[p]? = some (release b) := by
  simp [released, ho, hb, List.getElem?_set, buf_lt hb]

theorem load_of_swf {N : Nat} {m : Mem T} {v : socow_vector T} (h : swf N m v = true) :
    ∃ r src, const_data_ v = some r ∧ load N m v r = some src ∧ v.size_ ≤ src.length ∧
      contents N m v = some (src.take v.size_) ∧ capacity N m v = some src.length := by
  rcases swf_cases h with ⟨hs, h1, h2⟩ | ⟨hs, p, b, hp, hb, h1, _, h2⟩
  · exact ⟨_, _, const_data_small hs, rfl, by omega, contents_small hs (by omega),
      by rw [capacity_small hs, h2]⟩
  · exact ⟨_, _, const_data_big hs hp, by simp [load, hb], by omega,
      contents_big hs hp hb (by omega), by rw [capacity_big hs hp hb, h1]⟩

theorem load_congr {N : Nat} {m m1 : Mem T} {v : socow_vector T} {r : Region}
    (h : ∀ p, r = .block p → m1.buf p = m.buf p) : load N m1 v r = load N m v r := by
  cases r with
  | inline => rfl
  | block p => simp [load, h p rfl]

theorem dyn_buf_delete_eq {m : Mem T} {p : Nat} {b : dynamic_buf T} {n : Nat}
    (hb : m.buf p = some b) (hn : n ≤ b.data.length) :
    dyn_buf_delete m p n = some ⟨m.heap.set p (release b), m.faults⟩ := by
  unfold dyn_buf_delete
  rw [hb]
  by_cases hr : b.ref_count > 1
  · simp only [if_pos hr]
    have : release b = some { b with ref_count := b.ref_count - 1 } := by
      simp only [release, if_pos hr]
    rw [this]
    rfl
  · simp only [if_neg hr]
    obtain ⟨d, hd⟩ := safe_clear_isSome n b.data 0 (by omega)
    rw [hd]
    have : release b = none := by
      simp only [release, if_neg hr]
    rw [this]
    rfl

theorem buf_delete_eq {N : Nat} {m : Mem T} {v : socow_vector T} (h : swf N m v = true) :
    ∃ v2, buf_delete_ N m v = some (⟨released m v, m.faults⟩, v2) ∧ v2.size_ = v.size_ ∧
      v2.is_small_ = v.is_small_ ∧ ∀ q, v2.set_dynamic q = v.set_dynamic q := by
  rcases swf_cases h with ⟨hs, h1, h2⟩ | ⟨hs, p, b, hp, hb, h1, _, h2⟩
  · obtain ⟨d, hd⟩ := safe_clear_isSome v.size_ (v.static_storage_ N) 0
      (by omega)
    refine ⟨v.set_static d, ?_, rfl, rfl, fun _ => rfl⟩
    simp [buf_delete_, hs, hd, released_small hs]
  · refine ⟨v, ?_, rfl, rfl, fun _ => rfl⟩
    simp [buf_delete_, hs, socow_vector.dynamic_storage_, hp,
      dyn_buf_delete_eq hb (show v.size_ ≤ b.data.length by omega), released_big hs hp hb]

theorem swf_congr {N : Nat} {m m1 : Mem T} {v : socow_vector T}
    (h : ∀ p, own v = some p → m1.buf p = m.buf p) : swf N m1 v = swf N m v := by
  unfold swf
  cases hs : v.is_small_ with
  | true => rfl
  | false =>
    cases hd : v.dynamic_storage_ with
    | none => rfl
    | some p =>
      have : own v = some p := by simp [own, hs, hd]
      simp [h p this]

theorem released_congr {m m1 : Mem T} {v : socow_vector T} {x : Option (dynamic_buf T)}
    (hh : m1.heap = m.heap ++ [x]) (hl : ∀ p, own v = some p → p < m.heap.length) :
    released m1 v = released m v ++ [x] := by
  unfold released
  cases ho : own v with
  | none => exact hh
  | some p =>
    have hp := hl p ho
    have e : m1.buf p = m.buf p := by
      apply buf_congr
      rw [hh, List.getElem?_append_left hp]
    simp only [e]
    cases hb : m.buf p with
    | none => exact hh
    | some b =>
      simp only [hh]
      rw [List.set_append_left _ _ hp]

theorem own_lt_of_swf {N : Nat} {m : Mem T} {v : socow_vector T} (h : swf N m v = true) :
    ∀ p, own v = some p → p < m.heap.length := by
  intro p hp
  rcases swf_cases h with ⟨hs, _, _⟩ | ⟨hs, q, b, hq, hb, _⟩
  · rw [own_small hs] at hp; cases hp
  · rw [own_big hs hq] at hp
    cases hp
    exact buf_lt hb

theorem static_length_of_swf {N : Nat} {m : Mem T} {v : socow_vector T}
    (h : swf N m v = true) : (v.static_storage_ N).length = N := by
  rcases swf_cases h with ⟨_, _, h2⟩ | ⟨_, p, b, hp, _⟩
  · exact h2
  · simp [socow_vector.static_storage_, hp]

end Release

end Socow

namespace Socow

section Extend

variable {T : Type}

theorem step_relocate {m m1 : Mem T} {v v1 : socow_vector T} {nb : dynamic_buf T}
    (hh : m1.heap = released m v ++ [some nb]) (hr : nb.ref_count = 1)
    (hf : ∃ k, m1.faults = m.faults.drop k) (hs1 : v1.is_small_ = false)
    (hp1 : v1.store = .handle m.heap.length) : Step m v m1 v1 where
  grow := by rw [hh]; simp
  sched := hf
  others := fun a h1 h2 => by
    rw [hh, List.getElem?_append_left (by simpa using h1), released_other h2]
  mine := fun p b h1 h2 => by
    right
    have hp := buf_lt h2
    refine ⟨?_, ?_⟩
    · rw [own_big hs1 hp1]
      intro e
      cases e
      omega
    · rw [hh, List.getElem?_append_left (by simpa using hp), released_mine h1 h2]
  fresh := fun a h1 h2 => by
    rw [hh] at h2
    simp at h2
    have : a = m.heap.length := by omega
    subst this
    left
    refine ⟨own_big hs1 hp1, nb, ?_, hr⟩
    rw [buf_eq_some, hh, List.getElem?_append_right (by simp)]
    simp
  stay := fun a h1 h2 => by
    rw [own_big hs1 hp1] at h1
    cases h1
    omega

theorem step_small {m m1 : Mem T} {v v1 : socow_vector T} (hs : v.is_small_ = true)
    (hs1 : v1.is_small_ = true) (hh : m1.heap = m.heap)
    (hf : ∃ k, m1.faults = m.faults.drop k) : Step m v m1 v1 where
  grow := by rw [hh]
  sched := hf
  others := fun a _ _ => by rw [hh]
  mine := fun p b h1 _ => by rw [own_small hs] at h1; cases h1
  fresh := fun a h1 h2 => by rw [hh] at h2; omega
  stay := fun a h1 _ => by rw [own_small hs1] at h1; cases h1

theorem step_inplace {m m1 : Mem T} {v v1 : socow_vector T} {p : Nat} {b b1 : dynamic_buf T}
    (ho : own v = some p) (hb : m.buf p = some b) (hr : b.ref_count = 1)
    (hh : m1.heap = m.heap.set p (some b1)) (hr1 : b1.ref_count = 1)
    (hc1 : b1.capacity = b.capacity) (hf : ∃ k, m1.faults = m.faults.drop k)
    (ho1 : own v1 = some p) : Step m v m1 v1 where
  grow := by rw [hh]; simp
  sched := hf
  others := fun a _ h2 => by
    have : p ≠ a := fun e => h2 (by rw [ho, e])
    rw [hh, List.getElem?_set_ne this]
  mine := fun q c h1 h2 => by
    rw [ho] at h1
    cases h1
    rw [hb] at h2
    cases h2
    left
    refine ⟨ho1, b1, ?_, by rw [hr1, hr], hc1, fun h => by omega⟩
    rw [buf_eq_some, hh, List.getElem?_set_self (buf_lt hb)]
  fresh := fun a h1 h2 => by rw [hh] at h2; simp at h2; omega
  stay := fun a h1 _ => by rw [ho1] at h1; rw [ho, h1]

theorem step_to_inline {m m1 : Mem T} {v v1 : socow_vector T} (hs1 : v1.is_small_ = true)
    (hh : m1.heap = released m v) (hf : ∃ k, m1.faults = m.faults.drop k) :
    Step m v m1 v1 where
  grow := by rw [hh]; simp
  sched := hf
  others := fun a _ h2 => by rw [hh, released_other h2]
  mine := fun p b h1 h2 => by
    right
    exact ⟨by rw [own_small hs1]; simp, by rw [hh, released_mine h1 h2]⟩
  fresh := fun a h1 h2 => by rw [hh] at h2; simp at h2; omega
  stay := fun a h1 _ => by rw [own_small hs1] at h1; cases h1

theorem take_succ_set {cs : Cells T} {n : Nat} {c : Option T} (h : n < cs.length) :
    (cs.set n c).take (n + 1) = cs.take n ++ [c] := by
  apply List.ext_getElem?
  intro j
  have hl : (cs.take n).length = n := by simp; omega
  rw [List.getElem?_take, List.getElem?_set, List.getElem?_append, hl, List.getElem?_take]
  by_cases c1 : j < n
  · have : n ≠ j := by omega
    simp [c1, this, Nat.lt_succ_of_lt c1]
  · by_cases c2 : n = j
    · subst c2
      simp [h]
    · have c3 : ¬ j < n + 1 := by omega
      have c4 : j - n ≠ 0 := by omega
      simp [c1, c3]
      cases hj : j - n with
      | zero => exact absurd hj c4
      | succ k => omega

theorem extend_cases {N : Nat} {m : Mem T} {v : socow_vector T} {cs : Cells T} (el : T)
    {nc : Nat} (h : swf N m v = true) (hnc : v.size_ < nc) (hc : contents N m v = some cs) :
    (∃ m1 nb, extend_push_back_ N m v el nc = .ok (m1, v.set_dynamic m.heap.length) ∧
        m1.heap = released m v ++ [some nb] ∧ (∃ k, m1.faults = m.faults.drop k) ∧
        nb.capacity = nc ∧ nb.ref_count = 1 ∧ nb.data.length = nc ∧
        nb.data.take (v.size_ + 1) = cs ++ [some el]) ∨
      (∃ e, extend_push_back_ N m v el nc = .threw e ∧ ¬ no_faults m) := by
  obtain ⟨r, src, hr, hl, hn, hc1, _⟩ := load_of_swf h
  rw [hc] at hc1
  cases hc1
  have hold := own_lt_of_swf h
  have hl1 : load N (allocate m nc).1 v r = some src := by
    rw [← hl]
    apply load_congr
    intro p hp
    subst hp
    rcases swf_cases h with ⟨hs, _, _⟩ | ⟨hs, q, b, hq, hb, _⟩
    · rw [const_data_small hs] at hr; cases hr
    · rw [const_data_big hs hq] at hr
      cases hr
      exact buf_allocate_old _ (buf_lt hb)
  unfold extend_push_back_
  simp only [hr, hl1, addr_allocate, buf_allocate_new, faults_allocate]
  rcases safe_copy_front (List.replicate nc none) src v.size_ m.faults hn (by simp; omega) with
    ⟨_, e⟩ | ⟨hq, c, fs, e, _, _⟩
  · rw [e]
    have hlen : v.size_ < (src.take v.size_ ++ (List.replicate nc none).drop v.size_).length := by
      simp
      omega
    simp only [hlen, if_true]
    rcases copy_T_cases (m.faults.drop v.size_) with e1 | ⟨e1, hq⟩
    · left
      rw [e1]
      simp only
      have hsw : swf N (((allocate m nc).1.put m.heap.length
          { capacity := nc, ref_count := 1,
            data := (src.take v.size_ ++ (List.replicate nc none).drop v.size_).set v.size_
              (some el) }).setFaults ((m.faults.drop v.size_).drop 1)) v = true := by
        rw [← h]
        apply swf_congr
        intro p hp
        have := hold p hp
        rw [buf_setFaults, buf_put_ne _ (by omega), buf_allocate_old _ this]
      obtain ⟨v2, hv2, _, _, hv3⟩ := buf_delete_eq hsw
      rw [hv2]
      simp only [hv3]
      refine ⟨_, (⟨nc, 1, (src.take v.size_ ++ (List.replicate nc none).drop v.size_).set
          v.size_ (some el)⟩ : dynamic_buf T), rfl, ?_, ⟨v.size_ + 1, by simp [List.drop_drop]⟩, rfl, rfl, ?_, ?_⟩
      · simp only [heap_setFaults]
        apply released_congr _ hold
        simp
      · simp
        omega
      · rw [take_succ_set hlen, List.take_left' (by simp; omega)]
    · right
      rw [e1]
      simp only
      obtain ⟨d, hd⟩ := safe_clear_isSome v.size_
        (src.take v.size_ ++ (List.replicate nc none).drop v.size_) 0 (by omega)
      rw [hd]
      exact ⟨_, rfl, fun hnf => hq (all_drop hnf _)⟩
  · right
    rw [e]
    exact ⟨_, rfl, not_no_faults_of_not_quiet hq⟩

end Extend

end Socow

namespace Socow

section PushBack

variable {T : Type}

theorem buf_of_heap_append_new {m1 : Mem T} {h : List (Option (dynamic_buf T))}
    {nb : dynamic_buf T} (hh : m1.heap = h ++ [some nb]) : m1.buf h.length = some nb := by
  rw [buf_eq_some, hh, List.getElem?_append_right (le_refl _)]
  simp

/-- Facts about a state in which the container moved to a freshly allocated block. -/
theorem relocated_facts (N : Nat) {m m1 : Mem T} {v : socow_vector T} (v1 : socow_vector T)
    {nb : dynamic_buf T} (hh : m1.heap = released m v ++ [some nb]) (hr : nb.ref_count = 1)
    (hl : nb.data.length = nb.capacity) (hf : ∃ k, m1.faults = m.faults.drop k)
    (hs1 : v1.is_small_ = false) (hp1 : v1.store = .handle m.heap.length)
    (hn : v1.size_ ≤ nb.capacity) :
    Step m v m1 v1 ∧ swf N m1 v1 = true ∧ excl m1 v1 ∧ capacity N m1 v1 = some nb.capacity ∧
      contents N m1 v1 = some (nb.data.take v1.size_) ∧
      m1.heap.length = m.heap.length + 1 ∧ own v1 = some m.heap.length := by
  have hb : m1.buf m.heap.length = some nb := by
    have := buf_of_heap_append_new hh
    simpa using this
  exact ⟨step_relocate hh hr hf hs1 hp1, swf_mk_big hs1 hp1 hb hl (by omega) hn,
    Or.inr ⟨_, _, hp1, hb, hr⟩, capacity_big hs1 hp1 hb, contents_big hs1 hp1 hb (by omega),
    by rw [hh]; simp, own_big hs1 hp1⟩

theorem excl_small {m : Mem T} {v : socow_vector T} (hs : v.is_small_ = true) : excl m v :=
  Or.inl hs

theorem excl_big_iff {m : Mem T} {v : socow_vector T} {p : Nat} {b : dynamic_buf T}
    (hs : v.is_small_ = false) (hp : v.store = .handle p) (hb : m.buf p = some b) :
    excl m v ↔ b.ref_count = 1 := by
  constructor
  · rintro (h | ⟨q, c, hq, hc, hr⟩)
    · rw [hs] at h; cases h
    · rw [hp] at hq
      cases hq
      rw [hb] at hc
      cases hc
      exact hr
  · intro h
    exact Or.inr ⟨p, b, hp, hb, h⟩

theorem push_back_dynamic_eq {N : Nat} {m : Mem T} {v : socow_vector T} {p : Nat}
    {b : dynamic_buf T} (el : T) (hp : v.store = .handle p) (hb : m.buf p = some b)
    (hl : b.data.length = b.capacity) (hn : v.size_ ≤ b.capacity) :
    push_back_dynamic_ N m v el =
      if v.size_ = b.capacity then extend_push_back_ N m v el (2 * b.capacity + 1)
      else
        match copy_T m.faults with
        | (true, fs) => .threw (m.setFaults fs, v)
        | (false, fs) =>
          .ok ((m.setFaults fs).put p { b with data := b.data.set v.size_ (some el) }, v) := by
  unfold push_back_dynamic_
  simp only [socow_vector.dynamic_storage_, hp, hb]
  by_cases c : v.size_ = b.capacity
  · simp only [if_pos c]
  · have : v.size_ < b.data.length := by omega
    simp only [if_neg c, if_pos this]

/-- An append in place into the block the container owns alone. -/
theorem push_in_block_cases {N : Nat} {m : Mem T} {v : socow_vector T} {p : Nat}
    {b : dynamic_buf T} (el : T) (hp : v.store = .handle p)
    (hb : m.buf p = some b) (hl : b.data.length = b.capacity)
    (hn : v.size_ < b.capacity) :
    (∃ m1, push_back_dynamic_ N m v el = .ok (m1, v) ∧
        m1.heap = m.heap.set p (some { b with data := b.data.set v.size_ (some el) }) ∧
        (∃ k, m1.faults = m.faults.drop k)) ∨
      (∃ e, push_back_dynamic_ N m v el = .threw e ∧ ¬ no_faults m) := by
  rw [push_back_dynamic_eq el hp hb hl (by omega), if_neg (by omega)]
  rcases copy_T_cases m.faults with e | ⟨e, hq⟩
  · left
    rw [e]
    exact ⟨_, rfl, rfl, ⟨1, rfl⟩⟩
  · right
    rw [e]
    exact ⟨_, rfl, hq⟩

theorem no_faults_iff_of_drop {m m1 : Mem T} {k : Nat} (h : m1.faults = m.faults.drop k)
    (hn : ¬ no_faults m1) : ¬ no_faults m := by
  intro h1
  apply hn
  unfold no_faults
  rw [h]
  exact all_drop h1 k

end PushBack

end Socow

namespace Socow

section PushBackCases

variable {T : Type}

theorem push_back_small_room {N : Nat} {m : Mem T} {v : socow_vector T} (el : T)
    (hs : v.is_small_ = true) (h1 : v.size_ < N) (h2 : (v.static_storage_ N).length = N) :
    (∃ m1 v1, push_back N m v el = .ok (m1, v1) ∧
        push_post N m v el ((v.static_storage_ N).take v.size_) N m1 v1) ∨
      (∃ e, push_back N m v el = .threw e ∧ ¬ no_faults m) := by
  have hne : v.size_ ≠ N := by omega
  have hlt : v.size_ < (v.static_storage_ N).length := by omega
  unfold push_back push_back_body
  simp only [hs, if_true, if_neg hne, if_pos hlt]
  rcases copy_T_cases m.faults with e | ⟨e, hq⟩
  · left
    rw [e]
    simp only [bind_ok]
    have hs1 : (⟨v.size_ + 1, true, .cells ((v.static_storage_ N).set v.size_ (some el))⟩ :
        socow_vector T).is_small_ = true := rfl
    refine ⟨m.setFaults (m.faults.drop 1),
      ⟨v.size_ + 1, true, .cells ((v.static_storage_ N).set v.size_ (some el))⟩, ?_,
      step_small hs hs1 rfl ⟨1, rfl⟩, ?_, ?_, rfl, Or.inl hs1, ?_, ?_, ?_, ?_⟩
    · simp [socow_vector.set_static, hs]
    · rw [swf_small hs1]
      refine ⟨by show v.size_ + 1 ≤ N; omega, ?_⟩
      show ((v.static_storage_ N).set v.size_ (some el)).length = N
      simpa using h2
    · have hl2 : v.size_ + 1 ≤ ((v.static_storage_ N).set v.size_ (some el)).length := by
        simp; omega
      rw [contents_small hs1 hl2]
      exact congrArg some (take_succ_set hlt)
    · rw [capacity_small hs1, if_pos h1]
    · simp [hs, h1]
    · intro _
      exact ⟨rfl, by rw [own_small hs, own_small hs1]⟩
    · intro hx
      exact absurd ⟨Or.inl hs, h1⟩ hx
  · right
    rw [e]
    exact ⟨_, rfl, hq⟩

theorem push_back_small_full {N : Nat} {m : Mem T} {v : socow_vector T} {cs : Cells T} (el : T)
    (h : swf N m v = true) (hc : contents N m v = some cs) (hs : v.is_small_ = true)
    (h1 : v.size_ = N) :
    (∃ m1 v1, push_back N m v el = .ok (m1, v1) ∧ push_post N m v el cs N m1 v1) ∨
      (∃ e, push_back N m v el = .threw e ∧ ¬ no_faults m) := by
  unfold push_back push_back_body transform_push_back_
  simp only [hs, if_true, if_pos h1]
  rcases extend_cases el h (show v.size_ < 2 * v.size_ + 1 by omega) hc with
    ⟨m1, nb, e, hh, hf, n1, n2, n3, n4⟩ | ⟨e, he, hq⟩
  · left
    rw [e]
    simp only [bind_ok]
    obtain ⟨f1, f2, f3, f4, f5, f6, f7⟩ := relocated_facts N
      ⟨v.size_ + 1, false, .handle m.heap.length⟩ hh n2 (by omega) hf rfl rfl (by simp; omega)
    refine ⟨m1, ⟨v.size_ + 1, false, .handle m.heap.length⟩, rfl, f1, f2, ?_, rfl, f3, ?_, ?_,
      ?_, ?_⟩
    · rw [← n4]; exact f5
    · rw [if_neg (by omega)]
      rw [f4, n1, h1]
    · simp
      intro _
      omega
    · intro hx; omega
    · intro _; exact ⟨f6, f7⟩
  · right
    rw [he]
    exact ⟨_, rfl, hq⟩

theorem push_back_big_eq {N : Nat} {m : Mem T} {v : socow_vector T} {p : Nat}
    {b : dynamic_buf T} (el : T) (hs : v.is_small_ = false) (hp : v.store = .handle p)
    (hb : m.buf p = some b) :
    push_back_body N m v el =
      if b.ref_count = 1 then push_back_dynamic_ N m v el
      else
        (if v.size_ ≠ b.capacity then copy_on_write_ N m v else .ok (m, v)).bind (fun s =>
          push_back_dynamic_ N s.1 s.2 el) := by
  unfold push_back_body
  simp only [hs, socow_vector.dynamic_storage_, hp, hb]
  rfl

theorem push_back_big_full {N : Nat} {m : Mem T} {v : socow_vector T} {cs : Cells T} {p : Nat}
    {b : dynamic_buf T} (el : T) (h : swf N m v = true) (hc : contents N m v = some cs)
    (hs : v.is_small_ = false) (hp : v.store = .handle p) (hb : m.buf p = some b)
    (hl : b.data.length = b.capacity) (h1 : v.size_ = b.capacity) :
    (∃ m1 v1, push_back N m v el = .ok (m1, v1) ∧ push_post N m v el cs b.capacity m1 v1) ∨
      (∃ e, push_back N m v el = .threw e ∧ ¬ no_faults m) := by
  have e0 : push_back_body N m v el = extend_push_back_ N m v el (2 * b.capacity + 1) := by
    rw [push_back_big_eq el hs hp hb]
    by_cases c : b.ref_count = 1
    · rw [if_pos c, push_back_dynamic_eq el hp hb hl (by omega), if_pos h1]
    · rw [if_neg c]
      have : ¬ v.size_ ≠ b.capacity := by simp [h1]
      rw [if_neg this]
      simp only [bind_ok]
      rw [push_back_dynamic_eq el hp hb hl (by omega), if_pos h1]
  unfold push_back
  rw [e0]
  rcases extend_cases el h (show v.size_ < 2 * b.capacity + 1 by omega) hc with
    ⟨m1, nb, e, hh, hf, n1, n2, n3, n4⟩ | ⟨e, he, hq⟩
  · left
    rw [e]
    simp only [bind_ok]
    obtain ⟨f1, f2, f3, f4, f5, f6, f7⟩ := relocated_facts N
      ⟨v.size_ + 1, false, .handle m.heap.length⟩ hh n2 (by omega) hf rfl rfl (by simp; omega)
    refine ⟨m1, ⟨v.size_ + 1, false, .handle m.heap.length⟩, ?_, f1, f2, ?_, rfl, f3, ?_, ?_,
      ?_, ?_⟩
    · simp [socow_vector.set_dynamic, hs]
    · rw [← n4]; exact f5
    · rw [if_neg (by omega)]
      rw [f4, n1]
    · simp [hs]
    · intro hx; omega
    · intro _; exact ⟨f6, f7⟩
  · right
    rw [he]
    exact ⟨_, rfl, hq⟩

theorem push_back_big_room_excl {N : Nat} {m : Mem T} {v : socow_vector T} {p : Nat}
    {b : dynamic_buf T} (el : T) (hs : v.is_small_ = false) (hp : v.store = .handle p)
    (hb : m.buf p = some b) (hl : b.data.length = b.capacity) (hr : b.ref_count = 1)
    (h1 : v.size_ < b.capacity) :
    (∃ m1 v1, push_back N m v el = .ok (m1, v1) ∧
        push_post N m v el (b.data.take v.size_) b.capacity m1 v1) ∨
      (∃ e, push_back N m v el = .threw e ∧ ¬ no_faults m) := by
  unfold push_back
  rw [push_back_big_eq el hs hp hb, if_pos hr]
  rcases push_in_block_cases (N := N) el hp hb hl h1 with ⟨m1, e, hh, hf⟩ | ⟨e, he, hq⟩
  · left
    rw [e]
    simp only [bind_ok]
    have hplt := buf_lt hb
    have hb1 : m1.buf p = some { b with data := b.data.set v.size_ (some el) } := by
      rw [buf_eq_some, hh, List.getElem?_set_self hplt]
    have hs1 : (⟨v.size_ + 1, false, .handle p⟩ : socow_vector T).is_small_ = false := rfl
    have hp1 : (⟨v.size_ + 1, false, .handle p⟩ : socow_vector T).store = .handle p := rfl
    refine ⟨m1, ⟨v.size_ + 1, false, .handle p⟩, ?_, ?_, ?_, ?_, rfl, ?_, ?_, ?_, ?_, ?_⟩
    · simp [hs, hp]
    · exact step_inplace (own_big hs hp) hb hr hh hr rfl hf (own_big hs1 hp1)
    · exact swf_mk_big hs1 hp1 hb1 (by simpa using hl) (by simp [hr]) (by simp; omega)
    · rw [contents_big hs1 hp1 hb1 (by simp; omega)]
      simp only
      rw [take_succ_set (by omega)]
    · exact Or.inr ⟨p, _, hp1, hb1, hr⟩
    · rw [capacity_big hs1 hp1 hb1, if_pos h1]
    · simp [hs]
    · intro _
      exact ⟨by rw [hh]; simp, by rw [own_big hs hp, own_big hs1 hp1]⟩
    · intro hx
      exact absurd ⟨(excl_big_iff hs hp hb).2 hr, h1⟩ hx
  · right
    rw [he]
    exact ⟨_, rfl, hq⟩

end PushBackCases

end Socow

namespace Socow

section PushBackShared

variable {T : Type}

theorem cow_mem_set_new {m : Mem T} {v : socow_vector T} {p : Nat} {b : dynamic_buf T}
    (hs : v.is_small_ = false) (hp : v.store = .handle p) (hb : m.buf p = some b)
    (hr : 1 < b.ref_count) (n : Nat) (nb : dynamic_buf T) :
    (cow_mem m p b n).heap.set m.heap.length (some nb) = released m v ++ [some nb] := by
  have hplt := buf_lt hb
  rw [released_big hs hp hb]
  have hrel : release b = some { b with ref_count := b.ref_count - 1 } := by
    simp only [release, if_pos hr]
  rw [hrel]
  apply List.ext_getElem?
  intro j
  simp only [cow_mem, heap_put, heap_setFaults, heap_allocate, List.getElem?_set,
    List.getElem?_append, List.length_set, List.length_append, List.length_singleton]
  by_cases c1 : m.heap.length = j
  · subst c1
    have : p ≠ m.heap.length := by omega
    simp [this]
  · by_cases c2 : p = j
    · subst c2
      simp [c1, hplt]
      omega
    · by_cases c3 : j < m.heap.length
      · simp [c1, c2, c3]
      · have : j - m.heap.length ≠ 0 := by omega
        simp [c1, c2, c3]
        cases hj : j - m.heap.length with
        | zero => exact absurd hj this
        | succ k => simp

theorem push_back_big_room_shared {N : Nat} {m : Mem T} {v : socow_vector T} {p : Nat}
    {b : dynamic_buf T} (el : T) (hs : v.is_small_ = false) (hp : v.store = .handle p)
    (hb : m.buf p = some b) (hl : b.data.length = b.capacity) (hr : 1 < b.ref_count)
    (h1 : v.size_ < b.capacity) :
    (∃ m1 v1, push_back N m v el = .ok (m1, v1) ∧
        push_post N m v el (b.data.take v.size_) b.capacity m1 v1) ∨
      (∃ e, push_back N m v el = .threw e ∧ ¬ no_faults m) := by
  unfold push_back
  rw [push_back_big_eq el hs hp hb, if_neg (by omega), if_pos (by omega)]
  have hplt := buf_lt hb
  rcases copy_on_write_cases (N := N) hs hp hb hl (by omega) with ⟨_, e⟩ | ⟨hq, fs, e, _⟩
  · rw [e]
    simp only [bind_ok]
    have hs0 : (v.set_dynamic m.heap.length).is_small_ = false := hs
    have hp0 : (v.set_dynamic m.heap.length).store = .handle m.heap.length := rfl
    have hnew := cow_mem_new m b v.size_ hplt
    rcases push_in_block_cases (N := N) el hp0 hnew (by simp; omega) h1 with
      ⟨m1, e1, hh, k, hf⟩ | ⟨e1, he, hq⟩
    · left
      rw [e1]
      simp only [bind_ok]
      rw [cow_mem_set_new hs hp hb hr] at hh
      rw [cow_mem_faults] at hf
      have hh2 : m1.heap = released m v ++ [some ⟨b.capacity, 1,
          (b.data.take v.size_ ++ (List.replicate b.capacity none).drop v.size_).set v.size_
            (some el)⟩] := hh
      clear hh
      obtain ⟨f1, f2, f3, f4, f5, f6, f7⟩ := relocated_facts N
        ⟨v.size_ + 1, false, .handle m.heap.length⟩ hh2 rfl (by simp; omega) ⟨v.size_ + k, by rw [hf, List.drop_drop]⟩ rfl rfl
        (by simp; omega)
      refine ⟨m1, ⟨v.size_ + 1, false, .handle m.heap.length⟩, ?_, f1, f2, ?_, rfl, f3, ?_, ?_,
        ?_, ?_⟩
      · simp [socow_vector.set_dynamic, hs]
      · rw [f5]
        simp only
        rw [take_succ_set (by simp; omega), List.take_left' (by simp; omega)]
      · rw [f4, if_pos h1]
      · simp [hs]
      · intro hx
        have := (excl_big_iff hs hp hb).1 hx.1
        omega
      · intro _; exact ⟨f6, f7⟩
    · right
      rw [he]
      refine ⟨_, rfl, fun hnf => hq ?_⟩
      unfold no_faults
      rw [cow_mem_faults]
      exact all_drop hnf _
  · right
    rw [e]
    exact ⟨_, rfl, not_no_faults_of_not_quiet hq⟩

theorem excl_of_push_full {m : Mem T} {v : socow_vector T} {c : Nat}
    (hx : ¬ (excl m v ∧ v.size_ < c)) (hlt : v.size_ < c) : ¬ excl m v :=
  fun h => hx ⟨h, hlt⟩

/-- The outcome of `push_back(el)` on a structurally well-formed container. -/
theorem push_back_cases {N : Nat} {m : Mem T} {v : socow_vector T} {cs : Cells T} {c : Nat}
    (el : T) (h : swf N m v = true) (hc : contents N m v = some cs)
    (hcap : capacity N m v = some c) :
    (∃ m1 v1, push_back N m v el = .ok (m1, v1) ∧ push_post N m v el cs c m1 v1) ∨
      (∃ e, push_back N m v el = .threw e ∧ ¬ no_faults m) := by
  rcases swf_cases h with ⟨hs, h1, h2⟩ | ⟨hs, p, b, hp, hb, h1, h2, h3⟩
  · rw [capacity_small hs] at hcap
    cases hcap
    by_cases c1 : v.size_ = N
    · exact push_back_small_full el h hc hs c1
    · rw [contents_small hs (by omega)] at hc
      cases hc
      exact push_back_small_room el hs (by omega) h2
  · rw [capacity_big hs hp hb] at hcap
    cases hcap
    by_cases c1 : v.size_ = b.capacity
    · exact push_back_big_full el h hc hs hp hb h1 c1
    · rw [contents_big hs hp hb (by omega)] at hc
      cases hc
      by_cases c2 : b.ref_count = 1
      · exact push_back_big_room_excl el hs hp hb h1 c2 (by omega)
      · exact push_back_big_room_shared el hs hp hb h1 (by omega) (by omega)

end PushBackShared

end Socow

namespace Socow

section InPlace

variable {T : Type}

theorem take_set_ge {α : Type} {l : List α} {n i : Nat} {a : α} (h : n ≤ i) :
    (l.set i a).take n = l.take n := by
  apply List.ext_getElem?
  intro j
  rw [List.getElem?_take, List.getElem?_take]
  split
  · rw [List.getElem?_set_ne (by omega)]
  · rfl

theorem own_with_size (v : socow_vector T) (n : Nat) :
    own ({ v with size_ := n } : socow_vector T) = own v := rfl

/-- A write to the cells of storage the container owns alone, with a new size. -/
theorem store_excl {N : Nat} {m : Mem T} {v : socow_vector T} {r : Region} {cs : Cells T}
    (cs1 : Cells T) (n : Nat) (h : swf N m v = true) (hx : excl m v)
    (hr : const_data_ v = some r) (hl : load N m v r = some cs)
    (hlen : cs1.length = cs.length) (hn : n ≤ cs.length) :
    ∃ m1 v1, store_cells m { v with size_ := n } r cs1 = some (m1, v1) ∧ Step m v m1 v1 ∧
      swf N m1 v1 = true ∧ excl m1 v1 ∧ contents N m1 v1 = some (cs1.take n) ∧
      v1.size_ = n ∧ v1.is_small_ = v.is_small_ ∧ capacity N m1 v1 = capacity N m v ∧
      const_data_ v1 = some r ∧ load N m1 v1 r = some cs1 ∧ m1.faults = m.faults ∧
      m1.heap.length = m.heap.length ∧ own v1 = own v := by
  rcases swf_cases h with ⟨hs, h1, h2⟩ | ⟨hs, p, b, hp, hb, h1, h2, h3⟩
  · rw [const_data_small hs] at hr
    cases hr
    simp only [load, Option.some.injEq] at hl
    subst hl
    have hs1 : (⟨n, true, .cells cs1⟩ : socow_vector T).is_small_ = true := rfl
    refine ⟨m, ⟨n, true, .cells cs1⟩, ?_, step_small hs hs1 rfl ⟨0, rfl⟩, ?_, Or.inl hs1, ?_,
      rfl, by rw [hs], ?_, const_data_small hs1, rfl, rfl, rfl, ?_⟩
    · simp [store_cells, socow_vector.set_static, hs]
    · rw [swf_small hs1]
      exact ⟨by show n ≤ N; omega, by show cs1.length = N; omega⟩
    · exact contents_small hs1 (by show n ≤ cs1.length; omega)
    · rw [capacity_small hs1, capacity_small hs]
    · rw [own_small hs1, own_small hs]
  · rw [const_data_big hs hp] at hr
    cases hr
    simp only [load, hb, Option.map_some', Option.some.injEq] at hl
    subst hl
    have hr1 : b.ref_count = 1 := (excl_big_iff hs hp hb).1 hx
    have hplt := buf_lt hb
    have hs1 : (⟨n, false, .handle p⟩ : socow_vector T).is_small_ = false := rfl
    have hp1 : (⟨n, false, .handle p⟩ : socow_vector T).store = .handle p := rfl
    have hb1 : (m.put p { b with data := cs1 }).buf p = some { b with data := cs1 } :=
      buf_put_self _ hplt
    refine ⟨m.put p { b with data := cs1 }, ⟨n, false, .handle p⟩, ?_, ?_, ?_, ?_, ?_,
      rfl, by rw [hs], ?_, const_data_big hs1 hp1, ?_, rfl, by simp, ?_⟩
    · simp [store_cells, hb, hs, hp]
    · exact step_inplace (own_big hs hp) hb hr1 rfl hr1 rfl ⟨0, rfl⟩ (own_big hs1 hp1)
    · exact swf_mk_big hs1 hp1 hb1 (by show cs1.length = b.capacity; omega) h2
        (by show n ≤ b.capacity; omega)
    · exact Or.inr ⟨p, _, hp1, hb1, hr1⟩
    · exact contents_big hs1 hp1 hb1 (by show n ≤ cs1.length; omega)
    · rw [capacity_big hs1 hp1 hb1, capacity_big hs hp hb]
    · simp [load, hb1]
    · rw [own_big hs1 hp1, own_big hs hp]

/-- A write to the cells of storage the container owns alone, size unchanged. -/
theorem store_excl_same {N : Nat} {m : Mem T} {v : socow_vector T} {r : Region} {cs : Cells T}
    (cs1 : Cells T) (h : swf N m v = true) (hx : excl m v)
    (hr : const_data_ v = some r) (hl : load N m v r = some cs)
    (hlen : cs1.length = cs.length) :
    ∃ m1 v1, store_cells m v r cs1 = some (m1, v1) ∧ Step m v m1 v1 ∧
      swf N m1 v1 = true ∧ excl m1 v1 ∧ contents N m1 v1 = some (cs1.take v.size_) ∧
      v1.size_ = v.size_ ∧ v1.is_small_ = v.is_small_ ∧ capacity N m1 v1 = capacity N m v ∧
      const_data_ v1 = some r ∧ load N m1 v1 r = some cs1 ∧ m1.faults = m.faults ∧
      m1.heap.length = m.heap.length ∧ own v1 = own v := by
  obtain ⟨r2, src, hr2, hl2, hn, _, _⟩ := load_of_swf h
  rw [hr] at hr2
  cases hr2
  rw [hl] at hl2
  cases hl2
  exact store_excl cs1 v.size_ h hx hr hl hlen hn

/-- The outcome of `pop_back()` on a non-empty container. -/
theorem pop_back_cases {N : Nat} {m : Mem T} {v : socow_vector T} {cs : Cells T}
    (h : swf N m v = true) (hc : contents N m v = some cs) (hpos : 0 < v.size_) :
    (∃ m1 v1, pop_back N m v = .ok (m1, v1) ∧ Step m v m1 v1 ∧ swf N m1 v1 = true ∧
        excl m1 v1 ∧ contents N m1 v1 = some (cs.take (v.size_ - 1)) ∧
        v1.size_ = v.size_ - 1 ∧ v1.is_small_ = v.is_small_ ∧
        capacity N m1 v1 = capacity N m v) ∨
      (∃ e, pop_back N m v = .threw e ∧ ¬ no_faults m) := by
  unfold pop_back
  rcases data_cases h with ⟨m1, v1, r, e, hr, s1, w1, c1, x1, z1, i1, k1⟩ | ⟨e, he, hq⟩
  · left
    rw [e]
    simp only [bind_ok]
    have hne : ¬ v1.size_ = 0 := by omega
    rw [if_neg hne]
    obtain ⟨r2, src, hr2, hl2, hn, hc2, _⟩ := load_of_swf w1
    rw [hr] at hr2
    cases hr2
    have hl3 : load N m1 { v1 with size_ := v1.size_ - 1 } r = some src := by
      rw [← hl2]
      cases r <;> rfl
    simp only [hl3]
    have hlt : v1.size_ - 1 < src.length := by omega
    rw [if_pos hlt]
    obtain ⟨m2, v2, e2, s2, w2, x2, c2, z2, i2, k2, _⟩ :=
      store_excl (src.set (v1.size_ - 1) none) (v1.size_ - 1) w1 x1 hr hl2 (by simp) (by omega)
    rw [e2]
    refine ⟨m2, v2, rfl, s1.trans s2, w2, x2, ?_, by rw [z2, z1], by rw [i2, i1],
      by rw [k2, k1]⟩
    rw [c2, take_set_ge (le_refl _)]
    rw [c1, hc] at hc2
    cases hc2
    rw [List.take_take, z1]
    congr 2
    omega
  · right
    rw [he]
    exact ⟨_, rfl, hq⟩

end InPlace

end Socow

namespace Socow

section Loops

variable {T : Type}

theorem kept_refl (N : Nat) (m : Mem T) (v : socow_vector T) : kept N m v m v :=
  ⟨rfl, rfl, rfl, rfl, rfl, rfl⟩

theorem kept_trans {N : Nat} {m m1 m2 : Mem T} {v v1 v2 : socow_vector T}
    (a : kept N m v m1 v1) (b : kept N m1 v1 m2 v2) : kept N m v m2 v2 := by
  obtain ⟨a1, a2, a3, a4, a5, a6⟩ := a
  obtain ⟨b1, b2, b3, b4, b5, b6⟩ := b
  exact ⟨by rw [b1, a1], by rw [b2, a2], by rw [b3, a3], by rw [b4, a4], by rw [b5, a5],
    by rw [b6, a6]⟩

theorem held_len {N : Nat} {m : Mem T} {v : socow_vector T} {r : Region} {cs : Cells T}
    (h : held N m v r cs) :
    v.size_ ≤ cs.length ∧ contents N m v = some (cs.take v.size_) ∧
      capacity N m v = some cs.length := by
  obtain ⟨w, _, hr, hl⟩ := h
  obtain ⟨r2, src, hr2, hl2, hn, hc, hcap⟩ := load_of_swf w
  rw [hr] at hr2
  cases hr2
  rw [hl] at hl2
  cases hl2
  exact ⟨hn, hc, hcap⟩

/-- A write of cells of the same number to exclusively owned storage. -/
theorem held_store {N : Nat} {m : Mem T} {v : socow_vector T} {r : Region} {cs : Cells T}
    (cs1 : Cells T) (h : held N m v r cs) (hlen : cs1.length = cs.length) :
    ∃ m1 v1, store_cells m v r cs1 = some (m1, v1) ∧ Step m v m1 v1 ∧ held N m1 v1 r cs1 ∧
      kept N m v m1 v1 := by
  obtain ⟨w, x, hr, hl⟩ := h
  obtain ⟨m1, v1, e, s1, w1, x1, _, z1, i1, k1, r1, l1, f1, g1, o1⟩ :=
    store_excl_same cs1 w x hr hl hlen
  exact ⟨m1, v1, e, s1, ⟨w1, x1, r1, l1⟩, ⟨z1, i1, k1, f1, g1, o1⟩⟩

theorem swap_at_length {cs cs1 : Cells T} {i j : Nat} (h : swap_at cs i j = some cs1) :
    cs1.length = cs.length := by
  unfold swap_at at h
  split at h
  · cases h; simp
  · cases h

theorem swap_at_get {cs cs1 : Cells T} {i j : Nat} (h : swap_at cs i j = some cs1) (k : Nat) :
    cs1[k]? = if k = j then cs[i]? else if k = i then cs[j]? else cs[k]? := by
  unfold swap_at at h
  split at h
  · next a b ha hb =>
    cases h
    have hi := (List.getElem?_eq_some.1 ha).1
    have hj := (List.getElem?_eq_some.1 hb).1
    rw [List.getElem?_set, List.getElem?_set]
    by_cases c1 : j = k
    · subst c1
      simp [ha, hj]
    · by_cases c2 : i = k
      · subst c2
        simp [c1, hb, hi, Ne.symm c1]
      · simp [c1, c2, Ne.symm c1, Ne.symm c2]
  · cases h

theorem swap_at_isSome (cs : Cells T) (i j : Nat) (hi : i < cs.length) (hj : j < cs.length) :
    ∃ cs1, swap_at cs i j = some cs1 := by
  unfold swap_at
  rw [List.getElem?_eq_getElem hi, List.getElem?_eq_getElem hj]
  exact ⟨_, rfl⟩

/-- One round `std::swap(data()[i], data()[j])` on exclusively owned storage. -/
theorem swap_data_held {N : Nat} {m : Mem T} {v : socow_vector T} {r : Region}
    {cs cs1 : Cells T} {i j : Nat} (h : held N m v r cs) (hs : swap_at cs i j = some cs1) :
    ∃ m1 v1, swap_data N (m, v) i j = .ok (m1, v1) ∧ Step m v m1 v1 ∧ held N m1 v1 r cs1 ∧
      kept N m v m1 v1 := by
  obtain ⟨w, x, hr, hl⟩ := h
  unfold swap_data
  simp only [data_excl x hr, bind_ok]
  unfold swap_at at hs
  split at hs
  · next a b ha hb =>
    cases hs
    obtain ⟨m1, v1, e1, s1, h1, k1⟩ := held_store (cs.set i b) ⟨w, x, hr, hl⟩ (by simp)
    obtain ⟨m2, v2, e2, s2, h2, k2⟩ := held_store ((cs.set i b).set j a) h1 (by simp)
    refine ⟨m2, v2, ?_, s1.trans s2, h2, kept_trans k1 k2⟩
    simp only [swap_elems, hl, ha, hb, e1, h1.2.2.2, e2, ofOption_some]
  · cases hs

end Loops

end Socow

namespace Socow

section LoopSpecs

variable {T : Type}

theorem ins_cells_spec (p : Nat) : ∀ (k : Nat) (cs : Cells T), p + k < cs.length →
    ∃ cs1, ins_cells p k cs = some cs1 ∧ cs1.length = cs.length ∧
      ∀ j, cs1[j]? = if j < p then cs[j]? else if j = p then cs[p + k]?
        else if j ≤ p + k then cs[j - 1]? else cs[j]? := by
  intro k
  induction k with
  | zero =>
    intro cs _
    refine ⟨cs, rfl, rfl, fun j => ?_⟩
    by_cases c1 : j < p
    · rw [if_pos c1]
    · rw [if_neg c1]
      by_cases c2 : j = p
      · rw [if_pos c2, c2]; rfl
      · rw [if_neg c2, if_neg (by omega)]
  | succ k ih =>
    intro cs h
    obtain ⟨cs0, h0⟩ := swap_at_isSome cs (p + k + 1) (p + k) (by omega)
      (by omega)
    have hl0 := swap_at_length h0
    obtain ⟨cs1, h1, hl1, hg⟩ := ih cs0 (by omega)
    refine ⟨cs1, by simp only [ins_cells, h0, h1], by rw [hl1, hl0], fun j => ?_⟩
    rw [hg j]
    by_cases c1 : j < p
    · rw [if_pos c1, if_pos c1, swap_at_get h0, if_neg (by omega), if_neg (by omega)]
    · rw [if_neg c1, if_neg c1]
      by_cases c2 : j = p
      · rw [if_pos c2, if_pos c2, swap_at_get h0, if_pos rfl]
        rfl
      · rw [if_neg c2, if_neg c2]
        by_cases c3 : j ≤ p + k
        · rw [if_pos c3, if_pos (by omega), swap_at_get h0, if_neg (by omega),
            if_neg (by omega)]
        · rw [if_neg c3, swap_at_get h0, if_neg (by omega)]
          by_cases c4 : j = p + k + 1
          · rw [if_pos c4, if_pos (by omega), c4]
            rfl
          · rw [if_neg c4, if_neg (by omega)]

theorem era_cells_spec (diff : Nat) : ∀ (k i : Nat) (cs : Cells T), diff ≤ i →
    i + k ≤ cs.length →
    ∃ cs1, era_cells diff k i cs = some cs1 ∧ cs1.length = cs.length ∧
      ∀ j, j < i - diff + k → cs1[j]? = if j < i - diff then cs[j]? else cs[j + diff]? := by
  intro k
  induction k with
  | zero =>
    intro i cs _ _
    refine ⟨cs, rfl, rfl, fun j hj => ?_⟩
    rw [if_pos (by omega)]
  | succ k ih =>
    intro i cs hd h
    obtain ⟨cs0, h0⟩ := swap_at_isSome cs (i - diff) i (by omega)
      (by omega)
    have hl0 := swap_at_length h0
    obtain ⟨cs1, h1, hl1, hg⟩ := ih (i + 1) cs0 (by omega) (by omega)
    refine ⟨cs1, by simp only [era_cells, h0, h1], by rw [hl1, hl0], fun j hj => ?_⟩
    rw [hg j (by omega)]
    by_cases c1 : j < i - diff
    · rw [if_pos c1, if_pos (by omega), swap_at_get h0, if_neg (by omega), if_neg (by omega)]
    · rw [if_neg c1]
      by_cases c2 : j = i - diff
      · rw [if_pos (by omega), swap_at_get h0]
        by_cases c3 : j = i
        · rw [if_pos c3]
          have : j + diff = i - diff := by omega
          rw [this]
        · rw [if_neg c3, if_pos c2]
          have : j + diff = i := by omega
          rw [this]
      · rw [if_neg (by omega), swap_at_get h0, if_neg (by omega), if_neg (by omega)]

theorem insert_loop_held {N : Nat} (p : Nat) : ∀ (k : Nat) {m : Mem T} {v : socow_vector T}
    {r : Region} {cs cs1 : Cells T}, held N m v r cs → ins_cells p k cs = some cs1 →
    ∃ m1 v1, insert_loop N p k (m, v) = .ok (m1, v1) ∧ Step m v m1 v1 ∧ held N m1 v1 r cs1 ∧
      kept N m v m1 v1 := by
  intro k
  induction k with
  | zero =>
    intro m v r cs cs1 h e
    cases e
    exact ⟨m, v, rfl, Step.refl m v, h, kept_refl N m v⟩
  | succ k ih =>
    intro m v r cs cs1 h e
    simp only [ins_cells] at e
    split at e
    · next cs0 h0 =>
      obtain ⟨m1, v1, e1, s1, h1, k1⟩ := swap_data_held h h0
      obtain ⟨m2, v2, e2, s2, h2, k2⟩ := ih h1 e
      refine ⟨m2, v2, ?_, s1.trans s2, h2, kept_trans k1 k2⟩
      simp only [insert_loop, e1, bind_ok, e2]
    · cases e

theorem erase_loop_held {N : Nat} (diff : Nat) : ∀ (k i : Nat) {m : Mem T}
    {v : socow_vector T} {r : Region} {cs cs1 : Cells T}, held N m v r cs →
    era_cells diff k i cs = some cs1 →
    ∃ m1 v1, erase_loop N diff k i (m, v) = .ok (m1, v1) ∧ Step m v m1 v1 ∧
      held N m1 v1 r cs1 ∧ kept N m v m1 v1 := by
  intro k
  induction k with
  | zero =>
    intro i m v r cs cs1 h e
    cases e
    exact ⟨m, v, rfl, Step.refl m v, h, kept_refl N m v⟩
  | succ k ih =>
    intro i m v r cs cs1 h e
    simp only [era_cells] at e
    split at e
    · next cs0 h0 =>
      obtain ⟨m1, v1, e1, s1, h1, k1⟩ := swap_data_held h h0
      obtain ⟨m2, v2, e2, s2, h2, k2⟩ := ih (i + 1) h1 e
      refine ⟨m2, v2, ?_, s1.trans s2, h2, kept_trans k1 k2⟩
      simp only [erase_loop, e1, bind_ok, e2]
    · cases e

/-- The loop of `pop_back()` calls in `erase`, on exclusively owned storage. -/
theorem pop_loop_held {N : Nat} : ∀ (k : Nat) {m : Mem T} {v : socow_vector T} {r : Region}
    {cs : Cells T}, held N m v r cs → k ≤ v.size_ →
    ∃ m1 v1 cs1, pop_loop N k (m, v) = .ok (m1, v1) ∧ Step m v m1 v1 ∧ held N m1 v1 r cs1 ∧
      v1.size_ = v.size_ - k ∧ cs1.take (v.size_ - k) = cs.take (v.size_ - k) ∧
      v1.is_small_ = v.is_small_ ∧ capacity N m1 v1 = capacity N m v ∧
      m1.faults = m.faults ∧ m1.heap.length = m.heap.length ∧ own v1 = own v := by
  intro k
  induction k with
  | zero =>
    intro m v r cs h _
    exact ⟨m, v, cs, rfl, Step.refl m v, h, rfl, rfl, rfl, rfl, rfl, rfl, rfl⟩
  | succ k ih =>
    intro m v r cs h hk
    obtain ⟨w, x, hr, hl⟩ := h
    obtain ⟨hn, _, _⟩ := held_len ⟨w, x, hr, hl⟩
    have hne : ¬ v.size_ = 0 := by omega
    have hl3 : load N m { v with size_ := v.size_ - 1 } r = some cs := by
      rw [← hl]
      cases r <;> rfl
    have hlt : v.size_ - 1 < cs.length := by omega
    obtain ⟨m1, v1, e1, s1, w1, x1, _, z1, i1, k1, r1, l1, f1, g1, o1⟩ :=
      store_excl (cs.set (v.size_ - 1) none) (v.size_ - 1) w x hr hl (by simp) (by omega)
    have hz : k ≤ v1.size_ := by omega
    obtain ⟨m2, v2, cs2, e2, s2, h2, z2, t2, i2, k2, f2, g2, o2⟩ := ih ⟨w1, x1, r1, l1⟩ hz
    refine ⟨m2, v2, cs2, ?_, s1.trans s2, h2, by rw [z2, z1]; omega, ?_, by rw [i2, i1],
      by rw [k2, k1], by rw [f2, f1], by rw [g2, g1], by rw [o2, o1]⟩
    · simp only [pop_loop, pop_back, data_excl x hr, bind_ok, if_neg hne, hl3, if_pos hlt, e1,
        ofOption_some, e2]
    · have e3 : v1.size_ - k = v.size_ - (k + 1) := by omega
      rw [e3] at t2
      rw [t2, take_set_ge (by omega)]

end LoopSpecs

end Socow

namespace Socow

section InsertErase

variable {T : Type}

theorem held_of_excl {N : Nat} {m : Mem T} {v : socow_vector T} (h : swf N m v = true)
    (hx : excl m v) :
    ∃ r cs, held N m v r cs ∧ v.size_ ≤ cs.length ∧ contents N m v = some (cs.take v.size_) := by
  obtain ⟨r, src, hr, hl, hn, hc, _⟩ := load_of_swf h
  exact ⟨r, src, ⟨h, hx, hr, hl⟩, hn, hc⟩

theorem contents_length {N : Nat} {m : Mem T} {v : socow_vector T} {cs : Cells T}
    (hc : contents N m v = some cs) : cs.length = v.size_ := by
  unfold contents at hc
  split at hc
  · cases hc
  · split at hc
    · cases hc
    · split at hc
      · cases hc
        simp
        omega
      · cases hc

/-- The outcome of `insert(pos, el)` for a position `p <= size()` of the current storage. -/
theorem insert_cases {N : Nat} {m : Mem T} {v : socow_vector T} {cs : Cells T} {r : Region}
    (p : Nat) (el : T) (h : swf N m v = true) (hc : contents N m v = some cs)
    (hr : const_data_ v = some r) (hp : p ≤ v.size_) :
    (∃ m1 v1 r1, insert N m v ⟨r, p⟩ el = .ok ((m1, v1), ⟨r1, p⟩) ∧ Step m v m1 v1 ∧
        swf N m1 v1 = true ∧ excl m1 v1 ∧ const_data_ v1 = some r1 ∧
        contents N m1 v1 = some (cs.take p ++ [some el] ++ cs.drop p) ∧
        v1.size_ = v.size_ + 1) ∨
      (∃ e, insert N m v ⟨r, p⟩ el = .threw e ∧ ¬ no_faults m) := by
  obtain ⟨r0, src0, hr0, _, _, _, hcap⟩ := load_of_swf h
  have hcl := contents_length hc
  unfold insert
  simp only [hr, if_true]
  rcases push_back_cases el h hc hcap with
    ⟨m1, v1, e1, s1, w1, c1, z1, x1, _⟩ | ⟨e, he, hq⟩
  · left
    rw [e1]
    simp only [bind_ok]
    obtain ⟨r1, arr, h1, hn1, hc1⟩ := held_of_excl w1 x1
    rw [c1] at hc1
    have hk : p + (v1.size_ - 1 - p) < arr.length := by omega
    obtain ⟨arr1, ha1, hl1, hg1⟩ := ins_cells_spec p (v1.size_ - 1 - p) arr hk
    obtain ⟨m2, v2, e2, s2, h2, k2⟩ := insert_loop_held p (v1.size_ - 1 - p) h1 ha1
    rw [e2]
    simp only [bind_ok, data_excl h2.2.1 h2.2.2.1]
    obtain ⟨_, hc2, _⟩ := held_len h2
    refine ⟨m2, v2, r1, rfl, s1.trans s2, h2.1, h2.2.1, h2.2.2.1, ?_, by rw [k2.1, z1]⟩
    rw [hc2, k2.1]
    congr 1
    have hcs : ∀ j, j < v1.size_ → arr[j]? = (cs ++ [some el])[j]? := by
      intro j hj
      have := congrArg (fun l => l[j]?) (Option.some.inj hc1)
      simp only [List.getElem?_take, if_pos hj] at this
      exact this.symm
    apply List.ext_getElem?
    intro j
    rw [List.getElem?_take]
    by_cases c0 : j < v1.size_
    · rw [if_pos c0, hg1 j]
      have hlp : (cs.take p).length = p := by simp; omega
      by_cases c1 : j < p
      · rw [if_pos c1, hcs j c0, List.getElem?_append_left (by omega), List.append_assoc,
          List.getElem?_append_left (by omega), List.getElem?_take, if_pos c1]
      · rw [if_neg c1]
        by_cases c2 : j = p
        · subst c2
          rw [if_pos rfl, hcs _ (by omega), List.getElem?_append_right (by omega),
            List.append_assoc, List.getElem?_append_right (by omega), hlp]
          have e3 : j + (v1.size_ - 1 - j) - cs.length = 0 := by omega
          simp [e3]
        · rw [if_neg c2, if_pos (by omega), hcs _ (by omega),
            List.getElem?_append_left (by omega), List.append_assoc,
            List.getElem?_append_right (by omega), hlp]
          have e4 : j - p = (j - p - 1) + 1 := by omega
          rw [e4]
          simp only [List.singleton_append, List.getElem?_cons_succ, List.getElem?_drop]
          congr 1
          omega
    · rw [if_neg c0]
      symm
      apply List.getElem?_eq_none
      simp
      omega
  · right
    rw [he]
    exact ⟨_, rfl, hq⟩

end InsertErase

end Socow

namespace Socow

section Erase

variable {T : Type}

/-- The outcome of `erase(first, last)` for positions `f <= l <= size()` of the current
storage. -/
theorem erase_cases {N : Nat} {m : Mem T} {v : socow_vector T} {cs : Cells T} {r : Region}
    (f l : Nat) (h : swf N m v = true) (hc : contents N m v = some cs)
    (hr : const_data_ v = some r) (hfl : f ≤ l) (hl : l ≤ v.size_) :
    (∃ m1 v1 r1, erase N m v ⟨r, f⟩ ⟨r, l⟩ = .ok ((m1, v1), ⟨r1, f⟩) ∧ Step m v m1 v1 ∧
        swf N m1 v1 = true ∧ excl m1 v1 ∧ const_data_ v1 = some r1 ∧
        contents N m1 v1 = some (cs.take f ++ cs.drop l) ∧
        v1.size_ = v.size_ - (l - f)) ∨
      (∃ e, erase N m v ⟨r, f⟩ ⟨r, l⟩ = .threw e ∧ ¬ no_faults m) := by
  have hcl := contents_length hc
  unfold erase
  simp only [hr, true_and, hfl, if_true]
  rcases check_cow_cases h with ⟨m1, v1, e1, s1, w1, c1, x1, z1, _⟩ | ⟨e, he, hq⟩
  · left
    rw [e1]
    simp only [bind_ok]
    obtain ⟨r1, arr, h1, hn1, hc1⟩ := held_of_excl w1 x1
    rw [c1, hc] at hc1
    obtain ⟨arr1, ha1, hl1, hg1⟩ :=
      era_cells_spec (l - f) (v1.size_ - l) l arr (by omega) (by omega)
    obtain ⟨m2, v2, e2, s2, h2, k2⟩ := erase_loop_held (l - f) (v1.size_ - l) l h1 ha1
    rw [e2]
    simp only [bind_ok]
    obtain ⟨m3, v3, arr3, e3, s3, h3, z3, t3, _⟩ :=
      pop_loop_held (l - f) h2 (by rw [k2.1]; omega)
    rw [e3]
    simp only [bind_ok, data_excl h3.2.1 h3.2.2.1]
    obtain ⟨_, hc3, _⟩ := held_len h3
    refine ⟨m3, v3, r1, rfl, (s1.trans s2).trans s3, h3.1, h3.2.1, h3.2.2.1, ?_,
      by rw [z3, k2.1, z1]⟩
    rw [hc3, z3, t3, k2.1, z1]
    congr 1
    have hcs : ∀ j, j < v.size_ → arr[j]? = cs[j]? := by
      intro j hj
      have := congrArg (fun l => l[j]?) (Option.some.inj hc1)
      simp only [List.getElem?_take, z1, if_pos hj] at this
      exact this.symm
    apply List.ext_getElem?
    intro j
    rw [List.getElem?_take]
    have hlf : (cs.take f).length = f := by simp; omega
    by_cases c0 : j < v.size_ - (l - f)
    · rw [if_pos c0, hg1 j (by omega)]
      have e5 : l - (l - f) = f := by omega
      rw [e5]
      by_cases c1 : j < f
      · rw [if_pos c1, hcs j (by omega), List.getElem?_append_left (by omega),
          List.getElem?_take, if_pos c1]
      · rw [if_neg c1, hcs _ (by omega), List.getElem?_append_right (by omega), hlf,
          List.getElem?_drop]
        congr 1
        omega
    · rw [if_neg c0]
      symm
      apply List.getElem?_eq_none
      simp
      omega
  · right
    rw [he]
    exact ⟨_, rfl, hq⟩

end Erase

end Socow

namespace Socow

section Elements

variable {T : Type}

theorem lives_map_some (xs : List T) : lives (xs.map some) = some xs := by
  induction xs with
  | nil => rfl
  | cons x xs ih => simp [lives, ih]

theorem lives_eq_some : ∀ {cs : Cells T} {xs : List T}, lives cs = some xs → cs = xs.map some
  | [], xs, h => by
    simp only [lives, Option.some.injEq] at h
    subst h
    rfl
  | none :: cs, xs, h => by simp [lives] at h
  | some x :: cs, xs, h => by
    simp only [lives] at h
    split at h
    · next ys hy =>
      cases h
      simp [lives_eq_some hy]
    · cases h

theorem elems_iff {N : Nat} {m : Mem T} {v : socow_vector T} {xs : List T} :
    elems N m v = some xs ↔ contents N m v = some (xs.map some) := by
  unfold elems
  constructor
  · intro h
    split at h
    · cases h
    · next cs hc => rw [hc, lives_eq_some h]
  · intro h
    rw [h]
    exact lives_map_some xs

theorem wf_iff {N : Nat} {m : Mem T} {v : socow_vector T} :
    wf N m v = true ↔ swf N m v = true ∧ ∃ xs, elems N m v = some xs := by
  simp [wf, Option.isSome_iff_exists]

theorem wf_of {N : Nat} {m : Mem T} {v : socow_vector T} {xs : List T}
    (h : swf N m v = true) (hc : contents N m v = some (xs.map some)) : wf N m v = true :=
  wf_iff.2 ⟨h, xs, elems_iff.2 hc⟩

theorem elems_length {N : Nat} {m : Mem T} {v : socow_vector T} {xs : List T}
    (h : elems N m v = some xs) : xs.length = v.size_ := by
  have := contents_length (elems_iff.1 h)
  simpa using this

theorem get_of_contents {N : Nat} {m : Mem T} {v : socow_vector T} {cs : Cells T} {i : Nat}
    (hc : contents N m v = some cs) (hi : i < v.size_) :
    get N m v i = match cs[i]? with
      | some (some x) => some x
      | _ => none := by
  unfold contents at hc
  unfold get
  split at hc
  · cases hc
  · next r hr =>
    split at hc
    · cases hc
    · next arr ha =>
      split at hc
      · cases hc
        rw [List.getElem?_take, if_pos hi]
      · cases hc

theorem get_of_elems {N : Nat} {m : Mem T} {v : socow_vector T} {xs : List T} {i : Nat}
    (h : elems N m v = some xs) (hi : i < v.size_) : get N m v i = xs[i]? := by
  rw [get_of_contents (elems_iff.1 h) hi, List.getElem?_map]
  have hl := elems_length h
  rw [List.getElem?_eq_getElem (by omega)]
  rfl

end Elements

end Socow

namespace Socow

section StepOfOk

variable {T : Type}

theorem Step.congr_own {m m1 : Mem T} {v v1 v2 : socow_vector T} (s : Step m v m1 v1)
    (h : own v2 = own v1) : Step m v m1 v2 where
  grow := s.grow
  sched := s.sched
  others := s.others
  mine := fun p b h1 h2 => by
    rw [h]
    exact s.mine p b h1 h2
  fresh := fun a h1 h2 => by
    rw [h]
    exact s.fresh a h1 h2
  stay := fun a h1 h2 => s.stay a (by rw [← h]; exact h1) h2

theorem swap_data_none {N : Nat} {m : Mem T} {v : socow_vector T} {r : Region} {cs : Cells T}
    {i j : Nat} (h : held N m v r cs) (hs : swap_at cs i j = none) :
    swap_data N (m, v) i j = .ub := by
  obtain ⟨_, x, hr, hl⟩ := h
  unfold swap_data
  simp only [data_excl x hr, bind_ok]
  unfold swap_at at hs
  unfold swap_elems
  simp only [hl]
  split at hs
  · cases hs
  · rfl

theorem swap_data_ok {N : Nat} {m : Mem T} {v : socow_vector T} {r : Region} {cs : Cells T}
    {i j : Nat} {s : St T} (h : held N m v r cs) (e : swap_data N (m, v) i j = .ok s) :
    Step m v s.1 s.2 ∧ ∃ cs1, held N s.1 s.2 r cs1 := by
  cases hs : swap_at cs i j with
  | none =>
    rw [swap_data_none h hs] at e
    cases e
  | some cs1 =>
    obtain ⟨m1, v1, e1, s1, h1, _⟩ := swap_data_held h hs
    rw [e1] at e
    cases e
    exact ⟨s1, cs1, h1⟩

theorem insert_loop_ok {N : Nat} (p : Nat) : ∀ (k : Nat) {m : Mem T} {v : socow_vector T}
    {r : Region} {cs : Cells T} {s : St T}, held N m v r cs →
    insert_loop N p k (m, v) = .ok s → Step m v s.1 s.2 ∧ ∃ cs1, held N s.1 s.2 r cs1 := by
  intro k
  induction k with
  | zero =>
    intro m v r cs s h e
    cases e
    exact ⟨Step.refl m v, cs, h⟩
  | succ k ih =>
    intro m v r cs s h e
    simp only [insert_loop] at e
    obtain ⟨s1, e1, e2⟩ := bind_eq_ok e
    obtain ⟨st1, cs1, h1⟩ := swap_data_ok h e1
    obtain ⟨st2, cs2, h2⟩ := ih h1 e2
    exact ⟨st1.trans st2, cs2, h2⟩

theorem erase_loop_ok {N : Nat} (diff : Nat) : ∀ (k i : Nat) {m : Mem T} {v : socow_vector T}
    {r : Region} {cs : Cells T} {s : St T}, held N m v r cs →
    erase_loop N diff k i (m, v) = .ok s → Step m v s.1 s.2 ∧ ∃ cs1, held N s.1 s.2 r cs1 := by
  intro k
  induction k with
  | zero =>
    intro i m v r cs s h e
    cases e
    exact ⟨Step.refl m v, cs, h⟩
  | succ k ih =>
    intro i m v r cs s h e
    simp only [erase_loop] at e
    obtain ⟨s1, e1, e2⟩ := bind_eq_ok e
    obtain ⟨st1, cs1, h1⟩ := swap_data_ok h e1
    obtain ⟨st2, cs2, h2⟩ := ih (i + 1) h1 e2
    exact ⟨st1.trans st2, cs2, h2⟩

/-- Whenever `pop_back()` returns, it kept the ownership discipline and the container owns its
storage alone. -/
theorem pop_back_ok {N : Nat} {m : Mem T} {v : socow_vector T} {s : St T}
    (h : swf N m v = true) (e : pop_back N m v = .ok s) :
    Step m v s.1 s.2 ∧ ∃ r cs1, held N s.1 s.2 r cs1 := by
  by_cases hz : v.size_ = 0
  · exfalso
    unfold pop_back at e
    obtain ⟨sr, e1, e2⟩ := bind_eq_ok e
    rcases data_cases h with ⟨m1, v1, r, d, _, _, _, _, _, z1, _⟩ | ⟨_, he, _⟩
    · rw [d] at e1
      cases e1
      have : v1.size_ = 0 := by omega
      simp [this] at e2
    · rw [he] at e1
      cases e1
  · obtain ⟨cs, hc, _⟩ := contents_of_swf h
    rcases pop_back_cases h hc (by omega) with
      ⟨m1, v1, e1, s1, w1, x1, _⟩ | ⟨_, he, _⟩
    · rw [e1] at e
      cases e
      obtain ⟨r, arr, h1, _⟩ := held_of_excl w1 x1
      exact ⟨s1, r, arr, h1⟩
    · rw [he] at e
      cases e

theorem pop_loop_ok {N : Nat} : ∀ (k : Nat) {m : Mem T} {v : socow_vector T} {s : St T},
    swf N m v = true → pop_loop N k (m, v) = .ok s →
    Step m v s.1 s.2 ∧ swf N s.1 s.2 = true := by
  intro k
  induction k with
  | zero =>
    intro m v s h e
    cases e
    exact ⟨Step.refl m v, h⟩
  | succ k ih =>
    intro m v s h e
    simp only [pop_loop] at e
    obtain ⟨s1, e1, e2⟩ := bind_eq_ok e
    obtain ⟨st1, r, cs1, h1⟩ := pop_back_ok h e1
    obtain ⟨st2, w2⟩ := ih h1.1 e2
    exact ⟨st1.trans st2, w2⟩

theorem data_ok {N : Nat} {m : Mem T} {v : socow_vector T} {sr : St T × Region}
    (h : swf N m v = true) (e : data N m v = .ok sr) :
    Step m v sr.1.1 sr.1.2 ∧ swf N sr.1.1 sr.1.2 = true ∧ excl sr.1.1 sr.1.2 ∧
      const_data_ sr.1.2 = some sr.2 := by
  rcases data_cases h with ⟨m1, v1, r, d, hr, s1, w1, _, x1, _⟩ | ⟨_, he, _⟩
  · rw [d] at e
    cases e
    exact ⟨s1, w1, x1, hr⟩
  · rw [he] at e
    cases e

theorem push_back_ok {N : Nat} {m : Mem T} {v : socow_vector T} {x : T} {s : St T}
    (h : swf N m v = true) (e : push_back N m v x = .ok s) :
    Step m v s.1 s.2 ∧ swf N s.1 s.2 = true ∧ excl s.1 s.2 := by
  obtain ⟨cs, hc, _⟩ := contents_of_swf h
  obtain ⟨_, _, _, _, _, _, hcap⟩ := load_of_swf h
  rcases push_back_cases x h hc hcap with ⟨m1, v1, e1, s1, w1, _, _, x1, _⟩ | ⟨_, he, _⟩
  · rw [e1] at e
    cases e
    exact ⟨s1, w1, x1⟩
  · rw [he] at e
    cases e

/-- Whenever `insert` returns, it kept the ownership discipline. -/
theorem insert_ok {N : Nat} {m : Mem T} {v : socow_vector T} {pos : iterator} {x : T}
    {s : St T × iterator} (h : swf N m v = true) (e : insert N m v pos x = .ok s) :
    Step m v s.1.1 s.1.2 ∧ swf N s.1.1 s.1.2 = true := by
  unfold insert at e
  split at e
  · cases e
  · split at e
    · obtain ⟨s1, e1, e2⟩ := bind_eq_ok e
      obtain ⟨s2, e3, e4⟩ := bind_eq_ok e2
      obtain ⟨s3, e5, e6⟩ := bind_eq_ok e4
      cases e6
      obtain ⟨st1, w1, x1⟩ := push_back_ok h e1
      obtain ⟨r1, arr, h1, _⟩ := held_of_excl w1 x1
      obtain ⟨st2, cs2, h2⟩ := insert_loop_ok _ _ h1 e3
      obtain ⟨st3, w3, _⟩ := data_ok h2.1 e5
      exact ⟨(st1.trans st2).trans st3, w3⟩
    · cases e

/-- Whenever `erase` returns, it kept the ownership discipline. -/
theorem erase_ok {N : Nat} {m : Mem T} {v : socow_vector T} {first last : iterator}
    {s : St T × iterator} (h : swf N m v = true) (e : erase N m v first last = .ok s) :
    Step m v s.1.1 s.1.2 ∧ swf N s.1.1 s.1.2 = true := by
  unfold erase at e
  split at e
  · cases e
  · split at e
    · obtain ⟨s1, e1, e2⟩ := bind_eq_ok e
      obtain ⟨s2, e3, e4⟩ := bind_eq_ok e2
      obtain ⟨s3, e5, e6⟩ := bind_eq_ok e4
      obtain ⟨s4, e7, e8⟩ := bind_eq_ok e6
      cases e8
      rcases check_cow_cases h with ⟨m1, v1, d, st1, w1, _, x1, _⟩ | ⟨_, he, _⟩
      · rw [d] at e1
        cases e1
        obtain ⟨r1, arr, h1, _⟩ := held_of_excl w1 x1
        obtain ⟨st2, cs2, h2⟩ := erase_loop_ok _ _ _ h1 e3
        obtain ⟨st3, w3⟩ := pop_loop_ok _ h2.1 e5
        obtain ⟨st4, w4, _⟩ := data_ok w3 e7
        exact ⟨((st1.trans st2).trans st3).trans st4, w4⟩
      · rw [he] at e1
        cases e1
    · cases e

/-- The outcome of a write `data()[i] = x` at an index below the capacity. -/
theorem write_cases {N : Nat} {m : Mem T} {v : socow_vector T} {cs : Cells T} {c : Nat}
    (i : Nat) (x : T) (h : swf N m v = true) (hc : contents N m v = some cs)
    (hcap : capacity N m v = some c) :
    (i < c ∧ ∃ m1 v1, write N m v i x = .ok (m1, v1) ∧ Step m v m1 v1 ∧ swf N m1 v1 = true ∧
        excl m1 v1 ∧ contents N m1 v1 = some (cs.set i (some x)) ∧ v1.size_ = v.size_) ∨
      (c ≤ i ∧ write N m v i x = .ub) ∨
      (∃ e, write N m v i x = .threw e ∧ ¬ no_faults m) := by
  unfold write
  rcases data_cases h with ⟨m1, v1, r, d, hr, s1, w1, c1, x1, z1, _, k1⟩ | ⟨e, he, hq⟩
  · rw [d]
    simp only [bind_ok]
    obtain ⟨r2, arr, hr2, hl2, hn, hc2, hcap2⟩ := load_of_swf w1
    rw [hr] at hr2
    cases hr2
    rw [hl2]
    simp only
    rw [k1, hcap] at hcap2
    cases hcap2
    by_cases hi : i < arr.length
    · left
      rw [if_pos hi]
      obtain ⟨m2, v2, e2, s2, w2, x2, c2, z2, _⟩ :=
        store_excl_same (arr.set i (some x)) w1 x1 hr hl2 (by simp)
      rw [e2]
      refine ⟨hi, m2, v2, rfl, s1.trans s2, w2, x2, ?_, by rw [z2, z1]⟩
      rw [c2, List.set_take]
      rw [c1, hc] at hc2
      cases hc2
      rfl
    · right
      left
      rw [if_neg hi]
      exact ⟨by omega, rfl⟩
  · right
    right
    rw [he]
    exact ⟨_, rfl, hq⟩

theorem write_ok {N : Nat} {m : Mem T} {v : socow_vector T} {i : Nat} {x : T} {s : St T}
    (h : swf N m v = true) (e : write N m v i x = .ok s) :
    Step m v s.1 s.2 ∧ swf N s.1 s.2 = true := by
  obtain ⟨cs, hc, _⟩ := contents_of_swf h
  obtain ⟨_, _, _, _, _, _, hcap⟩ := load_of_swf h
  rcases write_cases i x h hc hcap with ⟨_, m1, v1, e1, s1, w1, _⟩ | ⟨_, he⟩ | ⟨_, he, _⟩
  · rw [e1] at e
    cases e
    exact ⟨s1, w1⟩
  · rw [he] at e
    cases e
  · rw [he] at e
    cases e

end StepOfOk

end Socow

namespace Socow

section ClearShrink

variable {T : Type}

theorem store_cells_size (m : Mem T) (v : socow_vector T) (r : Region) (cs : Cells T)
    (n : Nat) :
    store_cells m { v with size_ := n } r cs =
      (store_cells m v r cs).map (fun s => (s.1, { s.2 with size_ := n })) := by
  cases r with
  | inline => rfl
  | block p =>
    simp only [store_cells]
    cases m.buf p <;> rfl

/-- The outcome of `clear()`. -/
theorem clear_cases {N : Nat} {m : Mem T} {v : socow_vector T} (h : swf N m v = true) :
    (∃ m1 v1, clear N m v = .ok (m1, v1) ∧ Step m v m1 v1 ∧ swf N m1 v1 = true ∧ excl m1 v1 ∧
        contents N m1 v1 = some [] ∧ v1.size_ = 0 ∧ v1.is_small_ = v.is_small_ ∧
        capacity N m1 v1 = capacity N m v) ∨
      (∃ e, clear N m v = .threw e ∧ ¬ no_faults m) := by
  unfold clear
  rcases check_cow_cases h with ⟨m1, v1, e1, s1, w1, _, x1, _, i1, k1⟩ | ⟨e, he, hq⟩
  · left
    rw [e1]
    obtain ⟨r, arr, h1, hn, _⟩ := held_of_excl w1 x1
    simp only [bind_ok, data_excl x1 h1.2.2.1, h1.2.2.2, safe_clear_zero hn]
    obtain ⟨m2, v2, e2, s2, w2, x2, c2, z2, i2, k2, _⟩ :=
      store_excl (List.replicate v1.size_ none ++ arr.drop v1.size_) 0 w1 x1
        h1.2.2.1 h1.2.2.2 (by simp; omega) (Nat.zero_le _)
    rw [store_cells_size] at e2
    cases e3 : store_cells m1 v1 r (List.replicate v1.size_ none ++ arr.drop v1.size_) with
    | none => rw [e3] at e2; cases e2
    | some s =>
      rw [e3] at e2
      simp only [Option.map_some', Option.some.injEq] at e2
      simp only [ofOption_some, bind_ok]
      rw [e2]
      exact ⟨m2, v2, rfl, s1.trans s2, w2, x2, by simpa using c2, z2, by rw [i2, i1],
        by rw [k2, k1]⟩
  · right
    rw [he]
    exact ⟨_, rfl, hq⟩

theorem shrink_noop {N : Nat} {m : Mem T} {v : socow_vector T} {c : Nat}
    (hcap : capacity N m v = some c) (hx : v.is_small_ = true ∨ v.size_ = c) :
    shrink_to_fit N m v = .ok (m, v) := by
  unfold shrink_to_fit
  rw [hcap]
  rcases hx with hx | hx
  · simp [hx]
  · simp [hx]

theorem shrink_fit_eq {N : Nat} {m : Mem T} {v : socow_vector T} {p : Nat} {b : dynamic_buf T}
    (hs : v.is_small_ = false) (hp : v.store = .handle p) (hb : m.buf p = some b)
    (hne : v.size_ ≠ b.capacity) (hfit : v.size_ ≤ N) :
    shrink_to_fit N m v =
      match safe_copy (List.replicate N none) 0 b.data 0 v.size_ m.faults with
      | .ub => .ub
      | .threw (_, f) => .threw (m.setFaults f, v.set_dynamic p)
      | .ok (cs, f) =>
        match dyn_buf_delete (m.setFaults f) p v.size_ with
        | some m1 => .ok (m1, ⟨v.size_, true, .cells cs⟩)
        | none => .ub := by
  unfold shrink_to_fit
  rw [capacity_big hs hp hb]
  simp only [hne, hs, decide_False, Bool.or_self, Bool.false_eq_true, if_false, if_pos hfit,
    socow_vector.dynamic_storage_, hp, hb, socow_vector.static_storage_]
  rfl

theorem shrink_exact_eq {N : Nat} {m : Mem T} {v : socow_vector T} {p : Nat}
    {b : dynamic_buf T} (hs : v.is_small_ = false) (hp : v.store = .handle p)
    (hb : m.buf p = some b) (hne : v.size_ ≠ b.capacity) (hfit : ¬ v.size_ ≤ N) :
    shrink_to_fit N m v =
      match safe_copy (List.replicate v.size_ none) 0 b.data 0 v.size_ m.faults with
      | .ub => .ub
      | .threw (d, f) =>
        .threw (((allocate m v.size_).1.put m.heap.length ⟨v.size_, 1, d⟩).setFaults f, v)
      | .ok (d, f) =>
        match buf_delete_ N
          (((allocate m v.size_).1.put m.heap.length ⟨v.size_, 1, d⟩).setFaults f) v with
        | some s => .ok (s.1, s.2.set_dynamic m.heap.length)
        | none => .ub := by
  unfold shrink_to_fit
  rw [capacity_big hs hp hb]
  simp only [hne, hs, decide_False, Bool.or_self, Bool.false_eq_true, if_false, if_neg hfit,
    socow_vector.dynamic_storage_, hp, addr_allocate, buf_allocate_old _ (buf_lt hb), hb,
    buf_allocate_new, faults_allocate]

/-- The outcome of `shrink_to_fit()`. -/
theorem shrink_to_fit_cases {N : Nat} {m : Mem T} {v : socow_vector T} {cs : Cells T} {c : Nat}
    (h : swf N m v = true) (hc : contents N m v = some cs) (hcap : capacity N m v = some c) :
    (∃ m1 v1, shrink_to_fit N m v = .ok (m1, v1) ∧ Step m v m1 v1 ∧ swf N m1 v1 = true ∧
        contents N m1 v1 = some cs ∧ v1.size_ = v.size_ ∧
        ((v.is_small_ = true ∨ v.size_ = c) → m1 = m ∧ v1 = v) ∧
        (v.is_small_ = false → v.size_ ≠ c → v.size_ ≤ N →
          v1.is_small_ = true ∧ m1.heap = released m v) ∧
        (v.is_small_ = false → v.size_ ≠ c → N < v.size_ →
          v1.is_small_ = false ∧ v1.store = .handle m.heap.length ∧
          ∃ nb, m1.heap = released m v ++ [some nb] ∧ nb.ref_count = 1 ∧
            nb.capacity = v.size_)) ∨
      (∃ e, shrink_to_fit N m v = .threw e ∧ ¬ no_faults m) := by
  by_cases hx : v.is_small_ = true ∨ v.size_ = c
  · left
    refine ⟨m, v, shrink_noop hcap hx, Step.refl m v, h, hc, rfl, fun _ => ⟨rfl, rfl⟩,
      fun h1 h2 _ => ?_, fun h1 h2 _ => ?_⟩
    · rcases hx with hx | hx
      · rw [h1] at hx; cases hx
      · exact absurd hx h2
    · rcases hx with hx | hx
      · rw [h1] at hx; cases hx
      · exact absurd hx h2
  · have hs : v.is_small_ = false := by
      cases hv : v.is_small_ with
      | false => rfl
      | true => exact absurd (Or.inl hv) hx
    have hne : v.size_ ≠ c := fun e => hx (Or.inr e)
    obtain ⟨p, b, hp, hb, h1, h2, h3⟩ := (swf_big hs).1 h
    rw [capacity_big hs hp hb] at hcap
    cases hcap
    rw [contents_big hs hp hb (by omega)] at hc
    cases hc
    have hplt := buf_lt hb
    have hrel := released_big hs hp hb
    by_cases hfit : v.size_ ≤ N
    · rw [shrink_fit_eq hs hp hb hne hfit]
      rcases safe_copy_front (List.replicate N none) b.data v.size_ m.faults (by omega)
          (by simp; omega) with ⟨_, e⟩ | ⟨hq, c, fs, e, _, _⟩
      · left
        rw [e]
        simp only
        rw [dyn_buf_delete_eq (m := m.setFaults (m.faults.drop v.size_)) hb (by omega)]
        have hs1 : (⟨v.size_, true, .cells (b.data.take v.size_ ++
            (List.replicate N none).drop v.size_)⟩ : socow_vector T).is_small_ = true := rfl
        refine ⟨_, ⟨v.size_, true, .cells (b.data.take v.size_ ++
            (List.replicate N none).drop v.size_)⟩, rfl, ?_, ?_, ?_, rfl,
          fun hy => absurd hy hx, fun _ _ _ => ⟨rfl, by rw [hrel]; rfl⟩, fun _ _ hy => ?_⟩
        · exact step_to_inline hs1 (by rw [hrel]; rfl) ⟨v.size_, rfl⟩
        · rw [swf_small hs1]
          refine ⟨hfit, ?_⟩
          show (b.data.take v.size_ ++ (List.replicate N none).drop v.size_).length = N
          simp
          omega
        · have hlen : v.size_ ≤ (b.data.take v.size_ ++
              (List.replicate N none).drop v.size_).length := by
            simp
            omega
          rw [contents_small hs1 hlen]
          exact congrArg some (List.take_left' (by simp; omega))
        · omega
      · right
        rw [e]
        exact ⟨_, rfl, not_no_faults_of_not_quiet hq⟩
    · rw [shrink_exact_eq hs hp hb hne hfit]
      rcases safe_copy_front (List.replicate v.size_ none) b.data v.size_ m.faults (by omega)
          (by simp) with ⟨_, e⟩ | ⟨hq, c, fs, e, _, _⟩
      · left
        rw [e]
        simp only
        have hsw : swf N (((allocate m v.size_).1.put m.heap.length
            ⟨v.size_, 1, b.data.take v.size_ ++ (List.replicate v.size_ none).drop v.size_⟩
            ).setFaults (m.faults.drop v.size_)) v = true := by
          rw [← h]
          apply swf_congr
          intro q hq
          have := own_lt_of_swf h q hq
          rw [buf_setFaults, buf_put_ne _ (by omega), buf_allocate_old _ this]
        obtain ⟨v2, hv2, _, _, hv3⟩ := buf_delete_eq hsw
        rw [hv2]
        simp only [hv3]
        have hh : (⟨released (((allocate m v.size_).1.put m.heap.length
            ⟨v.size_, 1, b.data.take v.size_ ++ (List.replicate v.size_ none).drop v.size_⟩
            ).setFaults (m.faults.drop v.size_)) v, m.faults.drop v.size_⟩ : Mem T).heap =
            released m v ++ [some ⟨v.size_, 1, b.data.take v.size_ ++
              (List.replicate v.size_ none).drop v.size_⟩] := by
          apply released_congr _ (own_lt_of_swf h)
          simp
        obtain ⟨f1, f2, _, _, f5, _, _⟩ := relocated_facts N (v.set_dynamic m.heap.length)
          hh rfl (by simp; omega) ⟨v.size_, rfl⟩ hs rfl (by simp)
        refine ⟨_, _, rfl, f1, f2, ?_, rfl, fun hy => absurd hy hx, fun _ _ hy => ?_,
          fun _ _ _ => ⟨hs, rfl, _, hh, rfl, rfl⟩⟩
        · exact f5.trans (congrArg some (List.take_left' (by simp; omega)))
        · exact absurd hy hfit
      · right
        rw [e]
        exact ⟨_, rfl, not_no_faults_of_not_quiet hq⟩

end ClearShrink

end Socow

namespace Socow

section Reserve

variable {T : Type}

theorem step_two_fresh {m m1 : Mem T} {v v1 : socow_vector T} {p : Nat} {b nb : dynamic_buf T}
    (ho : own v = some p) (hb : m.buf p = some b) (hr : 1 < b.ref_count)
    (hh : m1.heap = m.heap.set p (some { b with ref_count := b.ref_count - 1 }) ++
      [some nb, none]) (hnr : nb.ref_count = 1) (hf : ∃ k, m1.faults = m.faults.drop k)
    (ho1 : own v1 = some m.heap.length) : Step m v m1 v1 where
  grow := by rw [hh]; simp
  sched := hf
  others := fun a h1 h2 => by
    have : p ≠ a := fun e => h2 (by rw [ho, e])
    rw [hh, List.getElem?_append_left (by simpa using h1), List.getElem?_set_ne this]
  mine := fun q c h1 h2 => by
    rw [ho] at h1
    cases h1
    rw [hb] at h2
    cases h2
    right
    have hplt := buf_lt hb
    refine ⟨by rw [ho1]; intro e; cases e; omega, ?_⟩
    rw [hh, List.getElem?_append_left (by simpa using hplt), List.getElem?_set_self hplt]
    simp [release, hr]
  fresh := fun a h1 h2 => by
    rw [hh] at h2
    simp at h2
    rw [hh, List.getElem?_append_right (by simpa using h1)]
    simp only [List.length_set]
    by_cases c : a = m.heap.length
    · left
      subst c
      refine ⟨ho1, nb, ?_, hnr⟩
      rw [buf_eq_some, hh, List.getElem?_append_right (by simp)]
      simp
    · right
      refine ⟨by rw [ho1]; intro e; cases e; exact c rfl, ?_⟩
      have : a - m.heap.length = 1 := by omega
      rw [this]
      rfl
  stay := fun a h1 h2 => by
    rw [ho1] at h1
    cases h1
    omega

theorem reserve_small_eq {N : Nat} {m : Mem T} {v : socow_vector T} {c : Nat} (n : Nat)
    (hcap : capacity N m v = some c) (hn : n ≤ c) : reserve N m v n = check_cow_ N m v := by
  unfold reserve
  rw [hcap]
  simp only [if_pos hn]

theorem reserve_grow_eq {N : Nat} {m : Mem T} {v : socow_vector T} {c : Nat} (n : Nat)
    (hcap : capacity N m v = some c) (hn : ¬ n ≤ c) :
    reserve N m v n =
      match data N (allocate m n).1 v with
      | .ub => .ub
      | .threw s => .threw s
      | .ok sr =>
        match load N sr.1.1 sr.1.2 sr.2, sr.1.1.buf m.heap.length with
        | some src, some nb =>
          match safe_copy nb.data 0 src 0 sr.1.2.size_ sr.1.1.faults with
          | .ub => .ub
          | .threw (d, f) =>
            .threw ((sr.1.1.put m.heap.length { nb with data := d }).setFaults f, sr.1.2)
          | .ok (d, f) =>
            match buf_delete_ N ((sr.1.1.put m.heap.length { nb with data := d }).setFaults f)
              sr.1.2 with
            | some s => .ok (s.1, { s.2.set_dynamic m.heap.length with is_small_ := false })
            | none => .ub
        | _, _ => .ub := by
  unfold reserve
  rw [hcap]
  simp only [if_neg hn]
  rfl

/-- What a successful `reserve(n)` establishes. -/
theorem reserve_cases {N : Nat} {m : Mem T} {v : socow_vector T} {cs : Cells T} {c : Nat}
    (n : Nat) (h : swf N m v = true) (hc : contents N m v = some cs)
    (hcap : capacity N m v = some c) :
    (∃ m1 v1, reserve N m v n = .ok (m1, v1) ∧ Step m v m1 v1 ∧ swf N m1 v1 = true ∧
        excl m1 v1 ∧ contents N m1 v1 = some cs ∧ v1.size_ = v.size_ ∧
        capacity N m1 v1 = some (if n ≤ c then c else n) ∧
        (n ≤ c → v1.is_small_ = v.is_small_) ∧ (c < n → v1.is_small_ = false)) ∨
      (∃ e, reserve N m v n = .threw e ∧ ¬ no_faults m) := by
  by_cases hn : n ≤ c
  · rw [reserve_small_eq n hcap hn]
    rcases check_cow_cases h with ⟨m1, v1, e1, s1, w1, c1, x1, z1, i1, k1⟩ | ⟨e, he, hq⟩
    · left
      exact ⟨m1, v1, e1, s1, w1, x1, by rw [c1, hc], z1, by rw [k1, hcap, if_pos hn],
        fun _ => i1, fun hx => by omega⟩
    · right
      exact ⟨e, he, hq⟩
  · rw [reserve_grow_eq n hcap hn]
    have hold := own_lt_of_swf h
    obtain ⟨r, src, hr, hl, hsn, hc0, hcap0⟩ := load_of_swf h
    rw [hcap] at hcap0
    cases hcap0
    rw [hc] at hc0
    cases hc0
    have hbold : ∀ q, own v = some q → (allocate m n).1.buf q = m.buf q :=
      fun q hq => buf_allocate_old _ (hold q hq)
    have hsw : swf N (allocate m n).1 v = true := by
      rw [← h]
      exact swf_congr hbold
    by_cases hx : excl m v
    · have hx1 : excl (allocate m n).1 v := by
        rcases hx with hx | ⟨p, b, hp, hb, hr1⟩
        · exact Or.inl hx
        · exact Or.inr ⟨p, b, hp, by rw [buf_allocate_old _ (buf_lt hb)]; exact hb, hr1⟩
      rw [data_excl hx1 hr]
      have hl1 : load N (allocate m n).1 v r = some src := by
        rw [← hl]
        apply load_congr
        intro p hp
        subst hp
        rcases swf_cases h with ⟨hs, _, _⟩ | ⟨hs, q, b, hq, hb, _⟩
        · rw [const_data_small hs] at hr; cases hr
        · rw [const_data_big hs hq] at hr
          cases hr
          exact buf_allocate_old _ (buf_lt hb)
      simp only [hl1, buf_allocate_new, faults_allocate]
      rcases safe_copy_front (List.replicate n none) src v.size_ m.faults hsn
          (by simp; omega) with ⟨_, e⟩ | ⟨hq, k, fs, e, _, _⟩
      · left
        rw [e]
        simp only
        have hsw2 : swf N (((allocate m n).1.put m.heap.length
            ⟨n, 1, src.take v.size_ ++ (List.replicate n none).drop v.size_⟩).setFaults
            (m.faults.drop v.size_)) v = true := by
          rw [← h]
          apply swf_congr
          intro q hq
          have := hold q hq
          rw [buf_setFaults, buf_put_ne _ (by omega), buf_allocate_old _ this]
        obtain ⟨v2, hv2, _, _, hv3⟩ := buf_delete_eq hsw2
        rw [hv2]
        simp only [hv3]
        have hh : (⟨released (((allocate m n).1.put m.heap.length
            ⟨n, 1, src.take v.size_ ++ (List.replicate n none).drop v.size_⟩).setFaults
            (m.faults.drop v.size_)) v, m.faults.drop v.size_⟩ : Mem T).heap =
            released m v ++ [some ⟨n, 1, src.take v.size_ ++
              (List.replicate n none).drop v.size_⟩] := by
          apply released_congr _ hold
          simp
        obtain ⟨f1, f2, f3, f4, f5, _, _⟩ := relocated_facts N
          ⟨v.size_, false, .handle m.heap.length⟩ hh rfl (by simp; omega) ⟨v.size_, rfl⟩
          rfl rfl (by simp; omega)
        refine ⟨_, ⟨v.size_, false, .handle m.heap.length⟩, rfl, f1, f2, f3, ?_, rfl, ?_,
          fun hy => absurd hy hn, fun _ => rfl⟩
        · exact f5.trans (congrArg some (List.take_left' (by simp; omega)))
        · rw [if_neg hn]
          exact f4
      · right
        rw [e]
        exact ⟨_, rfl, not_no_faults_of_not_quiet hq⟩
    · have hs : v.is_small_ = false := by
        cases hv : v.is_small_ with
        | false => rfl
        | true => exact absurd (Or.inl hv) hx
      obtain ⟨p, b, hp, hb, h1, h2, h3⟩ := (swf_big hs).1 h
      have hr1 : 1 < b.ref_count := by
        have : b.ref_count ≠ 1 := fun e => hx ((excl_big_iff hs hp hb).2 e)
        omega
      have hplt := buf_lt hb
      have hb1 : (allocate m n).1.buf p = some b := by
        rw [buf_allocate_old _ hplt, hb]
      have hlen1 : (allocate m n).1.heap.length = m.heap.length + 1 := by simp
      rw [const_data_big hs hp] at hr
      cases hr
      simp only [load, hb, Option.map_some', Option.some.injEq] at hl
      subst hl
      unfold data
      rw [check_cow_big hs hp hb1, if_pos hr1]
      rcases copy_on_write_cases (N := N) hs hp hb1 h1 h3 with ⟨_, e⟩ | ⟨hq, fs, e, _⟩
      · rw [e]
        have hs1 : (v.set_dynamic (allocate m n).1.heap.length).is_small_ = false := hs
        have hp1 : (v.set_dynamic (allocate m n).1.heap.length).store =
            .handle (allocate m n).1.heap.length := rfl
        have hnew := cow_mem_new (allocate m n).1 b v.size_ (buf_lt hb1)
        have hq0 : (cow_mem (allocate m n).1 p b v.size_).buf m.heap.length =
            some ⟨n, 1, List.replicate n none⟩ := by
          rw [buf_congr (cow_mem_other (allocate m n).1 p b v.size_ (by omega) (by omega))]
          exact buf_allocate_new m n
        simp only [bind_ok, const_data_big hs1 hp1, load, hnew, Option.map_some', hq0,
          size_set_dynamic, cow_mem_faults, faults_allocate]
        rcases safe_copy_front (List.replicate n none)
            (b.data.take v.size_ ++ (List.replicate b.capacity none).drop v.size_) v.size_
            (m.faults.drop v.size_) (by simp; omega) (by simp; omega) with
          ⟨_, e2⟩ | ⟨hq, k, fs, e2, _, _⟩
        · left
          rw [e2]
          simp only
          have hb3 : (((cow_mem (allocate m n).1 p b v.size_).put m.heap.length
              ⟨n, 1, (b.data.take v.size_ ++ (List.replicate b.capacity none).drop
                v.size_).take v.size_ ++ (List.replicate n none).drop v.size_⟩).setFaults
              ((m.faults.drop v.size_).drop v.size_)).buf (allocate m n).1.heap.length =
              some ⟨b.capacity, 1, b.data.take v.size_ ++
                (List.replicate b.capacity none).drop v.size_⟩ := by
            rw [buf_setFaults, buf_put_ne _ (by omega)]
            exact hnew
          have hdel : buf_delete_ N (((cow_mem (allocate m n).1 p b v.size_).put m.heap.length
              ⟨n, 1, (b.data.take v.size_ ++ (List.replicate b.capacity none).drop
                v.size_).take v.size_ ++ (List.replicate n none).drop v.size_⟩).setFaults
              ((m.faults.drop v.size_).drop v.size_))
              (v.set_dynamic (allocate m n).1.heap.length) =
              some (⟨((cow_mem (allocate m n).1 p b v.size_).heap.set m.heap.length
                (some ⟨n, 1, (b.data.take v.size_ ++ (List.replicate b.capacity none).drop
                  v.size_).take v.size_ ++ (List.replicate n none).drop v.size_⟩)).set
                  (allocate m n).1.heap.length none,
                (m.faults.drop v.size_).drop v.size_⟩,
                v.set_dynamic (allocate m n).1.heap.length) := by
            unfold buf_delete_
            simp only [small_set_dynamic, hs, socow_vector.dynamic_storage_, store_set_dynamic,
              size_set_dynamic, Bool.false_eq_true, if_false]
            rw [dyn_buf_delete_eq hb3 (by simp; omega)]
            simp [release]
          rw [hdel]
          simp only
          have hfin : ((cow_mem (allocate m n).1 p b v.size_).heap.set m.heap.length
              (some ⟨n, 1, (b.data.take v.size_ ++ (List.replicate b.capacity none).drop
                v.size_).take v.size_ ++ (List.replicate n none).drop v.size_⟩)).set
                (allocate m n).1.heap.length none =
              m.heap.set p (some { b with ref_count := b.ref_count - 1 }) ++
                [some ⟨n, 1, (b.data.take v.size_ ++ (List.replicate b.capacity none).drop
                  v.size_).take v.size_ ++ (List.replicate n none).drop v.size_⟩, none] := by
            apply List.ext_getElem?
            intro j
            simp only [cow_mem, heap_put, heap_setFaults, heap_allocate, List.getElem?_set,
              List.getElem?_append, List.length_set, List.length_append,
              List.length_singleton, addr_allocate]
            by_cases c1 : j < m.heap.length
            · by_cases c2 : p = j
              · subst c2
                have e1 : ¬ m.heap.length + 1 = p := by omega
                have e2 : ¬ m.heap.length = p := by omega
                simp [c1, e1, e2]
                omega
              · have e1 : ¬ m.heap.length + 1 = j := by omega
                have e2 : ¬ m.heap.length = j := by omega
                simp [c1, c2, e1, e2]
                intro h5
                omega
            · by_cases c3 : j = m.heap.length
              · subst c3
                have e1 : ¬ m.heap.length + 1 = m.heap.length := by omega
                simp [e1]
                omega
              · by_cases c4 : j = m.heap.length + 1
                · subst c4
                  simp
                · have e1 : ¬ m.heap.length + 1 = j := by omega
                  have e2 : ¬ m.heap.length = j := by omega
                  have e3 : ¬ p = j := by omega
                  have e4 : ¬ j < m.heap.length + 1 := by omega
                  have e5 : ¬ j - m.heap.length - 1 = 0 := by omega
                  simp [c1, e1, e2, e3, e4]
                  have e6 : j - m.heap.length = (j - m.heap.length - 2) + 2 := by omega
                  rw [e6]
                  simp
                  have e7 : j - (m.heap.length + 1) = (j - m.heap.length - 2) + 1 := by omega
                  rw [e7]
                  simp
          have hs4 : (⟨v.size_, false, .handle m.heap.length⟩ : socow_vector T).is_small_ =
            false := rfl
          have hp4 : (⟨v.size_, false, .handle m.heap.length⟩ : socow_vector T).store =
            .handle m.heap.length := rfl
          have hb4 : (⟨((cow_mem (allocate m n).1 p b v.size_).heap.set m.heap.length
              (some ⟨n, 1, (b.data.take v.size_ ++ (List.replicate b.capacity none).drop
                v.size_).take v.size_ ++ (List.replicate n none).drop v.size_⟩)).set
                (allocate m n).1.heap.length none,
              (m.faults.drop v.size_).drop v.size_⟩ : Mem T).buf m.heap.length =
              some ⟨n, 1, (b.data.take v.size_ ++ (List.replicate b.capacity none).drop
                v.size_).take v.size_ ++ (List.replicate n none).drop v.size_⟩ := by
            rw [buf_eq_some]
            simp only
            rw [hfin, List.getElem?_append_right (by simp)]
            simp
          refine ⟨_, ⟨v.size_, false, .handle m.heap.length⟩, rfl, ?_, ?_, ?_, ?_, rfl, ?_,
            fun hy => absurd hy hn, fun _ => rfl⟩
          · exact step_two_fresh (own_big hs hp) hb hr1 hfin rfl
              ⟨v.size_ + v.size_, by simp [List.drop_drop]⟩ (own_big hs4 hp4)
          · exact swf_mk_big hs4 hp4 hb4 (by simp; omega) (le_refl _) (by simp; omega)
          · exact Or.inr ⟨_, _, hp4, hb4, rfl⟩
          · rw [contents_big hs4 hp4 hb4 (by simp; omega)]
            congr 1
            simp only
            rw [List.take_left' (by simp; omega), List.take_left' (by simp; omega)]
          · rw [capacity_big hs4 hp4 hb4, if_neg hn]
        · right
          rw [e2]
          refine ⟨_, rfl, fun hnf => hq (quiet_of_all (all_drop hnf _) _)⟩
      · right
        rw [e]
        exact ⟨_, rfl, not_no_faults_of_not_quiet hq⟩

end Reserve

end Socow

namespace Socow

section Frame

variable {T : Type}

/-- Whenever a mutating operation returns, it kept the ownership discipline. -/
theorem run_ok {N : Nat} {m : Mem T} {v : socow_vector T} (μ : Mutation T) {s : St T}
    (h : swf N m v = true) (e : μ.run N m v = .ok s) : Step m v s.1 s.2 := by
  obtain ⟨cs, hc, _⟩ := contents_of_swf h
  obtain ⟨_, _, _, _, _, _, hcap⟩ := load_of_swf h
  cases μ with
  | push_back x => exact (push_back_ok h e).1
  | pop_back => exact (pop_back_ok h e).1
  | clear =>
    rcases clear_cases h with ⟨m1, v1, e1, s1, _⟩ | ⟨_, he, _⟩
    · simp only [Mutation.run] at e
      rw [e1] at e
      cases e
      exact s1
    · simp only [Mutation.run] at e
      rw [he] at e
      cases e
  | insert pos x =>
    simp only [Mutation.run] at e
    obtain ⟨s1, e1, e2⟩ := bind_eq_ok e
    cases e2
    exact (insert_ok h e1).1
  | erase first last =>
    simp only [Mutation.run] at e
    obtain ⟨s1, e1, e2⟩ := bind_eq_ok e
    cases e2
    exact (erase_ok h e1).1
  | erase1 pos =>
    simp only [Mutation.run, erase1] at e
    obtain ⟨s1, e1, e2⟩ := bind_eq_ok e
    cases e2
    exact (erase_ok h e1).1
  | reserve n =>
    rcases reserve_cases n h hc hcap with ⟨m1, v1, e1, s1, _⟩ | ⟨_, he, _⟩
    · simp only [Mutation.run] at e
      rw [e1] at e
      cases e
      exact s1
    · simp only [Mutation.run] at e
      rw [he] at e
      cases e
  | shrink_to_fit =>
    rcases shrink_to_fit_cases h hc hcap with ⟨m1, v1, e1, s1, _⟩ | ⟨_, he, _⟩
    · simp only [Mutation.run] at e
      rw [e1] at e
      cases e
      exact s1
    · simp only [Mutation.run] at e
      rw [he] at e
      cases e
  | write i x => exact (write_ok h e).1
  | write_front x => exact (write_ok h e).1
  | write_back x =>
    simp only [Mutation.run, write_back] at e
    split at e
    · obtain ⟨s1, _, e2⟩ := bind_eq_ok e
      cases e2
    · exact (write_ok h e).1

/-- What copy construction establishes between the source and the copy. -/
theorem copy_ctor_shares {N : Nat} {m0 m : Mem T} {o c : socow_vector T}
    (ho : swf N m0 o = true) (e : copy_ctor N m0 o = .ok (m, c)) :
    swf N m c = true ∧ swf N m o = true ∧ contents N m o = contents N m0 o ∧
      (∀ i, get N m o i = get N m0 o i) ∧ (no_faults m0 → no_faults m) ∧
      ∀ p b, own o = some p → own c = some p → m.buf p = some b → 1 < b.ref_count := by
  have hst := static_length_of_swf ho
  by_cases hn : o.size_ ≤ N
  · unfold copy_ctor at e
    rw [if_pos hn] at e
    rcases safe_copy_front (List.replicate N none) (o.static_storage_ N) o.size_ m0.faults
        (by omega) (by simp; omega) with ⟨_, e1⟩ | ⟨_, k, fs, e1, _, _⟩
    · rw [e1] at e
      cases e
      have hs1 : (⟨o.size_, true, .cells ((o.static_storage_ N).take o.size_ ++
          (List.replicate N none).drop o.size_)⟩ : socow_vector T).is_small_ = true := rfl
      refine ⟨?_, ?_, ?_, fun i => ?_, fun hnf => all_drop hnf _, fun p b _ h2 _ => ?_⟩
      · rw [swf_small hs1]
        refine ⟨hn, ?_⟩
        show ((o.static_storage_ N).take o.size_ ++
          (List.replicate N none).drop o.size_).length = N
        simp
        omega
      · rw [← ho]
        exact swf_congr (fun _ _ => rfl)
      · rfl
      · rfl
      · rw [own_small hs1] at h2
        cases h2
    · rw [e1] at e
      cases e
  · have hsm : o.is_small_ = false := by
      rcases swf_cases ho with ⟨_, h1, _⟩ | ⟨h1, _⟩
      · omega
      · exact h1
    obtain ⟨p, b, hp, hb, h1, h2, h3⟩ := (swf_big hsm).1 ho
    unfold copy_ctor at e
    rw [if_neg hn] at e
    simp only [socow_vector.dynamic_storage_, hp, hb, hsm] at e
    cases e
    have hb1 : (m0.put p { b with ref_count := b.ref_count + 1 }).buf p =
        some { b with ref_count := b.ref_count + 1 } := buf_put_self _ (buf_lt hb)
    have hs1 : (⟨o.size_, false, .handle p⟩ : socow_vector T).is_small_ = false := rfl
    have hp1 : (⟨o.size_, false, .handle p⟩ : socow_vector T).store = .handle p := rfl
    refine ⟨swf_mk_big hs1 hp1 hb1 h1 (by simp) h3, swf_mk_big hsm hp hb1 h1 (by simp) h3, ?_,
      fun i => ?_, fun hnf => hnf, fun q b2 h4 _ h6 => ?_⟩
    · rw [contents_big hsm hp hb1 (by simp; omega), contents_big hsm hp hb (by omega)]
    · simp [get, const_data_big hsm hp, load, hb1, hb]
    · rw [own_big hsm hp] at h4
      cases h4
      rw [hb1] at h6
      cases h6
      show 1 < b.ref_count + 1
      omega

end Frame

end Socow

namespace Socow

section SwapStructure

variable {T : Type}

theorem swap_cells_loop_spec : ∀ (k i : Nat) (a b : Cells T), i + k ≤ a.length →
    i + k ≤ b.length →
    ∃ a1 b1, swap_cells_loop k i a b = some (a1, b1) ∧ a1.length = a.length ∧
      b1.length = b.length ∧
      (∀ j, a1[j]? = if i ≤ j ∧ j < i + k then b[j]? else a[j]?) ∧
      ∀ j, b1[j]? = if i ≤ j ∧ j < i + k then a[j]? else b[j]? := by
  intro k
  induction k with
  | zero =>
    intro i a b _ _
    refine ⟨a, b, rfl, rfl, rfl, fun j => ?_, fun j => ?_⟩
    · rw [if_neg (by omega)]
    · rw [if_neg (by omega)]
  | succ k ih =>
    intro i a b ha hb
    have h1 : i < a.length := by omega
    have h2 : i < b.length := by omega
    obtain ⟨a1, b1, e, la, lb, ga, gb⟩ := ih (i + 1) (a.set i b[i]) (b.set i a[i])
      (by simp; omega) (by simp; omega)
    refine ⟨a1, b1, ?_, by simpa using la, by simpa using lb, fun j => ?_, fun j => ?_⟩
    · simp only [swap_cells_loop, List.getElem?_eq_getElem h1, List.getElem?_eq_getElem h2, e]
    · rw [ga j]
      by_cases c1 : i + 1 ≤ j ∧ j < i + 1 + k
      · rw [if_pos c1, List.getElem?_set_ne (by omega), if_pos (by omega)]
      · rw [if_neg c1, List.getElem?_set]
        by_cases c2 : i = j
        · subst c2
          rw [if_pos rfl, if_pos h1, if_pos (by omega), List.getElem?_eq_getElem h2]
        · rw [if_neg c2, if_neg (by omega)]
    · rw [gb j]
      by_cases c1 : i + 1 ≤ j ∧ j < i + 1 + k
      · rw [if_pos c1, List.getElem?_set_ne (by omega), if_pos (by omega)]
      · rw [if_neg c1, List.getElem?_set]
        by_cases c2 : i = j
        · subst c2
          rw [if_pos rfl, if_pos h2, if_pos (by omega), List.getElem?_eq_getElem h1]
        · rw [if_neg c2, if_neg (by omega)]

/-- What the four storage exchanges of `swap` establish before `size_` and `is_small_` are
exchanged: no heap block changes, and each union holds what gives the other container, with the
flags of the other, well-formed storage. -/
theorem swap_small_cases {N : Nat} {m : Mem T} {a b : socow_vector T} (ha1 : a.size_ ≤ N)
    (ha2 : (a.static_storage_ N).length = N) (hb1 : b.size_ ≤ N)
    (hb2 : (b.static_storage_ N).length = N) :
    (∃ f ca cb, swap_small_ N m a b = .ok (m.setFaults f, a.set_static ca, b.set_static cb) ∧
        (∃ k, f = m.faults.drop k) ∧ ca.length = N ∧ cb.length = N) ∨
      (∃ e, swap_small_ N m a b = .threw e ∧ ¬ no_faults m) := by
  obtain ⟨a1, b1, e, la, lb, _, _⟩ := swap_cells_loop_spec (min a.size_ b.size_) 0
    (a.static_storage_ N) (b.static_storage_ N) (by omega) (by omega)
  unfold swap_small_
  rw [e]
  simp only
  by_cases c : b.size_ > a.size_
  · rw [if_pos c]
    rcases safe_copy_cases a1 a.size_ b1 a.size_ (b.size_ - a.size_) m.faults (by omega)
        (by omega) with ⟨_, d, e1, ld, _⟩ | ⟨hq, k, d, fs, e1, _⟩
    · obtain ⟨d2, e2, ld2, _⟩ := safe_clear_spec (b.size_ - a.size_) b1 a.size_ (by omega)
      left
      rw [e1]
      simp only [e2]
      exact ⟨_, d, d2, rfl, ⟨_, rfl⟩, by omega, by omega⟩
    · right
      rw [e1]
      exact ⟨_, rfl, not_no_faults_of_not_quiet hq⟩
  · rw [if_neg c]
    rcases safe_copy_cases b1 b.size_ a1 b.size_ (a.size_ - b.size_) m.faults (by omega)
        (by omega) with ⟨_, d, e1, ld, _⟩ | ⟨hq, k, d, fs, e1, _⟩
    · obtain ⟨d2, e2, ld2, _⟩ := safe_clear_spec (a.size_ - b.size_) a1 b.size_ (by omega)
      left
      rw [e1]
      simp only [e2]
      exact ⟨_, d2, d, rfl, ⟨_, rfl⟩, by omega, by omega⟩
    · right
      rw [e1]
      exact ⟨_, rfl, not_no_faults_of_not_quiet hq⟩

theorem swap_different_cases {N : Nat} {m : Mem T} {a b : socow_vector T} {p : Nat}
    (ha : a.is_small_ = true) (ha1 : a.size_ ≤ N) (ha2 : (a.static_storage_ N).length = N)
    (hp : b.store = .handle p) :
    (∃ f cb, swap_different_ N m a b = .ok (m.setFaults f, a.set_dynamic p, b.set_static cb) ∧
        (∃ k, f = m.faults.drop k) ∧ cb.length = N) ∨
      (∃ e, swap_different_ N m a b = .threw e ∧ ¬ no_faults m) := by
  have hst : b.static_storage_ N = List.replicate N none := by
    simp [socow_vector.static_storage_, hp]
  unfold swap_different_
  simp only [socow_vector.dynamic_storage_, hp, hst]
  rcases safe_copy_front (List.replicate N none) (a.static_storage_ N) a.size_ m.faults
      (by omega) (by simp; omega) with ⟨_, e⟩ | ⟨hq, k, fs, e, _, _⟩
  · left
    rw [e]
    simp only
    obtain ⟨d, hd⟩ := safe_clear_isSome a.size_ (a.static_storage_ N) 0 (by omega)
    simp only [buf_delete_, ha, if_true, hd]
    refine ⟨_, _, rfl, ⟨_, rfl⟩, ?_⟩
    simp
    omega
  · right
    rw [e]
    exact ⟨_, rfl, not_no_faults_of_not_quiet hq⟩

/-- The outcome of `swap(other)` on two structurally well-formed containers: no heap block
changes, and each container ends with the block, the size and the mode the other had. -/
theorem swap_cases {N : Nat} {m : Mem T} {a b : socow_vector T} (ha : swf N m a = true)
    (hb : swf N m b = true) :
    (∃ m1 a1 b1, swap N m a b = .ok (m1, a1, b1) ∧ m1.heap = m.heap ∧
        (∃ k, m1.faults = m.faults.drop k) ∧ swf N m1 a1 = true ∧ swf N m1 b1 = true ∧
        own a1 = own b ∧ own b1 = own a ∧ a1.size_ = b.size_ ∧ b1.size_ = a.size_ ∧
        a1.is_small_ = b.is_small_ ∧ b1.is_small_ = a.is_small_) ∨
      (∃ e, swap N m a b = .threw e ∧ ¬ no_faults m) := by
  rcases swf_cases ha with ⟨sa, a1, a2⟩ | ⟨sa, p, ba, pa, bufa, a1, a2, a3⟩
  · rcases swf_cases hb with ⟨sb, b1, b2⟩ | ⟨sb, q, bb, pb, bufb, b1, b2, b3⟩
    · rcases swap_small_cases (m := m) a1 a2 b1 b2 with
        ⟨f, ca, cb, e, hk, la, lb⟩ | ⟨e, he, hq⟩
      · left
        have h1 : (⟨b.size_, true, .cells ca⟩ : socow_vector T).is_small_ = true := rfl
        have h2 : (⟨a.size_, true, .cells cb⟩ : socow_vector T).is_small_ = true := rfl
        refine ⟨m.setFaults f, ⟨b.size_, true, .cells ca⟩, ⟨a.size_, true, .cells cb⟩, ?_, rfl,
          hk, (swf_small h1).2 ⟨b1, la⟩, (swf_small h2).2 ⟨a1, lb⟩, ?_, ?_, rfl, rfl,
          by rw [sb], by rw [sa]⟩
        · unfold swap
          simp only [sa, sb, if_true, e, bind_ok]
          simp [socow_vector.set_static, sa, sb]
        · rw [own_small h1, own_small sb]
        · rw [own_small h2, own_small sa]
      · right
        refine ⟨e, ?_, hq⟩
        unfold swap
        simp only [sa, sb, if_true, he, bind_threw]
    · rcases swap_different_cases (m := m) sa a1 a2 pb with ⟨f, cb, e, hk, lb⟩ | ⟨e, he, hq⟩
      · left
        have h1 : (⟨b.size_, false, .handle q⟩ : socow_vector T).is_small_ = false := rfl
        have h1p : (⟨b.size_, false, .handle q⟩ : socow_vector T).store = .handle q := rfl
        have h2 : (⟨a.size_, true, .cells cb⟩ : socow_vector T).is_small_ = true := rfl
        refine ⟨m.setFaults f, ⟨b.size_, false, .handle q⟩, ⟨a.size_, true, .cells cb⟩, ?_, rfl,
          hk, swf_mk_big h1 h1p bufb b1 b2 b3, (swf_small h2).2 ⟨a1, lb⟩, ?_, ?_, rfl, rfl,
          by rw [sb], by rw [sa]⟩
        · unfold swap
          simp only [sa, sb, if_true, Bool.false_eq_true, if_false, e, bind_ok]
          simp [socow_vector.set_static, socow_vector.set_dynamic, sa, sb]
        · rw [own_big h1 h1p, own_big sb pb]
        · rw [own_small h2, own_small sa]
      · right
        refine ⟨e, ?_, hq⟩
        unfold swap
        simp only [sa, sb, if_true, Bool.false_eq_true, if_false, he, bind_threw]
  · rcases swf_cases hb with ⟨sb, b1, b2⟩ | ⟨sb, q, bb, pb, bufb, b1, b2, b3⟩
    · rcases swap_different_cases (m := m) sb b1 b2 pa with ⟨f, ca, e, hk, la⟩ | ⟨e, he, hq⟩
      · left
        have h1 : (⟨b.size_, true, .cells ca⟩ : socow_vector T).is_small_ = true := rfl
        have h2 : (⟨a.size_, false, .handle p⟩ : socow_vector T).is_small_ = false := rfl
        have h2p : (⟨a.size_, false, .handle p⟩ : socow_vector T).store = .handle p := rfl
        refine ⟨m.setFaults f, ⟨b.size_, true, .cells ca⟩, ⟨a.size_, false, .handle p⟩, ?_, rfl,
          hk, (swf_small h1).2 ⟨b1, la⟩, swf_mk_big h2 h2p bufa a1 a2 a3, ?_, ?_, rfl, rfl,
          by rw [sb], by rw [sa]⟩
        · unfold swap
          simp only [sa, sb, if_true, Bool.false_eq_true, if_false, e, flip2, bind_ok]
          simp [socow_vector.set_static, socow_vector.set_dynamic, sa, sb]
        · rw [own_small h1, own_small sb]
        · rw [own_big h2 h2p, own_big sa pa]
      · right
        refine ⟨(e.1, e.2.2, e.2.1), ?_, hq⟩
        unfold swap
        simp only [sa, sb, if_true, Bool.false_eq_true, if_false, he, flip2, bind_threw]
    · left
      have h1 : (⟨b.size_, false, .handle q⟩ : socow_vector T).is_small_ = false := rfl
      have h1p : (⟨b.size_, false, .handle q⟩ : socow_vector T).store = .handle q := rfl
      have h2 : (⟨a.size_, false, .handle p⟩ : socow_vector T).is_small_ = false := rfl
      have h2p : (⟨a.size_, false, .handle p⟩ : socow_vector T).store = .handle p := rfl
      refine ⟨m, ⟨b.size_, false, .handle q⟩, ⟨a.size_, false, .handle p⟩, ?_, rfl, ⟨0, rfl⟩,
        swf_mk_big h1 h1p bufb b1 b2 b3, swf_mk_big h2 h2p bufa a1 a2 a3, ?_, ?_, rfl, rfl,
        by rw [sb], by rw [sa]⟩
      · unfold swap
        simp only [sa, sb, Bool.false_eq_true, if_false, socow_vector.dynamic_storage_, pa, pb,
          bind_ok]
        simp [socow_vector.set_dynamic, sa, sb]
      · rw [own_big h1 h1p, own_big sb pb]
      · rw [own_big h2 h2p, own_big sa pa]

end SwapStructure

end Socow

namespace Socow

section Assign

variable {T : Type}

/-- Structural well-formedness only depends on the length of the cells, the capacity and the
presence of an owner of the block the container holds. -/
theorem swf_of_view {N : Nat} {m m1 : Mem T} {v : socow_vector T} (h : swf N m v = true)
    (hv : ∀ p b, own v = some p → m.buf p = some b →
      ∃ b1, m1.buf p = some b1 ∧ b1.data = b.data ∧ b1.capacity = b.capacity ∧
        1 ≤ b1.ref_count) : swf N m1 v = true := by
  rcases swf_cases h with ⟨hs, h1, h2⟩ | ⟨hs, p, b, hp, hb, h1, h2, h3⟩
  · exact (swf_small hs).2 ⟨h1, h2⟩
  · obtain ⟨b1, e1, e2, e3, e4⟩ := hv p b (own_big hs hp) hb
    exact swf_mk_big hs hp e1 (by rw [e2, e3]; exact h1) e4 (by rw [e3]; exact h3)

/-- The copy constructor leaves the cells and the capacity of every block as they are and
lowers no owner count. -/
theorem copy_ctor_heap {N : Nat} {m0 m1 : Mem T} {o c : socow_vector T}
    (e : copy_ctor N m0 o = .ok (m1, c)) :
    ∀ p b, m0.buf p = some b → ∃ b1, m1.buf p = some b1 ∧ b1.data = b.data ∧
      b1.capacity = b.capacity ∧ b.ref_count ≤ b1.ref_count := by
  intro p b hb
  unfold copy_ctor at e
  split at e
  · split at e
    · cases e
    · cases e
    · cases e
      exact ⟨b, hb, rfl, rfl, le_refl _⟩
  · split at e
    · cases e
    · next q hq =>
      split at e
      · cases e
      · next bq hbq =>
        cases e
        by_cases c : q = p
        · subst c
          rw [hb] at hbq
          cases hbq
          exact ⟨_, buf_put_self _ (buf_lt hb), rfl, rfl, by simp⟩
        · exact ⟨b, by rw [buf_put_ne _ c]; exact hb, rfl, rfl, le_refl _⟩

theorem destroy_eq {N : Nat} {m : Mem T} {v : socow_vector T} (h : swf N m v = true) :
    destroy N m v = some ⟨released m v, m.faults⟩ := by
  obtain ⟨v2, e, _⟩ := buf_delete_eq h
  simp [destroy, e]

theorem own_some_iff {v : socow_vector T} {p : Nat} :
    own v = some p ↔ v.is_small_ = false ∧ v.store = .handle p := by
  constructor
  · intro h
    cases hs : v.is_small_ with
    | true => rw [own_small hs] at h; cases h
    | false =>
      refine ⟨rfl, ?_⟩
      cases hst : v.store with
      | cells cs => simp [own, hs, socow_vector.dynamic_storage_, hst] at h
      | handle q =>
        rw [own_big hs hst] at h
        rw [Option.some.inj h]
  · intro h
    exact own_big h.1 h.2

/-- A container holds a block with at least one owner. -/
theorem own_ref_pos {N : Nat} {m : Mem T} {v : socow_vector T} {p : Nat} {b : dynamic_buf T}
    (h : swf N m v = true) (ho : own v = some p) (hb : m.buf p = some b) :
    1 ≤ b.ref_count := by
  obtain ⟨hs, hp⟩ := own_some_iff.1 ho
  obtain ⟨q, bq, hq, hbq, _, hr, _⟩ := (swf_big hs).1 h
  rw [hp] at hq
  cases hq
  rw [hb] at hbq
  cases hbq
  exact hr

/-- What the destructor of one container leaves of a block that another container holds. -/
theorem buf_released {m : Mem T} {a : socow_vector T} {p : Nat} {b : dynamic_buf T}
    (f : List Bool) (hb : m.buf p = some b) (hr : own a = some p → 1 < b.ref_count) :
    ∃ b1, (⟨released m a, f⟩ : Mem T).buf p = some b1 ∧ b1.data = b.data ∧
      b1.capacity = b.capacity ∧
      (own a = some p → b1.ref_count = b.ref_count - 1) ∧
      (own a ≠ some p → b1.ref_count = b.ref_count) := by
  by_cases hc : own a = some p
  · refine ⟨{ b with ref_count := b.ref_count - 1 }, ?_, rfl, rfl, fun _ => rfl,
      fun h => absurd hc h⟩
    rw [buf_eq_some]
    show (released m a)[p]? = _
    rw [released_mine hc hb]
    simp [release, hr hc]
  · refine ⟨b, ?_, rfl, rfl, fun h => absurd h hc, fun _ => rfl⟩
    rw [buf_eq_some]
    show (released m a)[p]? = _
    rw [released_other hc]
    exact buf_eq_some.1 hb

end Assign

end Socow

namespace Socow

section ExtendThrow

variable {T : Type}

theorem quiet_zero (f : List Bool) : quiet 0 f := by
  simp [quiet]

theorem quiet_add_one : ∀ (n : Nat) (f : List Bool),
    quiet (n + 1) f ↔ quiet n f ∧ quiet 1 (f.drop n) := by
  intro n
  induction n with
  | zero => intro f; simp [quiet_zero]
  | succ n ih =>
    intro f
    cases f with
    | nil => simp [quiet_succ_nil]
    | cons b fs =>
      rw [quiet_succ, quiet_succ, ih fs]
      simp [and_assoc]

theorem copy_T_quiet (f : List Bool) :
    (quiet 1 f ∧ copy_T f = (false, f.drop 1)) ∨ (¬ quiet 1 f ∧ copy_T f = (true, f.drop 1)) := by
  cases f with
  | nil => left; exact ⟨quiet_succ_nil, rfl⟩
  | cons b fs =>
    cases b
    · left; exact ⟨by simp [quiet], rfl⟩
    · right; exact ⟨by simp [quiet], rfl⟩

theorem free_allocate (m : Mem T) (nc : Nat) (fs : List Bool) :
    ((allocate m nc).1.free (allocate m nc).2).setFaults fs = ⟨m.heap ++ [none], fs⟩ := by
  simp [allocate, Mem.free, Mem.setFaults]

/-- The two outcomes of `extend_push_back_` by the schedule: it returns when the first
`size() + 1` copies do not throw; otherwise it throws, the container is unchanged, the blocks
that existed are unchanged and the block it allocated has been deleted. -/
theorem extend_throw_cases {N : Nat} {m : Mem T} {v : socow_vector T} (el : T) {nc : Nat}
    (h : swf N m v = true) (hnc : v.size_ < nc) :
    (quiet (v.size_ + 1) m.faults ∧ ∃ s, extend_push_back_ N m v el nc = .ok s) ∨
      (¬ quiet (v.size_ + 1) m.faults ∧ ∃ k, extend_push_back_ N m v el nc =
        .threw (⟨m.heap ++ [none], m.faults.drop k⟩, v)) := by
  obtain ⟨r, src, hr, hl, hn, _, _⟩ := load_of_swf h
  have hl1 : load N (allocate m nc).1 v r = some src := by
    rw [← hl]
    apply load_congr
    intro p hp
    subst hp
    rcases swf_cases h with ⟨hs, _, _⟩ | ⟨hs, q, b, hq, hb, _⟩
    · rw [const_data_small hs] at hr; cases hr
    · rw [const_data_big hs hq] at hr
      cases hr
      exact buf_allocate_old _ (buf_lt hb)
  have hold := own_lt_of_swf h
  unfold extend_push_back_
  simp only [hr, hl1, addr_allocate, buf_allocate_new, faults_allocate]
  rcases safe_copy_front (List.replicate nc none) src v.size_ m.faults hn
    (by simp; omega) with ⟨hq1, e1⟩ | ⟨hq1, c, fs, e1, _, k, hk⟩
  · rw [e1]
    have hlen : v.size_ <
        (src.take v.size_ ++ (List.replicate nc none).drop v.size_).length := by
      simp
      omega
    simp only [hlen, if_true]
    rcases copy_T_quiet (m.faults.drop v.size_) with ⟨hq2, e2⟩ | ⟨hq2, e2⟩
    · left
      rw [e2]
      simp only
      have hsw : swf N (((allocate m nc).1.put m.heap.length
          { capacity := nc, ref_count := 1,
            data := (src.take v.size_ ++ (List.replicate nc none).drop v.size_).set v.size_
              (some el) }).setFaults ((m.faults.drop v.size_).drop 1)) v = true := by
        rw [← h]
        apply swf_congr
        intro p hp
        have := hold p hp
        rw [buf_setFaults, buf_put_ne _ (by omega), buf_allocate_old _ this]
      obtain ⟨v2, hv2, _⟩ := buf_delete_eq hsw
      rw [hv2]
      exact ⟨(quiet_add_one _ _).2 ⟨hq1, hq2⟩, _, rfl⟩
    · right
      rw [e2]
      simp only
      obtain ⟨d, hd⟩ := safe_clear_isSome v.size_
        (src.take v.size_ ++ (List.replicate nc none).drop v.size_) 0 (by omega)
      rw [hd]
      refine ⟨fun hq => hq2 ((quiet_add_one _ _).1 hq).2, v.size_ + 1, ?_⟩
      have := free_allocate m nc ((m.faults.drop v.size_).drop 1)
      simp only [addr_allocate] at this
      simp only
      rw [this]
      simp [List.drop_drop]
  · right
    rw [e1]
    refine ⟨fun hq => hq1 ((quiet_add_one _ _).1 hq).1, k, ?_⟩
    have := free_allocate m nc fs
    simp only [addr_allocate] at this
    simp only
    rw [this, hk]

end ExtendThrow

end Socow

namespace Socow

section Congruence

variable {T : Type}

theorem own_of_const_data {v : socow_vector T} {p : Nat}
    (h : const_data_ v = some (.block p)) : own v = some p := by
  unfold const_data_ at h
  unfold own
  cases hs : v.is_small_ with
  | true => simp [hs] at h
  | false =>
    simp only [hs] at h
    cases hd : v.dynamic_storage_ with
    | none => simp [hd] at h
    | some q =>
      simp only [hd] at h
      cases h
      simp

/-- Reads of a container depend on the memory only through the block the container holds. -/
theorem obs_congr {N : Nat} {m m1 : Mem T} {v : socow_vector T}
    (h : ∀ p, own v = some p → m1.buf p = m.buf p) :
    swf N m1 v = swf N m v ∧ capacity N m1 v = capacity N m v ∧
      contents N m1 v = contents N m v ∧ elems N m1 v = elems N m v ∧
      (∀ i, get N m1 v i = get N m v i) ∧ wf N m1 v = wf N m v := by
  have hl : ∀ r, const_data_ v = some r → load N m1 v r = load N m v r := by
    intro r hr
    apply load_congr
    intro p hp
    subst hp
    exact h p (own_of_const_data hr)
  have hc : contents N m1 v = contents N m v := by
    unfold contents
    cases hr : const_data_ v with
    | none => rfl
    | some r => simp only [hl r hr]
  have hk : capacity N m1 v = capacity N m v := by
    unfold capacity
    cases hs : v.is_small_ with
    | true => rfl
    | false =>
      cases hd : v.dynamic_storage_ with
      | none => rfl
      | some p =>
        have := h p (by simp [own, hs, hd])
        simp only [this]
  have he : elems N m1 v = elems N m v := by
    unfold elems
    rw [hc]
  refine ⟨swf_congr h, hk, hc, he, fun i => ?_, ?_⟩
  · unfold get
    cases hr : const_data_ v with
    | none => rfl
    | some r => simp only [hl r hr]
  · unfold wf
    rw [swf_congr h, he]

theorem buf_append_old {m : Mem T} {x : Option (dynamic_buf T)} {f : List Bool} {p : Nat}
    (hp : p < m.heap.length) : (⟨m.heap ++ [x], f⟩ : Mem T).buf p = m.buf p := by
  apply buf_congr
  simp [List.getElem?_append_left hp]

/-- On a full container `push_back` is `extend_push_back_` followed by the updates of
`is_small_` and `size_`: it returns when the first `size() + 1` copies do not throw; otherwise
it throws, the container is unchanged, the blocks that existed are unchanged and the block it
allocated has been deleted. -/
theorem push_back_full_cases {N : Nat} {m : Mem T} {v : socow_vector T} {c : Nat} (el : T)
    (h : swf N m v = true) (hcap : capacity N m v = some c) (hfull : v.size_ = c) :
    (quiet (c + 1) m.faults ∧ ∃ s, push_back N m v el = .ok s) ∨
      (¬ quiet (c + 1) m.faults ∧ ∃ k, push_back N m v el =
        .threw (⟨m.heap ++ [none], m.faults.drop k⟩, v)) := by
  have key : ∃ nc, v.size_ < nc ∧ push_back_body N m v el =
      (extend_push_back_ N m v el nc).bind (fun s =>
        .ok (s.1, { s.2 with is_small_ := false })) := by
    rcases swf_cases h with ⟨hs, h1, h2⟩ | ⟨hs, p, b, hp, hb, hl, _, h2⟩
    · rw [capacity_small hs] at hcap
      have hN : v.size_ = N := by
        have := Option.some.inj hcap
        omega
      refine ⟨2 * v.size_ + 1, by omega, ?_⟩
      unfold push_back_body transform_push_back_
      simp only [hs, if_true, if_pos hN]
    · rw [capacity_big hs hp hb] at hcap
      have hN : v.size_ = b.capacity := by
        have := Option.some.inj hcap
        omega
      refine ⟨2 * b.capacity + 1, by omega, ?_⟩
      have e0 : push_back_body N m v el = extend_push_back_ N m v el (2 * b.capacity + 1) := by
        rw [push_back_big_eq el hs hp hb]
        by_cases c : b.ref_count = 1
        · rw [if_pos c, push_back_dynamic_eq el hp hb hl (by omega), if_pos hN]
        · rw [if_neg c]
          have : ¬ v.size_ ≠ b.capacity := by simp [hN]
          rw [if_neg this]
          simp only [bind_ok]
          rw [push_back_dynamic_eq el hp hb hl (by omega), if_pos hN]
      rw [e0]
      rcases extend_cases el h (show v.size_ < 2 * b.capacity + 1 by omega)
        (contents_of_swf h).choose_spec.1 with ⟨m1, nb, e, _⟩ | ⟨e, he, _⟩
      · rw [e, bind_ok]
        simp [socow_vector.set_dynamic, hs]
      · rw [he, bind_threw]
  obtain ⟨nc, hnc, e⟩ := key
  unfold push_back
  rw [e, ← hfull]
  rcases extend_throw_cases el h hnc with ⟨hq, s, hs⟩ | ⟨hq, k, hk⟩
  · left
    rw [hs]
    exact ⟨hq, _, rfl⟩
  · right
    rw [hk]
    exact ⟨hq, k, rfl⟩

end Congruence

end Socow

namespace Socow

section SwapCells

variable {T : Type}

theorem take_eq_of_getElem? {α : Type} {l1 l2 : List α} {n : Nat}
    (h : ∀ j, j < n → l1[j]? = l2[j]?) : l1.take n = l2.take n := by
  apply List.ext_getElem?
  intro j
  rw [List.getElem?_take, List.getElem?_take]
  split
  · next hj => exact h j hj
  · rfl

/-- The cells after `swap_small_`: each array starts with the elements of the other. -/
theorem swap_small_cells {N : Nat} {m : Mem T} {a b : socow_vector T} (ha1 : a.size_ ≤ N)
    (ha2 : (a.static_storage_ N).length = N) (hb1 : b.size_ ≤ N)
    (hb2 : (b.static_storage_ N).length = N) {s : St2 T} (e : swap_small_ N m a b = .ok s) :
    ∃ f ca cb, s = (m.setFaults f, a.set_static ca, b.set_static cb) ∧
      ca.take b.size_ = (b.static_storage_ N).take b.size_ ∧
      cb.take a.size_ = (a.static_storage_ N).take a.size_ := by
  obtain ⟨a1, b1, e0, la, lb, ga, gb⟩ := swap_cells_loop_spec (min a.size_ b.size_) 0
    (a.static_storage_ N) (b.static_storage_ N) (by omega) (by omega)
  unfold swap_small_ at e
  rw [e0] at e
  simp only at e
  by_cases c : b.size_ > a.size_
  · rw [if_pos c] at e
    rcases safe_copy_cases a1 a.size_ b1 a.size_ (b.size_ - a.size_) m.faults (by omega)
        (by omega) with ⟨_, d, e1, ld, gd⟩ | ⟨hq, k, d, fs, e1, _⟩
    · obtain ⟨d2, e2, ld2, gd2⟩ := safe_clear_spec (b.size_ - a.size_) b1 a.size_ (by omega)
      rw [e1] at e
      simp only [e2] at e
      cases e
      refine ⟨_, d, d2, rfl, take_eq_of_getElem? (fun j hj => ?_),
        take_eq_of_getElem? (fun j hj => ?_)⟩
      · rw [gd j]
        by_cases hja : a.size_ ≤ j
        · rw [if_pos ⟨hja, by omega⟩, gb]
          have : a.size_ + (j - a.size_) = j := by omega
          rw [this, if_neg (by omega)]
        · rw [if_neg (by omega), ga, if_pos ⟨by omega, by omega⟩]
      · rw [gd2 j, if_neg (by omega), gb, if_pos ⟨by omega, by omega⟩]
    · rw [e1] at e
      cases e
  · rw [if_neg c] at e
    rcases safe_copy_cases b1 b.size_ a1 b.size_ (a.size_ - b.size_) m.faults (by omega)
        (by omega) with ⟨_, d, e1, ld, gd⟩ | ⟨hq, k, d, fs, e1, _⟩
    · obtain ⟨d2, e2, ld2, gd2⟩ := safe_clear_spec (a.size_ - b.size_) a1 b.size_ (by omega)
      rw [e1] at e
      simp only [e2] at e
      cases e
      refine ⟨_, d2, d, rfl, take_eq_of_getElem? (fun j hj => ?_),
        take_eq_of_getElem? (fun j hj => ?_)⟩
      · rw [gd2 j, if_neg (by omega), ga, if_pos ⟨by omega, by omega⟩]
      · rw [gd j]
        by_cases hjb : b.size_ ≤ j
        · rw [if_pos ⟨hjb, by omega⟩, ga]
          have : b.size_ + (j - b.size_) = j := by omega
          rw [this, if_neg (by omega)]
        · rw [if_neg (by omega), gb, if_pos ⟨by omega, by omega⟩]
    · rw [e1] at e
      cases e

/-- The cells after `swap_different_`: the array of `other` starts with the elements of
`*this`. -/
theorem swap_different_cells {N : Nat} {m : Mem T} {a b : socow_vector T} {p : Nat}
    (ha : a.is_small_ = true) (ha1 : a.size_ ≤ N) (ha2 : (a.static_storage_ N).length = N)
    (hp : b.store = .handle p) {s : St2 T} (e : swap_different_ N m a b = .ok s) :
    ∃ f cb, s = (m.setFaults f, a.set_dynamic p, b.set_static cb) ∧
      cb.take a.size_ = (a.static_storage_ N).take a.size_ := by
  have hst : b.static_storage_ N = List.replicate N none := by
    simp [socow_vector.static_storage_, hp]
  unfold swap_different_ at e
  simp only [socow_vector.dynamic_storage_, hp, hst] at e
  rcases safe_copy_front (List.replicate N none) (a.static_storage_ N) a.size_ m.faults
      (by omega) (by simp; omega) with ⟨_, e1⟩ | ⟨hq, k, fs, e1, _, _⟩
  · rw [e1] at e
    simp only at e
    obtain ⟨d, hd⟩ := safe_clear_isSome a.size_ (a.static_storage_ N) 0 (by omega)
    simp only [buf_delete_, ha, if_true, hd] at e
    cases e
    refine ⟨_, _, rfl, ?_⟩
    rw [List.take_left' (by simp; omega)]
  · rw [e1] at e
    cases e

end SwapCells

end Socow

namespace Socow

section SwapContents

variable {T : Type}

theorem eq_of_big {N : Nat} {m : Mem T} {x y : socow_vector T} (hy : swf N m y = true)
    (hs : y.is_small_ = false) (ho : own x = own y) (hz : x.size_ = y.size_)
    (hm : x.is_small_ = y.is_small_) : x = y := by
  obtain ⟨p, _, hp, _⟩ := (swf_big hs).1 hy
  rw [own_big hs hp] at ho
  obtain ⟨_, hx⟩ := own_some_iff.1 ho
  cases x
  cases y
  simp only at hz hm hx hp
  simp [hz, hm, hx, hp]

theorem small_size_le {N : Nat} {m : Mem T} {v : socow_vector T} (h : swf N m v = true)
    (hs : v.is_small_ = true) : v.size_ ≤ N := by
  rcases swf_cases h with ⟨_, h1, _⟩ | ⟨h1, _⟩
  · exact h1
  · rw [hs] at h1; cases h1

theorem flip2_eq_ok {r : Res (St2 T) (St2 T)} {s : St2 T} (h : flip2 r = .ok s) :
    r = .ok (s.1, s.2.2, s.2.1) := by
  cases r with
  | ok a =>
    simp only [flip2] at h
    cases h
    rfl
  | threw e => simp [flip2] at h
  | ub => simp [flip2] at h

/-- Whenever `swap` returns, each container shows the cells the other showed. -/
theorem swap_contents_ok {N : Nat} {m m1 : Mem T} {a b a1 b1 : socow_vector T}
    (ha : swf N m a = true) (hb : swf N m b = true) (e : swap N m a b = .ok (m1, a1, b1)) :
    contents N m1 a1 = contents N m b ∧ contents N m1 b1 = contents N m a := by
  rcases swap_cases ha hb with
    ⟨m2, a2, b2, e2, hh, _, wa, wb, oa, ob, za, zb, ia, ib⟩ | ⟨_, he, _⟩
  · rw [e] at e2
    cases e2
    have hmem : ∀ v : socow_vector T, contents N m1 v = contents N m v := fun v =>
      (obs_congr (fun p _ => buf_congr (by rw [hh]))).2.2.1
    have la := static_length_of_swf ha
    have lb := static_length_of_swf hb
    have la1 := static_length_of_swf wa
    have lb1 := static_length_of_swf wb
    have key : ((b.is_small_ = true → (a1.static_storage_ N).take b.size_ =
          (b.static_storage_ N).take b.size_) ∧
        (a.is_small_ = true → (b1.static_storage_ N).take a.size_ =
          (a.static_storage_ N).take a.size_)) := by
      unfold swap at e
      obtain ⟨s, e1, e3⟩ := bind_eq_ok e
      cases e3
      cases sa : a.is_small_ with
      | true =>
        have ha1 := small_size_le ha sa
        cases sb : b.is_small_ with
        | true =>
          have hb1 := small_size_le hb sb
          simp only [sa, sb, if_true] at e1
          obtain ⟨f, ca, cb, hs, t1, t2⟩ := swap_small_cells ha1 la hb1 lb e1
          subst hs
          exact ⟨fun _ => t1, fun _ => t2⟩
        | false =>
          obtain ⟨q, _, hq, _⟩ := (swf_big sb).1 hb
          simp only [sa, sb, if_true, Bool.false_eq_true, if_false] at e1
          obtain ⟨f, cb, hs, t2⟩ := swap_different_cells sa ha1 la hq e1
          subst hs
          exact ⟨fun h => Bool.noConfusion h, fun _ => t2⟩
      | false =>
        cases sb : b.is_small_ with
        | true =>
          have hb1 := small_size_le hb sb
          obtain ⟨p, _, hp, _⟩ := (swf_big sa).1 ha
          simp only [sa, sb, if_true, Bool.false_eq_true, if_false] at e1
          have e4 := flip2_eq_ok e1
          obtain ⟨f, ca, hs, t1⟩ := swap_different_cells sb hb1 lb hp e4
          have h5 : s.2.1 = a.set_static ca := (congrArg (fun x => x.2.2) hs)
          refine ⟨fun _ => ?_, fun h => Bool.noConfusion h⟩
          show ((s.2.1).static_storage_ N).take b.size_ = _
          rw [h5]
          exact t1
        | false => exact ⟨fun h => Bool.noConfusion h, fun h => Bool.noConfusion h⟩
    constructor
    · cases sb : b.is_small_ with
      | false => rw [eq_of_big hb sb oa za ia, hmem]
      | true =>
        have s1 : a1.is_small_ = true := by rw [ia, sb]
        have hle := small_size_le hb sb
        rw [contents_small s1 (by omega), za, key.1 sb, contents_small sb (by omega)]
    · cases sa : a.is_small_ with
      | false => rw [eq_of_big ha sa ob zb ib, hmem]
      | true =>
        have s1 : b1.is_small_ = true := by rw [ib, sa]
        have hle := small_size_le ha sa
        rw [contents_small s1 (by omega), zb, key.2 sa, contents_small sa (by omega)]
  · rw [he] at e
    cases e

end SwapContents

end Socow

namespace Socow

section SwapFacts

variable {T : Type}

/-- Whenever `swap` returns on two structurally well-formed containers: no heap block changed,
and each container has the block, the size, the mode, the capacity and the cells of the other. -/
theorem swap_ok_facts {N : Nat} {m m1 : Mem T} {a b a1 b1 : socow_vector T}
    (ha : swf N m a = true) (hb : swf N m b = true) (e : swap N m a b = .ok (m1, a1, b1)) :
    m1.heap = m.heap ∧ (∃ k, m1.faults = m.faults.drop k) ∧ swf N m1 a1 = true ∧
      swf N m1 b1 = true ∧ own a1 = own b ∧ own b1 = own a ∧ a1.size_ = b.size_ ∧
      b1.size_ = a.size_ ∧ a1.is_small_ = b.is_small_ ∧ b1.is_small_ = a.is_small_ ∧
      contents N m1 a1 = contents N m b ∧ contents N m1 b1 = contents N m a ∧
      capacity N m1 a1 = capacity N m b ∧ capacity N m1 b1 = capacity N m a := by
  obtain ⟨c1, c2⟩ := swap_contents_ok ha hb e
  rcases swap_cases ha hb with
    ⟨m2, a2, b2, e2, hh, hk, wa, wb, oa, ob, za, zb, ia, ib⟩ | ⟨_, he, _⟩
  · rw [e] at e2
    cases e2
    have hmem : ∀ v : socow_vector T, capacity N m1 v = capacity N m v := fun v =>
      (obs_congr (fun p _ => buf_congr (by rw [hh]))).2.1
    refine ⟨hh, hk, wa, wb, oa, ob, za, zb, ia, ib, c1, c2, ?_, ?_⟩
    · cases sb : b.is_small_ with
      | false => rw [eq_of_big hb sb oa za ia, hmem]
      | true => rw [capacity_small (by rw [ia, sb]), capacity_small sb]
    · cases sa : a.is_small_ with
      | false => rw [eq_of_big ha sa ob zb ib, hmem]
      | true => rw [capacity_small (by rw [ib, sa]), capacity_small sa]
  · rw [he] at e
    cases e

theorem elems_of_contents {N : Nat} {m m1 : Mem T} {v v1 : socow_vector T}
    (h : contents N m1 v1 = contents N m v) : elems N m1 v1 = elems N m v := by
  unfold elems
  rw [h]

theorem wf_of_contents {N : Nat} {m m1 : Mem T} {v v1 : socow_vector T}
    (hw : wf N m v = true) (hs : swf N m1 v1 = true)
    (h : contents N m1 v1 = contents N m v) : wf N m1 v1 = true := by
  obtain ⟨_, xs, hx⟩ := wf_iff.1 hw
  exact wf_iff.2 ⟨hs, xs, by rw [elems_of_contents h]; exact hx⟩

/-- Two calls of `swap` in a row, when they return. -/
theorem swap_twice_cases {N : Nat} {m : Mem T} {a b : socow_vector T}
    (ha : swf N m a = true) (hb : swf N m b = true) :
    (∃ s, (swap N m a b).bind (fun s => swap N s.1 s.2.1 s.2.2) = .ok s) ∨
      (∃ e, (swap N m a b).bind (fun s => swap N s.1 s.2.1 s.2.2) = .threw e ∧
        ¬ no_faults m) := by
  rcases swap_cases ha hb with
    ⟨m1, a1, b1, e1, _, ⟨k, hk⟩, wa, wb, _⟩ | ⟨e, he, hq⟩
  · rcases swap_cases wa wb with ⟨m2, a2, b2, e2, _⟩ | ⟨e, he, hq⟩
    · left
      exact ⟨_, by rw [e1, bind_ok, e2]⟩
    · right
      refine ⟨e, by rw [e1, bind_ok, he], fun hn => hq ?_⟩
      unfold no_faults
      rw [hk]
      exact all_drop hn k
  · right
    exact ⟨e, by rw [he, bind_threw], hq⟩

end SwapFacts

end Socow

namespace Socow

section Counting

variable {α : Type}

theorem countP_set_add (f : α → Bool) : ∀ (l : List α) (i : Nat) (v x : α), l[i]? = some v →
    (l.set i x).countP f + (if f v then 1 else 0) = l.countP f + (if f x then 1 else 0) := by
  intro l
  induction l with
  | nil => intro i v x h; simp at h
  | cons a l ih =>
    intro i v x h
    cases i with
    | zero =>
      simp only [List.getElem?_cons_zero, Option.some.injEq] at h
      subst h
      simp only [List.set_cons_zero, List.countP_cons]
      omega
    | succ i =>
      simp only [List.getElem?_cons_succ] at h
      have := ih i v x h
      simp only [List.set_cons_succ, List.countP_cons]
      omega

theorem countP_eraseIdx_add (f : α → Bool) : ∀ (l : List α) (i : Nat) (v : α), l[i]? = some v →
    (l.eraseIdx i).countP f + (if f v then 1 else 0) = l.countP f := by
  intro l
  induction l with
  | nil => intro i v h; simp at h
  | cons a l ih =>
    intro i v h
    cases i with
    | zero =>
      simp only [List.getElem?_cons_zero, Option.some.injEq] at h
      subst h
      simp only [List.eraseIdx_cons_zero, List.countP_cons]
    | succ i =>
      simp only [List.getElem?_cons_succ] at h
      have := ih i v h
      simp only [List.eraseIdx_cons_succ, List.countP_cons]
      omega

theorem countP_one (f : α → Bool) {l : List α} {i : Nat} {v : α} (h : l[i]? = some v)
    (hv : f v = true) : 1 ≤ l.countP f := by
  have := countP_eraseIdx_add f l i v h
  rw [if_pos hv] at this
  omega

theorem countP_two (f : α → Bool) {l : List α} {i j : Nat} {v u : α} (hi : l[i]? = some v)
    (hj : l[j]? = some u) (hne : i ≠ j) (hv : f v = true) (hu : f u = true) :
    2 ≤ l.countP f := by
  have h1 := countP_eraseIdx_add f l i v hi
  rw [if_pos hv] at h1
  have h2 : ∃ k : Nat, (l.eraseIdx i)[k]? = some u := by
    by_cases c : j < i
    · exact ⟨j, by rw [List.getElem?_eraseIdx, if_pos c, hj]⟩
    · refine ⟨j - 1, ?_⟩
      rw [List.getElem?_eraseIdx, if_neg (by omega)]
      have : j - 1 + 1 = j := by omega
      rw [this, hj]
  obtain ⟨k, hk⟩ := h2
  have := countP_one f hk hu
  omega

theorem countP_zero (f : α → Bool) {l : List α} (h : ∀ (i : Nat) v, l[i]? = some v → f v = false) :
    l.countP f = 0 := by
  rw [List.countP_eq_zero]
  intro a ha
  obtain ⟨i, hi⟩ := List.getElem?_of_mem ha
  simp [h i a hi]

theorem exists_of_countP_pos (f : α → Bool) {l : List α} (h : 0 < l.countP f) :
    ∃ (i : Nat) (v : α), l[i]? = some v ∧ f v = true := by
  obtain ⟨a, ha, hf⟩ := List.countP_pos_iff.1 h
  obtain ⟨i, hi⟩ := List.getElem?_of_mem ha
  exact ⟨i, a, hi, hf⟩

end Counting

end Socow

namespace Socow

section Holders

variable {T : Type}

theorem holders_set (m m1 : Mem T) {l : List (socow_vector T)} {i : Nat}
    {v : socow_vector T} (x : socow_vector T) (p : Nat) (h : l[i]? = some v) :
    holders ⟨m1, l.set i x⟩ p + (if own v = some p then 1 else 0) =
      holders ⟨m, l⟩ p + (if own x = some p then 1 else 0) := by
  have := countP_set_add (fun v => decide (own v = some p)) l i v x h
  simpa [holders] using this

theorem holders_erase (m m1 : Mem T) {l : List (socow_vector T)} {i : Nat}
    {v : socow_vector T} (p : Nat) (h : l[i]? = some v) :
    holders ⟨m1, l.eraseIdx i⟩ p + (if own v = some p then 1 else 0) = holders ⟨m, l⟩ p := by
  have := countP_eraseIdx_add (fun v => decide (own v = some p)) l i v h
  simpa [holders] using this

theorem holders_append (m m1 : Mem T) (l : List (socow_vector T)) (x : socow_vector T)
    (p : Nat) :
    holders ⟨m1, l ++ [x]⟩ p = holders ⟨m, l⟩ p + (if own x = some p then 1 else 0) := by
  simp [holders, List.countP_append, List.countP_cons]

theorem holders_mem (m m1 : Mem T) (l : List (socow_vector T)) (p : Nat) :
    holders ⟨m1, l⟩ p = holders ⟨m, l⟩ p := rfl

theorem holders_one {w : World T} {i : Nat} {v : socow_vector T} {p : Nat}
    (h : w.objs[i]? = some v) (ho : own v = some p) : 1 ≤ holders w p :=
  countP_one _ h (by simpa using ho)

theorem holders_two {w : World T} {i j : Nat} {v u : socow_vector T} {p : Nat}
    (hi : w.objs[i]? = some v) (hj : w.objs[j]? = some u) (hne : i ≠ j)
    (hv : own v = some p) (hu : own u = some p) : 2 ≤ holders w p :=
  countP_two _ hi hj hne (by simpa using hv) (by simpa using hu)

theorem holders_zero {w : World T} {p : Nat}
    (h : ∀ (i : Nat) v, w.objs[i]? = some v → own v ≠ some p) : holders w p = 0 :=
  countP_zero _ (fun i v hv => by simpa using h i v hv)

theorem holder_of_pos {w : World T} {p : Nat} (h : 0 < holders w p) :
    ∃ (i : Nat) (v : socow_vector T), w.objs[i]? = some v ∧ own v = some p := by
  obtain ⟨i, v, hv, hf⟩ := exists_of_countP_pos _ h
  exact ⟨i, v, hv, by simpa using hf⟩

/-- In a state that satisfies the invariant, a block that two objects hold has more than one
owner. -/
theorem shared_of_two {N : Nat} {w : World T} (hI : Inv N w) {i j : Nat}
    {v u : socow_vector T} {p : Nat} {b : dynamic_buf T} (hi : w.objs[i]? = some v)
    (hj : w.objs[j]? = some u) (hne : i ≠ j) (hv : own v = some p) (hu : own u = some p)
    (hb : w.mem.buf p = some b) : 1 < b.ref_count := by
  have h2 := holders_two hi hj hne hv hu
  rcases hI.2.1 p b hb with h0 | h1
  · omega
  · omega

theorem buf_of_own {N : Nat} {m : Mem T} {v : socow_vector T} {p : Nat}
    (h : swf N m v = true) (ho : own v = some p) : ∃ b, m.buf p = some b := by
  obtain ⟨hs, hp⟩ := own_some_iff.1 ho
  obtain ⟨q, b, hq, hb, _⟩ := (swf_big hs).1 h
  rw [hp] at hq
  cases hq
  exact ⟨b, hb⟩

theorem excl_ref_one {m : Mem T} {v : socow_vector T} {p : Nat} {b : dynamic_buf T}
    (hx : excl m v) (ho : own v = some p) (hb : m.buf p = some b) : b.ref_count = 1 := by
  obtain ⟨hs, hp⟩ := own_some_iff.1 ho
  exact (excl_big_iff hs hp hb).1 hx

end Holders

end Socow

namespace Socow

section InvStep

variable {T : Type}

theorem get_set_cases {α : Type} {l : List α} {i k : Nat} {x u : α}
    (h : (l.set i x)[k]? = some u) : (k = i ∧ u = x) ∨ (k ≠ i ∧ l[k]? = some u) := by
  by_cases c : i = k
  · subst c
    left
    rw [List.getElem?_set] at h
    simp only [if_true] at h
    split at h
    · exact ⟨rfl, (Option.some.inj h).symm⟩
    · cases h
  · right
    rw [List.getElem?_set_ne c] at h
    exact ⟨fun e => c e.symm, h⟩

theorem Step.frame {m m1 : Mem T} {v v1 : socow_vector T} (st : Step m v m1 v1) :
    Frame m v m1 v1 where
  others := st.others
  mine := st.mine
  fresh := fun a b1 h1 hb ho => by
    rcases st.fresh a h1 (buf_lt hb) with ⟨_, b2, hb2, hr⟩ | ⟨h3, _⟩
    · rw [hb] at hb2
      cases hb2
      exact hr
    · exact absurd ho h3
  stay := st.stay

/-- The frame of a call depends on the memories only through their heaps. -/
theorem Frame.congr {m m1 m2 : Mem T} {v v1 : socow_vector T} (fr : Frame m v m1 v1)
    (hh : m2.heap = m1.heap) : Frame m v m2 v1 where
  others := fun a h1 h2 => by rw [hh]; exact fr.others a h1 h2
  mine := fun p b h1 h2 => by
    have hb : ∀ q, m2.buf q = m1.buf q := fun q => buf_congr (by rw [hh])
    rcases fr.mine p b h1 h2 with ⟨h3, b1, h4, h5⟩ | ⟨h3, h4⟩
    · exact Or.inl ⟨h3, b1, by rw [hb]; exact h4, h5⟩
    · exact Or.inr ⟨h3, by rw [hh]; exact h4⟩
  fresh := fun a b1 h1 hb ho => by
    have hb2 : m2.buf a = m1.buf a := buf_congr (by rw [hh])
    rw [hb2] at hb
    exact fr.fresh a b1 h1 hb ho
  stay := fr.stay

/-- A call that leaves the container object as it was and only appends blocks to the heap. -/
theorem frame_append {N : Nat} {m m1 : Mem T} {v : socow_vector T}
    {ex : List (Option (dynamic_buf T))} (h : swf N m v = true)
    (hh : m1.heap = m.heap ++ ex) : Frame m v m1 v ∧ swf N m1 v = true := by
  have hold := own_lt_of_swf h
  have hbuf : ∀ p, p < m.heap.length → m1.buf p = m.buf p := fun p hp =>
    buf_congr (by rw [hh, List.getElem?_append_left hp])
  refine ⟨⟨fun a h1 _ => by rw [hh, List.getElem?_append_left h1], fun p b ho hb => ?_,
    fun a b1 h1 _ ho => ?_, fun a ho _ => ho⟩, ?_⟩
  · exact Or.inl ⟨ho, b, by rw [hbuf p (hold p ho)]; exact hb, rfl, rfl, fun _ => rfl⟩
  · have := hold a ho
    omega
  · rw [← h]
    exact swf_congr (fun p hp => hbuf p (hold p hp))

/-- A call on another container that keeps the frame leaves a container structurally
well-formed, provided a block the two containers share has more than one owner. -/
theorem frame_keeps_swf {N : Nat} {m m1 : Mem T} {c c1 o : socow_vector T}
    (fr : Frame m c m1 c1) (ho : swf N m o = true)
    (hsh : ∀ p b, own o = some p → own c = some p → m.buf p = some b → 1 < b.ref_count) :
    swf N m1 o = true := by
  refine swf_of_view ho (fun p b hop hb => ?_)
  have h2 := own_ref_pos ho hop hb
  by_cases hc : own c = some p
  · have hr := hsh p b hop hc hb
    rcases fr.mine p b hc hb with ⟨_, b1, e1, _, _, e4⟩ | ⟨_, e1⟩
    · exact ⟨b1, e1, by rw [e4 hr], by rw [e4 hr], by rw [e4 hr]; omega⟩
    · refine ⟨{ b with ref_count := b.ref_count - 1 }, ?_, rfl, rfl, ?_⟩
      · rw [buf_eq_some, e1]
        simp [release, hr]
      · show 1 ≤ b.ref_count - 1
        omega
  · refine ⟨b, ?_, rfl, rfl, h2⟩
    rw [buf_congr (fr.others p (buf_lt hb) hc)]
    exact hb

/-- A call that keeps the frame leaves a block with more than one owner allocated, with its
cells and its capacity. -/
theorem frame_keeps {m m1 : Mem T} {v v1 : socow_vector T} (fr : Frame m v m1 v1) {p : Nat}
    {b : dynamic_buf T} (hb : m.buf p = some b) (hr : 1 < b.ref_count) :
    ∃ b1, m1.buf p = some b1 ∧ b1.data = b.data ∧ b1.capacity = b.capacity := by
  by_cases hov : own v = some p
  · rcases fr.mine p b hov hb with ⟨_, b1, hb1, _, _, h4⟩ | ⟨_, h4⟩
    · exact ⟨b1, hb1, by rw [h4 hr], by rw [h4 hr]⟩
    · refine ⟨{ b with ref_count := b.ref_count - 1 }, ?_, rfl, rfl⟩
      rw [buf_eq_some, h4]
      simp [release, hr]
  · exact ⟨b, by rw [buf_congr (fr.others p (buf_lt hb) hov)]; exact hb, rfl, rfl⟩

/-- A call on object `i` that keeps the frame and ends with a structurally well-formed
container that owns its storage alone or has the size it had keeps the invariant of the
program state. -/
theorem inv_step {N : Nat} {m m1 : Mem T} {l : List (socow_vector T)} {i : Nat}
    {v v1 : socow_vector T} (hI : Inv N ⟨m, l⟩) (hi : l[i]? = some v) (fr : Frame m v m1 v1)
    (w1 : swf N m1 v1 = true) (hx : excl m1 v1 ∨ v1.size_ = v.size_) :
    Inv N ⟨m1, l.set i v1⟩ := by
  obtain ⟨I1, I2, I3⟩ := hI
  have hv := I1 i v hi
  have hstay : ∀ (k : Nat) u p, k ≠ i → l[k]? = some u → own u = some p → own v1 = some p →
      v1.size_ = u.size_ := by
    intro k u p hk hu hou hov1
    have hlt := own_lt_of_swf (I1 k u hu) p hou
    have hov := fr.stay p hov1 hlt
    rcases hx with hx | hx
    · exfalso
      obtain ⟨b, hb⟩ := buf_of_own hv hov
      have h2 : 1 < b.ref_count :=
        shared_of_two (w := ⟨m, l⟩) ⟨I1, I2, I3⟩ hu hi hk hou hov hb
      rcases fr.mine p b hov hb with ⟨_, b1, hb1, hr, _⟩ | ⟨h3, _⟩
      · have := excl_ref_one hx hov1 hb1
        omega
      · exact h3 hov1
    · rw [hx]
      exact I3 i k v u p hi hu hov hou
  refine ⟨fun k u hk => ?_, fun p b1 hb1 => ?_, fun k j u u2 p hk hj hu hu2 => ?_⟩
  · rcases get_set_cases hk with ⟨_, rfl⟩ | ⟨hne, hu⟩
    · exact w1
    · exact frame_keeps_swf fr (I1 k u hu) (fun p b h1 h2 hb =>
        shared_of_two (w := ⟨m, l⟩) ⟨I1, I2, I3⟩ hu hi hne h1 h2 hb)
  · have hcount := holders_set m m1 v1 p hi
    by_cases hlt : p < m.heap.length
    · by_cases hov : own v = some p
      · obtain ⟨b, hb⟩ := buf_of_own hv hov
        have hc : b.ref_count = holders ⟨m, l⟩ p := by
          have := holders_one (w := ⟨m, l⟩) hi hov
          rcases I2 p b hb with h0 | h1
          · omega
          · exact h1
        have hpos := holders_one (w := ⟨m, l⟩) hi hov
        rcases fr.mine p b hov hb with ⟨h3, b2, hb2, hr, _⟩ | ⟨h3, h4⟩
        · rw [hb1] at hb2
          cases hb2
          rw [if_pos hov, if_pos h3] at hcount
          right
          omega
        · rw [buf_eq_some, h4] at hb1
          have hrel : release b = some b1 := Option.some.inj hb1
          unfold release at hrel
          split at hrel
          · next hgt =>
            cases hrel
            rw [if_pos hov, if_neg h3] at hcount
            right
            show b.ref_count - 1 = _
            omega
          · cases hrel
      · have hb : m.buf p = some b1 := by
          rw [← buf_congr (fr.others p hlt hov)]
          exact hb1
        have hov1 : own v1 ≠ some p := fun h => hov (fr.stay p h hlt)
        rw [if_neg hov, if_neg hov1] at hcount
        rcases I2 p b1 hb with h0 | h1
        · left; omega
        · right; omega
    · have hov : own v ≠ some p := fun h => hlt (own_lt_of_swf hv p h)
      have hz : holders ⟨m, l⟩ p = 0 :=
        holders_zero (fun k u hu ho => hlt (own_lt_of_swf (I1 k u hu) p ho))
      rw [if_neg hov] at hcount
      by_cases h3 : own v1 = some p
      · have hr := fr.fresh p b1 (by omega) hb1 h3
        rw [if_pos h3] at hcount
        right
        omega
      · rw [if_neg h3] at hcount
        left
        omega
  · rcases get_set_cases hk with ⟨rfl, rfl⟩ | ⟨hne, hu1⟩
    · rcases get_set_cases hj with ⟨_, rfl⟩ | ⟨hne2, hu3⟩
      · rfl
      · exact hstay j u2 p hne2 hu3 hu2 hu
    · rcases get_set_cases hj with ⟨_, rfl⟩ | ⟨hne2, hu3⟩
      · exact (hstay k u p hne hu1 hu hu2).symm
      · exact I3 k j u u2 p hu1 hu3 hu hu2

end InvStep

end Socow

namespace Socow

section Sole

variable {T : Type}

theorem insert_ok_excl {N : Nat} {m : Mem T} {v : socow_vector T} {pos : iterator} {x : T}
    {s : St T × iterator} (h : swf N m v = true) (e : insert N m v pos x = .ok s) :
    excl s.1.1 s.1.2 := by
  unfold insert at e
  split at e
  · cases e
  · split at e
    · obtain ⟨s1, e1, e2⟩ := bind_eq_ok e
      obtain ⟨s2, e3, e4⟩ := bind_eq_ok e2
      obtain ⟨s3, e5, e6⟩ := bind_eq_ok e4
      cases e6
      obtain ⟨st1, w1, x1⟩ := push_back_ok h e1
      obtain ⟨r1, arr, h1, _⟩ := held_of_excl w1 x1
      obtain ⟨st2, cs2, h2⟩ := insert_loop_ok _ _ h1 e3
      exact (data_ok h2.1 e5).2.2.1
    · cases e

theorem erase_ok_excl {N : Nat} {m : Mem T} {v : socow_vector T} {first last : iterator}
    {s : St T × iterator} (h : swf N m v = true) (e : erase N m v first last = .ok s) :
    excl s.1.1 s.1.2 := by
  unfold erase at e
  split at e
  · cases e
  · split at e
    · obtain ⟨s1, e1, e2⟩ := bind_eq_ok e
      obtain ⟨s2, e3, e4⟩ := bind_eq_ok e2
      obtain ⟨s3, e5, e6⟩ := bind_eq_ok e4
      obtain ⟨s4, e7, e8⟩ := bind_eq_ok e6
      cases e8
      rcases check_cow_cases h with ⟨m1, v1, d, st1, w1, _, x1, _⟩ | ⟨_, he, _⟩
      · rw [d] at e1
        cases e1
        obtain ⟨r1, arr, h1, _⟩ := held_of_excl w1 x1
        obtain ⟨st2, cs2, h2⟩ := erase_loop_ok _ _ _ h1 e3
        obtain ⟨st3, w3⟩ := pop_loop_ok _ h2.1 e5
        exact (data_ok w3 e7).2.2.1
      · rw [he] at e1
        cases e1
    · cases e

theorem write_ok_excl {N : Nat} {m : Mem T} {v : socow_vector T} {i : Nat} {x : T} {s : St T}
    (h : swf N m v = true) (e : write N m v i x = .ok s) :
    swf N s.1 s.2 = true ∧ excl s.1 s.2 := by
  obtain ⟨cs, hc, _⟩ := contents_of_swf h
  obtain ⟨_, _, _, _, _, _, hcap⟩ := load_of_swf h
  rcases write_cases i x h hc hcap with ⟨_, m1, v1, e1, s1, w1, x1, _⟩ | ⟨_, he⟩ | ⟨_, he, _⟩
  · rw [e1] at e
    cases e
    exact ⟨w1, x1⟩
  · rw [he] at e
    cases e
  · rw [he] at e
    cases e

/-- Whenever a mutating operation returns, the container is structurally well-formed, and it
owns its storage alone or nothing has changed. -/
theorem run_ok_sole {N : Nat} {m : Mem T} {v : socow_vector T} (μ : Mutation T) {s : St T}
    (h : swf N m v = true) (e : μ.run N m v = .ok s) :
    swf N s.1 s.2 = true ∧ (excl s.1 s.2 ∨ s = (m, v)) := by
  obtain ⟨cs, hc, _⟩ := contents_of_swf h
  obtain ⟨_, src, _, _, _, _, hcap⟩ := load_of_swf h
  cases μ with
  | push_back x =>
    obtain ⟨_, w1, x1⟩ := push_back_ok h e
    exact ⟨w1, Or.inl x1⟩
  | pop_back =>
    obtain ⟨_, r, cs1, w1, x1, _⟩ := pop_back_ok h e
    exact ⟨w1, Or.inl x1⟩
  | clear =>
    rcases clear_cases h with ⟨m1, v1, e1, s1, w1, x1, _⟩ | ⟨_, he, _⟩
    · simp only [Mutation.run] at e
      rw [e1] at e
      cases e
      exact ⟨w1, Or.inl x1⟩
    · simp only [Mutation.run] at e
      rw [he] at e
      cases e
  | insert pos x =>
    simp only [Mutation.run] at e
    obtain ⟨s1, e1, e2⟩ := bind_eq_ok e
    cases e2
    exact ⟨(insert_ok h e1).2, Or.inl (insert_ok_excl h e1)⟩
  | erase first last =>
    simp only [Mutation.run] at e
    obtain ⟨s1, e1, e2⟩ := bind_eq_ok e
    cases e2
    exact ⟨(erase_ok h e1).2, Or.inl (erase_ok_excl h e1)⟩
  | erase1 pos =>
    simp only [Mutation.run, erase1] at e
    obtain ⟨s1, e1, e2⟩ := bind_eq_ok e
    cases e2
    exact ⟨(erase_ok h e1).2, Or.inl (erase_ok_excl h e1)⟩
  | reserve n =>
    rcases reserve_cases n h hc hcap with ⟨m1, v1, e1, s1, w1, x1, _⟩ | ⟨_, he, _⟩
    · simp only [Mutation.run] at e
      rw [e1] at e
      cases e
      exact ⟨w1, Or.inl x1⟩
    · simp only [Mutation.run] at e
      rw [he] at e
      cases e
  | shrink_to_fit =>
    rcases shrink_to_fit_cases h hc hcap with
      ⟨m1, v1, e1, s1, w1, _, _, g1, g2, g3⟩ | ⟨_, he, _⟩
    · simp only [Mutation.run] at e
      rw [e1] at e
      cases e
      refine ⟨w1, ?_⟩
      by_cases c1 : v.is_small_ = true ∨ v.size_ = src.length
      · obtain ⟨q1, q2⟩ := g1 c1
        right
        rw [q1, q2]
      · left
        have hsm : v.is_small_ = false := by
          cases hv : v.is_small_ with
          | false => rfl
          | true => exact absurd (Or.inl hv) c1
        have hne : v.size_ ≠ src.length := fun hh => c1 (Or.inr hh)
        by_cases c2 : v.size_ ≤ N
        · exact excl_small (g2 hsm hne c2).1
        · obtain ⟨hs1, hp1, nb, hh, hr, _⟩ := g3 hsm hne (by omega)
          have hb1 : m1.buf m.heap.length = some nb := by
            have := buf_of_heap_append_new hh
            simpa using this
          exact (excl_big_iff hs1 hp1 hb1).2 hr
    · simp only [Mutation.run] at e
      rw [he] at e
      cases e
  | write i x => exact ⟨(write_ok_excl h e).1, Or.inl (write_ok_excl h e).2⟩
  | write_front x => exact ⟨(write_ok_excl h e).1, Or.inl (write_ok_excl h e).2⟩
  | write_back x =>
    simp only [Mutation.run, write_back] at e
    split at e
    · obtain ⟨s1, _, e2⟩ := bind_eq_ok e
      cases e2
    · exact ⟨(write_ok_excl h e).1, Or.inl (write_ok_excl h e).2⟩

end Sole

end Socow

namespace Socow

section InvCopy

variable {T : Type}

theorem get_append_cases {α : Type} {l : List α} {k : Nat} {x u : α}
    (h : (l ++ [x])[k]? = some u) : (k < l.length ∧ l[k]? = some u) ∨ (k = l.length ∧ u = x) := by
  by_cases c : k < l.length
  · left
    rw [List.getElem?_append_left c] at h
    exact ⟨c, h⟩
  · right
    rw [List.getElem?_append_right (by omega)] at h
    by_cases c2 : k = l.length
    · subst c2
      simp at h
      exact ⟨rfl, h.symm⟩
    · have : k - l.length ≠ 0 := by omega
      cases hk : k - l.length with
      | zero => exact absurd hk this
      | succ n =>
        rw [hk] at h
        simp at h

/-- The two outcomes of a copy construction that returns: an inline copy and an unchanged heap,
or a copy that holds the block of the source, which gained one owner. -/
theorem copy_ctor_forms {N : Nat} {m m1 : Mem T} {o c : socow_vector T}
    (ho : swf N m o = true) (e : copy_ctor N m o = .ok (m1, c)) :
    swf N m1 c = true ∧ c.size_ = o.size_ ∧
      ((c.is_small_ = true ∧ m1.heap = m.heap) ∨
        ∃ p b, own o = some p ∧ own c = some p ∧ m.buf p = some b ∧
          m1.heap = m.heap.set p (some { b with ref_count := b.ref_count + 1 })) := by
  have hw := (copy_ctor_shares ho e).1
  refine ⟨hw, ?_⟩
  unfold copy_ctor at e
  split at e
  · split at e
    · cases e
    · cases e
    · cases e
      exact ⟨rfl, Or.inl ⟨rfl, rfl⟩⟩
  · next hn =>
    have hsm : o.is_small_ = false := by
      rcases swf_cases ho with ⟨_, h1, _⟩ | ⟨h1, _⟩
      · omega
      · exact h1
    obtain ⟨p, b, hp, hb, _⟩ := (swf_big hsm).1 ho
    simp only [socow_vector.dynamic_storage_, hp, hb, hsm] at e
    cases e
    exact ⟨rfl, Or.inr ⟨p, b, own_big hsm hp, own_big rfl rfl, hb, rfl⟩⟩

/-- Appending an inline container to a program state whose heap is unchanged keeps the
invariant. -/
theorem inv_append_small {N : Nat} {m m1 : Mem T} {l : List (socow_vector T)}
    {x : socow_vector T} (hI : Inv N ⟨m, l⟩) (hh : m1.heap = m.heap)
    (hs : x.is_small_ = true) (hx : swf N m1 x = true) : Inv N ⟨m1, l ++ [x]⟩ := by
  obtain ⟨I1, I2, I3⟩ := hI
  have hbuf : ∀ p, m1.buf p = m.buf p := fun p => buf_congr (by rw [hh])
  have hox : ∀ p, own x ≠ some p := fun p h => by rw [own_small hs] at h; cases h
  refine ⟨fun k u hk => ?_, fun p b hb => ?_, fun k j u u2 p hk hj hu hu2 => ?_⟩
  · rcases get_append_cases hk with ⟨_, h1⟩ | ⟨_, rfl⟩
    · rw [swf_congr (fun p _ => hbuf p)]
      exact I1 k u h1
    · exact hx
  · have := holders_append m m1 l x p
    rw [if_neg (hox p)] at this
    rw [hbuf] at hb
    rcases I2 p b hb with h0 | h1
    · left; omega
    · right; omega
  · rcases get_append_cases hk with ⟨_, h1⟩ | ⟨_, rfl⟩
    · rcases get_append_cases hj with ⟨_, h2⟩ | ⟨_, rfl⟩
      · exact I3 k j u u2 p h1 h2 hu hu2
      · exact absurd hu2 (hox p)
    · exact absurd hu (hox p)

/-- Copy construction from object `j` keeps the invariant, and keeps every block allocated
with its cells and at least its count of owners. -/
theorem inv_copy {N : Nat} {m m1 : Mem T} {l : List (socow_vector T)} {j : Nat}
    {o c : socow_vector T} (hI : Inv N ⟨m, l⟩) (hj : l[j]? = some o)
    (e : copy_ctor N m o = .ok (m1, c)) : Inv N ⟨m1, l ++ [c]⟩ := by
  have ho := hI.1 j o hj
  obtain ⟨hw, hz, ⟨hs, hh⟩ | ⟨p, b, hop, hcp, hb, hh⟩⟩ := copy_ctor_forms ho e
  · exact inv_append_small hI hh hs hw
  · obtain ⟨I1, I2, I3⟩ := hI
    have hplt := buf_lt hb
    have hbp : m1.buf p = some { b with ref_count := b.ref_count + 1 } := by
      rw [buf_eq_some, hh]
      simp [List.getElem?_set, hplt]
    have hbq : ∀ q, q ≠ p → m1.buf q = m.buf q := fun q hq =>
      buf_congr (by rw [hh, List.getElem?_set_ne (fun h => hq h.symm)])
    refine ⟨fun k u hk => ?_, fun q b1 hb1 => ?_, fun k i u u2 q hk hi hu hu2 => ?_⟩
    · rcases get_append_cases hk with ⟨_, h1⟩ | ⟨_, rfl⟩
      · refine swf_of_view (I1 k u h1) (fun q bq hoq hbq1 => ?_)
        by_cases c1 : q = p
        · subst c1
          rw [hb] at hbq1
          cases hbq1
          exact ⟨_, hbp, rfl, rfl, by simp⟩
        · exact ⟨bq, by rw [hbq q c1]; exact hbq1, rfl, rfl, own_ref_pos (I1 k u h1) hoq hbq1⟩
      · exact hw
    · have hcount := holders_append m m1 l c q
      by_cases c1 : q = p
      · subst c1
        rw [hbp] at hb1
        cases hb1
        rw [if_pos hcp] at hcount
        have hpos := holders_one (w := ⟨m, l⟩) hj hop
        right
        show b.ref_count + 1 = _
        rcases I2 q b hb with h0 | h1
        · omega
        · omega
      · rw [hbq q c1] at hb1
        have : own c ≠ some q := fun h => by
          rw [hcp] at h
          exact c1 (Option.some.inj h).symm
        rw [if_neg this] at hcount
        rcases I2 q b1 hb1 with h0 | h1
        · left; omega
        · right; omega
    · have twin : ∀ (k : Nat) u, (l ++ [c])[k]? = some u → own u = some q →
          ∃ (k1 : Nat) (u1 : socow_vector T), l[k1]? = some u1 ∧ own u1 = some q ∧
            u1.size_ = u.size_ := by
        intro k u hk hu
        rcases get_append_cases hk with ⟨_, h1⟩ | ⟨_, rfl⟩
        · exact ⟨k, u, h1, hu, rfl⟩
        · rw [hcp] at hu
          cases hu
          exact ⟨j, o, hj, hop, hz.symm⟩
      obtain ⟨k1, u1, g1, g2, g3⟩ := twin k u hk hu
      obtain ⟨k2, u3, g4, g5, g6⟩ := twin i u2 hi hu2
      rw [← g3, ← g6]
      exact I3 k1 k2 u1 u3 q g1 g4 g2 g5

end InvCopy

end Socow

namespace Socow

section InvDestroySwap

variable {T : Type}

theorem get_erase_cases {α : Type} {l : List α} {i k : Nat} {u : α}
    (h : (l.eraseIdx i)[k]? = some u) : ∃ k1 : Nat, k1 ≠ i ∧ l[k1]? = some u := by
  rw [List.getElem?_eraseIdx] at h
  split at h
  · exact ⟨k, by omega, h⟩
  · exact ⟨k + 1, by omega, h⟩

/-- The destructor of object `i` keeps the invariant. -/
theorem inv_destroy {N : Nat} {m : Mem T} {l : List (socow_vector T)} {i : Nat}
    {v : socow_vector T} (f : List Bool) (hI : Inv N ⟨m, l⟩) (hi : l[i]? = some v) :
    Inv N ⟨⟨released m v, f⟩, l.eraseIdx i⟩ := by
  obtain ⟨I1, I2, I3⟩ := hI
  have hv := I1 i v hi
  refine ⟨fun k u hk => ?_, fun q b1 hb1 => ?_, fun k j u u2 q hk hj hu hu2 => ?_⟩
  · obtain ⟨k1, hne, h1⟩ := get_erase_cases hk
    refine swf_of_view (I1 k1 u h1) (fun q bq hoq hbq => ?_)
    obtain ⟨b1, e1, e2, e3, e4, e5⟩ := buf_released (a := v) f hbq (fun hov =>
      shared_of_two (w := ⟨m, l⟩) ⟨I1, I2, I3⟩ h1 hi hne hoq hov hbq)
    refine ⟨b1, e1, e2, e3, ?_⟩
    have hpos := own_ref_pos (I1 k1 u h1) hoq hbq
    by_cases hov : own v = some q
    · have := shared_of_two (w := ⟨m, l⟩) ⟨I1, I2, I3⟩ h1 hi hne hoq hov hbq
      have := e4 hov
      omega
    · have := e5 hov
      omega
  · have hcount := holders_erase m ⟨released m v, f⟩ q hi
    by_cases hov : own v = some q
    · obtain ⟨b, hb⟩ := buf_of_own hv hov
      have hpos := holders_one (w := ⟨m, l⟩) hi hov
      have h1 : b.ref_count = holders ⟨m, l⟩ q := by
        rcases I2 q b hb with h0 | h1
        · omega
        · exact h1
      rw [buf_eq_some] at hb1
      have hrel : (released m v)[q]? = some (some b1) := hb1
      rw [released_mine hov hb] at hrel
      have hrel2 : release b = some b1 := Option.some.inj hrel
      unfold release at hrel2
      split at hrel2
      · cases hrel2
        rw [if_pos hov] at hcount
        right
        show b.ref_count - 1 = _
        omega
      · cases hrel2
    · have hb : m.buf q = some b1 := by
        rw [buf_eq_some] at hb1 ⊢
        have hrel : (released m v)[q]? = some (some b1) := hb1
        rw [released_other hov] at hrel
        exact hrel
      rw [if_neg hov] at hcount
      rcases I2 q b1 hb with h0 | h1
      · left; omega
      · right; omega
  · obtain ⟨k1, _, h1⟩ := get_erase_cases hk
    obtain ⟨k2, _, h2⟩ := get_erase_cases hj
    exact I3 k1 k2 u u2 q h1 h2 hu hu2

/-- The call `objs[i].swap(objs[j])` on two distinct objects keeps the invariant. -/
theorem inv_swap {N : Nat} {m m1 : Mem T} {l : List (socow_vector T)} {i j : Nat}
    {a b a1 b1 : socow_vector T} (hI : Inv N ⟨m, l⟩) (hi : l[i]? = some a)
    (hj : l[j]? = some b) (hne : i ≠ j) (e : swap N m a b = .ok (m1, a1, b1)) :
    Inv N ⟨m1, (l.set i a1).set j b1⟩ := by
  obtain ⟨I1, I2, I3⟩ := hI
  obtain ⟨hh, _, wa, wb, oa, ob, za, zb, _⟩ := swap_ok_facts (I1 i a hi) (I1 j b hj) e
  have hbuf : ∀ p, m1.buf p = m.buf p := fun p => buf_congr (by rw [hh])
  have hj1 : (l.set i a1)[j]? = some b := by
    rw [List.getElem?_set_ne hne]
    exact hj
  have twin : ∀ (k : Nat) u, ((l.set i a1).set j b1)[k]? = some u →
      swf N m1 u = true ∧ ∃ (k1 : Nat) (u1 : socow_vector T), l[k1]? = some u1 ∧
        own u1 = own u ∧ u1.size_ = u.size_ := by
    intro k u hk
    rcases get_set_cases hk with ⟨_, rfl⟩ | ⟨hn1, h1⟩
    · exact ⟨wb, i, a, hi, ob.symm, zb.symm⟩
    · rcases get_set_cases h1 with ⟨_, rfl⟩ | ⟨hn2, h2⟩
      · exact ⟨wa, j, b, hj, oa.symm, za.symm⟩
      · refine ⟨?_, k, u, h2, rfl, rfl⟩
        rw [swf_congr (fun p _ => hbuf p)]
        exact I1 k u h2
  refine ⟨fun k u hk => (twin k u hk).1, fun p bp hb => ?_, fun k k2 u u2 p hk hk2 hu hu2 => ?_⟩
  · have c1 := holders_set m m1 a1 p hi
    have c2 := holders_set m1 m1 b1 p hj1
    rw [hbuf] at hb
    rw [oa] at c1
    rw [ob] at c2
    rcases I2 p bp hb with h0 | h1
    · left; omega
    · right; omega
  · obtain ⟨_, k1, u1, g1, g2, g3⟩ := twin k u hk
    obtain ⟨_, k3, u3, g4, g5, g6⟩ := twin k2 u2 hk2
    rw [← g3, ← g6]
    exact I3 k1 k3 u1 u3 p g1 g4 (by rw [g2]; exact hu) (by rw [g5]; exact hu2)

end InvDestroySwap

end Socow

namespace Socow

section ThrowStates

variable {T : Type}

/-- When an exception leaves `check_cow_()`, the container is unchanged and the heap is the
heap before the call followed by the deleted block. -/
theorem check_cow_threw {N : Nat} {m : Mem T} {v : socow_vector T} {s : St T}
    (h : swf N m v = true) (e : check_cow_ N m v = .threw s) :
    s.2 = v ∧ s.1.heap = m.heap ++ [none] := by
  rcases swf_cases h with ⟨hs, _, _⟩ | ⟨hs, p, b, hp, hb, h1, h2, h3⟩
  · rw [check_cow_small hs] at e
    cases e
  · rw [check_cow_big hs hp hb] at e
    by_cases hr : b.ref_count > 1
    · rw [if_pos hr] at e
      rcases copy_on_write_cases (N := N) hs hp hb h1 h3 with ⟨_, e1⟩ | ⟨_, fs, e1, _⟩
      · rw [e1] at e
        cases e
      · rw [e1] at e
        cases e
        have := free_allocate m b.capacity fs
        simp only [addr_allocate] at this
        rw [this]
        exact ⟨rfl, rfl⟩
    · rw [if_neg hr] at e
      cases e

theorem data_threw {N : Nat} {m : Mem T} {v : socow_vector T} {s : St T}
    (h : swf N m v = true) (e : data N m v = .threw s) :
    s.2 = v ∧ s.1.heap = m.heap ++ [none] := by
  unfold data at e
  cases hc : check_cow_ N m v with
  | ok x =>
    rw [hc, bind_ok] at e
    split at e
    · cases e
    · cases e
  | threw x =>
    rw [hc, bind_threw] at e
    cases e
    exact check_cow_threw h hc
  | ub =>
    rw [hc, bind_ub] at e
    cases e

/-- When an exception leaves `shrink_to_fit()`, the container object is unchanged. In the
branch `size_ <= SMALL_SIZE` the heap is unchanged. In the other branch the heap is the heap
before the call followed by the block `allocate(size_)` returned, which is still allocated. -/
theorem shrink_to_fit_threw {N : Nat} {m : Mem T} {v : socow_vector T} {s : St T}
    (h : swf N m v = true) (e : shrink_to_fit N m v = .threw s) :
    s.2 = v ∧ (v.size_ ≤ N → s.1.heap = m.heap) ∧
      (N < v.size_ → ∃ d, s.1.heap = m.heap ++ [some ⟨v.size_, 1, d⟩]) := by
  obtain ⟨cs, hc, _⟩ := contents_of_swf h
  rcases swf_cases h with ⟨hs, _, _⟩ | ⟨hs, p, b, hp, hb, h1, h2, h3⟩
  · rw [shrink_noop (capacity_small hs) (Or.inl hs)] at e
    cases e
  · by_cases hfull : v.size_ = b.capacity
    · rw [shrink_noop (capacity_big hs hp hb) (Or.inr hfull)] at e
      cases e
    · have hvp : v.set_dynamic p = v := by
        cases v
        simp only at hp
        simp [socow_vector.set_dynamic, hp]
      by_cases hfit : v.size_ ≤ N
      · rw [shrink_fit_eq hs hp hb hfull hfit] at e
        split at e
        · cases e
        · cases e
          exact ⟨hvp, fun _ => rfl, fun hlt => by omega⟩
        · split at e
          · cases e
          · cases e
      · rw [shrink_exact_eq hs hp hb hfull hfit] at e
        split at e
        · cases e
        · next d f _ =>
          cases e
          refine ⟨rfl, fun hle => absurd hle hfit, fun _ => ⟨d, ?_⟩⟩
          simp [allocate, Mem.put, Mem.setFaults]
        · split at e
          · cases e
          · cases e

end ThrowStates

end Socow

namespace Socow

section ReserveThrow

variable {T : Type}

/-- When an exception leaves `reserve(n)` with `n > capacity()`, the block `allocate(n)`
returned is still allocated and the container does not hold it. -/
theorem reserve_threw {N : Nat} {m : Mem T} {v : socow_vector T} {c n : Nat} {s : St T}
    (h : swf N m v = true) (hcap : capacity N m v = some c) (hn : c < n)
    (e : reserve N m v n = .threw s) :
    (∃ nb, s.1.buf m.heap.length = some nb ∧ nb.capacity = n ∧ nb.ref_count = 1) ∧
      own s.2 ≠ some m.heap.length := by
  have hold := own_lt_of_swf h
  have hnot : own v ≠ some m.heap.length := fun ho => by
    have := hold _ ho
    omega
  have hsw : swf N (allocate m n).1 v = true := by
    rw [← h]
    exact swf_congr (fun p hp => buf_allocate_old _ (hold p hp))
  have hlen : (allocate m n).1.heap.length = m.heap.length + 1 := by simp [allocate]
  rw [reserve_grow_eq n hcap (by omega)] at e
  cases hd : data N (allocate m n).1 v with
  | ub =>
    rw [hd] at e
    cases e
  | threw x =>
    rw [hd] at e
    cases e
    obtain ⟨h1, h2⟩ := data_threw hsw hd
    refine ⟨⟨⟨n, 1, List.replicate n none⟩, ?_, rfl, rfl⟩, by rw [h1]; exact hnot⟩
    rw [buf_eq_some, h2, List.getElem?_append_left (by omega)]
    exact buf_eq_some.1 (buf_allocate_new m n)
  | ok sr =>
    rw [hd] at e
    obtain ⟨st, w1, _, _⟩ := data_ok hsw hd
    have hb : sr.1.1.buf m.heap.length = some ⟨n, 1, List.replicate n none⟩ := by
      rw [buf_congr (st.others m.heap.length (by omega) hnot)]
      exact buf_allocate_new m n
    have hown : own sr.1.2 ≠ some m.heap.length := fun ho =>
      hnot (st.stay _ ho (by omega))
    simp only [hb] at e
    split at e
    · next src nb hl hnb =>
      cases hnb
      split at e
      · cases e
      · next d f _ =>
        cases e
        exact ⟨⟨_, buf_put_self _ (buf_lt hb), rfl, rfl⟩, hown⟩
      · split at e
        · cases e
        · cases e
    · cases e

end ReserveThrow

end Socow

namespace Socow

section SizedLemmas

variable {T : Type}

theorem alloc_bytes_fit {sz cap : Nat} (h : 16 + sz * cap < 2 ^ 64) :
    alloc_bytes sz cap = 16 + sz * cap := by
  unfold alloc_bytes
  exact Nat.mod_eq_of_lt h

/-- When the size of the allocation does not wrap, the allocation computed as in the source is
`allocate`. -/
theorem allocate_sized_fit {sz : Nat} (m : Mem T) {cap : Nat} (hsz : 0 < sz)
    (h : 16 + sz * cap < 2 ^ 64) : allocate_sized sz m cap = some (allocate m cap) := by
  unfold allocate_sized allocate
  rw [alloc_bytes_fit h]
  have h1 : ¬ 16 + sz * cap < 16 := by omega
  have h2 : (16 + sz * cap - 16) / sz = cap := by
    rw [Nat.add_sub_cancel_left, Nat.mul_div_cancel_left _ hsz]
  rw [if_neg h1, h2]

/-- When the size of the allocation does not wrap, `reserve_sized` is `reserve`. -/
theorem reserve_sized_eq {sz N : Nat} {m : Mem T} {v : socow_vector T} {c : Nat} (n : Nat)
    (hsz : 0 < sz) (hcap : capacity N m v = some c) (hfit : c < n → 16 + sz * n < 2 ^ 64) :
    reserve_sized sz N m v n = reserve N m v n := by
  unfold reserve_sized reserve
  rw [hcap]
  by_cases hn : n ≤ c
  · simp only [if_pos hn]
  · simp only [if_neg hn]
    rw [allocate_sized_fit m hsz (hfit (by omega))]

/-- Within the precondition of `reserve`, the step with the sized allocation is the step of
`World.run`. -/
theorem run_sized_eq {sz N : Nat} (w : World T) (op : Op T) (hsz : 0 < sz) (hf : op.fits sz) :
    w.run_sized sz N op = w.run N op := by
  cases op with
  | mutate i μ =>
    cases μ with
    | reserve n =>
      simp only [World.run_sized, World.run, Mutation.run]
      cases hi : w.objs[i]? with
      | none => rfl
      | some v =>
        have e : reserve_sized sz N w.mem v n = reserve N w.mem v n := by
          cases hc : capacity N w.mem v with
          | none =>
            unfold reserve_sized reserve
            rw [hc]
          | some c => exact reserve_sized_eq n hsz hc (fun _ => hf)
        simp only [e]
    | _ => rfl
  | _ => rfl

end SizedLemmas

end Socow

namespace Socow

section PushThrow

variable {T : Type}

theorem bind_ok_eq_threw {ε α β : Type} {r : Res ε α} {g : α → β} {e : ε}
    (h : r.bind (fun a => .ok (g a)) = .threw e) : r = .threw e := by
  cases r with
  | ok a => simp [Res.bind] at h
  | threw x =>
    simp only [Res.bind] at h
    cases h
    rfl
  | ub => simp [Res.bind] at h

theorem excl_congr {m m1 : Mem T} {v : socow_vector T}
    (h : ∀ p, own v = some p → m1.buf p = m.buf p) (hx : excl m v) : excl m1 v := by
  rcases hx with hs | ⟨p, b, hp, hb, hr⟩
  · exact Or.inl hs
  · cases hs : v.is_small_ with
    | true => exact Or.inl hs
    | false => exact Or.inr ⟨p, b, hp, by rw [h p (own_big hs hp)]; exact hb, hr⟩

theorem buf_append_left {m m1 : Mem T} {ex : List (Option (dynamic_buf T))}
    (hh : m1.heap = m.heap ++ ex) {p : Nat} (hp : p < m.heap.length) : m1.buf p = m.buf p :=
  buf_congr (by rw [hh, List.getElem?_append_left hp])

/-- A frame followed by the appending of blocks that nobody holds. -/
theorem Frame.append {N : Nat} {m m1 m2 : Mem T} {v v1 : socow_vector T}
    {ex : List (Option (dynamic_buf T))} (fr : Frame m v m1 v1)
    (hg : m.heap.length ≤ m1.heap.length) (w1 : swf N m1 v1 = true)
    (hh : m2.heap = m1.heap ++ ex) : Frame m v m2 v1 where
  others := fun a h1 h2 => by
    rw [hh, List.getElem?_append_left (by omega)]
    exact fr.others a h1 h2
  mine := fun p b h1 h2 => by
    rcases fr.mine p b h1 h2 with ⟨h3, b1, h4, h5⟩ | ⟨h3, h4⟩
    · exact Or.inl ⟨h3, b1, by rw [buf_append_left hh (buf_lt h4)]; exact h4, h5⟩
    · refine Or.inr ⟨h3, ?_⟩
      have hlt : p < m1.heap.length := by
        by_contra hc
        rw [List.getElem?_eq_none (by omega)] at h4
        cases h4
      rw [hh, List.getElem?_append_left hlt]
      exact h4
  fresh := fun a b1 h1 hb ho => by
    have hlt := own_lt_of_swf w1 a ho
    rw [buf_append_left hh hlt] at hb
    exact fr.fresh a b1 h1 hb ho
  stay := fr.stay

/-- What an exception that leaves a call has to leave behind: the frame is kept, the container
is structurally well-formed, and it owns its storage alone or has the size it had. -/
theorem threw_of_append {N : Nat} {m : Mem T} {v : socow_vector T} {s : St T}
    {x : List (Option (dynamic_buf T))} (h : swf N m v = true) (h2 : s.2 = v)
    (hh : s.1.heap = m.heap ++ x) :
    Frame m v s.1 s.2 ∧ swf N s.1 s.2 = true ∧ (excl s.1 s.2 ∨ s.2.size_ = v.size_) := by
  obtain ⟨fr, w1⟩ := frame_append h hh
  rw [h2]
  exact ⟨fr, w1, Or.inr rfl⟩

theorem threw_after_step {N : Nat} {m m1 : Mem T} {v v1 : socow_vector T} {s : St T}
    {ex : List (Option (dynamic_buf T))} (st : Step m v m1 v1) (w1 : swf N m1 v1 = true)
    (hx : excl m1 v1) (h2 : s.2 = v1) (hh : s.1.heap = m1.heap ++ ex) :
    Frame m v s.1 s.2 ∧ swf N s.1 s.2 = true ∧ (excl s.1 s.2 ∨ s.2.size_ = v.size_) := by
  have hold := own_lt_of_swf w1
  rw [h2]
  refine ⟨st.frame.append st.grow w1 hh, ?_, Or.inl ?_⟩
  · rw [← w1]
    exact swf_congr (fun p hp => buf_append_left hh (hold p hp))
  · exact excl_congr (fun p hp => buf_append_left hh (hold p hp)) hx

theorem extend_threw {N : Nat} {m : Mem T} {v : socow_vector T} {el : T} {nc : Nat} {s : St T}
    (h : swf N m v = true) (hnc : v.size_ < nc) (e : extend_push_back_ N m v el nc = .threw s) :
    s.2 = v ∧ s.1.heap = m.heap ++ [none] := by
  rcases extend_throw_cases el h hnc with ⟨_, s1, e1⟩ | ⟨_, k, e1⟩
  · rw [e1] at e
    cases e
  · rw [e1] at e
    cases e
    exact ⟨rfl, rfl⟩

theorem push_back_dynamic_threw {N : Nat} {m : Mem T} {v : socow_vector T} {p : Nat}
    {b : dynamic_buf T} {el : T} {s : St T} (h : swf N m v = true) (hp : v.store = .handle p)
    (hb : m.buf p = some b) (hl : b.data.length = b.capacity) (hn : v.size_ ≤ b.capacity)
    (e : push_back_dynamic_ N m v el = .threw s) :
    s.2 = v ∧ ∃ ex, s.1.heap = m.heap ++ ex := by
  rw [push_back_dynamic_eq el hp hb hl hn] at e
  by_cases c : v.size_ = b.capacity
  · rw [if_pos c] at e
    obtain ⟨h1, h2⟩ := extend_threw h (by omega) e
    exact ⟨h1, _, h2⟩
  · rw [if_neg c] at e
    split at e
    · cases e
      exact ⟨rfl, [], by simp⟩
    · cases e

end PushThrow

end Socow

namespace Socow

section PushThrow2

variable {T : Type}

/-- The state an exception leaves behind when it leaves `push_back`. -/
theorem push_back_threw {N : Nat} {m : Mem T} {v : socow_vector T} {x : T} {s : St T}
    (h : swf N m v = true) (e : push_back N m v x = .threw s) :
    Frame m v s.1 s.2 ∧ swf N s.1 s.2 = true ∧ (excl s.1 s.2 ∨ s.2.size_ = v.size_) := by
  unfold push_back at e
  have e1 := bind_ok_eq_threw e
  rcases swf_cases h with ⟨hs, h1, h2⟩ | ⟨hs, p, b, hp, hb, hl, hr, hn⟩
  · unfold push_back_body at e1
    simp only [hs, if_true] at e1
    by_cases c : v.size_ = N
    · rw [if_pos c] at e1
      unfold transform_push_back_ at e1
      obtain ⟨g1, g2⟩ := extend_threw h (by omega) (bind_ok_eq_threw e1)
      exact threw_of_append h g1 g2
    · rw [if_neg c, if_pos (by omega)] at e1
      split at e1
      · cases e1
        exact threw_of_append (x := []) h rfl (by simp)
      · cases e1
  · rw [push_back_big_eq x hs hp hb] at e1
    by_cases c : b.ref_count = 1
    · rw [if_pos c] at e1
      obtain ⟨g1, ex, g2⟩ := push_back_dynamic_threw h hp hb hl hn e1
      exact threw_of_append h g1 g2
    · rw [if_neg c] at e1
      by_cases c2 : v.size_ ≠ b.capacity
      · rw [if_pos c2] at e1
        have hcc : copy_on_write_ N m v = check_cow_ N m v := by
          rw [check_cow_big hs hp hb, if_pos (by omega)]
        rw [hcc] at e1
        cases hc : check_cow_ N m v with
        | ub =>
          rw [hc, bind_ub] at e1
          cases e1
        | threw y =>
          rw [hc, bind_threw] at e1
          cases e1
          obtain ⟨g1, g2⟩ := check_cow_threw h hc
          exact threw_of_append h g1 g2
        | ok y =>
          rw [hc, bind_ok] at e1
          rcases check_cow_cases h with ⟨m1, v1, e2, st, w1, _, x1, _, i1, _⟩ | ⟨_, he, _⟩
          · rw [hc] at e2
            cases e2
            have hs1 : v1.is_small_ = false := by rw [i1, hs]
            obtain ⟨q, bq, hq, hbq, hlq, _, hnq⟩ := (swf_big hs1).1 w1
            obtain ⟨g1, ex, g2⟩ := push_back_dynamic_threw w1 hq hbq hlq hnq e1
            exact threw_after_step st w1 x1 g1 g2
          · rw [hc] at he
            cases he
      · rw [if_neg c2, bind_ok] at e1
        obtain ⟨g1, ex, g2⟩ := push_back_dynamic_threw h hp hb hl hn e1
        exact threw_of_append h g1 g2

end PushThrow2

end Socow

namespace Socow

section NoThrow

variable {T : Type}

theorem ofOption_ne_threw {ε α : Type} {o : Option α} {e : ε} :
    (Res.ofOption o : Res ε α) ≠ .threw e := by
  cases o <;> simp [Res.ofOption]

theorem data_excl_of_swf {N : Nat} {m : Mem T} {v : socow_vector T} (h : swf N m v = true)
    (hx : excl m v) : ∃ r, data N m v = .ok ((m, v), r) := by
  obtain ⟨r, hr⟩ := const_data_of_swf h
  exact ⟨r, data_excl hx hr⟩

/-- An exception leaves `pop_back` only out of `data()`. -/
theorem pop_back_threw {N : Nat} {m : Mem T} {v : socow_vector T} {s : St T}
    (e : pop_back N m v = .threw s) : data N m v = .threw s := by
  unfold pop_back at e
  cases hd : data N m v with
  | ub =>
    rw [hd, bind_ub] at e
    cases e
  | threw y =>
    rw [hd, bind_threw] at e
    cases e
    rfl
  | ok sr =>
    rw [hd, bind_ok] at e
    exfalso
    split at e
    · cases e
    · dsimp only at e
      split at e
      · cases e
      · split at e
        · exact ofOption_ne_threw e
        · cases e

theorem write_threw {N : Nat} {m : Mem T} {v : socow_vector T} {i : Nat} {x : T} {s : St T}
    (e : write N m v i x = .threw s) : data N m v = .threw s := by
  unfold write at e
  cases hd : data N m v with
  | ub =>
    rw [hd, bind_ub] at e
    cases e
  | threw y =>
    rw [hd, bind_threw] at e
    cases e
    rfl
  | ok sr =>
    rw [hd, bind_ok] at e
    exfalso
    split at e
    · cases e
    · split at e
      · exact ofOption_ne_threw e
      · cases e

theorem swap_data_no_threw {N : Nat} {m : Mem T} {v : socow_vector T} {r : Region}
    {cs : Cells T} {i j : Nat} {s : St T} (h : held N m v r cs) :
    swap_data N (m, v) i j ≠ .threw s := by
  cases hs : swap_at cs i j with
  | none =>
    rw [swap_data_none h hs]
    simp
  | some cs1 =>
    obtain ⟨m1, v1, e1, _⟩ := swap_data_held h hs
    rw [e1]
    simp

theorem insert_loop_no_threw {N : Nat} (p : Nat) : ∀ (k : Nat) {m : Mem T}
    {v : socow_vector T} {r : Region} {cs : Cells T} {s : St T}, held N m v r cs →
    insert_loop N p k (m, v) ≠ .threw s := by
  intro k
  induction k with
  | zero =>
    intro m v r cs s h
    simp [insert_loop]
  | succ k ih =>
    intro m v r cs s h e
    simp only [insert_loop] at e
    cases hd : swap_data N (m, v) (p + k + 1) (p + k) with
    | ub =>
      rw [hd, bind_ub] at e
      cases e
    | threw y => exact swap_data_no_threw h hd
    | ok y =>
      rw [hd, bind_ok] at e
      obtain ⟨_, cs1, h1⟩ := swap_data_ok h hd
      exact ih h1 e

theorem erase_loop_no_threw {N : Nat} (diff : Nat) : ∀ (k i : Nat) {m : Mem T}
    {v : socow_vector T} {r : Region} {cs : Cells T} {s : St T}, held N m v r cs →
    erase_loop N diff k i (m, v) ≠ .threw s := by
  intro k
  induction k with
  | zero =>
    intro i m v r cs s h
    simp [erase_loop]
  | succ k ih =>
    intro i m v r cs s h e
    simp only [erase_loop] at e
    cases hd : swap_data N (m, v) (i - diff) i with
    | ub =>
      rw [hd, bind_ub] at e
      cases e
    | threw y => exact swap_data_no_threw h hd
    | ok y =>
      rw [hd, bind_ok] at e
      obtain ⟨_, cs1, h1⟩ := swap_data_ok h hd
      exact ih (i + 1) h1 e

theorem pop_loop_no_threw {N : Nat} : ∀ (k : Nat) {m : Mem T} {v : socow_vector T}
    {s : St T}, swf N m v = true → excl m v → pop_loop N k (m, v) ≠ .threw s := by
  intro k
  induction k with
  | zero =>
    intro m v s h hx
    simp [pop_loop]
  | succ k ih =>
    intro m v s h hx e
    simp only [pop_loop] at e
    cases hd : pop_back N m v with
    | ub =>
      rw [hd, bind_ub] at e
      cases e
    | threw y =>
      have h1 := pop_back_threw hd
      obtain ⟨r, hr⟩ := data_excl_of_swf h hx
      rw [hr] at h1
      cases h1
    | ok y =>
      rw [hd, bind_ok] at e
      obtain ⟨_, r, cs1, w1, x1, _⟩ := pop_back_ok h hd
      exact ih w1 x1 e

end NoThrow

end Socow

namespace Socow

section FrameAlloc

variable {T : Type}

/-- A frame that starts after blocks were appended to the heap is a frame from the heap
before. -/
theorem Frame.after_alloc {N : Nat} {m a1 m1 : Mem T} {v v1 : socow_vector T}
    {ex : List (Option (dynamic_buf T))} (fr : Frame a1 v m1 v1) (h : swf N m v = true)
    (ha : a1.heap = m.heap ++ ex) : Frame m v m1 v1 where
  others := fun a h1 h2 => by
    rw [fr.others a (by rw [ha]; simp; omega) h2, ha, List.getElem?_append_left h1]
  mine := fun p b h1 h2 => by
    have : a1.buf p = some b := by
      rw [buf_append_left ha (buf_lt h2)]
      exact h2
    exact fr.mine p b h1 this
  fresh := fun a b1 h1 hb ho => by
    by_cases c : a < a1.heap.length
    · have := own_lt_of_swf h a (fr.stay a ho c)
      omega
    · exact fr.fresh a b1 (by omega) hb ho
  stay := fun a ho h1 => fr.stay a ho (by rw [ha]; simp; omega)

/-- A frame followed by a write to a block that was allocated on the way and that the
container does not hold. -/
theorem Frame.put_unowned {m m1 m2 : Mem T} {v v1 : socow_vector T} {q : Nat}
    {x : Option (dynamic_buf T)} (fr : Frame m v m1 v1) (hq : m.heap.length ≤ q)
    (ho : own v1 ≠ some q) (hh : m2.heap = m1.heap.set q x) : Frame m v m2 v1 where
  others := fun a h1 h2 => by
    rw [hh, List.getElem?_set_ne (by omega)]
    exact fr.others a h1 h2
  mine := fun p b h1 h2 => by
    have hp := buf_lt h2
    have hb : m2.buf p = m1.buf p :=
      buf_congr (by rw [hh, List.getElem?_set_ne (by omega)])
    rcases fr.mine p b h1 h2 with ⟨h3, b1, h4, h5⟩ | ⟨h3, h4⟩
    · exact Or.inl ⟨h3, b1, by rw [hb]; exact h4, h5⟩
    · exact Or.inr ⟨h3, by rw [hh, List.getElem?_set_ne (by omega)]; exact h4⟩
  fresh := fun a b1 h1 hb hoa => by
    have hne : q ≠ a := fun e => ho (by rw [e]; exact hoa)
    have hb2 : m2.buf a = m1.buf a := buf_congr (by rw [hh, List.getElem?_set_ne hne])
    rw [hb2] at hb
    exact fr.fresh a b1 h1 hb hoa
  stay := fr.stay

theorem pop_loop_sole {N : Nat} : ∀ (k : Nat) {m : Mem T} {v : socow_vector T} {s : St T},
    swf N m v = true → excl m v → pop_loop N k (m, v) = .ok s →
    swf N s.1 s.2 = true ∧ excl s.1 s.2 := by
  intro k
  induction k with
  | zero =>
    intro m v s h hx e
    cases e
    exact ⟨h, hx⟩
  | succ k ih =>
    intro m v s h hx e
    simp only [pop_loop] at e
    obtain ⟨s1, e1, e2⟩ := bind_eq_ok e
    obtain ⟨_, r, cs1, w1, x1, _⟩ := pop_back_ok h e1
    exact ih w1 x1 e2

theorem data_threw_frame {N : Nat} {m : Mem T} {v : socow_vector T} {s : St T}
    (h : swf N m v = true) (e : data N m v = .threw s) :
    Frame m v s.1 s.2 ∧ swf N s.1 s.2 = true ∧ (excl s.1 s.2 ∨ s.2.size_ = v.size_) := by
  obtain ⟨g1, g2⟩ := data_threw h e
  exact threw_of_append h g1 g2

theorem check_cow_threw_frame {N : Nat} {m : Mem T} {v : socow_vector T} {s : St T}
    (h : swf N m v = true) (e : check_cow_ N m v = .threw s) :
    Frame m v s.1 s.2 ∧ swf N s.1 s.2 = true ∧ (excl s.1 s.2 ∨ s.2.size_ = v.size_) := by
  obtain ⟨g1, g2⟩ := check_cow_threw h e
  exact threw_of_append h g1 g2

/-- The state an exception leaves behind when it leaves `insert`. -/
theorem insert_threw {N : Nat} {m : Mem T} {v : socow_vector T} {pos : iterator} {x : T}
    {s : St T} (h : swf N m v = true) (e : insert N m v pos x = .threw s) :
    Frame m v s.1 s.2 ∧ swf N s.1 s.2 = true ∧ (excl s.1 s.2 ∨ s.2.size_ = v.size_) := by
  unfold insert at e
  split at e
  · cases e
  · split at e
    · cases hp : push_back N m v x with
      | ub =>
        rw [hp, bind_ub] at e
        cases e
      | threw y =>
        rw [hp, bind_threw] at e
        cases e
        exact push_back_threw h hp
      | ok y =>
        rw [hp, bind_ok] at e
        exfalso
        obtain ⟨_, w1, x1⟩ := push_back_ok h hp
        obtain ⟨r1, arr, h1, _⟩ := held_of_excl w1 x1
        cases hl : insert_loop N pos.off (y.2.size_ - 1 - pos.off) y with
        | ub =>
          rw [hl, bind_ub] at e
          cases e
        | threw z => exact insert_loop_no_threw _ _ h1 hl
        | ok z =>
          rw [hl, bind_ok] at e
          obtain ⟨_, cs2, h2⟩ := insert_loop_ok _ _ h1 hl
          obtain ⟨r, hr⟩ := data_excl_of_swf h2.1 h2.2.1
          rw [hr, bind_ok] at e
          cases e
    · cases e

/-- The state an exception leaves behind when it leaves `erase`. -/
theorem erase_threw {N : Nat} {m : Mem T} {v : socow_vector T} {first last : iterator}
    {s : St T} (h : swf N m v = true) (e : erase N m v first last = .threw s) :
    Frame m v s.1 s.2 ∧ swf N s.1 s.2 = true ∧ (excl s.1 s.2 ∨ s.2.size_ = v.size_) := by
  unfold erase at e
  split at e
  · cases e
  · split at e
    · cases hc : check_cow_ N m v with
      | ub =>
        rw [hc, bind_ub] at e
        cases e
      | threw y =>
        rw [hc, bind_threw] at e
        cases e
        exact check_cow_threw_frame h hc
      | ok y =>
        rw [hc, bind_ok] at e
        exfalso
        rcases check_cow_cases h with ⟨m1, v1, d, _, w1, _, x1, _⟩ | ⟨_, he, _⟩
        · rw [hc] at d
          cases d
          obtain ⟨r1, arr, h1, _⟩ := held_of_excl w1 x1
          cases hl : erase_loop N (last.off - first.off) (v1.size_ - last.off) last.off
              (m1, v1) with
          | ub =>
            rw [hl, bind_ub] at e
            cases e
          | threw z => exact erase_loop_no_threw _ _ _ h1 hl
          | ok z =>
            rw [hl, bind_ok] at e
            obtain ⟨_, cs2, h2⟩ := erase_loop_ok _ _ _ h1 hl
            cases hq : pop_loop N (last.off - first.off) z with
            | ub =>
              rw [hq, bind_ub] at e
              cases e
            | threw u => exact pop_loop_no_threw _ h2.1 h2.2.1 hq
            | ok u =>
              rw [hq, bind_ok] at e
              obtain ⟨w3, x3⟩ := pop_loop_sole _ h2.1 h2.2.1 hq
              obtain ⟨r, hr⟩ := data_excl_of_swf w3 x3
              rw [hr, bind_ok] at e
              cases e
        · rw [hc] at he
          cases he
    · cases e

/-- The state an exception leaves behind when it leaves `clear`. -/
theorem clear_threw {N : Nat} {m : Mem T} {v : socow_vector T} {s : St T}
    (h : swf N m v = true) (e : clear N m v = .threw s) :
    Frame m v s.1 s.2 ∧ swf N s.1 s.2 = true ∧ (excl s.1 s.2 ∨ s.2.size_ = v.size_) := by
  unfold clear at e
  cases hc : check_cow_ N m v with
  | ub =>
    rw [hc, bind_ub] at e
    cases e
  | threw y =>
    rw [hc, bind_threw] at e
    cases e
    exact check_cow_threw_frame h hc
  | ok y =>
    rw [hc, bind_ok] at e
    exfalso
    rcases check_cow_cases h with ⟨m1, v1, d, _, w1, _, x1, _⟩ | ⟨_, he, _⟩
    · rw [hc] at d
      cases d
      obtain ⟨r, hr⟩ := data_excl_of_swf w1 x1
      rw [hr, bind_ok] at e
      dsimp only at e
      split at e
      · cases e
      · split at e
        · cases e
        · next cs1 _ =>
          cases ho : store_cells m1 v1 r cs1 with
          | none =>
            rw [ho] at e
            simp [Res.ofOption, Res.bind] at e
          | some z =>
            rw [ho] at e
            simp [Res.ofOption, Res.bind] at e
    · rw [hc] at he
      cases he

end FrameAlloc

end Socow

namespace Socow

section RunThrow

variable {T : Type}

/-- The state an exception leaves behind when it leaves `reserve`. -/
theorem reserve_threw_frame {N : Nat} {m : Mem T} {v : socow_vector T} {n : Nat} {s : St T}
    (h : swf N m v = true) (e : reserve N m v n = .threw s) :
    Frame m v s.1 s.2 ∧ swf N s.1 s.2 = true ∧ (excl s.1 s.2 ∨ s.2.size_ = v.size_) := by
  obtain ⟨_, src0, _, _, _, _, hcap⟩ := load_of_swf h
  by_cases hn : n ≤ src0.length
  · rw [reserve_small_eq n hcap hn] at e
    exact check_cow_threw_frame h e
  · have hold := own_lt_of_swf h
    have hnot : own v ≠ some m.heap.length := fun ho => by
      have := hold _ ho
      omega
    have ha : (allocate m n).1.heap = m.heap ++ [some ⟨n, 1, List.replicate n none⟩] := rfl
    have hsw : swf N (allocate m n).1 v = true := by
      rw [← h]
      exact swf_congr (fun p hp => buf_allocate_old _ (hold p hp))
    have hlen : (allocate m n).1.heap.length = m.heap.length + 1 := by simp [allocate]
    rw [reserve_grow_eq n hcap hn] at e
    cases hd : data N (allocate m n).1 v with
    | ub =>
      rw [hd] at e
      cases e
    | threw y =>
      rw [hd] at e
      cases e
      obtain ⟨g1, g2⟩ := data_threw hsw hd
      refine threw_of_append (x := [some ⟨n, 1, List.replicate n none⟩, none]) h g1 ?_
      rw [g2, ha]
      simp
    | ok sr =>
      rw [hd] at e
      obtain ⟨st, w1, x1, _⟩ := data_ok hsw hd
      have hb : sr.1.1.buf m.heap.length = some ⟨n, 1, List.replicate n none⟩ := by
        rw [buf_congr (st.others m.heap.length (by omega) hnot)]
        exact buf_allocate_new m n
      have hown : own sr.1.2 ≠ some m.heap.length := fun ho =>
        hnot (st.stay _ ho (by omega))
      simp only [hb] at e
      split at e
      · next src nb hl hnb =>
        cases hnb
        split at e
        · cases e
        · next d f _ =>
          cases e
          have fr : Frame m v ((sr.1.1.put m.heap.length
              { capacity := n, ref_count := 1, data := d }).setFaults f) sr.1.2 :=
            (st.frame.after_alloc h ha).put_unowned (le_refl _) hown rfl
          have hbuf : ∀ p, own sr.1.2 = some p → ((sr.1.1.put m.heap.length
              { capacity := n, ref_count := 1, data := d }).setFaults f).buf p =
                sr.1.1.buf p := fun p hp => by
            rw [buf_setFaults, buf_put_ne]
            intro hc
            exact hown (by rw [hc]; exact hp)
          exact ⟨fr, by rw [← w1]; exact swf_congr hbuf, Or.inl (excl_congr hbuf x1)⟩
        · split at e
          · cases e
          · cases e
      · cases e

/-- The state an exception leaves behind when it leaves a mutating operation: the frame is
kept, the container is structurally well-formed, and it owns its storage alone or has the size
it had. -/
theorem run_threw {N : Nat} {m : Mem T} {v : socow_vector T} (μ : Mutation T) {s : St T}
    (h : swf N m v = true) (e : μ.run N m v = .threw s) :
    Frame m v s.1 s.2 ∧ swf N s.1 s.2 = true ∧ (excl s.1 s.2 ∨ s.2.size_ = v.size_) := by
  cases μ with
  | push_back x => exact push_back_threw h e
  | pop_back => exact data_threw_frame h (pop_back_threw e)
  | clear => exact clear_threw h e
  | insert pos x =>
    simp only [Mutation.run] at e
    exact insert_threw h (bind_ok_eq_threw e)
  | erase first last =>
    simp only [Mutation.run] at e
    exact erase_threw h (bind_ok_eq_threw e)
  | erase1 pos =>
    simp only [Mutation.run, erase1] at e
    exact erase_threw h (bind_ok_eq_threw e)
  | reserve n => exact reserve_threw_frame h e
  | shrink_to_fit =>
    obtain ⟨g1, g2, g3⟩ := shrink_to_fit_threw h e
    by_cases c : v.size_ ≤ N
    · exact threw_of_append (x := []) h g1 (by rw [g2 c]; simp)
    · obtain ⟨d, hd⟩ := g3 (by omega)
      exact threw_of_append h g1 hd
  | write i x => exact data_threw_frame h (write_threw e)
  | write_front x => exact data_threw_frame h (write_threw e)
  | write_back x =>
    simp only [Mutation.run, write_back] at e
    split at e
    · cases hd : data N m v with
      | ub =>
        rw [hd, bind_ub] at e
        cases e
      | threw y =>
        rw [hd, bind_threw] at e
        cases e
        exact data_threw_frame h hd
      | ok y =>
        rw [hd, bind_ok] at e
        cases e
    · exact data_threw_frame h (write_threw e)

end RunThrow

end Socow

namespace Socow

section Reshape

variable {T : Type}

/-- Structural well-formedness depends on the block of the container only through its
capacity, the number of its cells and the presence of an owner. -/
theorem swf_of_shape {N : Nat} {m m1 : Mem T} {v : socow_vector T} (h : swf N m v = true)
    (hv : ∀ p b, own v = some p → m.buf p = some b →
      ∃ b1, m1.buf p = some b1 ∧ b1.data.length = b.data.length ∧ b1.capacity = b.capacity ∧
        1 ≤ b1.ref_count) : swf N m1 v = true := by
  rcases swf_cases h with ⟨hs, h1, h2⟩ | ⟨hs, p, b, hp, hb, h1, h2, h3⟩
  · exact (swf_small hs).2 ⟨h1, h2⟩
  · obtain ⟨b1, e1, e2, e3, e4⟩ := hv p b (own_big hs hp) hb
    exact swf_mk_big hs hp e1 (by rw [e2, e3]; exact h1) e4 (by rw [e3]; exact h3)

/-- A change of the program state that keeps, position by position, the block and the size of
every container, and keeps the count of owners of every block, keeps the invariant. -/
theorem inv_reshape {N : Nat} {m m1 : Mem T} {l l1 : List (socow_vector T)}
    (hI : Inv N ⟨m, l⟩)
    (hobj : ∀ (k : Nat) v1, l1[k]? = some v1 → swf N m1 v1 = true ∧
      ∃ v, l[k]? = some v ∧ own v1 = own v ∧ v1.size_ = v.size_)
    (hcnt : ∀ p, holders ⟨m1, l1⟩ p = holders ⟨m, l⟩ p)
    (hblk : ∀ p b1, m1.buf p = some b1 → ∃ b, m.buf p = some b ∧ b1.ref_count = b.ref_count) :
    Inv N ⟨m1, l1⟩ := by
  obtain ⟨I1, I2, I3⟩ := hI
  refine ⟨fun k v1 hk => (hobj k v1 hk).1, fun p b1 hb1 => ?_, fun k j u u2 p hk hj hu hu2 => ?_⟩
  · obtain ⟨b, hb, hr⟩ := hblk p b1 hb1
    rw [hcnt p, hr]
    exact I2 p b hb
  · obtain ⟨_, v, g1, g2, g3⟩ := hobj k u hk
    obtain ⟨_, v2, g4, g5, g6⟩ := hobj j u2 hj
    rw [g3, g6]
    exact I3 k j v v2 p g1 g4 (by rw [← g2]; exact hu) (by rw [← g5]; exact hu2)

theorem set_dynamic_self {v : socow_vector T} {p : Nat} (hp : v.store = .handle p) :
    v.set_dynamic p = v := by
  cases v
  simp only at hp
  simp [socow_vector.set_dynamic, hp]

theorem flip2_eq_threw {r : Res (St2 T) (St2 T)} {s : St2 T} (h : flip2 r = .threw s) :
    r = .threw (s.1, s.2.2, s.2.1) := by
  cases r with
  | ok a => simp [flip2] at h
  | threw e =>
    simp only [flip2] at h
    cases h
    rfl
  | ub => simp [flip2] at h

theorem swap_small_threw {N : Nat} {m : Mem T} {a b : socow_vector T} (ha1 : a.size_ ≤ N)
    (ha2 : (a.static_storage_ N).length = N) (hb1 : b.size_ ≤ N)
    (hb2 : (b.static_storage_ N).length = N) {s : St2 T} (e : swap_small_ N m a b = .threw s) :
    ∃ f ca cb, s = (m.setFaults f, a.set_static ca, b.set_static cb) ∧ ca.length = N ∧
      cb.length = N := by
  obtain ⟨a1, b1, e0, la, lb, _, _⟩ := swap_cells_loop_spec (min a.size_ b.size_) 0
    (a.static_storage_ N) (b.static_storage_ N) (by omega) (by omega)
  unfold swap_small_ at e
  rw [e0] at e
  simp only at e
  by_cases c : b.size_ > a.size_
  · rw [if_pos c] at e
    rcases safe_copy_cases a1 a.size_ b1 a.size_ (b.size_ - a.size_) m.faults (by omega)
        (by omega) with ⟨_, d, e1, ld, _⟩ | ⟨_, k, d, fs, e1, _, ld, _⟩
    · obtain ⟨d2, e2, _⟩ := safe_clear_spec (b.size_ - a.size_) b1 a.size_ (by omega)
      rw [e1] at e
      simp only [e2] at e
      cases e
    · rw [e1] at e
      cases e
      exact ⟨_, d, b1, rfl, by omega, by omega⟩
  · rw [if_neg c] at e
    rcases safe_copy_cases b1 b.size_ a1 b.size_ (a.size_ - b.size_) m.faults (by omega)
        (by omega) with ⟨_, d, e1, ld, _⟩ | ⟨_, k, d, fs, e1, _, ld, _⟩
    · obtain ⟨d2, e2, _⟩ := safe_clear_spec (a.size_ - b.size_) a1 b.size_ (by omega)
      rw [e1] at e
      simp only [e2] at e
      cases e
    · rw [e1] at e
      cases e
      exact ⟨_, a1, d, rfl, by omega, by omega⟩

theorem swap_different_threw {N : Nat} {m : Mem T} {a b : socow_vector T} {p : Nat}
    (hp : b.store = .handle p)
    {s : St2 T} (e : swap_different_ N m a b = .threw s) :
    ∃ f, s = (m.setFaults f, a, b) := by
  have hst : b.static_storage_ N = List.replicate N none := by
    simp [socow_vector.static_storage_, hp]
  unfold swap_different_ at e
  simp only [socow_vector.dynamic_storage_, hp, hst] at e
  split at e
  · cases e
  · next f _ =>
    cases e
    rw [set_dynamic_self hp]
    exact ⟨f, rfl⟩
  · split at e
    · cases e
    · cases e

/-- When an exception leaves `swap`, no heap block has changed, and each container is
structurally well-formed with the block and the size it had. -/
theorem swap_threw {N : Nat} {m : Mem T} {a b : socow_vector T} {s : St2 T}
    (ha : swf N m a = true) (hb : swf N m b = true) (e : swap N m a b = .threw s) :
    s.1.heap = m.heap ∧ swf N s.1 s.2.1 = true ∧ swf N s.1 s.2.2 = true ∧
      own s.2.1 = own a ∧ own s.2.2 = own b ∧ s.2.1.size_ = a.size_ ∧
      s.2.2.size_ = b.size_ := by
  unfold swap at e
  have e1 := bind_ok_eq_threw e
  have la := static_length_of_swf ha
  have lb := static_length_of_swf hb
  have keep : ∀ f : List Bool, swf N (m.setFaults f) a = true ∧
      swf N (m.setFaults f) b = true := fun f =>
    ⟨by rw [← ha]; exact swf_congr (fun _ _ => rfl), by rw [← hb]; exact swf_congr (fun _ _ => rfl)⟩
  cases sa : a.is_small_ with
  | true =>
    have ha1 := small_size_le ha sa
    cases sb : b.is_small_ with
    | true =>
      have hb1 := small_size_le hb sb
      simp only [sa, sb, if_true] at e1
      obtain ⟨f, ca, cb, hs, lca, lcb⟩ := swap_small_threw ha1 la hb1 lb e1
      subst hs
      have h1 : (a.set_static ca).is_small_ = true := sa
      have h2 : (b.set_static cb).is_small_ = true := sb
      exact ⟨rfl, (swf_small h1).2 ⟨ha1, lca⟩, (swf_small h2).2 ⟨hb1, lcb⟩,
        by rw [own_small h1, own_small sa], by rw [own_small h2, own_small sb], rfl, rfl⟩
    | false =>
      obtain ⟨q, _, hq, _⟩ := (swf_big sb).1 hb
      simp only [sa, sb, if_true, Bool.false_eq_true, if_false] at e1
      obtain ⟨f, hs⟩ := swap_different_threw hq e1
      subst hs
      exact ⟨rfl, (keep f).1, (keep f).2, rfl, rfl, rfl, rfl⟩
  | false =>
    cases sb : b.is_small_ with
    | true =>
      have hb1 := small_size_le hb sb
      obtain ⟨p, _, hp, _⟩ := (swf_big sa).1 ha
      simp only [sa, sb, if_true, Bool.false_eq_true, if_false] at e1
      obtain ⟨f, hs⟩ := swap_different_threw hp (flip2_eq_threw e1)
      have h1 : s.1 = m.setFaults f := congrArg (fun x => x.1) hs
      have h2 : s.2.2 = b := congrArg (fun x => x.2.1) hs
      have h3 : s.2.1 = a := congrArg (fun x => x.2.2) hs
      rw [h1, h2, h3]
      exact ⟨rfl, (keep f).1, (keep f).2, rfl, rfl, rfl, rfl⟩
    | false =>
      simp only [sa, sb, Bool.false_eq_true, if_false] at e1
      split at e1
      · cases e1
      · cases e1

end Reshape

end Socow

namespace Socow

section InvWorld

variable {T : Type}

theorem erase_temporary {α : Type} (l : List α) (i : Nat) (c c2 v1 : α) (hi : i < l.length) :
    (((l ++ [c]).set l.length c2).set i v1).eraseIdx l.length = l.set i v1 := by
  apply List.ext_getElem?
  intro k
  rw [List.getElem?_eraseIdx]
  by_cases hk : k < l.length
  · rw [if_pos hk]
    by_cases hki : i = k
    · subst hki
      simp [List.getElem?_set, hi]
      rw [List.getElem?_append_left (by simpa using hi)]
      simp [List.getElem?_set, hi]
    · rw [List.getElem?_set_ne hki, List.getElem?_set_ne (by omega), List.getElem?_set_ne hki,
        List.getElem?_append_left hk]
  · rw [if_neg hk, List.getElem?_eq_none (by simp; omega),
      List.getElem?_eq_none (by simp; omega)]

theorem set_self {α : Type} {l : List α} {i : Nat} {v : α} (h : l[i]? = some v) :
    l.set i v = l := by
  apply List.ext_getElem?
  intro k
  by_cases c : i = k
  · subst c
    rw [List.getElem?_set, if_pos rfl, h]
    have : i < l.length := by
      by_contra hc
      rw [List.getElem?_eq_none (by omega)] at h
      cases h
    rw [if_pos this]
  · rw [List.getElem?_set_ne c]

theorem lt_of_get {α : Type} {l : List α} {i : Nat} {v : α} (h : l[i]? = some v) :
    i < l.length := by
  by_contra hc
  rw [List.getElem?_eq_none (by omega)] at h
  cases h

/-- The copy assignment that returns is a copy construction of a temporary, a `swap` of the
temporary with the target, and the destruction of the temporary. -/
theorem assign_parts {N : Nat} {m m3 : Mem T} {v o v1 : socow_vector T}
    (e : assign N m v o = .ok (m3, v1)) :
    ∃ m1 c m2 c2, copy_ctor N m o = .ok (m1, c) ∧ swap N m1 c v = .ok (m2, c2, v1) ∧
      destroy N m2 c2 = some m3 := by
  unfold assign at e
  split at e
  · cases e
  · cases e
  · next s hcopy =>
    split at e
    · cases e
    · split at e
      · cases e
      · cases e
    · next s2 hswap =>
      split at e
      · next m4 hd =>
        cases e
        exact ⟨s.1, s.2, s2.1, s2.2.1, hcopy, hswap, hd⟩
      · cases e

/-- The copy assignment that ends by an exception: the copy construction of the temporary
threw, or the `swap` threw and the temporary was destroyed. -/
theorem assign_threw_parts {N : Nat} {m m3 : Mem T} {v o v1 : socow_vector T}
    (e : assign N m v o = .threw (m3, v1)) :
    (copy_ctor N m o = .threw m3 ∧ v1 = v) ∨
      ∃ m1 c m2 c2, copy_ctor N m o = .ok (m1, c) ∧ swap N m1 c v = .threw (m2, c2, v1) ∧
        destroy N m2 c2 = some m3 := by
  unfold assign at e
  split at e
  · cases e
  · next m1 hcopy =>
    cases e
    exact Or.inl ⟨hcopy, rfl⟩
  · next s hcopy =>
    split at e
    · cases e
    · next s2 hswap =>
      split at e
      · next m4 hd =>
        cases e
        exact Or.inr ⟨s.1, s.2, s2.1, s2.2.1, hcopy, hswap, hd⟩
      · cases e
    · split at e
      · cases e
      · cases e

theorem copy_ctor_threw {N : Nat} {m m1 : Mem T} {o : socow_vector T}
    (e : copy_ctor N m o = .threw m1) : m1.heap = m.heap := by
  unfold copy_ctor at e
  split at e
  · split at e
    · cases e
    · cases e
      rfl
    · cases e
  · split at e
    · cases e
    · split at e
      · cases e
      · cases e

/-- A change of the memory that leaves the heap as it was keeps the invariant. -/
theorem inv_same_heap {N : Nat} {m m1 : Mem T} {l : List (socow_vector T)}
    (hI : Inv N ⟨m, l⟩) (hh : m1.heap = m.heap) : Inv N ⟨m1, l⟩ := by
  have hbuf : ∀ p, m1.buf p = m.buf p := fun p => buf_congr (by rw [hh])
  refine inv_reshape hI (fun k v1 hk => ⟨?_, v1, hk, rfl, rfl⟩) (fun p => rfl)
    (fun p b1 hb1 => ⟨b1, by rw [← hbuf]; exact hb1, rfl⟩)
  rw [swf_congr (fun p _ => hbuf p)]
  exact hI.1 k v1 hk

/-- Two containers that change in place, each keeping its block and its size, over an
unchanged heap. -/
theorem inv_two {N : Nat} {m m1 : Mem T} {l : List (socow_vector T)} {i j : Nat}
    {a b a1 b1 : socow_vector T} (hI : Inv N ⟨m, l⟩) (hi : l[i]? = some a)
    (hj : l[j]? = some b) (hne : i ≠ j) (hh : m1.heap = m.heap) (wa : swf N m1 a1 = true)
    (wb : swf N m1 b1 = true) (oa : own a1 = own a) (ob : own b1 = own b)
    (za : a1.size_ = a.size_) (zb : b1.size_ = b.size_) :
    Inv N ⟨m1, (l.set i a1).set j b1⟩ := by
  have hbuf : ∀ p, m1.buf p = m.buf p := fun p => buf_congr (by rw [hh])
  have hj1 : (l.set i a1)[j]? = some b := by
    rw [List.getElem?_set_ne hne]
    exact hj
  refine inv_reshape hI (fun k v1 hk => ?_) (fun p => ?_)
    (fun p b2 hb2 => ⟨b2, by rw [← hbuf]; exact hb2, rfl⟩)
  · rcases get_set_cases hk with ⟨rfl, rfl⟩ | ⟨hn1, h1⟩
    · exact ⟨wb, b, hj, ob, zb⟩
    · rcases get_set_cases h1 with ⟨rfl, rfl⟩ | ⟨hn2, h2⟩
      · exact ⟨wa, a, hi, oa, za⟩
      · refine ⟨?_, v1, h2, rfl, rfl⟩
        rw [swf_congr (fun p _ => hbuf p)]
        exact hI.1 k v1 h2
  · have c1 := holders_set m m1 a1 p hi
    have c2 := holders_set m1 m1 b1 p hj1
    rw [oa] at c1
    rw [ob] at c2
    omega

/-- The destruction of the temporary of a copy assignment. -/
theorem inv_drop_temporary {N : Nat} {m2 m3 : Mem T} {l : List (socow_vector T)} {i : Nat}
    {c c2 v1 : socow_vector T} (hlt : i < l.length)
    (hI : Inv N ⟨m2, ((l ++ [c]).set l.length c2).set i v1⟩)
    (e : destroy N m2 c2 = some m3) : Inv N ⟨m3, l.set i v1⟩ := by
  have hc2 : (((l ++ [c]).set l.length c2).set i v1)[l.length]? = some c2 := by
    rw [List.getElem?_set_ne (by omega), List.getElem?_set]
    simp
  have hw2 := hI.1 l.length c2 hc2
  rw [destroy_eq hw2] at e
  cases e
  have I3 := inv_destroy m2.faults hI hc2
  rw [erase_temporary l i c c2 v1 hlt] at I3
  exact I3

/-- The copy assignment `objs[i] = objs[j]` on two distinct objects keeps the invariant. -/
theorem inv_assign {N : Nat} {m m3 : Mem T} {l : List (socow_vector T)} {i j : Nat}
    {v o v1 : socow_vector T} (hI : Inv N ⟨m, l⟩) (hi : l[i]? = some v) (hj : l[j]? = some o)
    (e : assign N m v o = .ok (m3, v1)) : Inv N ⟨m3, l.set i v1⟩ := by
  obtain ⟨m1, c, m2, c2, e1, e2, e3⟩ := assign_parts e
  have hlt := lt_of_get hi
  have I1 := inv_copy hI hj e1
  have hc : (l ++ [c])[l.length]? = some c := by simp
  have hv : (l ++ [c])[i]? = some v := by
    rw [List.getElem?_append_left hlt]
    exact hi
  exact inv_drop_temporary hlt (inv_swap I1 hc hv (by omega) e2) e3

/-- The copy assignment `objs[i] = objs[j]` that ends by an exception keeps the invariant. -/
theorem inv_assign_threw {N : Nat} {m m3 : Mem T} {l : List (socow_vector T)} {i j : Nat}
    {v o v1 : socow_vector T} (hI : Inv N ⟨m, l⟩) (hi : l[i]? = some v) (hj : l[j]? = some o)
    (e : assign N m v o = .threw (m3, v1)) : Inv N ⟨m3, l.set i v1⟩ := by
  rcases assign_threw_parts e with ⟨e1, rfl⟩ | ⟨m1, c, m2, c2, e1, e2, e3⟩
  · rw [set_self hi]
    exact inv_same_heap hI (copy_ctor_threw e1)
  · have hlt := lt_of_get hi
    have I1 := inv_copy hI hj e1
    have hc : (l ++ [c])[l.length]? = some c := by simp
    have hv : (l ++ [c])[i]? = some v := by
      rw [List.getElem?_append_left hlt]
      exact hi
    obtain ⟨hh, wa, wb, oa, ob, za, zb⟩ := swap_threw (I1.1 _ c hc) (I1.1 _ v hv) e2
    exact inv_drop_temporary hlt (inv_two I1 hc hv (by omega) hh wa wb oa ob za zb) e3

end InvWorld

end Socow

namespace Socow

section InvRun

variable {T : Type}

theorem small_of_const_data {v : socow_vector T} (h : const_data_ v = some .inline) :
    v.is_small_ = true := by
  unfold const_data_ at h
  cases hs : v.is_small_ with
  | true => rfl
  | false =>
    rw [hs] at h
    simp only [Bool.false_eq_true, if_false] at h
    split at h
    · cases h
    · cases h

/-- The two forms of a store through a pointer that returns: into the inline cells of the
object, or into the block the object holds. -/
theorem store_forms {N : Nat} {m : Mem T} {l : List (socow_vector T)} {i : Nat} {p : iterator}
    {x : T} {w1 : World T} (e : (⟨m, l⟩ : World T).run N (.store i p x) = .ok w1) :
    ∃ v, l[i]? = some v ∧ const_data_ v = some p.region ∧ p.off < v.size_ ∧
      ((p.region = .inline ∧
          w1 = ⟨m, l.set i (v.set_static ((v.static_storage_ N).set p.off (some x)))⟩) ∨
        ∃ q b, p.region = .block q ∧ m.buf q = some b ∧
          w1 = ⟨m.put q { b with data := b.data.set p.off (some x) }, l.set i v⟩) := by
  simp only [World.run] at e
  split at e
  · cases e
  · next v hi =>
    split at e
    · next hc =>
      refine ⟨v, hi, hc.1, hc.2, ?_⟩
      cases hr : p.region with
      | inline =>
        left
        rw [hr] at e
        simp only [load, store_cells] at e
        split at e
        · cases e
          exact ⟨rfl, rfl⟩
        · cases e
      | block q =>
        right
        rw [hr] at e
        simp only [load, store_cells] at e
        cases hb : m.buf q with
        | none =>
          rw [hb] at e
          simp at e
        | some b =>
          rw [hb] at e
          simp only [Option.map_some'] at e
          split at e
          · cases e
            exact ⟨q, b, rfl, hb, rfl⟩
          · cases e
    · cases e

/-- A store through a pointer keeps the invariant. -/
theorem inv_store {N : Nat} {m : Mem T} {l : List (socow_vector T)} {i : Nat} {p : iterator}
    {x : T} {w1 : World T} (hI : Inv N ⟨m, l⟩)
    (e : (⟨m, l⟩ : World T).run N (.store i p x) = .ok w1) : Inv N w1 := by
  obtain ⟨v, hi, hc, _, ⟨hr, rfl⟩ | ⟨q, b, hr, hb, rfl⟩⟩ := store_forms e
  · rw [hr] at hc
    have hs := small_of_const_data hc
    have hv := hI.1 i v hi
    have hs1 : (v.set_static ((v.static_storage_ N).set p.off (some x))).is_small_ = true := hs
    refine inv_reshape hI (fun k u hk => ?_) (fun a => ?_) (fun a b1 hb1 => ⟨b1, hb1, rfl⟩)
    · rcases get_set_cases hk with ⟨rfl, rfl⟩ | ⟨_, h1⟩
      · refine ⟨(swf_small hs1).2 ⟨(small_size_le hv hs : v.size_ ≤ N), ?_⟩, v, hi, ?_, rfl⟩
        · show ((v.static_storage_ N).set p.off (some x)).length = N
          rw [List.length_set]
          exact static_length_of_swf hv
        · rw [own_small hs1, own_small hs]
      · exact ⟨hI.1 k u h1, u, h1, rfl, rfl⟩
    · have c1 := holders_set m m (v.set_static ((v.static_storage_ N).set p.off (some x))) a hi
      rw [own_small hs1, own_small hs] at c1
      omega
  · rw [set_self hi]
    have hput : ∀ a, a ≠ q → (m.put q { b with data := b.data.set p.off (some x) }).buf a =
        m.buf a := fun a ha => buf_put_ne _ (fun h => ha h.symm)
    have hself : (m.put q { b with data := b.data.set p.off (some x) }).buf q =
        some { b with data := b.data.set p.off (some x) } := buf_put_self _ (buf_lt hb)
    refine inv_reshape hI (fun k u hk => ⟨?_, u, hk, rfl, rfl⟩) (fun a => rfl)
      (fun a b1 hb1 => ?_)
    · refine swf_of_shape (hI.1 k u hk) (fun a ba hoa hba => ?_)
      by_cases c : a = q
      · subst c
        rw [hb] at hba
        cases hba
        exact ⟨_, hself, by simp, rfl, (own_ref_pos (hI.1 k u hk) hoa hb : 1 ≤ b.ref_count)⟩
      · exact ⟨ba, by rw [hput a c]; exact hba, rfl, rfl, own_ref_pos (hI.1 k u hk) hoa hba⟩
    · by_cases c : a = q
      · subst c
        rw [hself] at hb1
        cases hb1
        exact ⟨b, hb, rfl⟩
      · rw [hput a c] at hb1
        exact ⟨b1, hb1, rfl⟩

theorem inv_start (N : Nat) (f : List Bool) : Inv N (⟨⟨[], f⟩, []⟩ : World T) := by
  refine ⟨fun i v h => ?_, fun p b h => ?_, fun i j v u p h => ?_⟩
  · simp at h
  · simp [Mem.buf] at h
  · simp at h

/-- Every call that returns keeps the invariant. -/
theorem inv_run {N : Nat} {w w1 : World T} (op : Op T) (hI : Inv N w)
    (e : w.run N op = .ok w1) : Inv N w1 := by
  obtain ⟨m, l⟩ := w
  cases op with
  | create =>
    simp only [World.run] at e
    cases e
    exact inv_append_small hI rfl rfl
      (by simp [swf, socow_vector.mk0, socow_vector.static_storage_])
  | copy j =>
    simp only [World.run] at e
    split at e
    · cases e
    · next o hj =>
      split at e
      · cases e
      · cases e
      · next s hc =>
        cases e
        exact inv_copy hI hj hc
  | assign i j =>
    simp only [World.run] at e
    split at e
    · next v o hi hj =>
      split at e
      · cases e
        exact hI
      · split at e
        · cases e
        · cases e
        · next s ha =>
          cases e
          exact inv_assign hI hi hj ha
    · cases e
  | destroy i =>
    simp only [World.run] at e
    split at e
    · cases e
    · next v hi =>
      split at e
      · cases e
      · next m1 hd =>
        cases e
        rw [destroy_eq (hI.1 i v hi)] at hd
        cases hd
        exact inv_destroy m.faults hI hi
  | mutate i μ =>
    simp only [World.run] at e
    split at e
    · cases e
    · next v hi =>
      split at e
      · cases e
      · cases e
      · next s hr =>
        cases e
        have hv := hI.1 i v hi
        obtain ⟨w1, hx⟩ := run_ok_sole μ hv hr
        refine inv_step hI hi (run_ok μ hv hr).frame w1 ?_
        rcases hx with hx | hx
        · exact Or.inl hx
        · rw [hx]
          exact Or.inr rfl
  | access i =>
    simp only [World.run] at e
    split at e
    · cases e
    · next v hi =>
      split at e
      · cases e
      · cases e
      · next sr hr =>
        cases e
        obtain ⟨st, w1, hx, _⟩ := data_ok (hI.1 i v hi) hr
        exact inv_step hI hi st.frame w1 (Or.inl hx)
  | swap i j =>
    simp only [World.run] at e
    split at e
    · next a b hi hj =>
      split at e
      · cases e
        exact hI
      · next hne =>
        split at e
        · cases e
        · cases e
        · next s hs =>
          cases e
          exact inv_swap hI hi hj hne hs
    · cases e
  | store i p x => exact inv_store hI e

/-- Every call that ends by an exception keeps the invariant. -/
theorem inv_run_threw {N : Nat} {w w1 : World T} (op : Op T) (hI : Inv N w)
    (e : w.run N op = .threw w1) : Inv N w1 := by
  obtain ⟨m, l⟩ := w
  cases op with
  | create =>
    simp only [World.run] at e
    cases e
  | copy j =>
    simp only [World.run] at e
    split at e
    · cases e
    · next o hj =>
      split at e
      · cases e
      · next m1 hc =>
        cases e
        exact inv_same_heap hI (copy_ctor_threw hc)
      · cases e
  | assign i j =>
    simp only [World.run] at e
    split at e
    · next v o hi hj =>
      split at e
      · cases e
      · split at e
        · cases e
        · next s ha =>
          cases e
          exact inv_assign_threw hI hi hj ha
        · cases e
    · cases e
  | destroy i =>
    simp only [World.run] at e
    split at e
    · cases e
    · split at e
      · cases e
      · cases e
  | mutate i μ =>
    simp only [World.run] at e
    split at e
    · cases e
    · next v hi =>
      split at e
      · cases e
      · next s hr =>
        cases e
        obtain ⟨fr, w1, hx⟩ := run_threw μ (hI.1 i v hi) hr
        exact inv_step hI hi fr w1 hx
      · cases e
  | access i =>
    simp only [World.run] at e
    split at e
    · cases e
    · next v hi =>
      split at e
      · cases e
      · next s hr =>
        cases e
        obtain ⟨fr, w1, hx⟩ := data_threw_frame (hI.1 i v hi) hr
        exact inv_step hI hi fr w1 hx
      · cases e
  | swap i j =>
    simp only [World.run] at e
    split at e
    · next a b hi hj =>
      split at e
      · cases e
      · next hne =>
        split at e
        · cases e
        · next s hs =>
          cases e
          obtain ⟨hh, wa, wb, oa, ob, za, zb⟩ := swap_threw (hI.1 i a hi) (hI.1 j b hj) hs
          exact inv_two hI hi hj hne hh wa wb oa ob za zb
        · cases e
    · cases e
  | store i p x =>
    simp only [World.run] at e
    split at e
    · cases e
    · split at e
      · split at e
        · cases e
        · split at e
          · split at e
            · cases e
            · cases e
          · cases e
      · cases e

/-- Every reachable program state satisfies the invariant. -/
theorem reach_inv {sz N : Nat} {w : World T} (hsz : 0 < sz) (h : Reach sz N w) : Inv N w := by
  induction h with
  | start f => exact inv_start N f
  | ret op _ hf e ih =>
    rw [run_sized_eq _ op hsz hf] at e
    exact inv_run op ih e
  | exc op _ hf e ih =>
    rw [run_sized_eq _ op hsz hf] at e
    exact inv_run_threw op ih e

end InvRun

end Socow

namespace Socow

section KeepsShared

variable {T : Type}

/-- Every call of a member function that returns leaves a block with more than one owner
allocated, with its cells and its capacity. -/
theorem run_keeps_shared {N : Nat} {w w1 : World T} (op : Op T) (hI : Inv N w)
    (hop : ∀ i q x, op ≠ .store i q x)
    (e : w.run N op = .ok w1) {p : Nat} {b : dynamic_buf T} (hb : w.mem.buf p = some b)
    (hr : 1 < b.ref_count) :
    ∃ b1, w1.mem.buf p = some b1 ∧ b1.data = b.data ∧ b1.capacity = b.capacity := by
  obtain ⟨m, l⟩ := w
  cases op with
  | create =>
    simp only [World.run] at e
    cases e
    exact ⟨b, hb, rfl, rfl⟩
  | copy j =>
    simp only [World.run] at e
    split at e
    · cases e
    · next o hj =>
      split at e
      · cases e
      · cases e
      · next s hc =>
        cases e
        obtain ⟨b1, h1, h2, h3, _⟩ := copy_ctor_heap hc p b hb
        exact ⟨b1, h1, h2, h3⟩
  | assign i j =>
    simp only [World.run] at e
    split at e
    · next v o hi hj =>
      split at e
      · cases e
        exact ⟨b, hb, rfl, rfl⟩
      · split at e
        · cases e
        · cases e
        · next s ha =>
          cases e
          obtain ⟨m3, v3⟩ := s
          obtain ⟨m1, c, m2, c2, e1, e2, e3⟩ := assign_parts ha
          obtain ⟨b1, h1, h2, h3, h4⟩ := copy_ctor_heap e1 p b hb
          have hcw := (copy_ctor_shares (hI.1 j o hj) e1).1
          have hvw : swf N m1 v = true := by
            have I1 := inv_copy hI hj e1
            exact I1.1 i v (by rw [List.getElem?_append_left (lt_of_get hi)]; exact hi)
          obtain ⟨hh, _, wa, _⟩ := swap_ok_facts hcw hvw e2
          rw [destroy_eq wa] at e3
          cases e3
          have hb2 : m2.buf p = some b1 := by
            have hc2 : m2.buf p = m1.buf p := buf_congr (by rw [hh])
            rw [hc2]
            exact h1
          obtain ⟨b3, g1, g2, g3, _⟩ := buf_released (a := c2) m2.faults hb2 (fun _ => by omega)
          exact ⟨b3, g1, by rw [g2, h2], by rw [g3, h3]⟩
    · cases e
  | destroy i =>
    simp only [World.run] at e
    split at e
    · cases e
    · next v hi =>
      split at e
      · cases e
      · next m1 hd =>
        cases e
        rw [destroy_eq (hI.1 i v hi)] at hd
        cases hd
        obtain ⟨b3, g1, g2, g3, _⟩ := buf_released (a := v) m.faults hb (fun _ => hr)
        exact ⟨b3, g1, g2, g3⟩
  | mutate i μ =>
    simp only [World.run] at e
    split at e
    · cases e
    · next v hi =>
      split at e
      · cases e
      · cases e
      · next s hr1 =>
        cases e
        exact frame_keeps (run_ok μ (hI.1 i v hi) hr1).frame hb hr
  | access i =>
    simp only [World.run] at e
    split at e
    · cases e
    · next v hi =>
      split at e
      · cases e
      · cases e
      · next sr hr1 =>
        cases e
        exact frame_keeps (data_ok (hI.1 i v hi) hr1).1.frame hb hr
  | swap i j =>
    simp only [World.run] at e
    split at e
    · next a c hi hj =>
      split at e
      · cases e
        exact ⟨b, hb, rfl, rfl⟩
      · next hne =>
        split at e
        · cases e
        · cases e
        · next s hs =>
          cases e
          obtain ⟨m1, a1, c1⟩ := s
          obtain ⟨hh, _⟩ := swap_ok_facts (hI.1 i a hi) (hI.1 j c hj) hs
          have hb0 : m.buf p = some b := hb
          refine ⟨b, ?_, rfl, rfl⟩
          show m1.buf p = some b
          have hc2 : m1.buf p = m.buf p := buf_congr (by rw [hh])
          rw [hc2]
          exact hb0
    · cases e
  | store i q x => exact absurd rfl (hop i q x)

/-- Every call of a member function that ends by an exception leaves a block with more than one
owner allocated, with its cells and its capacity. -/
theorem run_threw_keeps_shared {N : Nat} {w w1 : World T} (op : Op T) (hI : Inv N w)
    (e : w.run N op = .threw w1) {p : Nat} {b : dynamic_buf T} (hb : w.mem.buf p = some b)
    (hr : 1 < b.ref_count) :
    ∃ b1, w1.mem.buf p = some b1 ∧ b1.data = b.data ∧ b1.capacity = b.capacity := by
  obtain ⟨m, l⟩ := w
  have hb0 : m.buf p = some b := hb
  cases op with
  | create =>
    simp only [World.run] at e
    cases e
  | copy j =>
    simp only [World.run] at e
    split at e
    · cases e
    · next o hj =>
      split at e
      · cases e
      · next m1 hc =>
        cases e
        refine ⟨b, ?_, rfl, rfl⟩
        show m1.buf p = some b
        have hc2 : m1.buf p = m.buf p := buf_congr (by rw [copy_ctor_threw hc])
        rw [hc2]
        exact hb0
      · cases e
  | assign i j =>
    simp only [World.run] at e
    split at e
    · next v o hi hj =>
      split at e
      · cases e
      · split at e
        · cases e
        · next s ha =>
          cases e
          obtain ⟨m3, v3⟩ := s
          rcases assign_threw_parts ha with ⟨e1, _⟩ | ⟨m1, c, m2, c2, e1, e2, e3⟩
          · refine ⟨b, ?_, rfl, rfl⟩
            show m3.buf p = some b
            have hc2 : m3.buf p = m.buf p := buf_congr (by rw [copy_ctor_threw e1])
            rw [hc2]
            exact hb0
          · obtain ⟨b1, h1, h2, h3, h4⟩ := copy_ctor_heap e1 p b hb
            have hcw := (copy_ctor_shares (hI.1 j o hj) e1).1
            have hvw : swf N m1 v = true := by
              have I1 := inv_copy hI hj e1
              exact I1.1 i v (by rw [List.getElem?_append_left (lt_of_get hi)]; exact hi)
            obtain ⟨hh, wa, _⟩ := swap_threw hcw hvw e2
            rw [destroy_eq wa] at e3
            cases e3
            have hb2 : m2.buf p = some b1 := by
              have hc2 : m2.buf p = m1.buf p := buf_congr (by rw [hh])
              rw [hc2]
              exact h1
            obtain ⟨b3, g1, g2, g3, _⟩ :=
              buf_released (a := c2) m2.faults hb2 (fun _ => by omega)
            exact ⟨b3, g1, by rw [g2, h2], by rw [g3, h3]⟩
        · cases e
    · cases e
  | destroy i =>
    simp only [World.run] at e
    split at e
    · cases e
    · split at e
      · cases e
      · cases e
  | mutate i μ =>
    simp only [World.run] at e
    split at e
    · cases e
    · next v hi =>
      split at e
      · cases e
      · next s hr1 =>
        cases e
        exact frame_keeps (run_threw μ (hI.1 i v hi) hr1).1 hb hr
      · cases e
  | access i =>
    simp only [World.run] at e
    split at e
    · cases e
    · next v hi =>
      split at e
      · cases e
      · next s hr1 =>
        cases e
        exact frame_keeps (data_threw_frame (hI.1 i v hi) hr1).1 hb hr
      · cases e
  | swap i j =>
    simp only [World.run] at e
    split at e
    · next a c hi hj =>
      split at e
      · cases e
      · next hne =>
        split at e
        · cases e
        · next s hs =>
          cases e
          obtain ⟨m1, a1, c1⟩ := s
          obtain ⟨hh, _⟩ := swap_threw (hI.1 i a hi) (hI.1 j c hj) hs
          refine ⟨b, ?_, rfl, rfl⟩
          show m1.buf p = some b
          have hc2 : m1.buf p = m.buf p := buf_congr (by rw [hh])
          rw [hc2]
          exact hb0
        · cases e
    · cases e
  | store i q x =>
    simp only [World.run] at e
    split at e
    · cases e
    · split at e
      · split at e
        · cases e
        · split at e
          · split at e
            · cases e
            · cases e
          · cases e
      · cases e

end KeepsShared

end Socow

namespace Socow

section Claims

variable {T : Type}

/-- C1: on every well-formed container holding `xs` (inline, or shared with any number of
owners, with or without spare capacity) `push_back(x)` has defined behaviour and returns when no
copy throws; whenever it returns, the container is well-formed and holds exactly `xs` followed by
`x`: `size()` grew by one, every index below the old size reads as before, and the element at
the old size is `x`. -/
theorem push_back_appends (N : Nat) (m : Mem T) (v : socow_vector T) (xs : List T) (x : T)
    (hwf : wf N m v = true) (hxs : elems N m v = some xs) :
    push_back N m v x ≠ .ub ∧ (no_faults m → ∃ s, push_back N m v x = .ok s) ∧
      ∀ m1 v1, push_back N m v x = .ok (m1, v1) →
        wf N m1 v1 = true ∧ elems N m1 v1 = some (xs ++ [x]) ∧ size v1 = size v + 1 ∧
          (∀ i, i < size v → get N m1 v1 i = get N m v i) ∧ get N m1 v1 (size v) = some x := by
  have hs := (wf_iff.1 hwf).1
  have hc := elems_iff.1 hxs
  have hl := elems_length hxs
  obtain ⟨_, _, _, _, _, _, hcap⟩ := load_of_swf hs
  rcases push_back_cases x hs hc hcap with ⟨m1, v1, e, _, w1, c1, z1, _⟩ | ⟨e, he, hq⟩
  · have hc1 : contents N m1 v1 = some ((xs ++ [x]).map some) := by simpa using c1
    have he1 := elems_iff.2 hc1
    refine ⟨by rw [e]; simp, fun _ => ⟨_, e⟩, fun m2 v2 h2 => ?_⟩
    rw [e] at h2
    cases h2
    refine ⟨wf_of w1 hc1, he1, z1, fun i hi => ?_, ?_⟩
    · have hi0 : i < v.size_ := hi
      rw [get_of_elems he1 (by omega), get_of_elems hxs hi0,
        List.getElem?_append_left (by omega)]
    · rw [get_of_elems he1 (show size v < v1.size_ by unfold size; omega),
        List.getElem?_append_right (by unfold size; omega)]
      have : size v - xs.length = 0 := by unfold size; omega
      rw [this]
      rfl
  · refine ⟨by rw [he]; simp, fun hn => absurd hn hq, fun m2 v2 h2 => ?_⟩
    rw [he] at h2
    cases h2

/-- Witness for C1: a full block shared by two owners, `N = 2`, holding `[1, 2, 3]`. -/
theorem push_back_appends_witness :
    wf 2 (⟨[some ⟨3, 2, [some 1, some 2, some 3]⟩], []⟩ : Mem Nat) ⟨3, false, .handle 0⟩ = true ∧
      elems 2 (⟨[some ⟨3, 2, [some 1, some 2, some 3]⟩], []⟩ : Mem Nat) ⟨3, false, .handle 0⟩ =
        some [1, 2, 3] ∧
      ∀ m1 v1, push_back 2 (⟨[some ⟨3, 2, [some 1, some 2, some 3]⟩], []⟩ : Mem Nat)
          ⟨3, false, .handle 0⟩ 4 = .ok (m1, v1) →
        elems 2 m1 v1 = some ([1, 2, 3] ++ [4]) :=
  ⟨by decide, by decide, fun m1 v1 h =>
    ((push_back_appends 2 _ _ [1, 2, 3] 4 (by decide) (by decide)).2.2 m1 v1 h).2.1⟩

end Claims

end Socow

namespace Socow

section ClaimsCopy

variable {T : Type}

/-- C5: the copy constructor applied to a well-formed source has defined behaviour and returns
when no copy throws; the copy has the size of the source. If `size() <= N` the copy is inline
(`capacity() == N`) whatever the mode of the source, and no heap block changes, so the
`ref_count` of a shared source stays as it was. If `size() > N` the source is shared, the copy
holds the very same block, and that block has exactly one more owner and is otherwise unchanged,
as is every other block. -/
theorem copy_ctor_storage (N : Nat) (m : Mem T) (s : socow_vector T) (hwf : wf N m s = true) :
    copy_ctor N m s ≠ .ub ∧ (no_faults m → ∃ r, copy_ctor N m s = .ok r) ∧
      ∀ m1 c, copy_ctor N m s = .ok (m1, c) → size c = size s ∧
        (size s ≤ N → c.is_small_ = true ∧ capacity N m1 c = some N ∧ m1.heap = m.heap) ∧
        (N < size s → ∃ p b, s.is_small_ = false ∧ s.store = .handle p ∧ m.buf p = some b ∧
          c.is_small_ = false ∧ c.store = .handle p ∧
          m1.buf p = some { b with ref_count := b.ref_count + 1 } ∧
          m1.heap.length = m.heap.length ∧ ∀ a, a ≠ p → m1.heap[a]? = m.heap[a]?) := by
  have hs := (wf_iff.1 hwf).1
  have hst := static_length_of_swf hs
  by_cases hn : s.size_ ≤ N
  · have e0 : copy_ctor N m s =
        match safe_copy (List.replicate N none) 0 (s.static_storage_ N) 0 s.size_ m.faults with
        | .ub => .ub
        | .threw (_, f) => .threw (m.setFaults f)
        | .ok (cs, f) => .ok (m.setFaults f, ⟨s.size_, true, .cells cs⟩) := by
      unfold copy_ctor
      rw [if_pos hn]
    rw [e0]
    rcases safe_copy_front (List.replicate N none) (s.static_storage_ N) s.size_ m.faults
        (by omega) (by simp; omega) with ⟨_, e⟩ | ⟨hq, c, fs, e, _, _⟩
    · rw [e]
      refine ⟨by simp, fun _ => ⟨_, rfl⟩, fun m1 c h => ?_⟩
      cases h
      exact ⟨rfl, fun _ => ⟨rfl, rfl, rfl⟩, fun h2 => absurd hn (by unfold size at h2; omega)⟩
    · rw [e]
      refine ⟨by simp, fun h => absurd h (not_no_faults_of_not_quiet hq), fun m1 c h => ?_⟩
      cases h
  · have hsm : s.is_small_ = false := by
      rcases swf_cases hs with ⟨_, h1, _⟩ | ⟨h1, _⟩
      · omega
      · exact h1
    obtain ⟨p, b, hp, hb, _⟩ := (swf_big hsm).1 hs
    have e0 : copy_ctor N m s =
        .ok (m.put p { b with ref_count := b.ref_count + 1 }, ⟨s.size_, false, .handle p⟩) := by
      unfold copy_ctor
      rw [if_neg hn]
      simp only [socow_vector.dynamic_storage_, hp, hb, hsm]
    rw [e0]
    refine ⟨by simp, fun _ => ⟨_, rfl⟩, fun m1 c h => ?_⟩
    cases h
    refine ⟨rfl, fun h2 => absurd h2 hn, fun _ => ⟨p, b, hsm, hp, hb, rfl, rfl,
      buf_put_self _ (buf_lt hb), by simp, fun a ha => ?_⟩⟩
    simp [List.getElem?_set, Ne.symm ha]

/-- Witness for C5: a shared source holding `[1, 2, 3]`, `N = 2`. -/
theorem copy_ctor_storage_witness :
    wf 2 (⟨[some ⟨3, 1, [some 1, some 2, some 3]⟩], []⟩ : Mem Nat) ⟨3, false, .handle 0⟩ = true ∧
      ∀ m1 c, copy_ctor 2 (⟨[some ⟨3, 1, [some 1, some 2, some 3]⟩], []⟩ : Mem Nat)
          ⟨3, false, .handle 0⟩ = .ok (m1, c) → size c = 3 :=
  ⟨by decide, fun m1 c h => ((copy_ctor_storage 2 _ _ (by decide)).2.2 m1 c h).1⟩

/-- The copy constructor keeps the elements when the source is inline or holds more than `N`
elements: the copy then holds the element sequence of the source. -/
theorem copy_ctor_keeps_elements (N : Nat) (m : Mem T) (s : socow_vector T) (xs : List T)
    (hwf : wf N m s = true) (hxs : elems N m s = some xs)
    (hmode : s.is_small_ = true ∨ N < s.size_) :
    ∀ m1 c, copy_ctor N m s = .ok (m1, c) → elems N m1 c = some xs ∧ size c = size s := by
  intro m1 c e
  have hs := (wf_iff.1 hwf).1
  have hc := elems_iff.1 hxs
  by_cases hn : s.size_ ≤ N
  · have hsm : s.is_small_ = true := by
      rcases hmode with h | h
      · exact h
      · omega
    obtain ⟨_, hst⟩ := (swf_small hsm).1 hs
    unfold copy_ctor at e
    rw [if_pos hn] at e
    rcases safe_copy_front (List.replicate N none) (s.static_storage_ N) s.size_ m.faults
        (by omega) (by simp; omega) with ⟨_, e1⟩ | ⟨_, k, fs, e1, _, _⟩
    · rw [e1] at e
      cases e
      have hs1 : (⟨s.size_, true, .cells ((s.static_storage_ N).take s.size_ ++
          (List.replicate N none).drop s.size_)⟩ : socow_vector T).is_small_ = true := rfl
      have hlen : s.size_ ≤ ((s.static_storage_ N).take s.size_ ++
          (List.replicate N none).drop s.size_).length := by
        simp
        omega
      refine ⟨elems_iff.2 ?_, rfl⟩
      rw [contents_small hs1 hlen]
      rw [contents_small hsm (by omega)] at hc
      rw [← hc]
      exact congrArg some (List.take_left' (by simp; omega))
    · rw [e1] at e
      cases e
  · have hsm : s.is_small_ = false := by
      rcases swf_cases hs with ⟨_, h1, _⟩ | ⟨h1, _⟩
      · omega
      · exact h1
    obtain ⟨p, b, hp, hb, h1, h2, h3⟩ := (swf_big hsm).1 hs
    unfold copy_ctor at e
    rw [if_neg hn] at e
    simp only [socow_vector.dynamic_storage_, hp, hb, hsm] at e
    cases e
    have hb1 : (m.put p { b with ref_count := b.ref_count + 1 }).buf p =
        some { b with ref_count := b.ref_count + 1 } := buf_put_self _ (buf_lt hb)
    have hs1 : (⟨s.size_, false, .handle p⟩ : socow_vector T).is_small_ = false := rfl
    have hp1 : (⟨s.size_, false, .handle p⟩ : socow_vector T).store = .handle p := rfl
    refine ⟨elems_iff.2 ?_, rfl⟩
    rw [contents_big hs1 hp1 hb1 (by simp; omega)]
    rw [contents_big hsm hp hb (by omega)] at hc
    exact hc

/-- The defect behind C2, in general: the copy of a well-formed shared source that holds between
1 and `N` elements is inline and reports the size of the source, but none of its cells holds an
element, because the cells were copied from the union member the handle occupies. -/
theorem copy_ctor_loses_elements (N : Nat) (m : Mem T) (s : socow_vector T)
    (hwf : wf N m s = true) (hmode : s.is_small_ = false) (hpos : 0 < s.size_)
    (hn : s.size_ ≤ N) :
    ∀ m1 c, copy_ctor N m s = .ok (m1, c) →
      size c = size s ∧ c.is_small_ = true ∧ elems N m1 c = none ∧
        ∀ i, get N m1 c i = none := by
  intro m1 c e
  have hs := (wf_iff.1 hwf).1
  obtain ⟨p, b, hp, hb, h1, h2, h3⟩ := (swf_big hmode).1 hs
  have hst : s.static_storage_ N = List.replicate N none := by
    simp [socow_vector.static_storage_, hp]
  unfold copy_ctor at e
  rw [if_pos hn, hst] at e
  rcases safe_copy_front (List.replicate N none) (List.replicate N none) s.size_ m.faults
      (by simp; omega) (by simp; omega) with ⟨_, e1⟩ | ⟨_, k, fs, e1, _, _⟩
  · rw [e1] at e
    cases e
    have hcells : (List.replicate N (none : Option T)).take s.size_ ++
        (List.replicate N none).drop s.size_ = List.replicate N none :=
      List.take_append_drop _ _
    rw [hcells]
    have hs1 : (⟨s.size_, true, .cells (List.replicate N none)⟩ : socow_vector T).is_small_ =
        true := rfl
    refine ⟨rfl, rfl, ?_, fun i => ?_⟩
    · unfold elems
      rw [contents_small hs1 (by simp [socow_vector.static_storage_]; omega)]
      simp only [socow_vector.static_storage_, List.take_replicate]
      have : min s.size_ N = (min s.size_ N - 1) + 1 := by omega
      rw [this, List.replicate_succ]
      rfl
    · simp only [get, const_data_small hs1, load, socow_vector.static_storage_,
        List.getElem?_replicate]
      split
      · next x hx =>
        split at hx
        · cases hx
        · cases hx
      · rfl
  · rw [e1] at e
    cases e

/-- Witness for the general form of the defect behind C2: a shared source holding `[7]` in a block
of capacity 3, `N = 2`. -/
theorem copy_ctor_loses_elements_witness :
    wf 2 (⟨[some ⟨3, 1, [some 7, none, none]⟩], []⟩ : Mem Nat) ⟨1, false, .handle 0⟩ = true ∧
      ∀ m1 c, copy_ctor 2 (⟨[some ⟨3, 1, [some 7, none, none]⟩], []⟩ : Mem Nat)
          ⟨1, false, .handle 0⟩ = .ok (m1, c) → elems 2 m1 c = none :=
  ⟨by decide, fun m1 c h =>
    ((copy_ctor_loses_elements 2 _ _ (by decide) rfl (by decide) (by decide)) m1 c h).2.2.1⟩

/-- C2, the code at a failing input: `N = 4`; the source was filled by `push_back` of 1, 2, 3,
4, 5 and emptied by three `pop_back`, so it is shared (capacity 9) and holds `[1, 2]`. The copy
constructor takes the branch `size_ <= SMALL_SIZE` and copies from `other.static_storage_`, the
union member that the handle occupies, and not from `other.dynamic_storage_->data`: the copy
reports size 2, but its cells hold no element of the source, and so does the target of a copy
assignment from this source. -/
theorem copy_of_short_shared_source :
    ((((((((push_back 4 (⟨[], []⟩ : Mem Nat) (socow_vector.mk0 4) 1).bind
      (fun s => push_back 4 s.1 s.2 2)).bind (fun s => push_back 4 s.1 s.2 3)).bind
      (fun s => push_back 4 s.1 s.2 4)).bind (fun s => push_back 4 s.1 s.2 5)).bind
      (fun s => pop_back 4 s.1 s.2)).bind (fun s => pop_back 4 s.1 s.2)).bind
      (fun s => pop_back 4 s.1 s.2)) =
        .ok (⟨[some ⟨9, 1, [some 1, some 2, none, none, none, none, none, none, none]⟩], []⟩,
          ⟨2, false, .handle 0⟩) ∧
      wf 4 (⟨[some ⟨9, 1, [some 1, some 2, none, none, none, none, none, none, none]⟩], []⟩ :
        Mem Nat) ⟨2, false, .handle 0⟩ = true ∧
      elems 4 (⟨[some ⟨9, 1, [some 1, some 2, none, none, none, none, none, none, none]⟩], []⟩ :
        Mem Nat) ⟨2, false, .handle 0⟩ = some [1, 2] ∧
      copy_ctor 4 (⟨[some ⟨9, 1, [some 1, some 2, none, none, none, none, none, none, none]⟩],
        []⟩ : Mem Nat) ⟨2, false, .handle 0⟩ =
        .ok (⟨[some ⟨9, 1, [some 1, some 2, none, none, none, none, none, none, none]⟩], []⟩,
          ⟨2, true, .cells [none, none, none, none]⟩) ∧
      get 4 (⟨[some ⟨9, 1, [some 1, some 2, none, none, none, none, none, none, none]⟩], []⟩ :
        Mem Nat) ⟨2, true, .cells [none, none, none, none]⟩ 0 = none ∧
      elems 4 (⟨[some ⟨9, 1, [some 1, some 2, none, none, none, none, none, none, none]⟩], []⟩ :
        Mem Nat) ⟨2, true, .cells [none, none, none, none]⟩ = none ∧
      assign 4 (⟨[some ⟨9, 1, [some 1, some 2, none, none, none, none, none, none, none]⟩],
        []⟩ : Mem Nat) (socow_vector.mk0 4) ⟨2, false, .handle 0⟩ =
        .ok (⟨[some ⟨9, 1, [some 1, some 2, none, none, none, none, none, none, none]⟩], []⟩,
          ⟨2, true, .cells [none, none, none, none]⟩) := by
  decide

end ClaimsCopy

end Socow

namespace Socow

section ClaimsFrame

variable {T : Type}

/-- C3 at the values of the claim: `N = 4`, `o = [1, 2, 3, 4, 5]` and its copy `c` share one
block; `c.erase(c.begin() + 1, c.begin() + 3)` gives `c = [1, 4, 5]` and leaves
`o = [1, 2, 3, 4, 5]`; `c.push_back(6)` gives `c = [1, 2, 3, 4, 5, 6]` and leaves
`o = [1, 2, 3, 4, 5]`, the block of `o` having one owner again. -/
theorem mutating_copy_example :
    (erase 4 (⟨[some ⟨9, 2, [some 1, some 2, some 3, some 4, some 5, none, none, none,
        none]⟩], []⟩ : Mem Nat) ⟨5, false, .handle 0⟩ ⟨.block 0, 1⟩ ⟨.block 0, 3⟩).bind
        (fun s => (.ok (elems 4 s.1.1 s.1.2, elems 4 s.1.1 ⟨5, false, .handle 0⟩) :
          Res (St Nat) (Option (List Nat) × Option (List Nat)))) =
        .ok (some [1, 4, 5], some [1, 2, 3, 4, 5]) ∧
      (push_back 4 (⟨[some ⟨9, 2, [some 1, some 2, some 3, some 4, some 5, none, none, none,
        none]⟩], []⟩ : Mem Nat) ⟨5, false, .handle 0⟩ 6).bind
        (fun s => (.ok (elems 4 s.1 s.2, elems 4 s.1 ⟨5, false, .handle 0⟩,
            (s.1.buf 0).map (fun b => b.ref_count)) :
          Res (St Nat) (Option (List Nat) × Option (List Nat) × Option Nat))) =
        .ok (some [1, 2, 3, 4, 5, 6], some [1, 2, 3, 4, 5], some 1) := by
  decide

end ClaimsFrame

end Socow

namespace Socow

section ClaimsOwnership

variable {T : Type}

/-- C4: `check_cow_()` on a well-formed container has defined behaviour and returns when no copy
throws. If the container shares block `p` with other owners (`ref_count > 1`), then after the
call it holds a different, freshly allocated block with the same capacity, `ref_count == 1` and
the same `size()` elements in the same order, while block `p` still exists with its cells and
capacity untouched and its `ref_count` lower by exactly one. If the container is inline, or the
only owner of its block, the call changes nothing. The non-const `data()` runs `check_cow_()` and
returns the pointer `const_data_()` of the state it leaves. -/
theorem check_cow_resolves (N : Nat) (m : Mem T) (v : socow_vector T) (hwf : wf N m v = true) :
    check_cow_ N m v ≠ .ub ∧ (no_faults m → ∃ s, check_cow_ N m v = .ok s) ∧
      (∀ p b, v.is_small_ = false → v.store = .handle p → m.buf p = some b →
        1 < b.ref_count → ∀ m1 v1, check_cow_ N m v = .ok (m1, v1) →
          ∃ q nb, q ≠ p ∧ m.heap.length ≤ q ∧ v1.is_small_ = false ∧ v1.store = .handle q ∧
            m1.buf q = some nb ∧ nb.capacity = b.capacity ∧ nb.ref_count = 1 ∧
            v1.size_ = v.size_ ∧ elems N m1 v1 = elems N m v ∧
            m1.buf p = some { b with ref_count := b.ref_count - 1 }) ∧
      (excl m v → check_cow_ N m v = .ok (m, v)) ∧
      ∀ s r, data N m v = .ok (s, r) → check_cow_ N m v = .ok s ∧ const_data_ s.2 = some r := by
  have hs := (wf_iff.1 hwf).1
  refine ⟨?_, ?_, ?_, fun hx => check_cow_excl hx, ?_⟩
  · rcases check_cow_cases hs with ⟨m1, v1, e, _⟩ | ⟨e, he, _⟩
    · rw [e]; simp
    · rw [he]; simp
  · rcases check_cow_cases hs with ⟨m1, v1, e, _⟩ | ⟨e, he, hq⟩
    · exact fun _ => ⟨_, e⟩
    · exact fun hn => absurd hn hq
  · intro p b hsm hp hb hr m1 v1 h1
    obtain ⟨q, c, hq, hc, hl, _, hn⟩ := (swf_big hsm).1 hs
    rw [hp] at hq
    cases hq
    rw [hb] at hc
    cases hc
    have hplt := buf_lt hb
    rw [check_cow_big hsm hp hb, if_pos hr] at h1
    rcases copy_on_write_cases (N := N) hsm hp hb hl hn with ⟨_, e⟩ | ⟨_, fs, e, _⟩
    · rw [e] at h1
      cases h1
      have hnew := cow_mem_new m b v.size_ hplt
      have hs1 : (v.set_dynamic m.heap.length).is_small_ = false := hsm
      have hp1 : (v.set_dynamic m.heap.length).store = .handle m.heap.length := rfl
      refine ⟨m.heap.length, _, by omega, le_refl _, hs1, hp1, hnew, rfl, rfl, rfl, ?_, ?_⟩
      · unfold elems
        rw [contents_big hs1 hp1 hnew (by simp; omega), contents_big hsm hp hb (by omega)]
        simp only [size_set_dynamic]
        rw [List.take_left' (by simp; omega)]
      · rw [buf_eq_some]
        exact cow_mem_old m b v.size_ hplt
    · rw [e] at h1
      cases h1
  · intro s r h
    unfold data at h
    obtain ⟨s1, e1, e2⟩ := bind_eq_ok h
    split at e2
    · next r1 hr1 =>
      cases e2
      exact ⟨e1, hr1⟩
    · cases e2

/-- Witness for C4: a block of capacity 3 with two owners, holding `[1, 2]`, `N = 1`. -/
theorem check_cow_resolves_witness :
    wf 1 (⟨[some ⟨3, 2, [some 1, some 2, none]⟩], []⟩ : Mem Nat) ⟨2, false, .handle 0⟩ = true ∧
      ∃ q nb, q ≠ 0 ∧ 1 ≤ q ∧
        (⟨2, false, .handle 1⟩ : socow_vector Nat).is_small_ = false ∧
        (⟨2, false, .handle 1⟩ : socow_vector Nat).store = .handle q ∧
        (⟨[some ⟨3, 1, [some 1, some 2, none]⟩, some ⟨3, 1, [some 1, some 2, none]⟩], []⟩ :
          Mem Nat).buf q = some nb ∧ nb.capacity = 3 ∧ nb.ref_count = 1 ∧
        (⟨2, false, .handle 1⟩ : socow_vector Nat).size_ = 2 ∧
        elems 1 (⟨[some ⟨3, 1, [some 1, some 2, none]⟩, some ⟨3, 1, [some 1, some 2, none]⟩],
          []⟩ : Mem Nat) ⟨2, false, .handle 1⟩ =
          elems 1 (⟨[some ⟨3, 2, [some 1, some 2, none]⟩], []⟩ : Mem Nat) ⟨2, false, .handle 0⟩ ∧
        (⟨[some ⟨3, 1, [some 1, some 2, none]⟩, some ⟨3, 1, [some 1, some 2, none]⟩], []⟩ :
          Mem Nat).buf 0 = some ⟨3, 1, [some 1, some 2, none]⟩ :=
  ⟨by decide, (check_cow_resolves 1 (⟨[some ⟨3, 2, [some 1, some 2, none]⟩], []⟩ : Mem Nat)
    ⟨2, false, .handle 0⟩ (by decide)).2.2.1 0 ⟨3, 2, [some 1, some 2, none]⟩ rfl rfl rfl
    (by decide) _ _ rfl⟩

end ClaimsOwnership

end Socow

namespace Socow

section ClaimsGrowth

variable {T : Type}

/-- C6: on a well-formed container with capacity `c`, `push_back` has defined behaviour and
returns when no copy throws; whenever it returns, the capacity is still `c` if `size() < c`, and
it is exactly `2 * c + 1` if `size() == c`. In the second case the container is shared
afterwards, exactly one block was allocated, the container holds it and is its only owner; a
block it held before with other owners is still there with one owner less, and a block it held
alone has been deleted. -/
theorem push_back_growth (N : Nat) (m : Mem T) (v : socow_vector T) (c : Nat) (x : T)
    (hwf : wf N m v = true) (hcap : capacity N m v = some c) :
    push_back N m v x ≠ .ub ∧ (no_faults m → ∃ s, push_back N m v x = .ok s) ∧
      ∀ m1 v1, push_back N m v x = .ok (m1, v1) →
        (size v < c → capacity N m1 v1 = some c) ∧
        (size v = c → capacity N m1 v1 = some (2 * c + 1) ∧ v1.is_small_ = false ∧
          m1.heap.length = m.heap.length + 1 ∧
          (∃ nb, v1.store = .handle m.heap.length ∧ m1.buf m.heap.length = some nb ∧
            nb.ref_count = 1 ∧ nb.capacity = 2 * c + 1) ∧
          ∀ p b, v.is_small_ = false → v.store = .handle p → m.buf p = some b →
            (1 < b.ref_count → m1.buf p = some { b with ref_count := b.ref_count - 1 }) ∧
            (b.ref_count = 1 → m1.heap[p]? = some none)) := by
  have hs := (wf_iff.1 hwf).1
  obtain ⟨cs, hc, _⟩ := contents_of_swf hs
  rcases push_back_cases x hs hc hcap with
    ⟨m1, v1, e, st, w1, _, _, _, k1, i1, _, g1⟩ | ⟨e, he, hq⟩
  · refine ⟨by rw [e]; simp, fun _ => ⟨_, e⟩, fun m2 v2 h2 => ?_⟩
    rw [e] at h2
    cases h2
    refine ⟨fun hlt => by rw [k1, if_pos (show v.size_ < c from hlt)], fun heq => ?_⟩
    have heq0 : v.size_ = c := heq
    obtain ⟨g2, g3⟩ := g1 (fun hx => by omega)
    have hsm1 : v1.is_small_ = false := by
      cases hv : v1.is_small_ with
      | false => rfl
      | true => rw [own_small hv] at g3; cases g3
    have hfr := st.fresh m.heap.length (le_refl _) (by omega)
    obtain ⟨q, b1, hq1, hb1, hl1, _, _⟩ := (swf_big hsm1).1 w1
    have hqe : q = m.heap.length := by
      rw [own_big hsm1 hq1] at g3
      exact Option.some.inj g3
    subst hqe
    have hcap1 : capacity N m1 v1 = some b1.capacity := capacity_big hsm1 hq1 hb1
    rw [k1, if_neg (by omega)] at hcap1
    refine ⟨by rw [k1, if_neg (by omega)], hsm1, g2, ⟨b1, hq1, hb1, ?_,
      (Option.some.inj hcap1).symm⟩, fun p b hsm hp hb => ?_⟩
    · rcases hfr with ⟨_, b2, hb2, hr2⟩ | ⟨h3, _⟩
      · rw [hb1] at hb2
        cases hb2
        exact hr2
      · exact absurd g3 h3
    · have hplt := buf_lt hb
      rcases st.mine p b (own_big hsm hp) hb with ⟨h3, _⟩ | ⟨_, h4⟩
      · rw [g3] at h3
        have := Option.some.inj h3
        omega
      · refine ⟨fun hr => ?_, fun hr => ?_⟩
        · rw [buf_eq_some, h4]
          simp [release, hr]
        · rw [h4, release_one hr]
  · refine ⟨by rw [he]; simp, fun hn => absurd hn hq, fun m2 v2 h2 => ?_⟩
    rw [he] at h2
    cases h2

/-- Witness for C6: a full block of capacity 3 with two owners, `N = 2`. -/
theorem push_back_growth_witness :
    wf 2 (⟨[some ⟨3, 2, [some 1, some 2, some 3]⟩], []⟩ : Mem Nat) ⟨3, false, .handle 0⟩ = true ∧
      capacity 2 (⟨[some ⟨3, 2, [some 1, some 2, some 3]⟩], []⟩ : Mem Nat)
        ⟨3, false, .handle 0⟩ = some 3 ∧
      ∀ m1 v1, push_back 2 (⟨[some ⟨3, 2, [some 1, some 2, some 3]⟩], []⟩ : Mem Nat)
          ⟨3, false, .handle 0⟩ 4 = .ok (m1, v1) → capacity 2 m1 v1 = some (2 * 3 + 1) :=
  ⟨by decide, by decide, fun m1 v1 h =>
    (((push_back_growth 2 _ _ 3 4 (by decide) (by decide)).2.2 m1 v1 h).2 rfl).1⟩

theorem push_all_spec {N : Nat} : ∀ (xs : List T) (m : Mem T) (v : socow_vector T)
    (ys : List T), swf N m v = true → contents N m v = some (ys.map some) →
    (v.is_small_ = true ↔ v.size_ ≤ N) →
    (∃ m1 v1, push_all N xs (m, v) = .ok (m1, v1) ∧ swf N m1 v1 = true ∧
        contents N m1 v1 = some ((ys ++ xs).map some) ∧ v1.size_ = v.size_ + xs.length ∧
        (v1.is_small_ = true ↔ v1.size_ ≤ N)) ∨
      (∃ e, push_all N xs (m, v) = .threw e ∧ ¬ no_faults m) := by
  intro xs
  induction xs with
  | nil =>
    intro m v ys hs hc hi
    left
    exact ⟨m, v, rfl, hs, by simpa using hc, rfl, hi⟩
  | cons x xs ih =>
    intro m v ys hs hc hi
    obtain ⟨_, _, _, _, _, _, hcap⟩ := load_of_swf hs
    rcases push_back_cases x hs hc hcap with
      ⟨m1, v1, e, st, w1, c1, z1, _, _, i1, _⟩ | ⟨e, he, hq⟩
    · have hc1 : contents N m1 v1 = some ((ys ++ [x]).map some) := by simpa using c1
      have hi1 : v1.is_small_ = true ↔ v1.size_ ≤ N := by
        rw [i1, hi, z1]
        constructor
        · intro h; omega
        · intro h; exact ⟨by omega, by omega⟩
      rcases ih m1 v1 (ys ++ [x]) w1 hc1 hi1 with ⟨m2, v2, e2, w2, c2, z2, i2⟩ | ⟨e2, he2, hq2⟩
      · left
        refine ⟨m2, v2, by simp only [push_all, e, bind_ok, e2], w2, by simpa using c2, ?_, i2⟩
        rw [z2, z1]
        simp
        omega
      · right
        exact ⟨e2, by simp only [push_all, e, bind_ok, he2],
          fun hn => hq2 (no_faults_of_step st hn)⟩
    · right
      exact ⟨e, by simp only [push_all, he, bind_threw], hq⟩

/-- C7: `push_back` applied `k` times to a default-constructed container, for the values of any
list `xs` of length `k`, has defined behaviour and returns when no copy throws; whenever it
returns, the container is well-formed, holds `xs`, has `size() == k`, and is inline if and only
if `k <= N`; an inline container has `capacity() == N`, a shared one a larger capacity. Since
this holds for every `k`, the container leaves inline storage exactly at push number `N + 1`. -/
theorem pushes_from_empty (N : Nat) (m : Mem T) (xs : List T) :
    push_all N xs (m, socow_vector.mk0 N) ≠ .ub ∧
      (no_faults m → ∃ s, push_all N xs (m, socow_vector.mk0 N) = .ok s) ∧
      ∀ m1 v1, push_all N xs (m, socow_vector.mk0 N) = .ok (m1, v1) →
        wf N m1 v1 = true ∧ elems N m1 v1 = some xs ∧ size v1 = xs.length ∧
          (v1.is_small_ = true ↔ xs.length ≤ N) ∧
          (xs.length ≤ N → capacity N m1 v1 = some N) ∧
          (N < xs.length → ∃ c, capacity N m1 v1 = some c ∧ N < c) := by
  have hsm : (socow_vector.mk0 N : socow_vector T).is_small_ = true := rfl
  have hs : swf N m (socow_vector.mk0 N) = true := by
    rw [swf_small hsm]
    exact ⟨Nat.zero_le _, by simp [socow_vector.mk0, socow_vector.static_storage_]⟩
  have hc : contents N m (socow_vector.mk0 N) = some (([] : List T).map some) := by
    rw [contents_small hsm (Nat.zero_le _)]
    rfl
  have hi : (socow_vector.mk0 N : socow_vector T).is_small_ = true ↔
      (socow_vector.mk0 N : socow_vector T).size_ ≤ N := by
    simp [socow_vector.mk0]
  rcases push_all_spec xs m (socow_vector.mk0 N) [] hs hc hi with
    ⟨m1, v1, e, w1, c1, z1, i1⟩ | ⟨e, he, hq⟩
  · refine ⟨by rw [e]; simp, fun _ => ⟨_, e⟩, fun m2 v2 h2 => ?_⟩
    rw [e] at h2
    cases h2
    have hz : v1.size_ = xs.length := by
      rw [z1]
      simp [socow_vector.mk0]
    have hc1 : contents N m1 v1 = some (xs.map some) := by simpa using c1
    refine ⟨wf_of w1 hc1, elems_iff.2 hc1, hz, by rw [i1, hz], fun h => ?_, fun h => ?_⟩
    · exact capacity_small (i1.2 (by omega))
    · have hb : v1.is_small_ = false := by
        cases hv : v1.is_small_ with
        | false => rfl
        | true =>
          have := i1.1 hv
          omega
      obtain ⟨p, b, hp, hb1, _, _, hn⟩ := (swf_big hb).1 w1
      exact ⟨b.capacity, capacity_big hb hp hb1, by omega⟩
  · refine ⟨by rw [he]; simp, fun hn => absurd hn hq, fun m2 v2 h2 => ?_⟩
    rw [he] at h2
    cases h2

/-- C7 at the values of the claim: `N = 4`, the pushes of 1, 2, 3, 4 leave an inline container
of size 4, and the push of 5 a shared one of size 5 and capacity 9. -/
theorem pushes_from_empty_example :
    push_all 4 [1, 2, 3, 4] ((⟨[], []⟩ : Mem Nat), socow_vector.mk0 4) =
        .ok (⟨[], []⟩, ⟨4, true, .cells [some 1, some 2, some 3, some 4]⟩) ∧
      push_all 4 [1, 2, 3, 4, 5] ((⟨[], []⟩ : Mem Nat), socow_vector.mk0 4) =
        .ok (⟨[some ⟨9, 1, [some 1, some 2, some 3, some 4, some 5, none, none, none, none]⟩],
          []⟩, ⟨5, false, .handle 0⟩) ∧
      capacity 4 (⟨[some ⟨9, 1, [some 1, some 2, some 3, some 4, some 5, none, none, none,
        none]⟩], []⟩ : Mem Nat) ⟨5, false, .handle 0⟩ = some 9 := by
  decide

end ClaimsGrowth

end Socow

namespace Socow

section ClaimsInsertErase

variable {T : Type}

/-- C8: on every well-formed container holding `xs`, for every index `p <= size()` and value
`x`, `insert(begin + p, x)` has defined behaviour, returns when no copy throws, and whenever it
returns the container is well-formed and holds `xs[0..p)`, then `x`, then `xs[p..)`; the iterator
it returns is position `p` of the current storage, where `x` now sits. -/
theorem insert_places (N : Nat) (m : Mem T) (v : socow_vector T) (xs : List T) (p : Nat) (x : T)
    (r : Region) (hwf : wf N m v = true) (hxs : elems N m v = some xs)
    (hr : const_data_ v = some r) (hp : p ≤ size v) :
    insert N m v ⟨r, p⟩ x ≠ .ub ∧ (no_faults m → ∃ s, insert N m v ⟨r, p⟩ x = .ok s) ∧
      ∀ m1 v1 it, insert N m v ⟨r, p⟩ x = .ok ((m1, v1), it) →
        wf N m1 v1 = true ∧ elems N m1 v1 = some (xs.take p ++ [x] ++ xs.drop p) ∧
          size v1 = size v + 1 ∧ const_data_ v1 = some it.region ∧ it.off = p ∧
          get N m1 v1 it.off = some x := by
  have hs := (wf_iff.1 hwf).1
  have hc := elems_iff.1 hxs
  have hl := elems_length hxs
  rcases insert_cases p x hs hc hr hp with ⟨m1, v1, r1, e, _, w1, _, hr1, c1, z1⟩ | ⟨e, he, hq⟩
  · have hc1 : contents N m1 v1 = some ((xs.take p ++ [x] ++ xs.drop p).map some) := by
      rw [c1]
      simp [List.map_take, List.map_drop]
    have he1 := elems_iff.2 hc1
    refine ⟨by rw [e]; simp, fun _ => ⟨_, e⟩, fun m2 v2 it h2 => ?_⟩
    rw [e] at h2
    cases h2
    refine ⟨wf_of w1 hc1, he1, z1, hr1, rfl, ?_⟩
    have hp0 : p ≤ v.size_ := hp
    have hlp : (xs.take p).length = p := by simp; omega
    rw [get_of_elems he1 (show p < v1.size_ by omega), List.append_assoc,
      List.getElem?_append_right (by omega), hlp]
    simp
  · refine ⟨by rw [he]; simp, fun hn => absurd hn hq, fun m2 v2 it h2 => ?_⟩
    rw [he] at h2
    cases h2

/-- Witness for C8: insertion at index 1 into a block shared by two owners. -/
theorem insert_places_witness :
    wf 2 (⟨[some ⟨3, 2, [some 1, some 2, some 3]⟩], []⟩ : Mem Nat) ⟨3, false, .handle 0⟩ = true ∧
      ∀ m1 v1 it, insert 2 (⟨[some ⟨3, 2, [some 1, some 2, some 3]⟩], []⟩ : Mem Nat)
          ⟨3, false, .handle 0⟩ ⟨.block 0, 1⟩ 9 = .ok ((m1, v1), it) →
        elems 2 m1 v1 = some [1, 9, 2, 3] :=
  ⟨by decide, fun m1 v1 it h =>
    ((insert_places 2 _ _ [1, 2, 3] 1 9 (.block 0) (by decide) (by decide) (by decide)
      (by decide)).2.2 m1 v1 it h).2.1⟩

/-- C9: on every well-formed container holding `xs`, for all indices `f <= l <= size()`,
`erase(begin + f, begin + l)` has defined behaviour, returns when no copy throws, and whenever it
returns the container is well-formed and holds `xs[0..f)` followed by `xs[l..)`, `size()` is
lower by `l - f`, and the iterator returned is position `f` of the current storage; and
`erase(begin + p)` is `erase(begin + p, begin + p + 1)`. -/
theorem erase_removes (N : Nat) (m : Mem T) (v : socow_vector T) (xs : List T) (f l : Nat)
    (r : Region) (hwf : wf N m v = true) (hxs : elems N m v = some xs)
    (hr : const_data_ v = some r) (hfl : f ≤ l) (hl : l ≤ size v) :
    erase N m v ⟨r, f⟩ ⟨r, l⟩ ≠ .ub ∧
      (no_faults m → ∃ s, erase N m v ⟨r, f⟩ ⟨r, l⟩ = .ok s) ∧
      (∀ m1 v1 it, erase N m v ⟨r, f⟩ ⟨r, l⟩ = .ok ((m1, v1), it) →
        wf N m1 v1 = true ∧ elems N m1 v1 = some (xs.take f ++ xs.drop l) ∧
          size v1 = size v - (l - f) ∧ const_data_ v1 = some it.region ∧ it.off = f) ∧
      ∀ p, erase1 N m v ⟨r, p⟩ = erase N m v ⟨r, p⟩ ⟨r, p + 1⟩ := by
  have hs := (wf_iff.1 hwf).1
  have hc := elems_iff.1 hxs
  refine ⟨?_, ?_, ?_, fun p => rfl⟩
  all_goals
    rcases erase_cases f l hs hc hr hfl hl with ⟨m1, v1, r1, e, _, w1, _, hr1, c1, z1⟩ |
      ⟨e, he, hq⟩
  · rw [e]; simp
  · rw [he]; simp
  · exact fun _ => ⟨_, e⟩
  · exact fun hn => absurd hn hq
  · intro m2 v2 it h2
    rw [e] at h2
    cases h2
    have hc1 : contents N m1 v1 = some ((xs.take f ++ xs.drop l).map some) := by
      rw [c1]
      simp [List.map_take, List.map_drop]
    exact ⟨wf_of w1 hc1, elems_iff.2 hc1, z1, hr1, rfl⟩
  · intro m2 v2 it h2
    rw [he] at h2
    cases h2

/-- Witness for C9: the range `[1, 3)` erased from `[1, 2, 3, 4, 5]` in a block shared by two
owners, `N = 4`. -/
theorem erase_removes_witness :
    wf 4 (⟨[some ⟨5, 2, [some 1, some 2, some 3, some 4, some 5]⟩], []⟩ : Mem Nat)
        ⟨5, false, .handle 0⟩ = true ∧
      ∀ m1 v1 it, erase 4 (⟨[some ⟨5, 2, [some 1, some 2, some 3, some 4, some 5]⟩], []⟩ : Mem Nat)
          ⟨5, false, .handle 0⟩ ⟨.block 0, 1⟩ ⟨.block 0, 3⟩ = .ok ((m1, v1), it) →
        elems 4 m1 v1 = some [1, 4, 5] :=
  ⟨by decide, fun m1 v1 it h =>
    ((erase_removes 4 _ _ [1, 2, 3, 4, 5] 1 3 (.block 0) (by decide) (by decide) (by decide)
      (by decide) (by decide)).2.2.1 m1 v1 it h).2.1⟩

/-- C10: on every well-formed container holding `xs`, for every index `p <= size()` and value
`x`, `insert(begin + p, x)` followed by `erase` at the iterator it returned has defined
behaviour, returns when no copy throws, and leaves the container holding exactly `xs`, with the
size it had. -/
theorem insert_then_erase (N : Nat) (m : Mem T) (v : socow_vector T) (xs : List T) (p : Nat)
    (x : T) (r : Region) (hwf : wf N m v = true) (hxs : elems N m v = some xs)
    (hr : const_data_ v = some r) (hp : p ≤ size v) :
    (no_faults m → ∃ s, (insert N m v ⟨r, p⟩ x).bind (fun s => erase1 N s.1.1 s.1.2 s.2) =
        .ok s) ∧
      (insert N m v ⟨r, p⟩ x).bind (fun s => erase1 N s.1.1 s.1.2 s.2) ≠ .ub ∧
      ∀ m1 v1 it, (insert N m v ⟨r, p⟩ x).bind (fun s => erase1 N s.1.1 s.1.2 s.2) =
          .ok ((m1, v1), it) →
        wf N m1 v1 = true ∧ elems N m1 v1 = some xs ∧ size v1 = size v := by
  have hs := (wf_iff.1 hwf).1
  have hc := elems_iff.1 hxs
  have hl := elems_length hxs
  have hp0 : p ≤ v.size_ := hp
  rcases insert_cases p x hs hc hr hp with ⟨m1, v1, r1, e, s1, w1, _, hr1, c1, z1⟩ | ⟨e, he, hq⟩
  · rw [e]
    simp only [bind_ok, erase1]
    rcases erase_cases p (p + 1) w1 c1 hr1 (by omega) (by omega) with
      ⟨m2, v2, r2, e2, _, w2, _, _, c2, z2⟩ | ⟨e2, he2, hq2⟩
    · rw [e2]
      have hlp : ((xs.map some).take p).length = p := by simp; omega
      have hc2 : contents N m2 v2 = some (xs.map some) := by
        rw [c2]
        congr 1
        rw [List.append_assoc, List.take_left' hlp, List.drop_append_eq_append_drop, hlp]
        have e3 : p + 1 - p = 1 := by omega
        have e4 : List.drop (p + 1) ((xs.map some).take p) = [] := by
          apply List.drop_eq_nil_of_le
          omega
        rw [e3, e4]
        simp
      refine ⟨fun _ => ⟨_, rfl⟩, by simp, fun m3 v3 it h3 => ?_⟩
      cases h3
      exact ⟨wf_of w2 hc2, elems_iff.2 hc2, by unfold size; omega⟩
    · rw [he2]
      refine ⟨fun hn => absurd (no_faults_of_step s1 hn) hq2, by simp, fun m3 v3 it h3 => ?_⟩
      cases h3
  · rw [he]
    refine ⟨fun hn => absurd hn hq, by simp, fun m3 v3 it h3 => ?_⟩
    cases h3

/-- Witness for C10: insertion and removal at index 1 of `[1, 2, 3]`, inline with `N = 4`. -/
theorem insert_then_erase_witness :
    wf 4 (⟨[], []⟩ : Mem Nat) ⟨3, true, .cells [some 1, some 2, some 3, none]⟩ = true ∧
      ∀ m1 v1 it, (insert 4 (⟨[], []⟩ : Mem Nat) ⟨3, true, .cells [some 1, some 2, some 3, none]⟩
          ⟨.inline, 1⟩ 9).bind (fun s => erase1 4 s.1.1 s.1.2 s.2) = .ok ((m1, v1), it) →
        elems 4 m1 v1 = some [1, 2, 3] :=
  ⟨by decide, fun m1 v1 it h =>
    ((insert_then_erase 4 _ _ [1, 2, 3] 1 9 .inline (by decide) (by decide) (by decide)
      (by decide)).2.2 m1 v1 it h).2.1⟩

end ClaimsInsertErase

end Socow

namespace Socow

section ClaimsSwap

variable {T : Type}

/-- C11: for two distinct well-formed containers `a` and `b` in one memory, in any of the four
combinations of modes, `a.swap(b)` has defined behaviour and returns when no copy throws;
whenever it returns, both containers are well-formed, `a` has the size, the mode, the capacity
and the element sequence `b` had and `b` has those `a` had. No heap block changed: a container
that was shared hands its block to the other one as the same block, with the same count of
owners. -/
theorem swap_exchanges (N : Nat) (m : Mem T) (a b : socow_vector T) (ha : wf N m a = true)
    (hb : wf N m b = true) :
    swap N m a b ≠ .ub ∧ (no_faults m → ∃ s, swap N m a b = .ok s) ∧
      ∀ m1 a1 b1, swap N m a b = .ok (m1, a1, b1) →
        wf N m1 a1 = true ∧ wf N m1 b1 = true ∧
        size a1 = size b ∧ size b1 = size a ∧
        a1.is_small_ = b.is_small_ ∧ b1.is_small_ = a.is_small_ ∧
        capacity N m1 a1 = capacity N m b ∧ capacity N m1 b1 = capacity N m a ∧
        elems N m1 a1 = elems N m b ∧ elems N m1 b1 = elems N m a ∧
        own a1 = own b ∧ own b1 = own a ∧ m1.heap = m.heap := by
  have sa := (wf_iff.1 ha).1
  have sb := (wf_iff.1 hb).1
  refine ⟨?_, ?_, fun m1 a1 b1 e => ?_⟩
  · rcases swap_cases sa sb with ⟨_, _, _, e, _⟩ | ⟨_, he, _⟩
    · rw [e]; simp
    · rw [he]; simp
  · intro hn
    rcases swap_cases sa sb with ⟨_, _, _, e, _⟩ | ⟨_, _, hq⟩
    · exact ⟨_, e⟩
    · exact absurd hn hq
  · obtain ⟨hh, _, wa, wb, oa, ob, za, zb, ia, ib, c1, c2, k1, k2⟩ := swap_ok_facts sa sb e
    exact ⟨wf_of_contents hb wa c1, wf_of_contents ha wb c2, za, zb, ia, ib, k1, k2,
      elems_of_contents c1, elems_of_contents c2, oa, ob, hh⟩

/-- Witness for C11: `N = 2`, an inline container holding `[7]` and a container sharing a block
of capacity 5 with another owner. -/
theorem swap_exchanges_witness :
    wf 2 (⟨[some ⟨5, 2, [some 1, some 2, some 3, none, none]⟩], []⟩ : Mem Nat)
        ⟨1, true, .cells [some 7, none]⟩ = true ∧
      wf 2 (⟨[some ⟨5, 2, [some 1, some 2, some 3, none, none]⟩], []⟩ : Mem Nat)
        ⟨3, false, .handle 0⟩ = true ∧
      ∀ m1 a1 b1, swap 2 (⟨[some ⟨5, 2, [some 1, some 2, some 3, none, none]⟩], []⟩ : Mem Nat)
          ⟨1, true, .cells [some 7, none]⟩ ⟨3, false, .handle 0⟩ = .ok (m1, a1, b1) →
        elems 2 m1 a1 = some [1, 2, 3] ∧ elems 2 m1 b1 = some [7] :=
  ⟨by decide, by decide, fun m1 a1 b1 h =>
    have r := (swap_exchanges 2 _ _ _ (by decide) (by decide)).2.2 m1 a1 b1 h
    ⟨r.2.2.2.2.2.2.2.2.1.trans (by decide), r.2.2.2.2.2.2.2.2.2.1.trans (by decide)⟩⟩

/-- C12: for two distinct well-formed containers `a` and `b` in any combination of modes,
`a.swap(b)` followed by `a.swap(b)` has defined behaviour and returns when no copy throws;
whenever it returns, both containers are well-formed and each has the size, the mode, the
capacity, the block and the element sequence it had at the start, and no heap block changed, so
every block has the count of owners it had. -/
theorem swap_twice_restores (N : Nat) (m : Mem T) (a b : socow_vector T)
    (ha : wf N m a = true) (hb : wf N m b = true) :
    (swap N m a b).bind (fun s => swap N s.1 s.2.1 s.2.2) ≠ .ub ∧
      (no_faults m → ∃ s, (swap N m a b).bind (fun s => swap N s.1 s.2.1 s.2.2) = .ok s) ∧
      ∀ m2 a2 b2, (swap N m a b).bind (fun s => swap N s.1 s.2.1 s.2.2) = .ok (m2, a2, b2) →
        wf N m2 a2 = true ∧ wf N m2 b2 = true ∧
        size a2 = size a ∧ size b2 = size b ∧
        a2.is_small_ = a.is_small_ ∧ b2.is_small_ = b.is_small_ ∧
        capacity N m2 a2 = capacity N m a ∧ capacity N m2 b2 = capacity N m b ∧
        elems N m2 a2 = elems N m a ∧ elems N m2 b2 = elems N m b ∧
        own a2 = own a ∧ own b2 = own b ∧ m2.heap = m.heap := by
  have sa := (wf_iff.1 ha).1
  have sb := (wf_iff.1 hb).1
  refine ⟨?_, ?_, fun m2 a2 b2 e => ?_⟩
  · rcases swap_twice_cases sa sb with ⟨_, e⟩ | ⟨_, he, _⟩
    · rw [e]; simp
    · rw [he]; simp
  · intro hn
    rcases swap_twice_cases sa sb with ⟨_, e⟩ | ⟨_, _, hq⟩
    · exact ⟨_, e⟩
    · exact absurd hn hq
  · obtain ⟨s, e1, e2⟩ := bind_eq_ok e
    obtain ⟨m1, a1, b1⟩ := s
    obtain ⟨hh, _, wa, wb, oa, ob, za, zb, ia, ib, c1, c2, k1, k2⟩ := swap_ok_facts sa sb e1
    obtain ⟨hh2, _, wa2, wb2, oa2, ob2, za2, zb2, ia2, ib2, d1, d2, l1, l2⟩ :=
      swap_ok_facts wa wb e2
    have x1 : contents N m2 a2 = contents N m a := d1.trans c2
    have x2 : contents N m2 b2 = contents N m b := d2.trans c1
    exact ⟨wf_of_contents ha wa2 x1, wf_of_contents hb wb2 x2, za2.trans zb, zb2.trans za,
      ia2.trans ib, ib2.trans ia, l1.trans k2, l2.trans k1, elems_of_contents x1,
      elems_of_contents x2, oa2.trans ob, ob2.trans oa, hh2.trans hh⟩

/-- Witness for C12: `N = 2`, an inline container holding `[7]` and a container sharing a block
of capacity 5 with another owner. -/
theorem swap_twice_restores_witness :
    wf 2 (⟨[some ⟨5, 2, [some 1, some 2, some 3, none, none]⟩], []⟩ : Mem Nat)
        ⟨1, true, .cells [some 7, none]⟩ = true ∧
      wf 2 (⟨[some ⟨5, 2, [some 1, some 2, some 3, none, none]⟩], []⟩ : Mem Nat)
        ⟨3, false, .handle 0⟩ = true ∧
      ∀ m2 a2 b2, (swap 2 (⟨[some ⟨5, 2, [some 1, some 2, some 3, none, none]⟩], []⟩ : Mem Nat)
          ⟨1, true, .cells [some 7, none]⟩ ⟨3, false, .handle 0⟩).bind
            (fun s => swap 2 s.1 s.2.1 s.2.2) = .ok (m2, a2, b2) →
        elems 2 m2 a2 = some [7] ∧ elems 2 m2 b2 = some [1, 2, 3] :=
  ⟨by decide, by decide, fun m2 a2 b2 h =>
    have r := (swap_twice_restores 2 _ _ _ (by decide) (by decide)).2.2 m2 a2 b2 h
    ⟨r.2.2.2.2.2.2.2.2.1.trans (by decide), r.2.2.2.2.2.2.2.2.2.1.trans (by decide)⟩⟩

end ClaimsSwap

end Socow

namespace Socow

section ClaimsReserve

variable {T : Type}

/-- The contract of `reserve(n)` when the size of the allocation does not wrap (`reserve` uses
`allocate`): on a well-formed container with capacity `c` holding `xs`, it has defined
behaviour and returns when no copy throws; whenever it returns, the container is well-formed,
holds `xs` with the same `size()`, and is inline or the only owner of its block. If `n <= c` the
capacity and the mode are unchanged and the call is `check_cow_()`. If `n > c` the container is
shared on a block with one owner and capacity exactly `n`, the block it held before has been
released, and every other block allocated by the call has been deleted. -/
theorem reserve_contract (N : Nat) (m : Mem T) (v : socow_vector T) (c n : Nat) (xs : List T)
    (hwf : wf N m v = true) (hcap : capacity N m v = some c) (hx : elems N m v = some xs) :
    reserve N m v n ≠ .ub ∧ (no_faults m → ∃ s, reserve N m v n = .ok s) ∧
      ∀ m1 v1, reserve N m v n = .ok (m1, v1) →
        wf N m1 v1 = true ∧ elems N m1 v1 = some xs ∧ size v1 = size v ∧ excl m1 v1 ∧
        (n ≤ c → capacity N m1 v1 = some c ∧ v1.is_small_ = v.is_small_ ∧
          check_cow_ N m v = .ok (m1, v1)) ∧
        (c < n → v1.is_small_ = false ∧ capacity N m1 v1 = some n ∧
          (∃ p b, v1.store = .handle p ∧ m1.buf p = some b ∧ b.ref_count = 1 ∧
            b.capacity = n ∧ m.heap.length ≤ p) ∧
          (∀ p b, own v = some p → m.buf p = some b → m1.heap[p]? = some (release b)) ∧
          ∀ a, m.heap.length ≤ a → a < m1.heap.length → own v1 ≠ some a →
            m1.heap[a]? = some none) := by
  have hs := (wf_iff.1 hwf).1
  have hc := elems_iff.1 hx
  rcases reserve_cases n hs hc hcap with
    ⟨m1, v1, e, st, w1, x1, c1, z1, k1, i1, i2⟩ | ⟨e, he, hq⟩
  · refine ⟨by rw [e]; simp, fun _ => ⟨_, e⟩, fun m2 v2 h2 => ?_⟩
    rw [e] at h2
    cases h2
    refine ⟨wf_of w1 c1, elems_iff.2 c1, z1, x1, fun hle => ⟨by rw [k1, if_pos hle], i1 hle,
      by rw [← reserve_small_eq n hcap hle]; exact e⟩,
      fun hlt => ?_⟩
    have hsm1 := i2 hlt
    have hk : capacity N m1 v1 = some n := by rw [k1, if_neg (by omega)]
    obtain ⟨q, b1, hq1, hb1, _, _, _⟩ := (swf_big hsm1).1 w1
    have hcq : b1.capacity = n := by
      rw [capacity_big hsm1 hq1 hb1] at hk
      exact Option.some.inj hk
    have hnew : m.heap.length ≤ q := by
      by_contra hlt2
      have ho := st.stay q (own_big hsm1 hq1) (by omega)
      obtain ⟨hsm, hp⟩ := own_some_iff.1 ho
      obtain ⟨p0, b0, hp0, hb0, _, _, _⟩ := (swf_big hsm).1 hs
      rw [hp] at hp0
      cases hp0
      rw [capacity_big hsm hp hb0] at hcap
      have hc0 := Option.some.inj hcap
      rcases st.mine q b0 ho hb0 with ⟨_, b2, hb2, _, hc2, _⟩ | ⟨h3, _⟩
      · rw [hb1] at hb2
        cases hb2
        omega
      · exact h3 (own_big hsm1 hq1)
    refine ⟨hsm1, hk, ⟨q, b1, hq1, hb1, (excl_big_iff hsm1 hq1 hb1).1 x1, hcq, hnew⟩,
      fun p b ho hb => ?_, fun a h1 h2 h3 => ?_⟩
    · rcases st.mine p b ho hb with ⟨h3, _⟩ | ⟨_, h4⟩
      · rw [own_big hsm1 hq1] at h3
        have := Option.some.inj h3
        have := buf_lt hb
        omega
      · exact h4
    · rcases st.fresh a h1 h2 with ⟨h4, _⟩ | ⟨_, h5⟩
      · exact absurd h4 h3
      · exact h5
  · refine ⟨by rw [he]; simp, fun hn => absurd hn hq, fun m2 v2 h2 => ?_⟩
    rw [he] at h2
    cases h2

/-- C13, the claim as stated fails, `N = 2`, `sizeof(T) = 4`, `n = 2^62`: `allocate(n)` asks
`operator new` for `16 + 4 * 2^62 mod 2^64 = 16` bytes, a block with room for the header and no
cell. On the inline container holding `[1]` (well-formed, capacity 2) `reserve(n)` has
undefined behaviour: `safe_copy` constructs element 0 outside the block. On the empty
container `reserve(n)` returns with a block whose header says capacity `2^62` and which has no
cell, so the container is not well-formed. -/
theorem reserve_wraps :
    alloc_bytes 4 (2 ^ 62) = 16 ∧
      wf 2 (⟨[], []⟩ : Mem Nat) ⟨1, true, .cells [some 1, none]⟩ = true ∧
      capacity 2 (⟨[], []⟩ : Mem Nat) ⟨1, true, .cells [some 1, none]⟩ = some 2 ∧
      reserve_sized 4 2 (⟨[], []⟩ : Mem Nat) ⟨1, true, .cells [some 1, none]⟩ (2 ^ 62) = .ub ∧
      reserve_sized 4 2 (⟨[], []⟩ : Mem Nat) (socow_vector.mk0 2) (2 ^ 62) =
        .ok (⟨[some ⟨2 ^ 62, 1, []⟩], []⟩, ⟨0, false, .handle 0⟩) ∧
      wf 2 (⟨[some ⟨2 ^ 62, 1, []⟩], []⟩ : Mem Nat) ⟨0, false, .handle 0⟩ = false := by
  decide

/-- C13, amended: on a well-formed container with capacity `c` holding `xs`, for every `n` such
that `n <= c` or the size `sizeof(dynamic_buf) + sizeof(T) * n` of the allocation does not wrap
in `size_t`, `reserve(n)` (with the size computed as in the source) has defined behaviour
and returns when no copy throws; whenever it returns, the container is well-formed, holds `xs`
with the same `size()`, and is inline or the only owner of its block. If `n <= c` the capacity
and the mode are unchanged and the call is `check_cow_()`. If `n > c` the container is shared
on a block with one owner and capacity exactly `n`, the block it held before has been released
(one owner less, or deleted when it was the only owner), and every other block allocated by
the call has been deleted. -/
theorem reserve_sized_contract (sz N : Nat) (m : Mem T) (v : socow_vector T) (c n : Nat)
    (xs : List T) (hsz : 0 < sz) (hwf : wf N m v = true) (hcap : capacity N m v = some c)
    (hx : elems N m v = some xs) (hfit : c < n → 16 + sz * n < 2 ^ 64) :
    reserve_sized sz N m v n ≠ .ub ∧ (no_faults m → ∃ s, reserve_sized sz N m v n = .ok s) ∧
      ∀ m1 v1, reserve_sized sz N m v n = .ok (m1, v1) →
        wf N m1 v1 = true ∧ elems N m1 v1 = some xs ∧ size v1 = size v ∧ excl m1 v1 ∧
        (n ≤ c → capacity N m1 v1 = some c ∧ v1.is_small_ = v.is_small_ ∧
          check_cow_ N m v = .ok (m1, v1)) ∧
        (c < n → v1.is_small_ = false ∧ capacity N m1 v1 = some n ∧
          (∃ p b, v1.store = .handle p ∧ m1.buf p = some b ∧ b.ref_count = 1 ∧
            b.capacity = n ∧ b.data.length = n ∧ m.heap.length ≤ p) ∧
          (∀ p b, own v = some p → m.buf p = some b → m1.heap[p]? = some (release b)) ∧
          ∀ a, m.heap.length ≤ a → a < m1.heap.length → own v1 ≠ some a →
            m1.heap[a]? = some none) := by
  rw [reserve_sized_eq n hsz hcap hfit]
  obtain ⟨h1, h2, h3⟩ := reserve_contract N m v c n xs hwf hcap hx
  refine ⟨h1, h2, fun m1 v1 e => ?_⟩
  obtain ⟨g1, g2, g3, g4, g5, g6⟩ := h3 m1 v1 e
  refine ⟨g1, g2, g3, g4, g5, fun hlt => ?_⟩
  obtain ⟨k1, k2, ⟨p, b, k3, k4, k5, k6, k7⟩, k8, k9⟩ := g6 hlt
  refine ⟨k1, k2, ⟨p, b, k3, k4, k5, k6, ?_, k7⟩, k8, k9⟩
  obtain ⟨q, bq, hq, hbq, hl, _, _⟩ := (swf_big k1).1 (wf_iff.1 g1).1
  rw [k3] at hq
  cases hq
  rw [k4] at hbq
  cases hbq
  rw [hl, k6]

/-- Witness for C13: a block of capacity 3 with two owners, `N = 2`, `sizeof(T) = 4`,
`reserve(5)`. -/
theorem reserve_sized_contract_witness :
    wf 2 (⟨[some ⟨3, 2, [some 1, some 2, some 3]⟩], []⟩ : Mem Nat) ⟨3, false, .handle 0⟩ = true ∧
      ∀ m1 v1, reserve_sized 4 2 (⟨[some ⟨3, 2, [some 1, some 2, some 3]⟩], []⟩ : Mem Nat)
          ⟨3, false, .handle 0⟩ 5 = .ok (m1, v1) →
        elems 2 m1 v1 = some [1, 2, 3] ∧ capacity 2 m1 v1 = some 5 :=
  ⟨by decide, fun m1 v1 h =>
    have r := (reserve_sized_contract 4 2 _ _ 3 5 [1, 2, 3] (by decide) (by decide) (by decide)
      (by decide) (fun _ => by decide)).2.2 m1 v1 h
    ⟨r.2.1, (r.2.2.2.2.2 (by decide)).2.1⟩⟩

end ClaimsReserve

end Socow

namespace Socow

section ClaimsShrink

variable {T : Type}

/-- C14: on a well-formed container with capacity `c` holding `xs`, `shrink_to_fit` has defined
behaviour and returns when no copy throws; whenever it returns, the container is well-formed and
holds `xs` with the same `size()`. The cases are tried in the order of the source. If the
container is inline or `size() == c`, the memory and the container are unchanged. Otherwise, if
`size() <= N`, the container is inline afterwards with capacity `N`, no block was allocated and
the block it held has been released (one owner less, or deleted when it was the only owner).
Otherwise (`N < size() < c`) it is shared on a newly allocated block with one owner and capacity
exactly `size()`, and the block it held has been released. -/
theorem shrink_to_fit_contract (N : Nat) (m : Mem T) (v : socow_vector T) (c : Nat)
    (xs : List T) (hwf : wf N m v = true) (hcap : capacity N m v = some c)
    (hx : elems N m v = some xs) :
    shrink_to_fit N m v ≠ .ub ∧ (no_faults m → ∃ s, shrink_to_fit N m v = .ok s) ∧
      ∀ m1 v1, shrink_to_fit N m v = .ok (m1, v1) →
        wf N m1 v1 = true ∧ elems N m1 v1 = some xs ∧ size v1 = size v ∧
        ((v.is_small_ = true ∨ size v = c) → m1 = m ∧ v1 = v) ∧
        (v.is_small_ = false → size v ≠ c → size v ≤ N →
          v1.is_small_ = true ∧ capacity N m1 v1 = some N ∧
          m1.heap.length = m.heap.length ∧
          ∀ p b, own v = some p → m.buf p = some b → m1.heap[p]? = some (release b)) ∧
        (v.is_small_ = false → N < size v → size v < c →
          v1.is_small_ = false ∧ capacity N m1 v1 = some (size v) ∧
          m1.heap.length = m.heap.length + 1 ∧
          (∃ nb, v1.store = .handle m.heap.length ∧ m1.buf m.heap.length = some nb ∧
            nb.ref_count = 1 ∧ nb.capacity = size v) ∧
          ∀ p b, own v = some p → m.buf p = some b → m1.heap[p]? = some (release b)) := by
  have hs := (wf_iff.1 hwf).1
  have hc := elems_iff.1 hx
  rcases shrink_to_fit_cases hs hc hcap with
    ⟨m1, v1, e, st, w1, c1, z1, g1, g2, g3⟩ | ⟨e, he, hq⟩
  · refine ⟨by rw [e]; simp, fun _ => ⟨_, e⟩, fun m2 v2 h2 => ?_⟩
    rw [e] at h2
    cases h2
    refine ⟨wf_of w1 c1, elems_iff.2 c1, z1, g1, fun hsm hne hle => ?_, fun hsm hlt hltc => ?_⟩
    · obtain ⟨hsm1, hh⟩ := g2 hsm hne hle
      refine ⟨hsm1, capacity_small hsm1, by rw [hh]; simp, fun p b ho hb => ?_⟩
      rw [hh, released_mine ho hb]
    · have hne : v.size_ ≠ c := by
        have : v.size_ < c := hltc
        omega
      obtain ⟨hsm1, hp1, nb, hh, hr, hk⟩ := g3 hsm hne hlt
      have hb1 : m1.buf m.heap.length = some nb := by
        have := buf_of_heap_append_new hh
        simpa using this
      refine ⟨hsm1, by rw [capacity_big hsm1 hp1 hb1, hk]; rfl, by rw [hh]; simp,
        ⟨nb, hp1, hb1, hr, hk⟩, fun p b ho hb => ?_⟩
      rw [hh, List.getElem?_append_left (by simpa using buf_lt hb), released_mine ho hb]
  · refine ⟨by rw [he]; simp, fun hn => absurd hn hq, fun m2 v2 h2 => ?_⟩
    rw [he] at h2
    cases h2

/-- Witness for C14: a block of capacity 7 with two owners and three elements, `N = 2`. -/
theorem shrink_to_fit_contract_witness :
    wf 2 (⟨[some ⟨7, 2, [some 1, some 2, some 3, none, none, none, none]⟩], []⟩ : Mem Nat)
        ⟨3, false, .handle 0⟩ = true ∧
      ∀ m1 v1, shrink_to_fit 2
          (⟨[some ⟨7, 2, [some 1, some 2, some 3, none, none, none, none]⟩], []⟩ : Mem Nat)
          ⟨3, false, .handle 0⟩ = .ok (m1, v1) →
        elems 2 m1 v1 = some [1, 2, 3] ∧ capacity 2 m1 v1 = some 3 :=
  ⟨by decide, fun m1 v1 h =>
    have r := (shrink_to_fit_contract 2 _ _ 7 [1, 2, 3] (by decide) (by decide)
      (by decide)).2.2 m1 v1 h
    ⟨r.2.1, (r.2.2.2.2.2 rfl (by decide) (by decide)).2.1⟩⟩

end ClaimsShrink

end Socow

namespace Socow

section ClaimsShrinkReserve

variable {T : Type}

/-- The call `shrink_to_fit()` followed by `reserve(n)` with `n >= c0`, when the size of the
allocation does not wrap (`reserve` uses `allocate`): the container ends well-formed, holding
exactly `xs` with the same `size()`, with a capacity of at least `size()`, `n` and `c0`. -/
theorem shrink_then_reserve (N : Nat) (m : Mem T) (v : socow_vector T) (c0 n : Nat)
    (xs : List T) (hwf : wf N m v = true) (hcap : capacity N m v = some c0)
    (hx : elems N m v = some xs) (hn : c0 ≤ n) :
    (shrink_to_fit N m v).bind (fun s => reserve N s.1 s.2 n) ≠ .ub ∧
      (no_faults m → ∃ s, (shrink_to_fit N m v).bind (fun s => reserve N s.1 s.2 n) = .ok s) ∧
      ∀ m2 v2, (shrink_to_fit N m v).bind (fun s => reserve N s.1 s.2 n) = .ok (m2, v2) →
        wf N m2 v2 = true ∧ elems N m2 v2 = some xs ∧ size v2 = size v ∧
        ∃ c2, capacity N m2 v2 = some c2 ∧ size v2 ≤ c2 ∧ n ≤ c2 ∧ c0 ≤ c2 := by
  have hs := (wf_iff.1 hwf).1
  have hc := elems_iff.1 hx
  rcases shrink_to_fit_cases hs hc hcap with
    ⟨m1, v1, e, st, w1, c1, z1, _, _, _⟩ | ⟨e, he, hq⟩
  · obtain ⟨_, src, _, _, hle1, _, hcap1⟩ := load_of_swf w1
    rcases reserve_cases n w1 c1 hcap1 with
      ⟨m2, v2, e2, st2, w2, _, c2, z2, k2, _, _⟩ | ⟨e2, he2, hq2⟩
    · refine ⟨by rw [e, bind_ok, e2]; simp, fun _ => ⟨_, by rw [e, bind_ok, e2]⟩,
        fun m3 v3 h3 => ?_⟩
      rw [e, bind_ok, e2] at h3
      cases h3
      obtain ⟨_, src2, _, _, hle2, _, hcap2⟩ := load_of_swf w2
      refine ⟨wf_of w2 c2, elems_iff.2 c2, z2.trans z1, src2.length, hcap2, hle2, ?_⟩
      rw [k2] at hcap2
      have h5 := Option.some.inj hcap2
      have h6 : n ≤ src2.length := by
        rw [← h5]
        split <;> omega
      exact ⟨h6, le_trans hn h6⟩
    · refine ⟨by rw [e, bind_ok, he2]; simp,
        fun hnf => absurd (no_faults_of_step st hnf) hq2, fun m3 v3 h3 => ?_⟩
      rw [e, bind_ok, he2] at h3
      cases h3
  · refine ⟨by rw [he, bind_threw]; simp, fun hnf => absurd hnf hq, fun m3 v3 h3 => ?_⟩
    rw [he, bind_threw] at h3
    cases h3

/-- C15, the claim as stated fails, `N = 2`, `sizeof(T) = 4`: the inline container holding `[1]`
has capacity `c0 = 2`; `shrink_to_fit()` changes nothing, and `reserve(2^62)` asks for
`16 + 4 * 2^62 mod 2^64 = 16` bytes and constructs element 0 outside that block: undefined
behaviour. -/
theorem shrink_then_reserve_wraps :
    wf 2 (⟨[], []⟩ : Mem Nat) ⟨1, true, .cells [some 1, none]⟩ = true ∧
      capacity 2 (⟨[], []⟩ : Mem Nat) ⟨1, true, .cells [some 1, none]⟩ = some 2 ∧
      2 ≤ 2 ^ 62 ∧
      (shrink_to_fit 2 (⟨[], []⟩ : Mem Nat) ⟨1, true, .cells [some 1, none]⟩).bind
        (fun s => reserve_sized 4 2 s.1 s.2 (2 ^ 62)) = .ub := by
  decide

/-- C15, amended: on a well-formed container with original capacity `c0` holding `xs`, for
every `n >= c0` such that the size `sizeof(dynamic_buf) + sizeof(T) * n` of the allocation does
not wrap in `size_t`, `shrink_to_fit()` followed by `reserve(n)` (with the size computed as in
the source) has defined behaviour and returns when no copy throws; whenever it returns, the
container is well-formed, holds exactly `xs` in the same order with the same `size()`, and its
capacity is at least `size()`, at least `n` and so at least `c0`. -/
theorem shrink_then_reserve_sized (sz N : Nat) (m : Mem T) (v : socow_vector T) (c0 n : Nat)
    (xs : List T) (hsz : 0 < sz) (hwf : wf N m v = true) (hcap : capacity N m v = some c0)
    (hx : elems N m v = some xs) (hn : c0 ≤ n) (hfit : 16 + sz * n < 2 ^ 64) :
    (shrink_to_fit N m v).bind (fun s => reserve_sized sz N s.1 s.2 n) ≠ .ub ∧
      (no_faults m →
        ∃ s, (shrink_to_fit N m v).bind (fun s => reserve_sized sz N s.1 s.2 n) = .ok s) ∧
      ∀ m2 v2, (shrink_to_fit N m v).bind (fun s => reserve_sized sz N s.1 s.2 n) =
          .ok (m2, v2) →
        wf N m2 v2 = true ∧ elems N m2 v2 = some xs ∧ size v2 = size v ∧
        ∃ c2, capacity N m2 v2 = some c2 ∧ size v2 ≤ c2 ∧ n ≤ c2 ∧ c0 ≤ c2 := by
  have key : (shrink_to_fit N m v).bind (fun s => reserve_sized sz N s.1 s.2 n) =
      (shrink_to_fit N m v).bind (fun s => reserve N s.1 s.2 n) := by
    cases hs : shrink_to_fit N m v with
    | ub => rfl
    | threw e => rfl
    | ok s =>
      simp only [bind_ok]
      have hsw := (wf_iff.1 hwf).1
      obtain ⟨cs, hc, _⟩ := contents_of_swf hsw
      rcases shrink_to_fit_cases hsw hc hcap with ⟨m1, v1, e, _, w1, _⟩ | ⟨_, he, _⟩
      · rw [e] at hs
        cases hs
        obtain ⟨_, src, _, _, _, _, hcap1⟩ := load_of_swf w1
        exact reserve_sized_eq n hsz hcap1 (fun _ => hfit)
      · rw [he] at hs
        cases hs
  rw [key]
  exact shrink_then_reserve N m v c0 n xs hwf hcap hx hn

/-- Witness for C15: a block of capacity 7 with two owners and three elements, `N = 2`,
`sizeof(T) = 4`, `shrink_to_fit()` then `reserve(8)`. -/
theorem shrink_then_reserve_sized_witness :
    wf 2 (⟨[some ⟨7, 2, [some 1, some 2, some 3, none, none, none, none]⟩], []⟩ : Mem Nat)
        ⟨3, false, .handle 0⟩ = true ∧
      ∀ m2 v2, (shrink_to_fit 2
          (⟨[some ⟨7, 2, [some 1, some 2, some 3, none, none, none, none]⟩], []⟩ : Mem Nat)
          ⟨3, false, .handle 0⟩).bind (fun s => reserve_sized 4 2 s.1 s.2 8) = .ok (m2, v2) →
        elems 2 m2 v2 = some [1, 2, 3] :=
  ⟨by decide, fun m2 v2 h =>
    ((shrink_then_reserve_sized 4 2 _ _ 7 8 [1, 2, 3] (by decide) (by decide) (by decide)
      (by decide) (by decide) (by decide)).2.2 m2 v2 h).2.1⟩

end ClaimsShrinkReserve

end Socow

namespace Socow

section ClaimsPushFailure

variable {T : Type}

/-- C16: on a well-formed full container (`size() == capacity() == c`), `push_back` has defined
behaviour, and when one of the first `c + 1` calls of the copy constructor throws (the copies of
the `c` elements, then the construction of the new one) the exception leaves `push_back`.
Whenever an exception leaves it, the container object is unchanged (same `size()`, mode and
block), its capacity and its element at every index are as before, every block that existed is
unchanged, and the block allocated by the call has been deleted. -/
theorem push_back_full_failure (N : Nat) (m : Mem T) (v : socow_vector T) (c : Nat) (x : T)
    (hwf : wf N m v = true) (hcap : capacity N m v = some c) (hfull : size v = c) :
    push_back N m v x ≠ .ub ∧
      (¬ quiet (c + 1) m.faults → ∃ e, push_back N m v x = .threw e) ∧
      ∀ m1 v1, push_back N m v x = .threw (m1, v1) →
        v1 = v ∧ m1.heap = m.heap ++ [none] ∧ wf N m1 v1 = true ∧ size v1 = c ∧
        capacity N m1 v1 = some c ∧ elems N m1 v1 = elems N m v ∧
        ∀ i, get N m1 v1 i = get N m v i := by
  have hs := (wf_iff.1 hwf).1
  rcases push_back_full_cases x hs hcap hfull with ⟨hq, s, e⟩ | ⟨hq, k, e⟩
  · refine ⟨by rw [e]; simp, fun hn => absurd hq hn, fun m1 v1 h1 => ?_⟩
    rw [e] at h1
    cases h1
  · refine ⟨by rw [e]; simp, fun _ => ⟨_, e⟩, fun m1 v1 h1 => ?_⟩
    rw [e] at h1
    cases h1
    obtain ⟨_, g2, _, g4, g5, g6⟩ := @obs_congr T N m ⟨m.heap ++ [none], m.faults.drop k⟩ v
      (fun p hp => buf_append_old (own_lt_of_swf hs p hp))
    exact ⟨rfl, rfl, by rw [g6]; exact hwf, hfull, by rw [g2]; exact hcap, g4, g5⟩

/-- Witness for C16: a full block of capacity 3 with two owners, `N = 2`; the copy of the third
element throws. -/
theorem push_back_full_failure_witness :
    wf 2 (⟨[some ⟨3, 2, [some 1, some 2, some 3]⟩], [false, false, true]⟩ : Mem Nat)
        ⟨3, false, .handle 0⟩ = true ∧
      ∃ e, push_back 2 (⟨[some ⟨3, 2, [some 1, some 2, some 3]⟩], [false, false, true]⟩ : Mem Nat)
          ⟨3, false, .handle 0⟩ 4 = .threw e :=
  ⟨by decide, (push_back_full_failure 2
    (⟨[some ⟨3, 2, [some 1, some 2, some 3]⟩], [false, false, true]⟩ : Mem Nat)
    ⟨3, false, .handle 0⟩ 3 4 (by decide) (by decide) rfl).2.1
    (by simp [quiet])⟩

end ClaimsPushFailure

end Socow

namespace Socow

section ClaimsReserveFailure

/-- C17, the code at failing inputs, `N = 2`. (1) An inline container holding `[1]` calls
`reserve(5)` and the copy of its element throws: the exception leaves `reserve`, the container is
unchanged, but the block `allocate(5)` returned is still allocated and no container holds it:
`reserve` has no handler around `safe_copy`, unlike `copy_on_write_` and `extend_push_back_`.
(2) A container filled by `push_back` of 1, 2, 3 (shared, capacity 5) calls `shrink_to_fit()` and
the first copy throws: the block `allocate(3)` returned is still allocated and no container
holds it. (3) A container that shares a block of capacity 5 with another one calls `reserve(9)`;
`data()` clones the block, then the first copy into the new block throws: the container now
holds the clone, the block it shared has one owner less, and the block `allocate(9)` returned is
still allocated and no container holds it. For every input, `reserve_threw` and
`shrink_to_fit_threw` describe the state an exception leaves behind. -/
theorem reserve_failure_leaks :
    ((push_back 2 (⟨[], [false, true]⟩ : Mem Nat) (socow_vector.mk0 2) 1).bind
      (fun s => reserve 2 s.1 s.2 5)) =
        .threw (⟨[some ⟨5, 1, [none, none, none, none, none]⟩], []⟩,
          ⟨1, true, .cells [some 1, none]⟩) ∧
      ((((push_back 2 (⟨[], [false, false, false, false, false, true]⟩ : Mem Nat)
        (socow_vector.mk0 2) 1).bind (fun s => push_back 2 s.1 s.2 2)).bind
        (fun s => push_back 2 s.1 s.2 3)).bind (fun s => shrink_to_fit 2 s.1 s.2)) =
        .threw (⟨[some ⟨5, 1, [some 1, some 2, some 3, none, none]⟩,
            some ⟨3, 1, [none, none, none]⟩], []⟩, ⟨3, false, .handle 0⟩) ∧
      reserve 2 (⟨[some ⟨5, 2, [some 1, some 2, some 3, none, none]⟩],
          [false, false, false, true]⟩ : Mem Nat) ⟨3, false, .handle 0⟩ 9 =
        .threw (⟨[some ⟨5, 1, [some 1, some 2, some 3, none, none]⟩,
            some ⟨9, 1, [none, none, none, none, none, none, none, none, none]⟩,
            some ⟨5, 1, [some 1, some 2, some 3, none, none]⟩], []⟩,
          ⟨3, false, .handle 2⟩) := by
  decide

end ClaimsReserveFailure

end Socow

namespace Socow

section ClaimsInvariants

variable {T : Type}

/-- A program state reached by the default constructor, three `push_back`, a mutable access and
a copy construction, `N = 2`, `sizeof(T) = 4`: two containers hold one block of capacity 5. -/
theorem reach_example :
    Reach 4 2 (⟨⟨[some ⟨5, 2, [some 1, some 2, some 3, none, none]⟩], []⟩,
      [⟨3, false, .handle 0⟩, ⟨3, false, .handle 0⟩]⟩ : World Nat) :=
  Reach.ret (.copy 0)
    (Reach.ret (.access 0)
      (Reach.ret (.mutate 0 (.push_back 3))
        (Reach.ret (.mutate 0 (.push_back 2))
          (Reach.ret (.mutate 0 (.push_back 1))
            (Reach.ret .create (Reach.start []) trivial rfl) trivial rfl) trivial rfl)
        trivial rfl) trivial rfl) trivial rfl

/-- C18, the code at a failing input, `N = 2`, `sizeof(T) = 4`. After
`socow_vector a; a.push_back(1);` the call `a.reserve(5)` in which the copy of the element
throws ends by the exception and leaves a program state, reachable by the public operations,
in which the block `allocate(5)` returned is allocated with a count of owners of 1 while no
container holds it: the count of a live block is not the number of its holders. The destructor
of `a` then returns and the block is still allocated: it has no holder left to release it and
is never freed. -/
theorem refcount_leak :
    Reach 4 2 (⟨⟨[], [true]⟩, [⟨1, true, .cells [some 1, none]⟩]⟩ : World Nat) ∧
      (⟨⟨[], [true]⟩, [⟨1, true, .cells [some 1, none]⟩]⟩ : World Nat).run_sized 4 2
          (.mutate 0 (.reserve 5)) =
        .threw ⟨⟨[some ⟨5, 1, [none, none, none, none, none]⟩], []⟩,
          [⟨1, true, .cells [some 1, none]⟩]⟩ ∧
      Reach 4 2 (⟨⟨[some ⟨5, 1, [none, none, none, none, none]⟩], []⟩,
        [⟨1, true, .cells [some 1, none]⟩]⟩ : World Nat) ∧
      (⟨[some ⟨5, 1, [none, none, none, none, none]⟩], []⟩ : Mem Nat).buf 0 =
        some ⟨5, 1, [none, none, none, none, none]⟩ ∧
      holders (⟨⟨[some ⟨5, 1, [none, none, none, none, none]⟩], []⟩,
        [⟨1, true, .cells [some 1, none]⟩]⟩ : World Nat) 0 = 0 ∧
      (⟨⟨[some ⟨5, 1, [none, none, none, none, none]⟩], []⟩,
          [⟨1, true, .cells [some 1, none]⟩]⟩ : World Nat).run_sized 4 2 (.destroy 0) =
        .ok ⟨⟨[some ⟨5, 1, [none, none, none, none, none]⟩], []⟩, []⟩ ∧
      Reach 4 2 (⟨⟨[some ⟨5, 1, [none, none, none, none, none]⟩], []⟩, []⟩ : World Nat) := by
  have r0 : Reach 4 2 (⟨⟨[], [true]⟩, [⟨1, true, .cells [some 1, none]⟩]⟩ : World Nat) :=
    Reach.ret (.mutate 0 (.push_back 1))
      (Reach.ret .create (Reach.start [false, true]) trivial rfl) trivial rfl
  have r1 : Reach 4 2 (⟨⟨[some ⟨5, 1, [none, none, none, none, none]⟩], []⟩,
      [⟨1, true, .cells [some 1, none]⟩]⟩ : World Nat) :=
    Reach.exc (.mutate 0 (.reserve 5)) r0
      (show 16 + 4 * 5 < 2 ^ 64 by decide) rfl
  exact ⟨r0, rfl, r1, rfl, rfl, rfl, Reach.ret (.destroy 0) r1 trivial rfl⟩

end ClaimsInvariants

end Socow

namespace Socow

section ClaimsSharing

variable {T : Type}

/-- C19 fails on the code, `N = 2`, `sizeof(T) = 4`. (1) The calls
`socow_vector a; a.push_back(1); a.push_back(2); a.push_back(3); int& r = a[0];
socow_vector b(a);` return and leave `a` and `b` holding the block at address 0, whose count of
owners is 2. The store `r = 42` through the reference `a[0]` returned then writes cell 0 of that
block: an element of a buffer with refcount 2 is overwritten, and `b[0]` is 42 although no
operation was called on `b`. (2) On an empty container `reserve(2^62)` returns with a block
whose header records the capacity `2^62` and which has no cell, the size of the allocation
having wrapped to 16 bytes; the `push_back` that follows appends in place and writes outside
the block, which is undefined behaviour: nothing is guaranteed of the memory it overwrites. -/
theorem store_overwrites_shared :
    ((((((World.run_sized 4 2 (⟨⟨[], []⟩, []⟩ : World Nat) .create).bind
        (fun w => w.run_sized 4 2 (.mutate 0 (.push_back 1)))).bind
        (fun w => w.run_sized 4 2 (.mutate 0 (.push_back 2)))).bind
        (fun w => w.run_sized 4 2 (.mutate 0 (.push_back 3)))).bind
        (fun w => w.run_sized 4 2 (.access 0))).bind
        (fun w => w.run_sized 4 2 (.copy 0)) =
      .ok ⟨⟨[some ⟨5, 2, [some 1, some 2, some 3, none, none]⟩], []⟩,
        [⟨3, false, .handle 0⟩, ⟨3, false, .handle 0⟩]⟩) ∧
      (⟨⟨[some ⟨5, 2, [some 1, some 2, some 3, none, none]⟩], []⟩,
          [⟨3, false, .handle 0⟩, ⟨3, false, .handle 0⟩]⟩ : World Nat).run_sized 4 2
          (.store 0 ⟨.block 0, 0⟩ 42) =
        .ok ⟨⟨[some ⟨5, 2, [some 42, some 2, some 3, none, none]⟩], []⟩,
          [⟨3, false, .handle 0⟩, ⟨3, false, .handle 0⟩]⟩ ∧
      get 2 (⟨[some ⟨5, 2, [some 1, some 2, some 3, none, none]⟩], []⟩ : Mem Nat)
        ⟨3, false, .handle 0⟩ 0 = some 1 ∧
      get 2 (⟨[some ⟨5, 2, [some 42, some 2, some 3, none, none]⟩], []⟩ : Mem Nat)
        ⟨3, false, .handle 0⟩ 0 = some 42 ∧
      ((World.run_sized 4 2 (⟨⟨[], []⟩, []⟩ : World Nat) .create).bind
        (fun w => w.run_sized 4 2 (.mutate 0 (.reserve (2 ^ 62)))) =
        .ok ⟨⟨[some ⟨2 ^ 62, 1, []⟩], []⟩, [⟨0, false, .handle 0⟩]⟩) ∧
      (⟨⟨[some ⟨2 ^ 62, 1, []⟩], []⟩, [⟨0, false, .handle 0⟩]⟩ : World Nat).run_sized 4 2
        (.mutate 0 (.push_back 7)) = .ub := by
  decide

/-- C19, amended: in every program state reachable from the start of a program by calls of the
public interface and stores through pointers and references that mutable accesses returned,
whether the calls return or end by an exception, `reserve(n)` being called only with an `n`
whose allocation size `sizeof(dynamic_buf) + sizeof(T) * n` does not wrap in `size_t`, two
containers that hold the same block have the same `size()` and the same element at every
index; and every call of a member function within that precondition, whether it returns or
ends by an exception, leaves every block that had more than one owner allocated with every
cell as it was: no element of such a block is constructed, destroyed or overwritten by a member
function. A store through a pointer or reference is not a call of a member function and is
not covered by the second part. -/
theorem sharing_coherence (sz N : Nat) (hsz : 0 < sz) (w : World T) (h : Reach sz N w) :
    (∀ (i j : Nat) v u p, w.objs[i]? = some v → w.objs[j]? = some u → own v = some p →
        own u = some p →
        size v = size u ∧ (∀ k, get N w.mem v k = get N w.mem u k) ∧
          elems N w.mem v = elems N w.mem u) ∧
      ∀ op w1, (∀ i q x, op ≠ .store i q x) → op.fits sz →
        (w.run_sized sz N op = .ok w1 ∨ w.run_sized sz N op = .threw w1) →
        ∀ p b, w.mem.buf p = some b → 1 < b.ref_count →
          ∃ b1, w1.mem.buf p = some b1 ∧ b1.data = b.data ∧ b1.capacity = b.capacity := by
  have hI := reach_inv hsz h
  refine ⟨fun i j v u p hv hu hov hou => ?_, fun op w1 hop hf e p b hb hr => ?_⟩
  · have hz := hI.2.2 i j v u p hv hu hov hou
    have hsu := (own_some_iff.1 hou).1
    have hsv := (own_some_iff.1 hov).1
    have heq : v = u :=
      eq_of_big (hI.1 j u hu) hsu (by rw [hov, hou]) hz (by rw [hsv, hsu])
    rw [heq]
    exact ⟨rfl, fun _ => rfl, rfl⟩
  · rw [run_sized_eq w op hsz hf] at e
    rcases e with e | e
    · exact run_keeps_shared op hI hop e hb hr
    · exact run_threw_keeps_shared op hI e hb hr

/-- Witness for C19, amended: in the state of `reach_example` a `pop_back` on the second
container, which shares the block at address 0 with the first, clones the block and leaves the
cells of the block at address 0 as they were. -/
theorem sharing_coherence_witness :
    0 < 4 ∧
    Reach 4 2 (⟨⟨[some ⟨5, 2, [some 1, some 2, some 3, none, none]⟩], []⟩,
      [⟨3, false, .handle 0⟩, ⟨3, false, .handle 0⟩]⟩ : World Nat) ∧
    (⟨⟨[some ⟨5, 2, [some 1, some 2, some 3, none, none]⟩], []⟩,
        [⟨3, false, .handle 0⟩, ⟨3, false, .handle 0⟩]⟩ : World Nat).run_sized 4 2
          (.mutate 1 .pop_back) =
      .ok ⟨⟨[some ⟨5, 1, [some 1, some 2, some 3, none, none]⟩,
          some ⟨5, 1, [some 1, some 2, none, none, none]⟩], []⟩,
        [⟨3, false, .handle 0⟩, ⟨2, false, .handle 1⟩]⟩ ∧
    ∃ b1, (⟨[some ⟨5, 1, [some 1, some 2, some 3, none, none]⟩,
        some ⟨5, 1, [some 1, some 2, none, none, none]⟩], []⟩ : Mem Nat).buf 0 = some b1 ∧
      b1.data = [some 1, some 2, some 3, none, none] ∧ b1.capacity = 5 :=
  ⟨by decide, reach_example, rfl,
    (sharing_coherence 4 2 (by decide) _ reach_example).2 (.mutate 1 .pop_back)
      ⟨⟨[some ⟨5, 1, [some 1, some 2, some 3, none, none]⟩,
          some ⟨5, 1, [some 1, some 2, none, none, none]⟩], []⟩,
        [⟨3, false, .handle 0⟩, ⟨2, false, .handle 1⟩]⟩
      (fun _ _ _ hc => Op.noConfusion hc) trivial (Or.inl rfl) 0
      ⟨5, 2, [some 1, some 2, some 3, none, none]⟩ rfl (by decide)⟩

end ClaimsSharing

end Socow

namespace Socow

section ClaimsCapacity

variable {T : Type}

/-- C20 fails on the code, `N = 2`, `sizeof(T) = 4`: after `socow_vector a;` the call
`a.reserve(2^62)` returns; the size of the allocation `16 + 4 * 2^62` has wrapped to 16 bytes,
so the block has the header and no cell, while `capacity()` is `2^62`. `size() = 0` is below
that capacity, and the `push_back` that follows appends in place: it writes cell 0, which lies
outside the block (undefined behaviour). -/
theorem reserve_wrap_breaks_capacity :
    alloc_bytes 4 (2 ^ 62) = 16 ∧
      ((World.run_sized 4 2 (⟨⟨[], []⟩, []⟩ : World Nat) .create).bind
        (fun w => w.run_sized 4 2 (.mutate 0 (.reserve (2 ^ 62)))) =
        .ok ⟨⟨[some ⟨2 ^ 62, 1, []⟩], []⟩, [⟨0, false, .handle 0⟩]⟩) ∧
      capacity 2 (⟨[some ⟨2 ^ 62, 1, []⟩], []⟩ : Mem Nat) ⟨0, false, .handle 0⟩ =
        some (2 ^ 62) ∧
      size (⟨0, false, .handle 0⟩ : socow_vector Nat) = 0 ∧
      (⟨⟨[some ⟨2 ^ 62, 1, []⟩], []⟩, [⟨0, false, .handle 0⟩]⟩ : World Nat).run_sized 4 2
        (.mutate 0 (.push_back 7)) = .ub := by
  decide

/-- C20, amended: in every program state reachable from the start of a program by calls of the
public interface and stores through pointers and references that mutable accesses returned,
whether the calls return or end by an exception, each within its precondition, where the
precondition of `reserve(n)` is that the allocation size
`sizeof(dynamic_buf) + sizeof(T) * n` does not wrap in `size_t` (a call outside its
precondition has undefined behaviour and no successor state), every container has
`size() <= capacity()`, where `capacity()` is `N` for an inline container and the capacity of
its block, which has that many cells, for a shared one. In particular an inline container
holds at most `N` elements; and `push_back` has defined behaviour, and when it returns without
allocating a block (an append in place) `size()` was below the capacity, so the cell written
lies inside the array. -/
theorem size_within_capacity (sz N : Nat) (hsz : 0 < sz) (w : World T) (h : Reach sz N w)
    (i : Nat) (v : socow_vector T) (hv : w.objs[i]? = some v) :
    ∃ c, capacity N w.mem v = some c ∧ size v ≤ c ∧
      (v.is_small_ = true → c = N ∧ size v ≤ N ∧ (v.static_storage_ N).length = N) ∧
      (v.is_small_ = false → ∃ p b, v.store = .handle p ∧ w.mem.buf p = some b ∧
        c = b.capacity ∧ b.data.length = b.capacity) ∧
      ∀ x, push_back N w.mem v x ≠ .ub ∧
        ∀ m1 v1, push_back N w.mem v x = .ok (m1, v1) →
          m1.heap.length = w.mem.heap.length → size v < c := by
  have hs := (reach_inv hsz h).1 i v hv
  obtain ⟨cs, hc, _⟩ := contents_of_swf hs
  have push : ∀ c, capacity N w.mem v = some c → ∀ x, push_back N w.mem v x ≠ .ub ∧
      ∀ m1 v1, push_back N w.mem v x = .ok (m1, v1) →
        m1.heap.length = w.mem.heap.length → size v < c := by
    intro c hcap x
    rcases push_back_cases x hs hc hcap with
      ⟨m1, v1, e, _, _, _, _, _, _, _, _, g1⟩ | ⟨_, he, _⟩
    · refine ⟨by rw [e]; simp, fun m2 v2 e2 hlen => ?_⟩
      rw [e] at e2
      cases e2
      by_contra hge
      have := (g1 (fun hx => hge hx.2)).1
      omega
    · refine ⟨by rw [he]; simp, fun m2 v2 e2 => ?_⟩
      rw [he] at e2
      cases e2
  rcases swf_cases hs with ⟨hsm, h1, h2⟩ | ⟨hsm, p, b, hp, hb, h1, _, h3⟩
  · refine ⟨N, capacity_small hsm, h1, fun _ => ⟨rfl, h1, h2⟩, fun hf => ?_,
      push N (capacity_small hsm)⟩
    rw [hsm] at hf
    cases hf
  · refine ⟨b.capacity, capacity_big hsm hp hb, h3, fun hf => ?_,
      fun _ => ⟨p, b, hp, hb, rfl, h1⟩, push b.capacity (capacity_big hsm hp hb)⟩
    rw [hsm] at hf
    cases hf

/-- Witness for C20, amended: the first container of `reach_example` has size 3 and
capacity 5. -/
theorem size_within_capacity_witness :
    0 < 4 ∧
    Reach 4 2 (⟨⟨[some ⟨5, 2, [some 1, some 2, some 3, none, none]⟩], []⟩,
      [⟨3, false, .handle 0⟩, ⟨3, false, .handle 0⟩]⟩ : World Nat) ∧
    ∃ c, capacity 2 (⟨[some ⟨5, 2, [some 1, some 2, some 3, none, none]⟩], []⟩ : Mem Nat)
      ⟨3, false, .handle 0⟩ = some c ∧ size (⟨3, false, .handle 0⟩ : socow_vector Nat) ≤ c :=
  ⟨by decide, reach_example,
    match size_within_capacity 4 2 (by decide) _ reach_example 0 ⟨3, false, .handle 0⟩ rfl with
    | ⟨c, h1, h2, _⟩ => ⟨c, h1, h2⟩⟩

end ClaimsCapacity

end Socow
